import Mathlib

/-!
Verification of nano-graphrag-cpp: chunking, tokenizer, key-value storage,
graph storage, vector index and orchestrator.

A shallow embedding of

* `DefaultChunkingStrategy::chunking_by_token_size`
  (`include/nano_graphrag/operations/chunking/default.hpp`),
* `SimpleTokenizer::encode` / `SimpleTokenizer::decode`
  (`include/nano_graphrag/operations/tokenize/simple.hpp`),
* `JsonKVStorage<T>` (`include/nano_graphrag/storage/JsonKVStorage.hpp`),
* `InMemoryGraphStorage` (`include/nano_graphrag/storage/GraphStorage.hpp`),
* `NanoVectorDBStorage::upsert` and `NanoVectorDBStorage::query`
  (`include/nano_graphrag/storage/NanoVectorDBStorage.hpp`),
* `DefaultChunkingStrategy::get_chunks`, `GraphRAG::insert` and
  `GraphRAG::query` (`include/nano_graphrag/GraphRAG.hpp`),

followed by the properties established about them.

Conventions of the embedding.  A `std::string` is a list of characters, a
`std::vector<T>` is a list, a C++ `int` is an `Int`.  Where the source adds or
subtracts values of `int` that can leave the range of `int` (the window loop
of the chunker and the running token count of the naive query), the result
wraps around modulo `2^32` (`intAdd`, `intSub`, `intOfSize`), as it does in the
compiled code; elsewhere the values stay inside the range.  An execution that
does not return normally is a `Fault`: a loop that is still running when the
step budget (the fuel) is used up, an access outside a vector or through a
null pointer (undefined behaviour in C++), or an exception thrown by the code
itself.
A `std::unordered_map` is an association list with distinct keys and a
`std::unordered_set` a list; their order stands for the iteration order, which
C++ leaves unspecified, and the properties below are stated so that they do
not depend on it.  The loop of `clustering` over `nodes_` runs over the keys
present when it is entered, which is the loop of the source when no traversal
creates a key of `nodes_` (`NeighboursAreNodes`); a rehash of `nodes_` during
that loop, possible only when an edge endpoint was never upserted as a node,
is outside the embedding.  The collaborators that the code reaches through an
interface (tokenizer, embedding and generation strategies, vector storage) are
records of functions, the library `nano_vectordb` and the function
`std::hash<std::string>` are parameters, and `float` is a type parameter that
holds the values of `double` too, the cast `static_cast<float>` being a
parameter; a collaborator that throws is outside the embedding.
-/

namespace NanoGraphRAG

/-- A `std::string`: a sequence of characters. -/
abbrev Str := List Char

/-- Ways in which an execution of the embedded code does not return
normally. -/
inductive Fault where
  /-- The loop has not finished within the step budget. -/
  | outOfFuel
  /-- An iterator range or an index outside its vector (undefined behaviour). -/
  | invalidRange
  /-- A C++ exception leaves the function (`std::out_of_range` of `at`). -/
  | exception
  /-- A null pointer is dereferenced (undefined behaviour). -/
  | nullPointer
  deriving DecidableEq, Repr

deriving instance DecidableEq for Except

/-- The struct `TextChunk` of `utils/Types.hpp`. -/
structure TextChunk where
  tokens : Int
  content : Str
  full_doc_id : Str
  chunk_order_index : Int
  deriving DecidableEq, Repr

/-! ## Arithmetic of the type `int` -/

/-- The least value of the type `int`. -/
def INT_MIN : Int := -2147483648

/-- The greatest value of the type `int`. -/
def INT_MAX : Int := 2147483647

/-- The integer `x` is a value of the type `int`. -/
def isInt (x : Int) : Prop := INT_MIN ≤ x ∧ x ≤ INT_MAX

instance (x : Int) : Decidable (isInt x) := by
  unfold isInt
  exact inferInstance

/-- The value of the type `int` that is congruent to `x` modulo `2^32`. -/
def int32 (x : Int) : Int := (x + 2147483648) % 4294967296 - 2147483648

/-- The sum `a + b` of two values of the type `int` as the program computes
it: the sum itself when that is a value of `int`, and on signed overflow
(undefined behaviour in C++) the value of `int` that two's-complement
arithmetic leaves, which differs from the sum by `2^32`.  An argument that is
no value of `int` cannot occur in the program; the sum is then left as it
is. -/
def intAdd (a b : Int) : Int :=
  if isInt a ∧ isInt b then int32 (a + b) else a + b

/-- The difference `a - b` of two values of the type `int` as the program
computes it; see `intAdd`. -/
def intSub (a b : Int) : Int :=
  if isInt a ∧ isInt b then int32 (a - b) else a - b

/-- The conversion `(int)v.size()` of a size to `int`: modulo `2^32`. -/
def intOfSize (n : Nat) : Int := int32 (n : Int)

/-! ## The chunker -/

/-- The range constructor `std::vector<int> sub(v.begin() + b, v.begin() + e)`.
The range is valid when `0 ≤ b ≤ e ≤ v.size()`; any other range is undefined
behaviour. -/
def subvector (v : List Int) (b e : Int) : Except Fault (List Int) :=
  if 0 ≤ b ∧ b ≤ e ∧ e ≤ (v.length : Int) then
    .ok ((v.drop b.toNat).take (e - b).toNat)
  else
    .error .invalidRange

/-- The three vectors `chunk_token`, `lengths`, `starts` that the window loop
of `chunking_by_token_size` fills. -/
structure Windows where
  chunk_token : List (List Int)
  lengths : List Int
  starts : List Int
  deriving DecidableEq, Repr

/-- The vectors before the first iteration of the window loop. -/
def Windows.empty : Windows := ⟨[], [], []⟩

/-- The window loop of `chunking_by_token_size` (default.hpp, lines 73-80):
`for (int start = 0; start < (int)tokens.size(); start += max - overlap)`,
entered at `start` with the vectors `acc`.  The sums and differences are
those of the type `int` (`intAdd`, `intSub`), and `std::min<int>` converts
`tokens.size()` to `int`.  One unit of fuel is one iteration. -/
def windowLoop (tokens : List Int) (overlap_token_size max_token_size : Int) :
    Nat → Int → Windows → Except Fault Windows
  | 0, start, acc =>
    if start < intOfSize tokens.length then .error .outOfFuel else .ok acc
  | fuel + 1, start, acc =>
    if start < intOfSize tokens.length then
      match subvector tokens start
        (min (intAdd start max_token_size) (intOfSize tokens.length)) with
      | .error e => .error e
      | .ok sub =>
        windowLoop tokens overlap_token_size max_token_size fuel
          (intAdd start (intSub max_token_size overlap_token_size))
          { chunk_token := acc.chunk_token ++ [sub]
            lengths := acc.lengths ++
              [min max_token_size (intSub (intOfSize tokens.length) start)]
            starts := acc.starts ++ [start] }
    else
      .ok acc

/-- The type of `ITokenizerStrategy::decode`:
`decode(chunk_token, doc, starts, lengths)`. -/
abbrev Decoder := List (List Int) → Str → List Int → List Int → Except Fault (List Str)

/-- The loop that pushes one `TextChunk` per decoded text (default.hpp, lines
83-86), entered at index `i`.  `doc_key` is `doc_keys[index]`, absent when
`index` is outside `doc_keys`. -/
def emitLoop (lengths : List Int) (doc_key : Option Str) :
    List Str → Nat → List TextChunk → Except Fault (List TextChunk)
  | [], _, results => .ok results
  | text :: rest, i, results =>
    match lengths[i]?, doc_key with
    | some len, some key =>
      emitLoop lengths doc_key rest (i + 1) (results ++ [⟨len, text, key, (i : Int)⟩])
    | _, _ => .error .invalidRange

/-- The loop over documents of `chunking_by_token_size` (default.hpp, lines
67-87), entered at `index` with the remaining token vectors. -/
def docLoop (decode : Decoder) (fuel : Nat) (docs doc_keys : List Str)
    (overlap_token_size max_token_size : Int) :
    List (List Int) → Nat → List TextChunk → Except Fault (List TextChunk)
  | [], _, results => .ok results
  | tokens :: rest, index, results =>
    match windowLoop tokens overlap_token_size max_token_size fuel 0 Windows.empty with
    | .error e => .error e
    | .ok w =>
      match docs[index]? with
      | none => .error .invalidRange
      | some doc =>
        match decode w.chunk_token doc w.starts w.lengths with
        | .error e => .error e
        | .ok chunk_texts =>
          match emitLoop w.lengths doc_keys[index]? chunk_texts 0 results with
          | .error e => .error e
          | .ok results1 =>
            docLoop decode fuel docs doc_keys overlap_token_size max_token_size
              rest (index + 1) results1

/-- The method `DefaultChunkingStrategy::chunking_by_token_size`; `decode` is
the decode method of the injected tokenizer and `fuel` the step budget of each
window loop. -/
def chunking_by_token_size (decode : Decoder) (fuel : Nat)
    (tokens_list : List (List Int)) (docs doc_keys : List Str)
    (overlap_token_size max_token_size : Int) : Except Fault (List TextChunk) :=
  docLoop decode fuel docs doc_keys overlap_token_size max_token_size tokens_list 0 []

/-! ## The whitespace tokenizer -/

/-- The test `c == ' ' || c == '\n' || c == '\t'` of `SimpleTokenizer`. -/
def isSeparator (c : Char) : Bool := c == ' ' || c == '\n' || c == '\t'

/-- One iteration of the loop of `SimpleTokenizer::encode` on the state
`(tokens, in_word)`. -/
def encodeStep (s : List Int × Bool) (c : Char) : List Int × Bool :=
  if isSeparator c then
    if s.2 then (s.1 ++ [1], false) else s
  else
    (s.1, true)

/-- The method `SimpleTokenizer::encode`: one token `1` per word. -/
def SimpleTokenizer.encode (text : Str) : List Int :=
  let s := text.foldl encodeStep ([], false)
  if s.2 then s.1 ++ [1] else s.1

/-- One iteration of the word-splitting loop of `SimpleTokenizer::decode`
(simple.hpp, lines 82-96) on the state `(words, current)`. -/
def splitStep (s : List Str × Str) (c : Char) : List Str × Str :=
  if isSeparator c then
    if s.2 ≠ [] then (s.1 ++ [s.2], []) else s
  else
    (s.1, s.2 ++ [c])

/-- The vector `words` that `SimpleTokenizer::decode` computes from `doc`
(simple.hpp, lines 79-98). -/
def splitWords (doc : Str) : List Str :=
  let s := doc.foldl splitStep ([], [])
  if s.2 ≠ [] then s.1 ++ [s.2] else s.1

/-- The loop `for (int w = start_idx; w < end_idx; ++w)` of
`SimpleTokenizer::decode` (simple.hpp, lines 106-111) with `n` iterations left,
at index `w`, with the text built so far. -/
def joinLoop (words : List Str) : Nat → Int → Str → Except Fault Str
  | 0, _, text => .ok text
  | n + 1, w, text =>
    if 0 ≤ w then
      match words[w.toNat]? with
      | some word =>
        joinLoop words n (w + 1) ((if text ≠ [] then text ++ [' '] else text) ++ word)
      | none => .error .invalidRange
    else
      .error .invalidRange

/-- The loop over the chunks of `SimpleTokenizer::decode` (simple.hpp, lines
100-113), entered at index `i` with the remaining entries of `chunk_token`;
`end_idx` is `std::min<int>(start_idx + len, (int)words.size())` and the inner
loop makes `end_idx - start_idx` iterations (none when that is negative).
The sum `start_idx + len` is taken to be a value of `int`, and `words.size()`
too, as they are for every window that the window loop produces
(`start_idx + len ≤ (int)tokens.size()`, see `windowLoop_bounds`). -/
def decodeLoop (words : List Str) (starts lengths : List Int) :
    List (List Int) → Nat → List Str → Except Fault (List Str)
  | [], _, chunk_texts => .ok chunk_texts
  | _ :: rest, i, chunk_texts =>
    match starts[i]?, lengths[i]? with
    | some start_idx, some len =>
      let end_idx := min (start_idx + len) (words.length : Int)
      match joinLoop words (end_idx - start_idx).toNat start_idx [] with
      | .error e => .error e
      | .ok text => decodeLoop words starts lengths rest (i + 1) (chunk_texts ++ [text])
    | _, _ => .error .invalidRange

/-- The method `SimpleTokenizer::decode`. -/
def SimpleTokenizer.decode : Decoder := fun chunk_token doc starts lengths =>
  decodeLoop (splitWords doc) starts lengths chunk_token 0 []

/-- The words of a document as the specification describes them: the maximal
runs of characters other than space, newline and tab. -/
def specWords (doc : Str) : List Str :=
  (doc.splitOnP isSeparator).filter (fun w => w ≠ [])

/-! ## The key-value store -/

/-- A `std::unordered_map<std::string, T>`: a finite map with distinct keys.
The order of the entries stands for the iteration order, which C++ leaves
unspecified. -/
abbrev UnorderedMap (T : Type) := AList (fun _ : Str => T)

/-- The class `JsonKVStorage<T>`: its only state is the map `data_`. -/
structure JsonKVStorage (T : Type) where
  data_ : UnorderedMap T

namespace JsonKVStorage

variable {T : Type}

/-- The store right after construction. -/
def init : JsonKVStorage T := ⟨∅⟩

/-- The method `all_keys`. -/
def all_keys (s : JsonKVStorage T) : List Str :=
  s.data_.entries.foldl (fun keys kv => keys ++ [kv.1]) []

/-- The method `get_by_id`. -/
def get_by_id (s : JsonKVStorage T) (id : Str) : Option T :=
  s.data_.lookup id

/-- The method `get_by_ids`. -/
def get_by_ids (s : JsonKVStorage T) (ids : List Str) : List (Option T) :=
  ids.foldl (fun out id => out ++ [s.get_by_id id]) []

/-- The method `filter_keys`. -/
def filter_keys (s : JsonKVStorage T) (ids : List Str) : List Str :=
  ids.foldl (fun missing id => if (s.data_.lookup id).isNone then missing ++ [id] else missing) []

/-- The method `upsert`: `data_[kv.first] = kv.second` for every entry of
`data`. -/
def upsert (s : JsonKVStorage T) (data : UnorderedMap T) : JsonKVStorage T :=
  ⟨data.entries.foldl (fun d kv => d.insert kv.1 kv.2) s.data_⟩

/-- The method `drop`: `data_.clear()`. -/
def drop (_s : JsonKVStorage T) : JsonKVStorage T := ⟨∅⟩

end JsonKVStorage

/-! ## The graph store -/

/-- The comparison `s < t` of two `std::string`s: lexicographic order of the
characters. -/
def strLt : Str → Str → Bool
  | [], [] => false
  | [], _ :: _ => true
  | _ :: _, [] => false
  | a :: s, b :: t => if a < b then true else if b < a then false else strLt s t

/-- The function `canonical_edge_key`:
`s < t ? make_pair(s, t) : make_pair(t, s)`. -/
def canonical_edge_key (s t : Str) : Str × Str :=
  if strLt s t then (s, t) else (t, s)

/-- The function `canonical_edge_key_str`: `p.first + "|" + p.second`. -/
def canonical_edge_key_str (s t : Str) : Str :=
  (canonical_edge_key s t).1 ++ ['|'] ++ (canonical_edge_key s t).2

/-- A property map `std::unordered_map<std::string, std::string>`. -/
abbrev PropertyMap := UnorderedMap Str

/-- The method `std::unordered_set<std::string>::insert`; a set is the list
of its elements in iteration order. -/
def setInsert (x : Str) (set : List Str) : List Str :=
  if x ∈ set then set else set ++ [x]

/-- The statement `adjacency_[s].insert(t)`: `operator[]` creates the empty
set for a new key. -/
def adjacencyInsert (adjacency : UnorderedMap (List Str)) (s t : Str) :
    UnorderedMap (List Str) :=
  adjacency.insert s (setInsert t ((adjacency.lookup s).getD []))

/-- The effect of `adjacency_[cur]` on the map: `operator[]` creates the empty
set for a new key and leaves the map alone otherwise. -/
def adjacencyTouch (adjacency : UnorderedMap (List Str)) (cur : Str) :
    UnorderedMap (List Str) :=
  if (adjacency.lookup cur).isSome then adjacency else adjacency.insert cur []

/-- The function `std::to_string(int)`. -/
def to_string (n : Int) : Str :=
  if n < 0 then '-' :: Nat.toDigits 10 n.natAbs else Nat.toDigits 10 n.natAbs

/-- The key `"clusters"` of a node's property map. -/
def clustersKey : Str := "clusters".toList

/-- The label that `clustering` writes:
`"[{\"level\":0,\"cluster\":" + std::to_string(cluster_id) + "}]"`. -/
def clusterLabel (cluster_id : Int) : Str :=
  "[\x7b\"level\":0,\"cluster\":".toList ++ to_string cluster_id ++ "\x7d]".toList

/-- The statement `nodes_[cur]["clusters"] = label`: both `operator[]` create
a missing entry. -/
def labelNode (nodes : UnorderedMap PropertyMap) (cur : Str) (cluster_id : Int) :
    UnorderedMap PropertyMap :=
  nodes.insert cur (((nodes.lookup cur).getD ∅).insert clustersKey (clusterLabel cluster_id))

/-- The loop `for (const auto& nb : adjacency_[cur])` of `clustering`
(GraphStorage.hpp, lines 157-162) on the pair `(visited, queue)`.  The vector
`queue` is the list of its elements from back to front, so `push_back` is a
cons. -/
def visitNeighbours (nbs : List Str) (visited queue : List Str) : List Str × List Str :=
  nbs.foldl (fun vq nb => if nb ∈ vq.1 then vq else (setInsert nb vq.1, nb :: vq.2))
    (visited, queue)

/-- The class `InMemoryGraphStorage`: its state is the three maps `nodes_`,
`edges_` and `adjacency_`. -/
structure InMemoryGraphStorage where
  nodes_ : UnorderedMap PropertyMap
  edges_ : UnorderedMap PropertyMap
  adjacency_ : UnorderedMap (List Str)

/-- The struct `SingleCommunity` of `utils/Types.hpp`; the `double` field
`occurrence` only ever holds a whole number and is an `Int`. -/
structure SingleCommunity where
  level : Int
  title : Str
  edges : List (Str × Str)
  nodes : List Str
  chunk_ids : List Str
  occurrence : Int
  sub_communities : List Str
  deriving DecidableEq, Repr

/-- A default-constructed `SingleCommunity`. -/
def SingleCommunity.default : SingleCommunity := ⟨0, [], [], [], [], 0, []⟩

/-- The method `std::string::find(needle)` from position `pos` on; `none` is
`npos`. -/
def findFrom (needle : Str) : Str → Nat → Option Nat
  | [], pos => if needle.isPrefixOf [] then some pos else none
  | c :: rest, pos =>
    if needle.isPrefixOf (c :: rest) then some pos else findFrom needle rest (pos + 1)

/-- The test `isspace` of the C locale. -/
def isSpace (c : Char) : Bool :=
  c == ' ' || c == '\t' || c == '\n' || c == '\x0b' || c == '\x0c' || c == '\r'

/-- The test for a decimal digit. -/
def isDigit (c : Char) : Bool := decide ('0' ≤ c) && decide (c ≤ '9')

/-- The value of the leading decimal digits of a string, after the value
`acc` of the digits already read. -/
def digitsValue : Str → Nat → Nat
  | [], acc => acc
  | c :: rest, acc => if isDigit c then digitsValue rest (acc * 10 + (c.toNat - 48)) else acc

/-- The function `std::stoi(s)`: leading white space, an optional sign and
decimal digits; `none` when it throws (`invalid_argument` without a digit,
`out_of_range` outside the range of `int`). -/
def stoi (s : Str) : Option Int :=
  let body : Bool × Str :=
    match s.dropWhile isSpace with
    | '-' :: r => (true, r)
    | '+' :: r => (false, r)
    | r => (false, r)
  match body.2 with
  | [] => none
  | c :: r =>
    if isDigit c then
      let v : Int := if body.1 then -(digitsValue (c :: r) 0 : Int) else (digitsValue (c :: r) 0 : Int)
      if -2147483648 ≤ v ∧ v ≤ 2147483647 then some v else none
    else none

/-- The cluster id that `community_schema` reads from a `clusters` attribute
(GraphStorage.hpp, lines 184-195): `0` unless `cluster":` is found and `stoi`
succeeds on what follows it. -/
def parseCluster (value : Str) : Int :=
  match findFrom "cluster\":".toList value 0 with
  | none => 0
  | some pos => (stoi (value.drop (pos + 9))).getD 0

/-- The comparison `a < b` of two `std::pair<std::string, std::string>`. -/
def pairLt (a b : Str × Str) : Bool :=
  strLt a.1 b.1 || (!strLt b.1 a.1 && strLt a.2 b.2)

/-- The call `std::sort(edges.begin(), edges.end())`. -/
def sortEdges (edges : List (Str × Str)) : List (Str × Str) :=
  edges.insertionSort (fun a b => pairLt b a = false)

/-- The call `edges.erase(std::unique(edges.begin(), edges.end()), edges.end())`:
of each run of equal neighbours the first is kept. -/
def uniqueEdges : List (Str × Str) → List (Str × Str)
  | [] => []
  | [a] => [a]
  | a :: b :: rest => if a = b then uniqueEdges (b :: rest) else a :: uniqueEdges (b :: rest)

/-- The body of the second loop of `community_schema` (GraphStorage.hpp, lines
212-220) on one community. -/
def finishCommunity (c : SingleCommunity) : SingleCommunity :=
  { c with
    edges := uniqueEdges (sortEdges c.edges)
    occurrence := if c.chunk_ids.isEmpty then 0 else (c.chunk_ids.length : Int) }

namespace InMemoryGraphStorage

/-- The store right after construction. -/
def init : InMemoryGraphStorage := ⟨∅, ∅, ∅⟩

/-- The method `has_node`. -/
def has_node (g : InMemoryGraphStorage) (node_id : Str) : Bool :=
  (g.nodes_.lookup node_id).isSome

/-- The method `has_edge`. -/
def has_edge (g : InMemoryGraphStorage) (s t : Str) : Bool :=
  (g.edges_.lookup (canonical_edge_key_str s t)).isSome

/-- The method `node_degree`. -/
def node_degree (g : InMemoryGraphStorage) (node_id : Str) : Int :=
  match g.adjacency_.lookup node_id with
  | none => 0
  | some set => (set.length : Int)

/-- The method `edge_degree`. -/
def edge_degree (g : InMemoryGraphStorage) (s t : Str) : Int :=
  g.node_degree s + g.node_degree t

/-- The method `get_node`. -/
def get_node (g : InMemoryGraphStorage) (node_id : Str) : Option PropertyMap :=
  g.nodes_.lookup node_id

/-- The method `get_edge`. -/
def get_edge (g : InMemoryGraphStorage) (s t : Str) : Option PropertyMap :=
  g.edges_.lookup (canonical_edge_key_str s t)

/-- The method `get_node_edges`. -/
def get_node_edges (g : InMemoryGraphStorage) (node_id : Str) : List (Str × Str) :=
  match g.adjacency_.lookup node_id with
  | none => []
  | some set => set.foldl (fun out tgt => out ++ [(node_id, tgt)]) []

/-- The method `upsert_node`; `emplace` leaves an existing adjacency set
alone. -/
def upsert_node (g : InMemoryGraphStorage) (node_id : Str) (node_data : PropertyMap) :
    InMemoryGraphStorage :=
  { g with
    nodes_ := g.nodes_.insert node_id node_data
    adjacency_ :=
      if (g.adjacency_.lookup node_id).isSome then g.adjacency_
      else g.adjacency_.insert node_id [] }

/-- The method `upsert_nodes_batch`. -/
def upsert_nodes_batch (g : InMemoryGraphStorage) (nodes_data : List (Str × PropertyMap)) :
    InMemoryGraphStorage :=
  nodes_data.foldl (fun g kv => g.upsert_node kv.1 kv.2) g

/-- The method `upsert_edge`. -/
def upsert_edge (g : InMemoryGraphStorage) (s t : Str) (edge_data : PropertyMap) :
    InMemoryGraphStorage :=
  { g with
    edges_ := g.edges_.insert (canonical_edge_key_str s t) edge_data
    adjacency_ := adjacencyInsert (adjacencyInsert g.adjacency_ s t) t s }

/-- The method `upsert_edges_batch`. -/
def upsert_edges_batch (g : InMemoryGraphStorage) (edges_data : List (Str × Str × PropertyMap)) :
    InMemoryGraphStorage :=
  edges_data.foldl (fun g e => g.upsert_edge e.1 e.2.1 e.2.2) g

/-- The loop `while (!queue.empty())` of `clustering` (GraphStorage.hpp, lines
150-163); one unit of fuel is one iteration.  The result is the store and the
set `visited`. -/
def bfsLoop (cluster_id : Int) :
    Nat → InMemoryGraphStorage → List Str → List Str →
      Except Fault (InMemoryGraphStorage × List Str)
  | _, g, visited, [] => .ok (g, visited)
  | 0, _, _, _ :: _ => .error .outOfFuel
  | fuel + 1, g, visited, cur :: queue =>
    let vq := visitNeighbours ((g.adjacency_.lookup cur).getD []) visited queue
    bfsLoop cluster_id fuel
      { g with
        nodes_ := labelNode g.nodes_ cur cluster_id
        adjacency_ := adjacencyTouch g.adjacency_ cur }
      vq.1 vq.2

/-- The loop `for (const auto& n : nodes_)` of `clustering` (GraphStorage.hpp,
lines 143-165), taking the nodes in the order of the list given: the keys that
`nodes_` holds when the loop is entered.  This is the loop of the source as
long as no traversal creates a key of `nodes_`, that is when every id that a
traversal reaches is a node (see `NeighboursAreNodes`); the properties of
`clustering` below are stated for such states.  When `nodes_[cur]` creates a
key, the source inserts into the map it is iterating over: a key created so
is visited when it is created, so that meeting it again would skip it, but
once an insertion rehashes the map the iterator of the loop is invalid and the
rest of the loop is undefined behaviour, which the list does not render. -/
def clusterLoop (fuel : Nat) :
    List Str → InMemoryGraphStorage → List Str → Int → Except Fault InMemoryGraphStorage
  | [], g, _, _ => .ok g
  | n :: rest, g, visited, cluster_id =>
    if n ∈ visited then clusterLoop fuel rest g visited cluster_id
    else
      match bfsLoop cluster_id fuel g (setInsert n visited) [n] with
      | .error e => .error e
      | .ok r => clusterLoop fuel rest r.1 r.2 (cluster_id + 1)

/-- The method `clustering`; `fuel` is the step budget of each traversal.  The
argument `algorithm` is not read. -/
def clustering (fuel : Nat) (g : InMemoryGraphStorage) (_algorithm : Str) :
    Except Fault InMemoryGraphStorage :=
  clusterLoop fuel g.nodes_.keys g [] 0

/-- The body of the first loop of `community_schema` (GraphStorage.hpp, lines
178-210) for the node entry `n`. -/
def schemaStep (g : InMemoryGraphStorage) (out : UnorderedMap SingleCommunity)
    (n : Sigma (fun _ : Str => PropertyMap)) : UnorderedMap SingleCommunity :=
  match n.2.lookup clustersKey with
  | none => out
  | some value =>
    let key := to_string (parseCluster value)
    let comm := (out.lookup key).getD SingleCommunity.default
    out.insert key
      { comm with
        level := 0
        title := "Cluster ".toList ++ key
        nodes := comm.nodes ++ [n.1]
        edges := (g.get_node_edges n.1).foldl
          (fun edges e => edges ++ [if strLt e.2 e.1 then (e.2, e.1) else (e.1, e.2)])
          comm.edges }

/-- The method `community_schema`. -/
def community_schema (g : InMemoryGraphStorage) : UnorderedMap SingleCommunity :=
  let out := g.nodes_.entries.foldl (schemaStep g) ∅
  out.entries.foldl (fun m kv => m.insert kv.1 (finishCommunity kv.2)) out

end InMemoryGraphStorage

/-- An upsert of the graph store. -/
inductive GraphOp where
  | node (node_id : Str) (node_data : PropertyMap)
  | edge (s t : Str) (edge_data : PropertyMap)

/-- The store after one upsert. -/
def applyOp (g : InMemoryGraphStorage) : GraphOp → InMemoryGraphStorage
  | .node node_id node_data => g.upsert_node node_id node_data
  | .edge s t edge_data => g.upsert_edge s t edge_data

/-- The store reached from the empty graph by the upserts `ops`, in list
order. -/
def runOps (ops : List GraphOp) : InMemoryGraphStorage :=
  ops.foldl applyOp InMemoryGraphStorage.init

/-! ## The vector index -/

/-- The virtual methods of an `IEmbeddingStrategy` that the vector index
calls; `F` stands for the type `float`.  A strategy that throws is outside the
embedding. -/
structure IEmbeddingStrategy (F : Type) where
  embed : List Str → List (List F)
  embedding_dim : Nat

/-- The operations of the library class `nano_vectordb::NanoVectorDB` that
`NanoVectorDBStorage` calls, on a library state `DB`: the constructor
`NanoVectorDB(dim, metric, storage_file)`, `upsert(datas)`, `save()` and
`query(v, top_k, threshold)`, whose results are pairs of `data.id` and
`score`.  The library is not part of the repository and is a parameter. -/
structure NanoVectorDB (DB F : Type) where
  make : Int → Str → Str → DB
  upsert : DB → List (Str × List F) → DB
  save : DB → DB
  query : DB → List F → Int → Option F → List (Str × F)

/-- The class `NanoVectorDBStorage`: the members that `upsert` and `query`
read or write.  The threshold is a `double` in the source, where it is
compared with `0.0` and cast to `float`; here `F` holds the values of both
types, and the cast is the function `to_float` that `query` takes. -/
structure NanoVectorDBStorage (DB F : Type) where
  global_config : UnorderedMap Str
  embedding_strategy : Option (IEmbeddingStrategy F)
  meta_fields : UnorderedMap Bool
  metas_ : UnorderedMap PropertyMap
  cosine_better_than_threshold_ : F
  db_ : Option DB
  auto_save_ : Bool

/-- The map `meta` that `upsert` captures for one record
(NanoVectorDBStorage.hpp, lines 109-118): the enabled fields of `meta_fields`
that the record has. -/
def captureMeta (meta_fields : UnorderedMap Bool) (record : PropertyMap) : PropertyMap :=
  meta_fields.entries.foldl
    (fun captured mf =>
      if mf.2 then
        match record.lookup mf.1 with
        | some v => captured.insert mf.1 v
        | none => captured
      else captured)
    ∅

/-- The value `cfg.count(key) ? cfg.at(key) : def` of a configuration entry. -/
def configOr (cfg : UnorderedMap Str) (key default_value : Str) : Str :=
  (cfg.lookup key).getD default_value

namespace NanoVectorDBStorage

variable {DB F : Type}

/-- The vector `ids` that `upsert` fills (lines 100-104). -/
def upsertIds (data : UnorderedMap PropertyMap) : List Str :=
  data.entries.foldl (fun ids kv => ids ++ [kv.1]) []

/-- The vector `contents` that `upsert` fills (lines 98-106): the `content`
field of each record, empty when absent. -/
def upsertContents (data : UnorderedMap PropertyMap) : List Str :=
  data.entries.foldl
    (fun contents kv => contents ++ [(kv.2.lookup "content".toList).getD []]) []

/-- The vector `embeddings` of `upsert` after lines 121-131: what the strategy
returned for `contents`, replaced by `ids.size()` zero vectors of the
strategy's dimension when the sizes differ. -/
def upsertEmbeddings (zero : F) (self : NanoVectorDBStorage DB F)
    (data : UnorderedMap PropertyMap) : List (List F) :=
  let ids := upsertIds data
  let embeddings : List (List F) :=
    match self.embedding_strategy with
    | some e => e.embed (upsertContents data)
    | none => []
  if embeddings.length ≠ ids.length then
    let dim : Nat :=
      match self.embedding_strategy with
      | some e => e.embedding_dim
      | none => 0
    List.replicate ids.length (List.replicate dim zero)
  else embeddings

/-- The vector `datas` that `upsert` hands to the library (lines 143-152):
`datas[i] = {ids[i], embeddings[i]}` for every index of `ids`. -/
def upsertDatas (zero : F) (self : NanoVectorDBStorage DB F)
    (data : UnorderedMap PropertyMap) : List (Str × List F) :=
  let ids := upsertIds data
  let embeddings := upsertEmbeddings zero self data
  (List.range ids.length).map (fun (i : Nat) => (ids.getD i [], embeddings.getD i []))

/-- The member `db_` after the late initialisation of `upsert` (lines
133-141). -/
def lateInit (lib : NanoVectorDB DB F) (self : NanoVectorDBStorage DB F) : Option DB :=
  match self.db_, self.embedding_strategy with
  | none, some e =>
    if 0 < e.embedding_dim then
      some (lib.make (e.embedding_dim : Int)
        (configOr self.global_config "metric".toList "cosine".toList)
        (configOr self.global_config "storage_file".toList "nano-vectordb.json".toList))
    else none
  | db, _ => db

/-- The method `NanoVectorDBStorage::upsert`; `zero` is `0.0f`. -/
def upsert (lib : NanoVectorDB DB F) (zero : F) (self : NanoVectorDBStorage DB F)
    (data : UnorderedMap PropertyMap) : NanoVectorDBStorage DB F :=
  if data.entries.isEmpty then self
  else
    let metas := data.entries.foldl
      (fun metas kv => metas.insert kv.1 (captureMeta self.meta_fields kv.2)) self.metas_
    match lateInit lib self with
    | some db =>
      let db1 := lib.upsert db (upsertDatas zero self data)
      { self with
        metas_ := metas
        db_ := some (if self.auto_save_ then lib.save db1 else db1) }
    | none => { self with metas_ := metas }

/-- The vector `q` of `query` (lines 176-183): the first vector that the
strategy returns for the query text, and the zero vector of the strategy's
dimension when it returns none. -/
def queryVector (zero : F) (self : NanoVectorDBStorage DB F) (query : Str) : List F :=
  let qembs : List (List F) :=
    match self.embedding_strategy with
    | some e => e.embed [query]
    | none => []
  match qembs with
  | q :: _ => q
  | [] =>
    List.replicate
      (match self.embedding_strategy with
        | some e => e.embedding_dim
        | none => 0)
      zero

/-- The optional `th` of `query` (lines 187-189): when the threshold is greater
than `0.0`, its value as a `float`, `static_cast<float>` being `to_float`. -/
def queryThreshold [LinearOrder F] (zero : F) (to_float : F → F)
    (self : NanoVectorDBStorage DB F) : Option F :=
  if zero < self.cosine_better_than_threshold_ then
    some (to_float self.cosine_better_than_threshold_)
  else none

/-- The vector `results` of `query` (line 190): what the library returns for
the query vector, `top_k` and the optional threshold; empty when there is no
library index. -/
def queryResults [LinearOrder F] (lib : NanoVectorDB DB F) (zero : F) (to_float : F → F)
    (self : NanoVectorDBStorage DB F) (query : Str) (top_k : Int) : List (Str × F) :=
  match self.db_ with
  | some db =>
    lib.query db (queryVector zero self query) top_k (queryThreshold zero to_float self)
  | none => []

/-- One row of `out` (lines 195-198): a copy of `metas_[r.data.id]` with the
keys `id` and `similarity` set; `score_string` is `std::to_string`. -/
def queryRow (score_string : F → Str) (metas : UnorderedMap PropertyMap) (r : Str × F) :
    PropertyMap :=
  (((metas.lookup r.1).getD ∅).insert "id".toList r.1).insert "similarity".toList
    (score_string r.2)

/-- The method `NanoVectorDBStorage::query`: the rows, and the index after the
call, where `metas_[r.data.id]` has created an empty entry for every result
id that had none; `zero` is `0.0`, `to_float` is `static_cast<float>` and
`score_string` is `std::to_string`. -/
def query [LinearOrder F] (lib : NanoVectorDB DB F) (zero : F) (to_float : F → F)
    (score_string : F → Str) (self : NanoVectorDBStorage DB F) (query : Str) (top_k : Int) :
    List PropertyMap × NanoVectorDBStorage DB F :=
  match self.db_ with
  | some _ =>
    let res := (queryResults lib zero to_float self query top_k).foldl
      (fun (acc : List PropertyMap × UnorderedMap PropertyMap) r =>
        let metas : UnorderedMap PropertyMap :=
          match acc.2.lookup r.1 with
          | some _ => acc.2
          | none => acc.2.insert r.1 ∅
        (acc.1 ++ [queryRow score_string metas r], metas))
      ([], self.metas_)
    (res.1, { self with metas_ := res.2 })
  | none => ([], self)

end NanoVectorDBStorage

/-! ## The orchestrator -/

/-- The struct `QueryParam` of `utils/Types.hpp`: the members that `query`
reads and `level`, with their default values. -/
structure QueryParam where
  mode : Str := "global".toList
  only_need_context : Bool := false
  response_type : Str := "Multiple Paragraphs".toList
  level : Int := 2
  top_k : Int := 20
  naive_max_token_for_text_unit : Int := 12000

/-- The constant `Prompts::fail_response` of `utils/Prompts.hpp`. -/
def Prompts.fail_response : Str :=
  "Sorry, I'm not able to provide an answer to that ".toList ++ "question.".toList

/-- The function `Prompts::naive_rag_response` of `utils/Prompts.hpp`. -/
def Prompts.naive_rag_response (content_data response_type : Str) : Str :=
  ("You're a helpful assistant\n".toList ++
    "Below are the knowledge you know:\n".toList) ++
  content_data ++
  ("\n---\n".toList ++
    "If you don't know the answer or if the provided knowledge do not contain sufficient ".toList ++
    "information to provide an answer, just say so. Do not make anything up.\n".toList ++
    "Generate a response of the target length and format that responds to the user's ".toList ++
    "question, summarizing all information in the input data tables appropriate for the ".toList ++
    "response length and format, and incorporating any relevant general knowledge.\n".toList ++
    "If you don't know the answer, just say so. Do not make anything up.\n".toList ++
    "Do not include information where the supporting evidence for it is not provided.\n".toList ++
    "---Target response length and format---\n".toList) ++
  response_type

/-- The virtual methods of an `ITokenizerStrategy` that the chunker calls. -/
structure ITokenizerStrategy where
  encode : Str → List Int
  decode : Decoder

/-- The class `SimpleTokenizer` as an `ITokenizerStrategy`. -/
def SimpleTokenizer.strategy : ITokenizerStrategy :=
  ⟨SimpleTokenizer.encode, SimpleTokenizer.decode⟩

/-- The virtual method `prompt(user_prompt, system_prompt)` of an
`ILLMStrategy`.  A strategy that throws is outside the embedding. -/
structure ILLMStrategy where
  prompt : Str → Str → Str

/-- The virtual methods of `BaseVectorStorage` on an implementation whose
state is `V`; `query` is not `const` and returns the rows together with the
state it leaves. -/
structure BaseVectorStorage (V : Type) where
  query : V → Str → Int → List PropertyMap × V
  upsert : V → UnorderedMap PropertyMap → V

/-- The class `DefaultChunkingStrategy`: the members of `IChunkingStrategy`;
`tokenizer_` may be a null pointer. -/
structure DefaultChunkingStrategy where
  chunk_size_ : Int
  overlap_size_ : Int
  tokenizer_ : Option ITokenizerStrategy

/-- The id `"doc-" + std::to_string(h(c))` that `insert` gives the document
`c`; `h` is `std::hash<std::string>`. -/
def docId (h : Str → Nat) (c : Str) : Str :=
  "doc-".toList ++ to_string ((h c : Nat) : Int)

/-- The id `"chunk-" + std::to_string(h(chunk.content))` that `get_chunks`
gives a chunk. -/
def chunkId (h : Str → Nat) (content : Str) : Str :=
  "chunk-".toList ++ to_string ((h content : Nat) : Int)

/-- The call `map.emplace(key, value)`: nothing happens when the key is
present. -/
def emplace {T : Type} (map : UnorderedMap T) (key : Str) (value : T) : UnorderedMap T :=
  if (map.lookup key).isSome then map else map.insert key value

/-- The first loop of `get_chunks` (default.hpp, lines 105-109) on the state
`(keys, docs)`; `at("content")` throws when the record has no such field. -/
def keysDocsLoop :
    List (Sigma (fun _ : Str => PropertyMap)) → List Str → List Str →
      Except Fault (List Str × List Str)
  | [], keys, docs => .ok (keys, docs)
  | kv :: rest, keys, docs =>
    match kv.2.lookup "content".toList with
    | none => .error .exception
    | some content => keysDocsLoop rest (keys ++ [kv.1]) (docs ++ [content])

/-- The vector `chunks` that `get_chunks` computes (default.hpp, lines
101-118): the chunks of the documents of `new_docs`, in the order in which
`chunking_by_token_size` pushes them; `fuel` is the step budget of each window
loop. -/
def DefaultChunkingStrategy.producedChunks (self : DefaultChunkingStrategy) (fuel : Nat)
    (new_docs : UnorderedMap PropertyMap) (overlap_token_size max_token_size : Int) :
    Except Fault (List TextChunk) :=
  match keysDocsLoop new_docs.entries [] [] with
  | .error e => .error e
  | .ok (keys, docs) =>
    match self.tokenizer_ with
    | none => if docs.isEmpty then .ok [] else .error .nullPointer
    | some tokenizer =>
      let tokens := docs.foldl (fun tokens d => tokens ++ [tokenizer.encode d]) []
      chunking_by_token_size tokenizer.decode fuel tokens docs keys
        overlap_token_size max_token_size

/-- The method `DefaultChunkingStrategy::get_chunks`; `h` is
`std::hash<std::string>`. -/
def DefaultChunkingStrategy.get_chunks (self : DefaultChunkingStrategy) (h : Str → Nat)
    (fuel : Nat) (new_docs : UnorderedMap PropertyMap)
    (overlap_token_size max_token_size : Int) : Except Fault (UnorderedMap TextChunk) :=
  match self.producedChunks fuel new_docs overlap_token_size max_token_size with
  | .error e => .error e
  | .ok chunks =>
    .ok (chunks.foldl (fun inserting_chunks chunk =>
      emplace inserting_chunks (chunkId h chunk.content) chunk) ∅)

/-- The class `GraphRAG`: the members that `insert` and `query` read or write.
The two key-value stores are the `JsonKVStorage` objects that the constructor
creates, and the vector index is any implementation of `BaseVectorStorage`,
with state `V`. -/
structure GraphRAG (V : Type) where
  enable_naive_rag : Bool
  chunk_token_size : Int
  chunk_overlap_token_size : Int
  chunker : Option DefaultChunkingStrategy
  full_docs : JsonKVStorage PropertyMap
  text_chunks : JsonKVStorage TextChunk
  chunks_vdb : Option V
  llm_strategy : Option ILLMStrategy

/-- A call that `query` makes on one of its collaborators. -/
inductive Call where
  /-- The call `chunks_vdb->query(q, top_k)`. -/
  | vdb_query (q : Str) (top_k : Int)
  /-- The call `text_chunks->get_by_ids(ids)`. -/
  | get_by_ids (ids : List Str)
  /-- The call `llm_strategy->prompt(user_prompt, system_prompt)`. -/
  | llm_prompt (user_prompt system_prompt : Str)
  deriving DecidableEq, Repr

/-- What a call of `query` leaves: the string it returns, the calls it made on
its collaborators, in order, and the state of the orchestrator. -/
structure QueryResult (V : Type) where
  response : Str
  calls : List Call
  state : GraphRAG V

/-- The separator `"\n--New Chunk--\n"` of `naive_query`. -/
def chunkSeparator : Str := "\n--New Chunk--\n".toList

/-- The loop of `naive_query` over the fetched chunks (GraphRAG.hpp, lines
189-198) on the state `(section, tokens)`; the result is `section`.  The
statement `tokens += c.tokens` adds in the type `int` (`intAdd`). -/
def sectionLoop (max_tokens : Int) : List (Option TextChunk) → Str → Int → Str
  | [], sect, _ => sect
  | none :: rest, sect, tokens => sectionLoop max_tokens rest sect tokens
  | some c :: rest, sect, tokens =>
    if intAdd tokens c.tokens > max_tokens then sect
    else
      sectionLoop max_tokens rest (sect ++ (c.content ++ chunkSeparator))
        (intAdd tokens c.tokens)

/-- The statement `if (!section.empty()) section.erase(section.size() - 15)`
(lines 199-200): the last 15 characters go. -/
def eraseSeparator (sect : Str) : Str :=
  if sect.isEmpty then sect else sect.take (sect.length - chunkSeparator.length)

namespace GraphRAG

variable {V : Type}

/-- The orchestrator right after construction with the tokenizer
`tokenizer`. -/
def init (tokenizer : Option ITokenizerStrategy) : GraphRAG V :=
  { enable_naive_rag := false
    chunk_token_size := 1200
    chunk_overlap_token_size := 100
    chunker := some ⟨1200, 100, tokenizer⟩
    full_docs := JsonKVStorage.init
    text_chunks := JsonKVStorage.init
    chunks_vdb := none
    llm_strategy := none }

/-- The method `GraphRAG::set_chunk_params`. -/
def set_chunk_params (self : GraphRAG V) (max_tokens overlap_tokens : Int) : GraphRAG V :=
  { self with
    chunk_token_size := max_tokens
    chunk_overlap_token_size := overlap_tokens
    chunker := self.chunker.map
      (fun chunker => { chunker with chunk_size_ := max_tokens, overlap_size_ := overlap_tokens }) }

/-- The map `new_docs` that `insert` builds (lines 127-133). -/
def newDocs (h : Str → Nat) (docs : List Str) : UnorderedMap PropertyMap :=
  docs.foldl
    (fun new_docs c => new_docs.insert (docId h c) (AList.singleton "content".toList c)) ∅

/-- The map `vdb_data` that `insert` builds (lines 147-151). -/
def vdbData (inserting_chunks : UnorderedMap TextChunk) : UnorderedMap PropertyMap :=
  inserting_chunks.entries.foldl
    (fun vdb_data kv => vdb_data.insert kv.1 (AList.singleton "content".toList kv.2.content)) ∅

/-- The method `GraphRAG::insert`; `vdb` holds the methods of the vector
index, `h` is `std::hash<std::string>` and `fuel` the step budget of each
window loop. -/
def insert (vdb : BaseVectorStorage V) (h : Str → Nat) (fuel : Nat) (self : GraphRAG V)
    (docs : List Str) : Except Fault (GraphRAG V) :=
  let new_docs := newDocs h docs
  let chunked : Except Fault (UnorderedMap TextChunk) :=
    match self.chunker with
    | some chunker =>
      chunker.get_chunks h fuel new_docs self.chunk_overlap_token_size self.chunk_token_size
    | none => .ok ∅
  match chunked with
  | .error e => .error e
  | .ok inserting_chunks =>
    .ok { self with
          chunks_vdb :=
            if self.enable_naive_rag then
              self.chunks_vdb.map (fun v => vdb.upsert v (vdbData inserting_chunks))
            else self.chunks_vdb
          full_docs := self.full_docs.upsert new_docs
          text_chunks := self.text_chunks.upsert inserting_chunks }

/-- The method `GraphRAG::naive_query`. -/
def naive_query (vdb : BaseVectorStorage V) (self : GraphRAG V) (q : Str) (param : QueryParam) :
    QueryResult V :=
  match self.chunks_vdb with
  | none => ⟨"Sorry, I'm not able to provide an answer to that question.".toList, [], self⟩
  | some v =>
    let results := (vdb.query v q param.top_k).1
    let self1 : GraphRAG V := { self with chunks_vdb := some (vdb.query v q param.top_k).2 }
    if results.isEmpty then
      ⟨"Sorry, I'm not able to provide an answer to that question.".toList,
        [.vdb_query q param.top_k], self1⟩
    else
      let ids := results.foldl (fun ids r => ids ++ [(r.lookup "id".toList).getD []]) []
      let chunks := self.text_chunks.get_by_ids ids
      let sect := eraseSeparator (sectionLoop param.naive_max_token_for_text_unit chunks [] 0)
      if param.only_need_context then
        ⟨sect, [.vdb_query q param.top_k, .get_by_ids ids], self1⟩
      else
        let sys_prompt := Prompts.naive_rag_response sect param.response_type
        match self.llm_strategy with
        | none => ⟨sect, [.vdb_query q param.top_k, .get_by_ids ids], self1⟩
        | some llm =>
          let resp := llm.prompt q sys_prompt
          ⟨if resp.isEmpty then sect else resp,
            [.vdb_query q param.top_k, .get_by_ids ids, .llm_prompt q sys_prompt], self1⟩

/-- The method `GraphRAG::query`. -/
def query (vdb : BaseVectorStorage V) (self : GraphRAG V) (q : Str) (param : QueryParam) :
    QueryResult V :=
  if param.mode = "naive".toList then naive_query vdb self q param
  else ⟨"Sorry, I'm not able to provide an answer to that question.".toList, [], self⟩

end GraphRAG

/-! ## Specification-side definitions for the graph store -/

/-- The neighbour set of `x` in the adjacency map: empty for a missing key. -/
def neighbours (g : InMemoryGraphStorage) (x : Str) : List Str :=
  (g.adjacency_.lookup x).getD []

/-- An edge between `n` and `m` has been upserted by one of `ops`. -/
def edgeUpserted (ops : List GraphOp) (n m : Str) : Prop :=
  ∃ s t d, GraphOp.edge s t d ∈ ops ∧ ((s = n ∧ t = m) ∨ (s = m ∧ t = n))

/-- The cluster label that the node `x` carries: the `clusters` entry of its
property map. -/
def nodeLabel (g : InMemoryGraphStorage) (x : Str) : Option Str :=
  (g.nodes_.lookup x).bind (fun props => props.lookup clustersKey)

/-- The id `y` can be reached from `x` along the adjacency sets. -/
def connected (g : InMemoryGraphStorage) (x y : Str) : Prop :=
  Relation.ReflTransGen (fun a b => b ∈ neighbours g a) x y

/-- The adjacency sets are symmetric, as after upserts of undirected edges. -/
def SymmetricAdjacency (g : InMemoryGraphStorage) : Prop :=
  ∀ x y : Str, y ∈ neighbours g x → x ∈ neighbours g y

/-- Every neighbour of a node is a node: both ends of every edge at a node
have been upserted as nodes.  In such a state the statement
`nodes_[cur]["clusters"] = ...` of `clustering` never creates a key of
`nodes_`, so that the map which the loop `for (const auto& n : nodes_)` runs
over keeps its keys, and its iterators, during the loop. -/
def NeighboursAreNodes (g : InMemoryGraphStorage) : Prop :=
  ∀ x, g.has_node x = true → ∀ y ∈ neighbours g x, g.has_node y = true

/-- The step budget that lets every traversal of `clustering` finish: two
units per adjacency key and one more. -/
def clusteringFuel (g : InMemoryGraphStorage) : Nat :=
  2 * g.adjacency_.keys.length + 1

/-- The states of the graph store: those reached from the empty graph by
upserts and calls of `clustering` that return. -/
inductive Reachable : InMemoryGraphStorage → Prop where
  | init : Reachable InMemoryGraphStorage.init
  | node (g : InMemoryGraphStorage) (node_id : Str) (node_data : PropertyMap) :
      Reachable g → Reachable (g.upsert_node node_id node_data)
  | edge (g : InMemoryGraphStorage) (s t : Str) (edge_data : PropertyMap) :
      Reachable g → Reachable (g.upsert_edge s t edge_data)
  | clustering (g g1 : InMemoryGraphStorage) (fuel : Nat) (algorithm : Str) :
      Reachable g → g.clustering fuel algorithm = .ok g1 → Reachable g1

/-- The key of the community that `community_schema` files the node `x`
under: the decimal form of the cluster id read from its label. -/
def communityKey (g : InMemoryGraphStorage) (x : Str) : Option Str :=
  (nodeLabel g x).map (fun value => to_string (parseCluster value))

/-- The community key of one entry of `nodes_`, absent when the entry has no
`clusters` attribute. -/
def entryKey (n : Sigma (fun _ : Str => PropertyMap)) : Option Str :=
  (n.2.lookup clustersKey).map (fun value => to_string (parseCluster value))

/-- The upserts of the example graph: nodes `A`, `B`, `C`, `D` and the edges
`A - B` and `B - C`. -/
def chainOps : List GraphOp :=
  [.node "A".toList ∅, .node "B".toList ∅, .node "C".toList ∅, .node "D".toList ∅,
   .edge "A".toList "B".toList ∅, .edge "B".toList "C".toList ∅]

/-- The same upserts in another order: the edges first, then the nodes from
`D` down to `A`. -/
def chainOpsEdgesFirst : List GraphOp :=
  [.edge "B".toList "C".toList ∅, .edge "A".toList "B".toList ∅,
   .node "D".toList ∅, .node "C".toList ∅, .node "B".toList ∅, .node "A".toList ∅]

/-- The view of a community schema that the example is about: for every
community its key, its member nodes and its edges. -/
def schemaView (g : InMemoryGraphStorage) : List (Str × List Str × List (Str × Str)) :=
  g.community_schema.entries.map (fun e => (e.1, e.2.nodes, e.2.edges))

/-- The community schema of the example, whatever the order in which the
communities and their members are listed and whatever their keys: `view`
consists of the two communities `v1` and `v2`, with different keys; the
members of `v1` are `A`, `B`, `C` and its edges are `(A, B)` and `(B, C)`; the
only member of `v2` is `D` and it has no edge. -/
def IsExampleSchema (view : List (Str × List Str × List (Str × Str)))
    (v1 v2 : Str × List Str × List (Str × Str)) : Prop :=
  view.Perm [v1, v2] ∧ v1.1 ≠ v2.1 ∧
    v1.2.1.Perm ["A".toList, "B".toList, "C".toList] ∧
    v1.2.2 = [("A".toList, "B".toList), ("B".toList, "C".toList)] ∧
    v2.2.1 = ["D".toList] ∧ v2.2.2 = []

instance (view : List (Str × List Str × List (Str × Str)))
    (v1 v2 : Str × List Str × List (Str × Str)) : Decidable (IsExampleSchema view v1 v2) := by
  unfold IsExampleSchema; exact inferInstance

/-- The loop of `clustering`, taking the nodes of the graph built by `ops` in
the order `order`, returns, and the community schema of the state it returns
is the schema of the example. -/
def exampleCheck (ops : List GraphOp) (order : List Str) : Prop :=
  match InMemoryGraphStorage.clusterLoop 9 order (runOps ops) [] 0 with
  | .ok g1 => ∃ v1 ∈ schemaView g1, ∃ v2 ∈ schemaView g1, IsExampleSchema (schemaView g1) v1 v2
  | .error _ => False

instance (ops : List GraphOp) (order : List Str) : Decidable (exampleCheck ops order) := by
  unfold exampleCheck; split <;> exact inferInstance

/-- The states of the graph store together with the upserts that led to them:
`ops` lists, in order, the upserts performed since the empty graph; calls of
`clustering` that return may have happened in between. -/
inductive ReachedBy : List GraphOp → InMemoryGraphStorage → Prop where
  | init : ReachedBy [] InMemoryGraphStorage.init
  | upsert (ops : List GraphOp) (g : InMemoryGraphStorage) (op : GraphOp) :
      ReachedBy ops g → ReachedBy (ops ++ [op]) (applyOp g op)
  | clustering (ops : List GraphOp) (g g1 : InMemoryGraphStorage) (fuel : Nat) (algorithm : Str) :
      ReachedBy ops g → g.clustering fuel algorithm = .ok g1 → ReachedBy ops g1

/-! ## Specification-side definitions for the orchestrator -/

/-- The ids that `naive_query` reads from the rows of the vector index, in
retrieval order. -/
def retrievedIds (results : List PropertyMap) : List Str :=
  results.map (fun r => (r.lookup "id".toList).getD [])

/-- The chunks that the chunk store holds for the retrieved ids, in retrieval
order; an id without a record contributes nothing. -/
def foundChunks (store : JsonKVStorage TextChunk) (ids : List Str) : List TextChunk :=
  ids.filterMap store.get_by_id

/-- The chunks found for the rows that the vector index `v` returns for the
query `q`. -/
def retrievedChunks {V : Type} (vdb : BaseVectorStorage V) (self : GraphRAG V) (v : V) (q : Str)
    (param : QueryParam) : List TextChunk :=
  foundChunks self.text_chunks (retrievedIds (vdb.query v q param.top_k).1)

/-- The cumulative token count of a list of chunks. -/
def tokenCount (chunks : List TextChunk) : Int :=
  (chunks.map (fun c => c.tokens)).sum

/-- The number of leading chunks whose running token count, started at
`tokens`, stays within `max_tokens`. -/
def keptCount (max_tokens : Int) : List TextChunk → Int → Nat
  | [], _ => 0
  | c :: rest, tokens =>
    if tokens + c.tokens > max_tokens then 0
    else keptCount max_tokens rest (tokens + c.tokens) + 1

/-- The number of chunks that the loop of `naive_query` appends to `section`,
started with the running count `tokens`: the leading chunks before the first
one whose addition, in the arithmetic of `int`, makes the running count exceed
`max_tokens`. -/
def appendedCount (max_tokens : Int) : List TextChunk → Int → Nat
  | [], _ => 0
  | c :: rest, tokens =>
    if intAdd tokens c.tokens > max_tokens then 0
    else appendedCount max_tokens rest (intAdd tokens c.tokens) + 1

/-- The context that `naive_query` assembles from the found chunks: the
contents of the chunks that its loop appends, joined by the separator. -/
def assembledContext (max_tokens : Int) (found : List TextChunk) : Str :=
  chunkSeparator.intercalate
    ((found.take (appendedCount max_tokens found 0)).map (fun c => c.content))

/-- The context of the specification: the contents of the leading chunks
within the budget, joined by the separator. -/
def budgetedContext (max_tokens : Int) (found : List TextChunk) : Str :=
  chunkSeparator.intercalate ((found.take (keptCount max_tokens found 0)).map (fun c => c.content))

/-- A vector index with fixed answers: every query returns the rows of the
ids `c1`, `c2`, `c3`, in this order. -/
def exampleIndex : BaseVectorStorage Unit :=
  { query := fun v _ _ =>
      ([AList.singleton "id".toList "c1".toList, AList.singleton "id".toList "c2".toList,
        AList.singleton "id".toList "c3".toList], v)
    upsert := fun v _ => v }

/-- A vector index without any row. -/
def emptyIndex : BaseVectorStorage Unit :=
  { query := fun v _ _ => ([], v)
    upsert := fun v _ => v }

/-- An orchestrator whose chunk store holds `c1` (2 tokens) and `c3` (3
tokens) and no record for `c2`, with a vector index and no generation
strategy. -/
def exampleRAG : GraphRAG Unit :=
  { enable_naive_rag := true
    chunk_token_size := 1200
    chunk_overlap_token_size := 100
    chunker := none
    full_docs := JsonKVStorage.init
    text_chunks :=
      ⟨(AList.singleton "c1".toList (⟨2, "a b".toList, "doc-1".toList, 0⟩ : TextChunk)).insert
        "c3".toList ⟨3, "c d e".toList, "doc-1".toList, 1⟩⟩
    chunks_vdb := some ()
    llm_strategy := none }

/-- An orchestrator whose chunk store holds `c1` with 2147483647 tokens and
`c3` with 1 token, with a vector index and no generation strategy. -/
def overflowRAG : GraphRAG Unit :=
  { enable_naive_rag := true
    chunk_token_size := 1200
    chunk_overlap_token_size := 100
    chunker := none
    full_docs := JsonKVStorage.init
    text_chunks :=
      ⟨(AList.singleton "c1".toList (⟨2147483647, "a".toList, "doc-1".toList, 0⟩ : TextChunk)).insert
        "c3".toList ⟨1, "b".toList, "doc-1".toList, 1⟩⟩
    chunks_vdb := some ()
    llm_strategy := none }

/-- A generation strategy that answers every prompt with `ok`. -/
def exampleLLM : ILLMStrategy := ⟨fun _ _ => "ok".toList⟩

/-- The parameters of a naive query for the context only, with a budget of
`max_tokens`. -/
def contextParam (max_tokens : Int) : QueryParam :=
  { mode := "naive".toList, only_need_context := true,
    naive_max_token_for_text_unit := max_tokens }

/-- The map `inserting_chunks` that `insert` computes for `docs`: the result of
`get_chunks`, empty without a chunker. -/
def insertingChunks {V : Type} (self : GraphRAG V) (h : Str → Nat) (fuel : Nat) (docs : List Str) :
    Except Fault (UnorderedMap TextChunk) :=
  match self.chunker with
  | some chunker =>
    chunker.get_chunks h fuel (GraphRAG.newDocs h docs) self.chunk_overlap_token_size
      self.chunk_token_size
  | none => .ok ∅

/-- A hash function for the examples: the length of the string. -/
def lengthHash : Str → Nat := fun s => s.length

/-- The orchestrator right after construction with the whitespace tokenizer
and `set_chunk_params(1, 0)`: every word is a chunk of its own. -/
def wordRAG : GraphRAG Unit :=
  (GraphRAG.init (some SimpleTokenizer.strategy)).set_chunk_params 1 0

/-- A stand-in for the library index, for the examples: the state is the list
of all records handed to `upsert`, in order. -/
def listIndex : NanoVectorDB (List (Str × List Int)) Int :=
  { make := fun _ _ _ => []
    upsert := fun db datas => db ++ datas
    save := fun db => db
    query := fun _ _ _ _ => [] }

/-- An embedding strategy of dimension 2 that returns no vector at all. -/
def silentEmbedding : IEmbeddingStrategy Int :=
  { embed := fun _ => []
    embedding_dim := 2 }

/-- An embedding strategy of dimension 2 that returns the vector
`(length, 1)` for every text. -/
def lengthEmbedding : IEmbeddingStrategy Int :=
  { embed := fun texts => texts.map (fun t => [(t.length : Int), 1])
    embedding_dim := 2 }

/-- A vector index with the strategy `e` and the threshold `0.0`, when the
library index has not been created yet. -/
def freshStorage (e : IEmbeddingStrategy Int) : NanoVectorDBStorage (List (Str × List Int)) Int :=
  { global_config := ∅
    embedding_strategy := some e
    meta_fields := ∅
    metas_ := ∅
    cosine_better_than_threshold_ := 0
    db_ := none
    auto_save_ := false }

/-- A batch with the single record `id1`, whose content is `xyz`. -/
def oneRecord : UnorderedMap PropertyMap :=
  AList.singleton "id1".toList (AList.singleton "content".toList "xyz".toList)

/-- The upserts of a graph with the node `A` and the edge `A - B`, whose end
`B` is never upserted as a node. -/
def danglingOps : List GraphOp :=
  [.node "A".toList ∅, .edge "A".toList "B".toList ∅]

/-- The upserts of a graph with the nodes `n0` and `n1` and twelve edges from
`n1` to `d0`, ..., `d11`, none of which is upserted as a node. -/
def starOps : List GraphOp :=
  [.node "n0".toList ∅, .node "n1".toList ∅] ++
    (List.range 12).map (fun j => GraphOp.edge "n1".toList ("d".toList ++ to_string (j : Int)) ∅)

/-! ## The graph store: clustering with the work list recorded -/

namespace InMemoryGraphStorage

end InMemoryGraphStorage

/-- The record `d` put into a list of stored records: it replaces the record
with the same id, and is added at the end when there is none. -/
def storeRecord {F : Type} (db : List (Str × List F)) (d : Str × List F) : List (Str × List F) :=
  if db.any (fun r => r.1 == d.1) then db.map (fun r => if r.1 == d.1 then d else r)
  else db ++ [d]

/-- Modelled from the spec: the nearest-neighbour index of the library
`nano_vectordb` (header `NanoVectorDB.hpp`), which is not among the sources.
Its state is the list of the stored records, one vector per id.  A query
scores every record against the query vector with the configured metric
`score`, excludes the records whose score is below the threshold when one is
given, puts the rest in descending order of score and returns up to `top_k`
of them. -/
def specIndex {F : Type} [LinearOrder F] (score : List F → List F → F) :
    NanoVectorDB (List (Str × List F)) F :=
  { make := fun _ _ _ => []
    upsert := fun db datas => datas.foldl storeRecord db
    save := fun db => db
    query := fun db v top_k th =>
      (((db.map (fun r => (r.1, score v r.2))).filter
          (fun r =>
            match th with
            | some t => decide (¬ r.2 < t)
            | none => true)).insertionSort (fun a b => b.2 ≤ a.2)).take top_k.toNat }

/-- The scalar product, the metric of the examples. -/
def dotScore (v w : List Int) : Int :=
  (List.zipWith (fun a b => a * b) v w).sum

/-- A stand-in for the library index, for the examples: the state is the list
of all records handed to `upsert`, and a query returns every one of them, in
this order, scored with the scalar product. -/
def echoIndex : NanoVectorDB (List (Str × List Int)) Int :=
  { make := fun _ _ _ => []
    upsert := fun db datas => db ++ datas
    save := fun db => db
    query := fun db v _ _ => db.map (fun r => (r.1, dotScore v r.2)) }

/-- An embedding strategy of dimension 1 for the examples: the text `no` is
embedded as `(-1)`, every other text as its length. -/
def signEmbedding : IEmbeddingStrategy Int :=
  { embed := fun texts => texts.map (fun t => [if t = "no".toList then -1 else (t.length : Int)])
    embedding_dim := 1 }

/-- A vector index with the strategy `signEmbedding` and the threshold `t`,
whose library index has been created and is empty. -/
def signStorage (t : Int) : NanoVectorDBStorage (List (Str × List Int)) Int :=
  { global_config := ∅
    embedding_strategy := some signEmbedding
    meta_fields := AList.singleton "source".toList true
    metas_ := ∅
    cosine_better_than_threshold_ := t
    db_ := some []
    auto_save_ := false }

/-- A batch of two records: `id1` with the content `yes` and the field
`source`, `id2` with the content `no`. -/
def twoRecords : UnorderedMap PropertyMap :=
  (AList.singleton "id2".toList (AList.singleton "content".toList "no".toList)).insert
    "id1".toList
    ((AList.singleton "content".toList "yes".toList).insert "source".toList "book".toList)

/-- A cast for the examples, in which the integers stand for the values of
`double` and those other than `1` for the values of `float`: `1` is taken to
`0`, as `static_cast<float>` takes a positive `double` below the least
positive `float` to `0.0f`, and every other value to itself. -/
def castExample (x : Int) : Int :=
  if x = 1 then 0 else x

/-- The rendering of a score in the examples: `m` for a score below zero and
`p` otherwise, followed by as many `i` as its absolute value. -/
def tallyString (i : Int) : Str :=
  (if i < 0 then 'm' else 'p') :: List.replicate i.natAbs 'i'

/-- The calls of a client on a vector index. -/
inductive VectorOp where
  | upsert (data : UnorderedMap PropertyMap)
  | query (text : Str) (top_k : Int)

/-- The vector index after a sequence of calls. -/
def runVectorOps {DB F : Type} [LinearOrder F] (lib : NanoVectorDB DB F) (zero : F)
    (to_float : F → F) (score_string : F → Str) (self : NanoVectorDBStorage DB F)
    (ops : List VectorOp) :
    NanoVectorDBStorage DB F :=
  ops.foldl
    (fun s op =>
      match op with
      | .upsert data => NanoVectorDBStorage.upsert lib zero s data
      | .query text top_k =>
        (NanoVectorDBStorage.query lib zero to_float score_string s text top_k).2)
    self

/-- The record that the last upsert of the id `id` in a sequence of calls
carried, if there was one. -/
def lastRecord (ops : List VectorOp) (id : Str) : Option PropertyMap :=
  ops.foldl
    (fun found op =>
      match op with
      | .upsert data =>
        match data.lookup id with
        | some record => some record
        | none => found
      | .query _ _ => found)
    none

/-- The metadata captured for the id `id` at its last upsert in a sequence of
calls; empty when it was never upserted. -/
def capturedAtLastUpsert (meta_fields : UnorderedMap Bool) (ops : List VectorOp) (id : Str) :
    PropertyMap :=
  match lastRecord ops id with
  | some record => captureMeta meta_fields record
  | none => ∅

/-! ## Specification-side definitions for the chunker -/

/-- The slice `tokens[start : min(start + max_tokens, len(tokens))]` of the
specification. -/
def window (tokens : List Int) (max_tokens start : Int) : List Int :=
  (tokens.drop start.toNat).take (min (start + max_tokens) (tokens.length : Int) - start).toNat

/-- The number of multiples of `stride` below `n`, for `0 ≤ n` and
`0 < stride`. -/
def windowCount (n stride : Int) : Nat := ((n + stride - 1) / stride).toNat

/-- The windows the specification lists for one document: one per start
`0, stride, 2 * stride, ...` below the number of tokens. -/
def expectedWindows (tokens : List Int) (overlap_tokens max_tokens : Int) : Windows :=
  let stride := max_tokens - overlap_tokens
  let k := windowCount (tokens.length : Int) stride
  { chunk_token := (List.range k).map (fun (i : Nat) => window tokens max_tokens ((i : Int) * stride))
    lengths := (List.range k).map
      (fun (i : Nat) => min max_tokens ((tokens.length : Int) - (i : Int) * stride))
    starts := (List.range k).map (fun (i : Nat) => (i : Int) * stride) }

/-- The chunk pushed for the text at position `j` of a document when the emit
loop was entered at index `i`: `TextChunk{lengths[i + j], text, key, i + j}`. -/
def chunkAt (lengths : List Int) (doc_key : Option Str) (i j : Nat) (text : Str) : TextChunk :=
  ⟨(lengths[i + j]?).getD 0, text, doc_key.getD [], ((i + j : Nat) : Int)⟩

/-- The view of the three parallel vectors `tokens_list`, `docs`, `doc_keys`
as one list of `(tokens, text, key)` triples. -/
def chunkTriples (decode : Decoder) (fuel : Nat) (overlap_token_size max_token_size : Int)
    (xs : List (List Int × Str × Str)) : Except Fault (List TextChunk) :=
  chunking_by_token_size decode fuel (xs.map (fun x => x.1)) (xs.map (fun x => x.2.1))
    (xs.map (fun x => x.2.2)) overlap_token_size max_token_size

/-- The chunks pushed for the document at position `index`: one pass through
the body of the loop over documents, started with no earlier result. -/
def docBody (decode : Decoder) (fuel : Nat) (docs doc_keys : List Str)
    (overlap_token_size max_token_size : Int) (tokens : List Int) (index : Nat) :
    Except Fault (List TextChunk) :=
  docLoop decode fuel docs doc_keys overlap_token_size max_token_size [tokens] index []

/-- The words with indices `start .. start + length - 1` of a word list,
joined by single spaces. -/
def wordsSlice (words : List Str) (start length : Int) : Str :=
  [' '].intercalate ((words.drop start.toNat).take length.toNat)

/-- One iteration of the body of the word-joining loop of
`SimpleTokenizer::decode`: `if (!text.empty()) text.push_back(' '); text += word`. -/
def joinStep (text word : Str) : Str :=
  (if text ≠ [] then text ++ [' '] else text) ++ word

/-! ## Properties of the arithmetic of `int` -/

theorem int32_eq (x : Int) (h : isInt x) : int32 x = x := by
  unfold isInt INT_MIN INT_MAX at h
  unfold int32
  omega

theorem isInt_int32 (x : Int) : isInt (int32 x) := by
  unfold isInt INT_MIN INT_MAX int32
  omega

theorem intAdd_eq (a b : Int) (h : isInt (a + b)) : intAdd a b = a + b := by
  unfold intAdd
  split
  · exact int32_eq _ h
  · rfl

theorem intSub_eq (a b : Int) (h : isInt (a - b)) : intSub a b = a - b := by
  unfold intSub
  split
  · exact int32_eq _ h
  · rfl

/-- A sum of the type `int` is the mathematical sum, unless both arguments
are values of `int` and the sum is not: then it is off by `2^32`. -/
theorem intAdd_cases (a b : Int) :
    intAdd a b = a + b ∨
    (isInt a ∧ isInt b ∧
      ((INT_MAX < a + b ∧ intAdd a b = a + b - 4294967296) ∨
        (a + b < INT_MIN ∧ intAdd a b = a + b + 4294967296))) := by
  unfold intAdd
  split
  · rename_i h
    obtain ⟨ha, hb⟩ := h
    simp only [isInt, INT_MIN, INT_MAX, int32] at *
    omega
  · exact Or.inl rfl

theorem intSub_cases (a b : Int) :
    intSub a b = a - b ∨
    (isInt a ∧ isInt b ∧
      ((INT_MAX < a - b ∧ intSub a b = a - b - 4294967296) ∨
        (a - b < INT_MIN ∧ intSub a b = a - b + 4294967296))) := by
  unfold intSub
  split
  · rename_i h
    obtain ⟨ha, hb⟩ := h
    simp only [isInt, INT_MIN, INT_MAX, int32] at *
    omega
  · exact Or.inl rfl

theorem intAdd_zero_left (b : Int) : intAdd 0 b = b := by
  unfold intAdd
  split
  · rename_i h
    rw [zero_add]
    exact int32_eq _ h.2
  · exact zero_add b

theorem intOfSize_eq (n : Nat) (h : (n : Int) ≤ INT_MAX) : intOfSize n = (n : Int) := by
  unfold INT_MAX at h
  unfold intOfSize int32
  omega

theorem intOfSize_le (n : Nat) : intOfSize n ≤ (n : Int) := by
  unfold intOfSize int32
  omega

theorem isInt_intOfSize (n : Nat) : isInt (intOfSize n) := isInt_int32 _

/-! ## Properties of the window loop -/

theorem subvector_window (tokens : List Int) (max_tokens start : Int)
    (h0 : 0 ≤ start) (hlt : start < (tokens.length : Int)) (hmax : 0 ≤ max_tokens) :
    subvector tokens start (min (start + max_tokens) (tokens.length : Int))
      = .ok (window tokens max_tokens start) := by
  unfold subvector window
  rw [if_pos]
  refine ⟨h0, ?_, min_le_right _ _⟩
  exact le_min (by omega) (le_of_lt hlt)

theorem windowLoop_done (tokens : List Int) (overlap max_tokens : Int) (fuel : Nat)
    (start : Int) (acc : Windows) (h : intOfSize tokens.length ≤ start) :
    windowLoop tokens overlap max_tokens fuel start acc = .ok acc := by
  cases fuel <;> simp [windowLoop, not_lt.mpr h]

theorem range_succ_map_append {α : Type} (f : Nat → α) (k : Nat) (l : List α) :
    l ++ (List.range (k + 1)).map f = (l ++ [f 0]) ++ (List.range k).map (fun i => f (i + 1)) := by
  rw [List.range_succ_eq_map]
  simp [List.map_map, Function.comp_def]

theorem windowLoop_unroll (tokens : List Int) (overlap max_tokens : Int)
    (hmax : 0 ≤ max_tokens)
    (hN1 : (tokens.length : Int) + max_tokens ≤ INT_MAX)
    (hN2 : (tokens.length : Int) + (max_tokens - overlap) ≤ INT_MAX) :
    ∀ (k fuel : Nat) (start : Int) (acc : Windows), 0 ≤ start → k ≤ fuel →
      (∀ i : Nat, i < k → start + (i : Int) * (max_tokens - overlap) < (tokens.length : Int)) →
      (tokens.length : Int) ≤ start + (k : Int) * (max_tokens - overlap) →
      0 < max_tokens - overlap →
      windowLoop tokens overlap max_tokens fuel start acc = .ok
        { chunk_token := acc.chunk_token ++ (List.range k).map
            (fun (i : Nat) => window tokens max_tokens (start + (i : Int) * (max_tokens - overlap)))
          lengths := acc.lengths ++ (List.range k).map
            (fun (i : Nat) => min max_tokens
              ((tokens.length : Int) - (start + (i : Int) * (max_tokens - overlap))))
          starts := acc.starts ++ (List.range k).map
            (fun (i : Nat) => start + (i : Int) * (max_tokens - overlap)) } := by
  have hN : intOfSize tokens.length = (tokens.length : Int) :=
    intOfSize_eq _ (by omega)
  intro k
  induction k with
  | zero =>
    intro fuel start acc _ _ _ hge _
    simp at hge
    simp [windowLoop_done tokens overlap max_tokens fuel start acc (hN ▸ hge)]
  | succ k ih =>
    intro fuel start acc h0 hfuel hlt hge hs
    obtain ⟨fuel, rfl⟩ : ∃ f, fuel = f + 1 := ⟨fuel - 1, by omega⟩
    have hstart : start < (tokens.length : Int) := by simpa using hlt 0 (by omega)
    have e2 : intAdd start max_tokens = start + max_tokens :=
      intAdd_eq _ _ (by simp only [isInt, INT_MIN, INT_MAX] at *; omega)
    have e3 : intSub max_tokens overlap = max_tokens - overlap :=
      intSub_eq _ _ (by simp only [isInt, INT_MIN, INT_MAX] at *; omega)
    have e4 : intAdd start (max_tokens - overlap) = start + (max_tokens - overlap) :=
      intAdd_eq _ _ (by simp only [isInt, INT_MIN, INT_MAX] at *; omega)
    have e5 : intSub (tokens.length : Int) start = (tokens.length : Int) - start :=
      intSub_eq _ _ (by simp only [isInt, INT_MIN, INT_MAX] at *; omega)
    rw [windowLoop, hN, e2, e3, e4, e5, if_pos hstart,
      subvector_window tokens max_tokens start h0 hstart hmax]
    simp only
    rw [ih fuel (start + (max_tokens - overlap)) _ (by omega) (by omega) ?_ ?_ hs]
    · rw [range_succ_map_append, range_succ_map_append, range_succ_map_append]
      simp only [Nat.cast_add, Nat.cast_one, Nat.cast_zero, zero_mul, add_zero]
      have e : ∀ i : Nat, start + ((i : Int) + 1) * (max_tokens - overlap)
          = start + (max_tokens - overlap) + (i : Int) * (max_tokens - overlap) := by
        intro i; ring
      simp only [e]
    · intro i hi
      have := hlt (i + 1) (by omega)
      push_cast at this
      linarith
    · push_cast at hge
      linarith

theorem windowCount_cast (n stride : Int) (hn : 0 ≤ n) (hs : 0 < stride) :
    ((windowCount n stride : Nat) : Int) = (n + stride - 1) / stride := by
  unfold windowCount
  exact Int.toNat_of_nonneg (Int.ediv_nonneg (by omega) (le_of_lt hs))

theorem windowCount_mul_ge (n stride : Int) (hn : 0 ≤ n) (hs : 0 < stride) :
    n ≤ (windowCount n stride : Int) * stride := by
  rw [windowCount_cast n stride hn hs]
  have h := Int.lt_ediv_add_one_mul_self (n + stride - 1) hs
  linarith

theorem windowCount_mul_lt (n stride : Int) (hn : 0 ≤ n) (hs : 0 < stride) (i : Nat)
    (hi : i < windowCount n stride) : (i : Int) * stride < n := by
  have hi1 : (i : Int) + 1 ≤ (windowCount n stride : Int) := by exact_mod_cast hi
  rw [windowCount_cast n stride hn hs] at hi1
  have h := Int.ediv_mul_le (n + stride - 1) (ne_of_gt hs)
  have h2 : ((i : Int) + 1) * stride ≤ (n + stride - 1) / stride * stride :=
    mul_le_mul_of_nonneg_right hi1 (le_of_lt hs)
  linarith

theorem windowCount_le (n stride : Int) (hn : 0 ≤ n) (hs : 0 < stride) :
    (windowCount n stride : Int) ≤ n := by
  rcases Nat.eq_zero_or_pos (windowCount n stride) with h | h
  · rw [h]; exact_mod_cast hn
  · have h1 := windowCount_mul_lt n stride hn hs (windowCount n stride - 1) (by omega)
    have h2 : ((windowCount n stride - 1 : Nat) : Int) = (windowCount n stride : Int) - 1 := by
      omega
    rw [h2] at h1
    have h3 : (0 : Int) ≤ (windowCount n stride : Int) - 1 := by omega
    nlinarith

/-- With a positive stride, a non-negative window size, `N + max_tokens` and
`N + stride` within the range of `int` and one unit of fuel per token, the
window loop returns the windows of the specification. -/
theorem windowLoop_eq_expected (tokens : List Int) (overlap max_tokens : Int) (fuel : Nat)
    (hs : 0 < max_tokens - overlap) (hmax : 0 ≤ max_tokens)
    (hN1 : (tokens.length : Int) + max_tokens ≤ INT_MAX)
    (hN2 : (tokens.length : Int) + (max_tokens - overlap) ≤ INT_MAX)
    (hfuel : tokens.length ≤ fuel) :
    windowLoop tokens overlap max_tokens fuel 0 Windows.empty
      = .ok (expectedWindows tokens overlap max_tokens) := by
  have hn : (0 : Int) ≤ (tokens.length : Int) := Int.natCast_nonneg _
  have hk := windowCount_le (tokens.length : Int) (max_tokens - overlap) hn hs
  rw [windowLoop_unroll tokens overlap max_tokens hmax hN1 hN2
    (windowCount (tokens.length : Int) (max_tokens - overlap)) fuel 0 Windows.empty
    le_rfl (by omega) ?_ ?_ hs]
  · simp [expectedWindows, Windows.empty]
  · intro i hi
    simpa using windowCount_mul_lt _ _ hn hs i hi
  · simpa using windowCount_mul_ge _ _ hn hs

theorem window_length (tokens : List Int) (max_tokens start : Int)
    (h0 : 0 ≤ start) (hlt : start < (tokens.length : Int)) (hmax : 0 ≤ max_tokens) :
    ((window tokens max_tokens start).length : Int)
      = min max_tokens ((tokens.length : Int) - start) := by
  unfold window
  rw [List.length_take, List.length_drop]
  omega

theorem mem_expected_starts (n stride : Int) (hn : 0 ≤ n) (hs : 0 < stride) (s : Int) :
    s ∈ (List.range (windowCount n stride)).map (fun (i : Nat) => (i : Int) * stride)
      ↔ 0 ≤ s ∧ s < n ∧ stride ∣ s := by
  simp only [List.mem_map, List.mem_range]
  constructor
  · rintro ⟨i, hi, rfl⟩
    exact ⟨mul_nonneg (Int.natCast_nonneg i) (le_of_lt hs),
      windowCount_mul_lt n stride hn hs i hi, Dvd.intro_left _ rfl⟩
  · rintro ⟨h0, hlt, c, rfl⟩
    have hc : 0 ≤ c := by
      by_contra hneg
      have : c ≤ -1 := by omega
      nlinarith
    refine ⟨c.toNat, ?_, ?_⟩
    · by_contra hge
      have hge1 : (windowCount n stride : Int) ≤ c := by
        have : windowCount n stride ≤ c.toNat := by omega
        have h2 : ((windowCount n stride : Nat) : Int) ≤ ((c.toNat : Nat) : Int) := by
          exact_mod_cast this
        rwa [Int.toNat_of_nonneg hc] at h2
      have h3 := windowCount_mul_ge n stride hn hs
      have h4 : (windowCount n stride : Int) * stride ≤ c * stride :=
        mul_le_mul_of_nonneg_right hge1 (le_of_lt hs)
      linarith
    · rw [Int.toNat_of_nonneg hc]; ring

/-- The call `chunking_by_token_size` on one document, once the window loop
has returned `w`: the windows are handed to `decode` and one chunk is pushed
per decoded text. -/
theorem chunking_single (decode : Decoder) (fuel : Nat) (tokens : List Int) (doc key : Str)
    (overlap max_tokens : Int) (w : Windows)
    (hw : windowLoop tokens overlap max_tokens fuel 0 Windows.empty = .ok w) :
    chunking_by_token_size decode fuel [tokens] [doc] [key] overlap max_tokens
      = match decode w.chunk_token doc w.starts w.lengths with
        | .error e => .error e
        | .ok chunk_texts => emitLoop w.lengths (some key) chunk_texts 0 [] := by
  simp only [chunking_by_token_size, docLoop, hw, List.getElem?_cons_zero]
  cases decode w.chunk_token doc w.starts w.lengths with
  | error e => rfl
  | ok texts =>
    simp only
    cases emitLoop w.lengths (some key) texts 0 [] <;> rfl

theorem chunking_single_error (decode : Decoder) (fuel : Nat) (tokens : List Int)
    (doc key : Str) (overlap max_tokens : Int) (e : Fault)
    (hw : windowLoop tokens overlap max_tokens fuel 0 Windows.empty = .error e) :
    chunking_by_token_size decode fuel [tokens] [doc] [key] overlap max_tokens = .error e := by
  simp only [chunking_by_token_size, docLoop, hw]

/-- C1 (amended).  For every token sequence of length `N`, every
`max_tokens ≥ 0` and every `overlap_tokens` with
`stride = max_tokens - overlap_tokens > 0`, such that `N + max_tokens` and
`N + stride` are values of `int`, the window loop of
`chunking_by_token_size` returns (given one unit of fuel per token) the vectors
`w` with: the starts are `0, stride, 2 * stride, ...` in that order; a number
is a start exactly when it is a multiple of `stride` in `[0, N)`; the window at
`start` is `tokens[start : min(start + max_tokens, N)]`, recorded with length
`min(max_tokens, N - start)`, which is the number of its tokens; and these
vectors are what the call on that document hands to `decode`.  With `N = 10`,
`max_tokens = 4`, `overlap_tokens = 1` the starts are `[0, 3, 6, 9]` and the
lengths `[4, 4, 4, 1]`; with `N = 0` there is no window. -/
theorem chunking_windows (tokens : List Int) (overlap max_tokens : Int) (fuel : Nat)
    (hs : 0 < max_tokens - overlap) (hmax : 0 ≤ max_tokens)
    (hN1 : (tokens.length : Int) + max_tokens ≤ INT_MAX)
    (hN2 : (tokens.length : Int) + (max_tokens - overlap) ≤ INT_MAX)
    (hfuel : tokens.length ≤ fuel) :
    ∃ w : Windows,
      windowLoop tokens overlap max_tokens fuel 0 Windows.empty = .ok w ∧
      w.starts = (List.range w.starts.length).map
        (fun (i : Nat) => (i : Int) * (max_tokens - overlap)) ∧
      (∀ s : Int, s ∈ w.starts ↔
        0 ≤ s ∧ s < (tokens.length : Int) ∧ (max_tokens - overlap) ∣ s) ∧
      w.chunk_token = w.starts.map (fun s => window tokens max_tokens s) ∧
      w.lengths = w.starts.map (fun s => min max_tokens ((tokens.length : Int) - s)) ∧
      (∀ s ∈ w.starts,
        ((window tokens max_tokens s).length : Int)
          = min max_tokens ((tokens.length : Int) - s)) ∧
      (∀ (decode : Decoder) (doc key : Str),
        chunking_by_token_size decode fuel [tokens] [doc] [key] overlap max_tokens
          = match decode w.chunk_token doc w.starts w.lengths with
            | .error e => .error e
            | .ok chunk_texts => emitLoop w.lengths (some key) chunk_texts 0 []) ∧
      (tokens.length = 10 → max_tokens = 4 → overlap = 1 →
        w.starts = [0, 3, 6, 9] ∧ w.lengths = [4, 4, 4, 1]) ∧
      (tokens.length = 0 → w = Windows.empty) := by
  have hn : (0 : Int) ≤ (tokens.length : Int) := Int.natCast_nonneg _
  have hw := windowLoop_eq_expected tokens overlap max_tokens fuel hs hmax hN1 hN2 hfuel
  have hmem := mem_expected_starts (tokens.length : Int) (max_tokens - overlap) hn hs
  refine ⟨expectedWindows tokens overlap max_tokens, hw, ?_, ?_, ?_, ?_, ?_, ?_, ?_, ?_⟩
  · simp [expectedWindows]
  · intro s
    simpa [expectedWindows] using hmem s
  · simp [expectedWindows, List.map_map, Function.comp_def]
  · simp [expectedWindows, List.map_map, Function.comp_def]
  · intro s hsmem
    have h := (hmem s).mp (by simpa [expectedWindows] using hsmem)
    exact window_length tokens max_tokens s h.1 h.2.1 hmax
  · intro decode doc key
    exact chunking_single decode fuel tokens doc key overlap max_tokens _ hw
  · intro h10 h4 h1
    subst h4 h1
    simp only [expectedWindows, h10]
    decide
  · intro h0
    have hk : windowCount (0 : Int) (max_tokens - overlap) = 0 := by
      have := windowCount_le 0 (max_tokens - overlap) le_rfl hs
      omega
    simp [expectedWindows, h0, hk, Windows.empty]

/-- Witness of `chunking_windows`: ten tokens, `max_tokens = 4`,
`overlap_tokens = 1`, fuel 10. -/
theorem chunking_windows_witness :
    ∃ w : Windows,
      windowLoop [0, 1, 2, 3, 4, 5, 6, 7, 8, 9] 1 4 10 0 Windows.empty = .ok w ∧
      w.starts = [0, 3, 6, 9] ∧ w.lengths = [4, 4, 4, 1] := by
  obtain ⟨w, hw, _, _, _, _, _, _, hex, _⟩ :=
    chunking_windows [0, 1, 2, 3, 4, 5, 6, 7, 8, 9] 1 4 10 (by decide) (by decide) (by decide)
      (by decide) (by decide)
  exact ⟨w, hw, hex rfl rfl rfl⟩

/-- The window loop on ten tokens with `max_tokens = 2147483647` and
`overlap_tokens = 2147483644` (stride 3): the first window is `[0, 10)`; at
`start = 3` the sum `start + max_tokens` overflows, the end of the second range
lies before its begin, and the loop does not return. -/
theorem windowLoop_overflow (tokens : List Int) (hlen : tokens.length = 10) :
    ∀ (fuel : Nat) (w : Windows),
      windowLoop tokens 2147483644 2147483647 fuel 0 Windows.empty ≠ .ok w := by
  have hN : intOfSize tokens.length = 10 := by rw [hlen]; decide
  have e1 : intAdd 0 2147483647 = 2147483647 := by decide
  have e2 : intSub 2147483647 2147483644 = 3 := by decide
  have e3 : intAdd 0 3 = 3 := by decide
  have e4 : intAdd 3 2147483647 = -2147483646 := by decide
  have hsub : subvector tokens 0 (min 2147483647 10)
      = .ok ((tokens.drop 0).take 10) := by
    unfold subvector
    rw [if_pos (by rw [hlen]; decide)]
    rfl
  have hsub2 : subvector tokens 3 (min (-2147483646) 10) = .error .invalidRange := by
    unfold subvector
    rw [if_neg (by intro h; have := h.2.1; revert this; decide)]
  intro fuel w
  match fuel with
  | 0 => simp [windowLoop, hN]
  | 1 =>
    rw [windowLoop, hN, if_pos (by decide), e1, hsub]
    simp [windowLoop, hN, e2, e3]
  | fuel + 2 =>
    rw [windowLoop, hN, if_pos (by decide), e1, hsub]
    simp only [e2, e3]
    rw [windowLoop, hN, if_pos (by decide), e4, hsub2]
    simp

/-- C1 as stated fails for a negative `max_tokens`: with `max_tokens = -1` and
`overlap_tokens = -3` the stride is `2 > 0`, yet on a one-token document the
first iteration builds the vector from the iterator range `[begin, begin - 1)`
and no window is produced, whatever the decoder and the step budget.  It also
fails when `start + max_tokens` leaves the range of `int`: with ten tokens,
`max_tokens = 2147483647` and `overlap_tokens = 2147483644` (stride 3) the
loop does not return the windows at the starts 0, 3, 6, 9. -/
theorem chunking_windows_negative_max :
    (0 : Int) < -1 - -3 ∧
    (∀ (fuel : Nat) (w : Windows), windowLoop [7] (-3) (-1) fuel 0 Windows.empty ≠ .ok w) ∧
    (∀ (decode : Decoder) (fuel : Nat) (doc key : Str),
      chunking_by_token_size decode (fuel + 1) [[7]] [doc] [key] (-3) (-1)
        = .error .invalidRange) ∧
    (0 : Int) < 2147483647 - 2147483644 ∧
    (∀ (fuel : Nat) (w : Windows),
      windowLoop [0, 1, 2, 3, 4, 5, 6, 7, 8, 9] 2147483644 2147483647 fuel 0 Windows.empty
        ≠ .ok w) := by
  have hN : intOfSize [(7 : Int)].length = 1 := by decide
  have e1 : intAdd 0 (-1) = -1 := by decide
  have hsub : subvector [7] 0 (min (-1) 1) = .error .invalidRange := by decide
  refine ⟨by decide, ?_, ?_, by decide, windowLoop_overflow _ rfl⟩
  · intro fuel w
    cases fuel with
    | zero =>
      rw [windowLoop, hN, if_pos (by decide)]
      simp
    | succ fuel =>
      rw [windowLoop, hN, if_pos (by decide), e1, hsub]
      simp
  · intro decode fuel doc key
    exact chunking_single_error decode (fuel + 1) [7] doc key (-3) (-1) _
      (by rw [windowLoop, hN, if_pos (by decide), e1, hsub])

theorem emitLoop_eq (lengths : List Int) (doc_key : Option Str) :
    ∀ (texts : List Str) (i : Nat) (results : List TextChunk),
      emitLoop lengths doc_key texts i results
        = if texts = [] ∨ (i + texts.length ≤ lengths.length ∧ doc_key.isSome) then
            .ok (results ++ texts.mapIdx (chunkAt lengths doc_key i))
          else .error .invalidRange := by
  intro texts
  induction texts with
  | nil => intro i results; simp [emitLoop]
  | cons t ts ih =>
    intro i results
    rcases hl : lengths[i]? with _ | len
    · have hi : lengths.length ≤ i := List.getElem?_eq_none_iff.mp hl
      simp only [emitLoop, hl]
      rw [if_neg]
      rintro (h | ⟨h, _⟩)
      · exact absurd h (by simp)
      · simp at h; omega
    · have hi : i < lengths.length := by
        by_contra hge
        rw [List.getElem?_eq_none_iff.mpr (by omega)] at hl
        exact absurd hl (by simp)
      cases doc_key with
      | none => simp [emitLoop, hl]
      | some key =>
        simp only [emitLoop, hl, ih, Option.isSome_some, and_true, List.length_cons]
        have hc : (ts = [] ∨ i + 1 + ts.length ≤ lengths.length)
            ↔ (t :: ts = [] ∨ i + (ts.length + 1) ≤ lengths.length) := by
          constructor
          · rintro (h | h)
            · right; subst h; simp; omega
            · right; omega
          · rintro (h | h)
            · exact absurd h (by simp)
            · right; omega
        have hm : results ++ [⟨len, t, key, (i : Int)⟩]
              ++ ts.mapIdx (chunkAt lengths (some key) (i + 1))
            = results ++ (t :: ts).mapIdx (chunkAt lengths (some key) i) := by
          rw [List.mapIdx_cons]
          have e : (fun j => chunkAt lengths (some key) i (j + 1))
              = chunkAt lengths (some key) (i + 1) := by
            funext j text
            simp [chunkAt, Nat.add_comm, Nat.add_left_comm]
          simp [chunkAt, hl, e]
        by_cases hcond : ts = [] ∨ i + 1 + ts.length ≤ lengths.length
        · rw [if_pos hcond, if_pos (hc.mp hcond), hm]
        · rw [if_neg hcond, if_neg (fun h => hcond (hc.mpr h))]

theorem subvector_length (v : List Int) (b e : Int) (sub : List Int)
    (h : subvector v b e = .ok sub) :
    0 ≤ b ∧ b ≤ e ∧ e ≤ (v.length : Int) ∧ (sub.length : Int) = e - b := by
  unfold subvector at h
  by_cases hv : 0 ≤ b ∧ b ≤ e ∧ e ≤ (v.length : Int)
  · rw [if_pos hv] at h
    cases h
    refine ⟨hv.1, hv.2.1, hv.2.2, ?_⟩
    rw [List.length_take, List.length_drop]
    omega
  · rw [if_neg hv] at h
    exact absurd h (by simp)

/-- An iteration of the window loop that builds its vector has met no
overflow: the range is `[start, min(start + max_tokens, n))` for
`n = (int)tokens.size()`, and the recorded length is the number of its
tokens. -/
theorem window_step_exact (tokens : List Int) (max_tokens start : Int) (sub : List Int)
    (hlt : start < intOfSize tokens.length)
    (hsub : subvector tokens start
      (min (intAdd start max_tokens) (intOfSize tokens.length)) = .ok sub) :
    0 ≤ start ∧ 0 ≤ max_tokens ∧
    intAdd start max_tokens = start + max_tokens ∧
    intSub (intOfSize tokens.length) start = intOfSize tokens.length - start ∧
    (sub.length : Int) = min max_tokens (intOfSize tokens.length - start) ∧
    intOfSize tokens.length ≤ (tokens.length : Int) := by
  obtain ⟨h0, hbe, _, hlen⟩ := subvector_length _ _ _ _ hsub
  have hn := isInt_intOfSize tokens.length
  have hle := intOfSize_le tokens.length
  have hadd : intAdd start max_tokens = start + max_tokens := by
    rcases intAdd_cases start max_tokens with h | ⟨ha, hb, h | h⟩
    · exact h
    · simp only [isInt, INT_MIN, INT_MAX] at *
      omega
    · simp only [isInt, INT_MIN, INT_MAX] at *
      omega
  have hsubt : intSub (intOfSize tokens.length) start = intOfSize tokens.length - start :=
    intSub_eq _ _ (by simp only [isInt, INT_MIN, INT_MAX] at *; omega)
  rw [hadd] at hbe hlen
  refine ⟨h0, by omega, hadd, hsubt, by omega, hle⟩

theorem windowLoop_lengths (tokens : List Int) (overlap max_tokens : Int) :
    ∀ (fuel : Nat) (start : Int) (acc w : Windows),
      acc.lengths = acc.chunk_token.map (fun x => (x.length : Int)) →
      windowLoop tokens overlap max_tokens fuel start acc = .ok w →
      w.lengths = w.chunk_token.map (fun x => (x.length : Int)) := by
  intro fuel
  induction fuel with
  | zero =>
    intro start acc w hacc h
    rw [windowLoop] at h
    by_cases hlt : start < intOfSize tokens.length
    · rw [if_pos hlt] at h
      exact absurd h (by simp)
    · rw [if_neg hlt] at h
      cases h; exact hacc
  | succ fuel ih =>
    intro start acc w hacc h
    rw [windowLoop] at h
    by_cases hlt : start < intOfSize tokens.length
    · rw [if_pos hlt] at h
      cases hsub : subvector tokens start
          (min (intAdd start max_tokens) (intOfSize tokens.length)) with
      | error e =>
        rw [hsub] at h
        exact absurd h (by simp)
      | ok sub =>
        rw [hsub] at h
        obtain ⟨_, _, _, hsubt, hlen, _⟩ :=
          window_step_exact tokens max_tokens start sub hlt hsub
        refine ih _ _ w ?_ h
        simp only [hacc, List.map_append, List.map_cons, List.map_nil]
        rw [hsubt, hlen]
    · rw [if_neg hlt] at h
      cases h; exact hacc

theorem windowLoop_lengths_length (tokens : List Int) (overlap max_tokens : Int)
    (fuel : Nat) (w : Windows)
    (hw : windowLoop tokens overlap max_tokens fuel 0 Windows.empty = .ok w) :
    w.lengths = w.chunk_token.map (fun x => (x.length : Int)) ∧
      w.lengths.length = w.chunk_token.length := by
  have h := windowLoop_lengths tokens overlap max_tokens fuel 0 Windows.empty w rfl hw
  exact ⟨h, by rw [h, List.length_map]⟩

theorem mapIdx_order_index (lengths : List Int) (key : Str) (texts : List Str) :
    (texts.mapIdx (chunkAt lengths (some key) 0)).map (fun c => c.chunk_order_index)
      = (List.range texts.length).map (fun (i : Nat) => (i : Int)) := by
  apply List.ext_getElem?
  intro i
  by_cases hi : i < texts.length
  · simp [List.getElem?_mapIdx, List.getElem?_range, hi, chunkAt,
      List.getElem?_eq_getElem hi]
  · have h1 : texts[i]? = none := List.getElem?_eq_none_iff.mpr (by omega)
    have h2 : (List.range texts.length)[i]? = none :=
      List.getElem?_eq_none_iff.mpr (by simp; omega)
    simp [List.getElem?_mapIdx, h1, h2]

/-- The chunk list of a call on one document whose window loop returned `w`
and whose decoder returned one text per window. -/
theorem chunking_single_ok (decode : Decoder) (fuel : Nat) (tokens : List Int)
    (doc key : Str) (overlap max_tokens : Int) (w : Windows) (texts : List Str)
    (hw : windowLoop tokens overlap max_tokens fuel 0 Windows.empty = .ok w)
    (hd : decode w.chunk_token doc w.starts w.lengths = .ok texts)
    (hlen : texts.length = w.chunk_token.length) :
    chunking_by_token_size decode fuel [tokens] [doc] [key] overlap max_tokens
      = .ok (texts.mapIdx (chunkAt w.lengths (some key) 0)) := by
  obtain ⟨_, hll⟩ := windowLoop_lengths_length tokens overlap max_tokens fuel w hw
  rw [chunking_single decode fuel tokens doc key overlap max_tokens w hw, hd]
  simp only [emitLoop_eq]
  rw [if_pos (Or.inr ⟨by omega, rfl⟩)]
  simp

theorem chunks_of_windows (decode : Decoder) (fuel : Nat) (tokens : List Int)
    (doc key : Str) (overlap max_tokens : Int) (w : Windows) (texts : List Str)
    (hw : windowLoop tokens overlap max_tokens fuel 0 Windows.empty = .ok w)
    (hd : decode w.chunk_token doc w.starts w.lengths = .ok texts)
    (hlen : texts.length = w.chunk_token.length) :
    ∃ chunks : List TextChunk,
      chunking_by_token_size decode fuel [tokens] [doc] [key] overlap max_tokens = .ok chunks ∧
      chunks.length = w.chunk_token.length ∧
      (∀ i : Nat, i < w.chunk_token.length →
        ∃ (c : TextChunk) (win : List Int) (text : Str),
          chunks[i]? = some c ∧ w.chunk_token[i]? = some win ∧ texts[i]? = some text ∧
          c.tokens = (win.length : Int) ∧ c.content = text ∧ c.full_doc_id = key ∧
          c.chunk_order_index = (i : Int)) ∧
      chunks.map (fun c => c.chunk_order_index)
        = (List.range w.chunk_token.length).map (fun (i : Nat) => (i : Int)) := by
  obtain ⟨hmap, hll⟩ := windowLoop_lengths_length tokens overlap max_tokens fuel w hw
  refine ⟨texts.mapIdx (chunkAt w.lengths (some key) 0), ?_, ?_, ?_, ?_⟩
  · exact chunking_single_ok decode fuel tokens doc key overlap max_tokens w texts hw hd hlen
  · simp [hlen]
  · intro i hi
    have hit : i < texts.length := by omega
    refine ⟨chunkAt w.lengths (some key) 0 i texts[i], w.chunk_token[i], texts[i], ?_,
      List.getElem?_eq_getElem hi, List.getElem?_eq_getElem hit, ?_, rfl, rfl, ?_⟩
    · simp [List.getElem?_mapIdx, List.getElem?_eq_getElem hit]
    · simp [chunkAt, hmap, List.getElem?_map, List.getElem?_eq_getElem hi]
    · simp [chunkAt]
  · rw [mapIdx_order_index, hlen]

/-- C4.  For every document whose tokenizer `decode` returns one text per
window: whenever the window loop has returned the windows `w`, the call of
`chunking_by_token_size` on that document returns one chunk per window, the
`i`-th chunk (from 0) having `tokens` equal to the number of tokens of the
`i`-th window, `content` equal to the `i`-th decoded text, `full_doc_id` equal
to the document's key and `chunk_order_index` equal to `i`; so the order
indices of a document with `k` windows are `0, ..., k - 1` in window order.
The window loop does return when the stride is positive, `max_tokens ≥ 0`,
`N + max_tokens` and `N + stride` are values of `int` and there is one unit of
fuel per token. -/
theorem chunking_chunk_fields (decode : Decoder) (fuel : Nat) (tokens : List Int)
    (doc key : Str) (overlap max_tokens : Int) :
    (0 < max_tokens - overlap → 0 ≤ max_tokens →
      (tokens.length : Int) + max_tokens ≤ INT_MAX →
      (tokens.length : Int) + (max_tokens - overlap) ≤ INT_MAX → tokens.length ≤ fuel →
      ∃ w : Windows, windowLoop tokens overlap max_tokens fuel 0 Windows.empty = .ok w) ∧
    (∀ (w : Windows) (texts : List Str),
      windowLoop tokens overlap max_tokens fuel 0 Windows.empty = .ok w →
      decode w.chunk_token doc w.starts w.lengths = .ok texts →
      texts.length = w.chunk_token.length →
      ∃ chunks : List TextChunk,
        chunking_by_token_size decode fuel [tokens] [doc] [key] overlap max_tokens
          = .ok chunks ∧
        chunks.length = w.chunk_token.length ∧
        (∀ i : Nat, i < w.chunk_token.length →
          ∃ (c : TextChunk) (win : List Int) (text : Str),
            chunks[i]? = some c ∧ w.chunk_token[i]? = some win ∧ texts[i]? = some text ∧
            c.tokens = (win.length : Int) ∧ c.content = text ∧ c.full_doc_id = key ∧
            c.chunk_order_index = (i : Int)) ∧
        chunks.map (fun c => c.chunk_order_index)
          = (List.range w.chunk_token.length).map (fun (i : Nat) => (i : Int))) := by
  constructor
  · intro hs hmax hN1 hN2 hfuel
    exact ⟨_, windowLoop_eq_expected tokens overlap max_tokens fuel hs hmax hN1 hN2 hfuel⟩
  · intro w texts hw hd hlen
    exact chunks_of_windows decode fuel tokens doc key overlap max_tokens w texts hw hd hlen

/-- Witness of `chunking_chunk_fields`: the document `a bb  ccc d e` under the
whitespace tokenizer with `max_tokens = 3`, `overlap_tokens = 1`. -/
theorem chunking_chunk_fields_witness :
    ∃ chunks : List TextChunk,
      chunking_by_token_size SimpleTokenizer.decode 5 [[1, 1, 1, 1, 1]]
        ["a bb  ccc d e".toList] ["k".toList] 1 3 = .ok chunks ∧
      chunks.length = 3 ∧
      chunks.map (fun c => c.chunk_order_index) = [0, 1, 2] := by
  obtain ⟨chunks, h, hlen, _, hidx⟩ :=
    (chunking_chunk_fields SimpleTokenizer.decode 5 [1, 1, 1, 1, 1] "a bb  ccc d e".toList
      "k".toList 1 3).2 ⟨[[1, 1, 1], [1, 1, 1], [1]], [3, 3, 1], [0, 2, 4]⟩
      ["a bb ccc".toList, "ccc d e".toList, "e".toList] (by decide) (by decide) (by decide)
  exact ⟨chunks, h, hlen, hidx.trans (by decide)⟩

/-! ## The number of windows -/

theorem windowCount_eq_ceil (n stride : Int) (hn : 0 ≤ n) (hs : 0 < stride) :
    (windowCount n stride : Int) = ⌈(n : ℚ) / (stride : ℚ)⌉ := by
  have hsq : (0 : ℚ) < (stride : ℚ) := by exact_mod_cast hs
  have hlow : ((windowCount n stride : Int) - 1) * stride < n := by
    rcases Nat.eq_zero_or_pos (windowCount n stride) with h | h
    · rw [h]; simp; omega
    · have h1 := windowCount_mul_lt n stride hn hs (windowCount n stride - 1) (by omega)
      have h2 : ((windowCount n stride - 1 : Nat) : Int) = (windowCount n stride : Int) - 1 := by
        omega
      rwa [h2] at h1
  have hup := windowCount_mul_ge n stride hn hs
  symm
  rw [Int.ceil_eq_iff]
  constructor
  · rw [lt_div_iff₀ hsq]
    exact_mod_cast hlow
  · rw [div_le_iff₀ hsq]
    exact_mod_cast hup

/-- C3 (amended).  For every `N ≥ 1` and every `max_tokens`, `overlap_tokens`
with `0 ≤ overlap_tokens < max_tokens` and `N + max_tokens` a value of `int`,
the number of windows of a document of `N` tokens equals `ceil(N / stride)`
where `stride = max_tokens - overlap_tokens`, and so does the number of chunks
produced for it when `decode` returns one text per window. -/
theorem chunking_chunk_count (decode : Decoder) (fuel : Nat) (tokens : List Int)
    (doc key : Str) (overlap max_tokens : Int)
    (_hN : 1 ≤ tokens.length) (h0 : 0 ≤ overlap) (hlt : overlap < max_tokens)
    (hN1 : (tokens.length : Int) + max_tokens ≤ INT_MAX)
    (hfuel : tokens.length ≤ fuel) :
    ∃ w : Windows,
      windowLoop tokens overlap max_tokens fuel 0 Windows.empty = .ok w ∧
      (w.chunk_token.length : Int)
        = ⌈((tokens.length : Int) : ℚ) / ((max_tokens - overlap : Int) : ℚ)⌉ ∧
      ∀ texts : List Str,
        decode w.chunk_token doc w.starts w.lengths = .ok texts →
        texts.length = w.chunk_token.length →
        ∃ chunks : List TextChunk,
          chunking_by_token_size decode fuel [tokens] [doc] [key] overlap max_tokens
            = .ok chunks ∧
          (chunks.length : Int)
            = ⌈((tokens.length : Int) : ℚ) / ((max_tokens - overlap : Int) : ℚ)⌉ := by
  have hs : 0 < max_tokens - overlap := by omega
  have hw := windowLoop_eq_expected tokens overlap max_tokens fuel hs (by omega) hN1 (by omega)
    hfuel
  have hcount : ((expectedWindows tokens overlap max_tokens).chunk_token.length : Int)
      = ⌈((tokens.length : Int) : ℚ) / ((max_tokens - overlap : Int) : ℚ)⌉ := by
    rw [← windowCount_eq_ceil _ _ (Int.natCast_nonneg _) hs]
    simp [expectedWindows]
  refine ⟨_, hw, hcount, ?_⟩
  intro texts hdec hlen
  refine ⟨_, chunking_single_ok decode fuel tokens doc key overlap max_tokens _ texts hw hdec
    hlen, ?_⟩
  rw [List.length_mapIdx, hlen]
  exact hcount

/-- Witness of `chunking_chunk_count`: the ten words `a b c d e f g h i j`
under the whitespace tokenizer with `max_tokens = 4`, `overlap_tokens = 1`. -/
theorem chunking_chunk_count_witness :
    ∃ (w : Windows) (chunks : List TextChunk),
      windowLoop [1, 1, 1, 1, 1, 1, 1, 1, 1, 1] 1 4 10 0 Windows.empty = .ok w ∧
      chunking_by_token_size SimpleTokenizer.decode 10 [[1, 1, 1, 1, 1, 1, 1, 1, 1, 1]]
        ["a b c d e f g h i j".toList] ["k".toList] 1 4 = .ok chunks ∧
      (w.chunk_token.length : Int) = ⌈(((10 : Nat) : Int) : ℚ) / (((4 : Int) - 1 : Int) : ℚ)⌉ ∧
      (chunks.length : Int) = ⌈(((10 : Nat) : Int) : ℚ) / (((4 : Int) - 1 : Int) : ℚ)⌉ := by
  obtain ⟨w, hw, hcount, hch⟩ :=
    chunking_chunk_count SimpleTokenizer.decode 10 [1, 1, 1, 1, 1, 1, 1, 1, 1, 1]
      "a b c d e f g h i j".toList "k".toList 1 4 (by decide) (by decide) (by decide)
      (by decide) (by decide)
  have hw2 : windowLoop [1, 1, 1, 1, 1, 1, 1, 1, 1, 1] 1 4 10 0 Windows.empty
      = .ok ⟨[[1, 1, 1, 1], [1, 1, 1, 1], [1, 1, 1, 1], [1]], [4, 4, 4, 1], [0, 3, 6, 9]⟩ := by
    decide
  have hweq : w = ⟨[[1, 1, 1, 1], [1, 1, 1, 1], [1, 1, 1, 1], [1]], [4, 4, 4, 1], [0, 3, 6, 9]⟩ := by
    rw [hw] at hw2
    exact Except.ok.inj hw2
  subst hweq
  obtain ⟨chunks, h1, h2⟩ :=
    hch ["a b c d".toList, "d e f g".toList, "g h i j".toList, "j".toList] (by decide)
      (by decide)
  exact ⟨_, chunks, hw, h1, hcount, h2⟩

/-- C3 as stated fails: ten tokens with `max_tokens = 4`, `overlap_tokens = 1`
give four chunks (starts 0, 3, 6, 9), whereas
`ceil((N - overlap_tokens) / stride) = ceil(9 / 3) = 3`. -/
theorem chunking_chunk_count_not_overlap_formula :
    (∃ chunks : List TextChunk,
      chunking_by_token_size SimpleTokenizer.decode 10 [[1, 1, 1, 1, 1, 1, 1, 1, 1, 1]]
        ["a b c d e f g h i j".toList] ["k".toList] 1 4 = .ok chunks ∧
      chunks.length = 4) ∧
    ⌈((10 : ℚ) - 1) / ((4 : ℚ) - 1)⌉ = 3 := by
  constructor
  · exact ⟨[⟨4, "a b c d".toList, "k".toList, 0⟩, ⟨4, "d e f g".toList, "k".toList, 1⟩,
      ⟨4, "g h i j".toList, "k".toList, 2⟩, ⟨1, "j".toList, "k".toList, 3⟩],
      by decide, by decide⟩
  · rw [Int.ceil_eq_iff]
    norm_num

/-! ## The loop over documents -/

theorem docLoop_cons (decode : Decoder) (fuel : Nat) (docs doc_keys : List Str)
    (overlap max_tokens : Int) (tokens : List Int) (rest : List (List Int)) (index : Nat)
    (results : List TextChunk) :
    docLoop decode fuel docs doc_keys overlap max_tokens (tokens :: rest) index results
      = match docBody decode fuel docs doc_keys overlap max_tokens tokens index with
        | .error e => .error e
        | .ok cs =>
          docLoop decode fuel docs doc_keys overlap max_tokens rest (index + 1)
            (results ++ cs) := by
  simp only [docBody, docLoop]
  cases windowLoop tokens overlap max_tokens fuel 0 Windows.empty with
  | error e => rfl
  | ok w =>
    simp only
    cases docs[index]? with
    | none => rfl
    | some doc =>
      simp only
      cases decode w.chunk_token doc w.starts w.lengths with
      | error e => rfl
      | ok texts =>
        simp only [emitLoop_eq]
        by_cases hc : texts = [] ∨ (0 + texts.length ≤ w.lengths.length ∧ doc_keys[index]?.isSome)
        · simp only [if_pos hc, List.nil_append]
        · simp only [if_neg hc]

theorem docLoop_append (decode : Decoder) (fuel : Nat) (docs doc_keys : List Str)
    (overlap max_tokens : Int) (tl2 : List (List Int)) :
    ∀ (tl1 : List (List Int)) (index : Nat) (results : List TextChunk),
      docLoop decode fuel docs doc_keys overlap max_tokens (tl1 ++ tl2) index results
        = match docLoop decode fuel docs doc_keys overlap max_tokens tl1 index results with
          | .error e => .error e
          | .ok r =>
            docLoop decode fuel docs doc_keys overlap max_tokens tl2 (index + tl1.length) r := by
  intro tl1
  induction tl1 with
  | nil => intro index results; simp [docLoop]
  | cons t tl1 ih =>
    intro index results
    rw [List.cons_append, docLoop_cons, docLoop_cons]
    cases docBody decode fuel docs doc_keys overlap max_tokens t index with
    | error e => rfl
    | ok cs =>
      simp only [ih, List.length_cons]
      have e : index + 1 + tl1.length = index + (tl1.length + 1) := by omega
      rw [e]

theorem docLoop_results (decode : Decoder) (fuel : Nat) (docs doc_keys : List Str)
    (overlap max_tokens : Int) :
    ∀ (tl : List (List Int)) (index : Nat) (results : List TextChunk),
      docLoop decode fuel docs doc_keys overlap max_tokens tl index results
        = match docLoop decode fuel docs doc_keys overlap max_tokens tl index [] with
          | .error e => .error e
          | .ok r => .ok (results ++ r) := by
  intro tl
  induction tl with
  | nil => intro index results; simp [docLoop]
  | cons t tl ih =>
    intro index results
    rw [docLoop_cons, docLoop_cons]
    cases docBody decode fuel docs doc_keys overlap max_tokens t index with
    | error e => rfl
    | ok cs =>
      simp only [List.nil_append]
      rw [ih (index + 1) (results ++ cs), ih (index + 1) cs]
      cases docLoop decode fuel docs doc_keys overlap max_tokens tl (index + 1) [] with
      | error e => rfl
      | ok r => simp

theorem docBody_congr (decode : Decoder) (fuel : Nat) (docs doc_keys docs1 doc_keys1 : List Str)
    (overlap max_tokens : Int) (tokens : List Int) (index index1 : Nat)
    (hd : docs[index]? = docs1[index1]?) (hk : doc_keys[index]? = doc_keys1[index1]?) :
    docBody decode fuel docs doc_keys overlap max_tokens tokens index
      = docBody decode fuel docs1 doc_keys1 overlap max_tokens tokens index1 := by
  simp only [docBody, docLoop, hd, hk]

theorem docLoop_congr (decode : Decoder) (fuel : Nat) (docs doc_keys docs1 doc_keys1 : List Str)
    (overlap max_tokens : Int) :
    ∀ (tl : List (List Int)) (index index1 : Nat) (results : List TextChunk),
      (∀ j, j < tl.length → docs[index + j]? = docs1[index1 + j]?) →
      (∀ j, j < tl.length → doc_keys[index + j]? = doc_keys1[index1 + j]?) →
      docLoop decode fuel docs doc_keys overlap max_tokens tl index results
        = docLoop decode fuel docs1 doc_keys1 overlap max_tokens tl index1 results := by
  intro tl
  induction tl with
  | nil => intro index index1 results _ _; simp [docLoop]
  | cons t tl ih =>
    intro index index1 results hd hk
    rw [docLoop_cons, docLoop_cons,
      docBody_congr decode fuel docs doc_keys docs1 doc_keys1 overlap max_tokens t index index1
        (by simpa using hd 0 (by simp)) (by simpa using hk 0 (by simp))]
    cases docBody decode fuel docs1 doc_keys1 overlap max_tokens t index1 with
    | error e => rfl
    | ok cs =>
      simp only
      apply ih
      · intro j hj
        have h := hd (j + 1) (by simp; omega)
        have e1 : index + (j + 1) = index + 1 + j := by omega
        have e2 : index1 + (j + 1) = index1 + 1 + j := by omega
        rwa [e1, e2] at h
      · intro j hj
        have h := hk (j + 1) (by simp; omega)
        have e1 : index + (j + 1) = index + 1 + j := by omega
        have e2 : index1 + (j + 1) = index1 + 1 + j := by omega
        rwa [e1, e2] at h

theorem chunkTriples_append (decode : Decoder) (fuel : Nat) (overlap max_tokens : Int)
    (xs ys : List (List Int × Str × Str)) :
    chunkTriples decode fuel overlap max_tokens (xs ++ ys)
      = match chunkTriples decode fuel overlap max_tokens xs with
        | .error e => .error e
        | .ok a =>
          match chunkTriples decode fuel overlap max_tokens ys with
          | .error e => .error e
          | .ok b => .ok (a ++ b) := by
  simp only [chunkTriples, chunking_by_token_size, List.map_append]
  rw [docLoop_append]
  rw [docLoop_congr decode fuel _ _ (xs.map (fun x => x.2.1)) (xs.map (fun x => x.2.2))
    overlap max_tokens (xs.map (fun x => x.1)) 0 0 []
    (fun j hj => by
      simp only [List.length_map] at hj
      simp only [Nat.zero_add]
      exact List.getElem?_append_left (by simpa using hj))
    (fun j hj => by
      simp only [List.length_map] at hj
      simp only [Nat.zero_add]
      exact List.getElem?_append_left (by simpa using hj))]
  cases docLoop decode fuel (xs.map (fun x => x.2.1)) (xs.map (fun x => x.2.2)) overlap
      max_tokens (xs.map (fun x => x.1)) 0 [] with
  | error e => rfl
  | ok a =>
    simp only
    rw [docLoop_congr decode fuel _ _ (ys.map (fun x => x.2.1)) (ys.map (fun x => x.2.2))
      overlap max_tokens (ys.map (fun x => x.1)) _ 0 a
      (fun j _ => by
        simp only [List.length_map, Nat.zero_add]
        rw [List.getElem?_append_right (by simp)]
        simp)
      (fun j _ => by
        simp only [List.length_map, Nat.zero_add]
        rw [List.getElem?_append_right (by simp)]
        simp)]
    rw [docLoop_results]

theorem chunking_single_order (decode : Decoder) (fuel : Nat) (tokens : List Int)
    (doc key : Str) (overlap max_tokens : Int) (b : List TextChunk)
    (h : chunking_by_token_size decode fuel [tokens] [doc] [key] overlap max_tokens = .ok b) :
    b.map (fun c => c.chunk_order_index) = (List.range b.length).map (fun (i : Nat) => (i : Int)) := by
  cases hw : windowLoop tokens overlap max_tokens fuel 0 Windows.empty with
  | error e =>
    rw [chunking_single_error decode fuel tokens doc key overlap max_tokens e hw] at h
    exact absurd h (by simp)
  | ok w =>
    rw [chunking_single decode fuel tokens doc key overlap max_tokens w hw] at h
    cases hd : decode w.chunk_token doc w.starts w.lengths with
    | error e =>
      rw [hd] at h
      exact absurd h (by simp)
    | ok texts =>
      rw [hd] at h
      simp only [emitLoop_eq] at h
      by_cases hc : texts = [] ∨ (0 + texts.length ≤ w.lengths.length ∧ (some key).isSome)
      · rw [if_pos hc] at h
        simp only [List.nil_append, Except.ok.injEq] at h
        subst h
        rw [mapIdx_order_index, List.length_mapIdx]
      · rw [if_neg hc] at h
        exact absurd h (by simp)

/-- C5.  Chunking a list of documents equals the concatenation, in list order,
of chunking each part alone with the same `max_tokens` and `overlap_tokens`: for
all lists `xs`, `ys` of `(tokens, text, key)` triples the call on `xs ++ ys`
fails exactly when the call on `xs` or the call on `ys` fails, and otherwise
returns the chunks of `xs` followed by the chunks of `ys`; so the chunks of a
document are the same wherever it stands in the list and their order indices
restart at 0. -/
theorem chunking_concat (decode : Decoder) (fuel : Nat) (overlap max_tokens : Int)
    (xs ys : List (List Int × Str × Str)) :
    (chunkTriples decode fuel overlap max_tokens (xs ++ ys)
      = match chunkTriples decode fuel overlap max_tokens xs with
        | .error e => .error e
        | .ok a =>
          match chunkTriples decode fuel overlap max_tokens ys with
          | .error e => .error e
          | .ok b => .ok (a ++ b)) ∧
    (∀ a b : List TextChunk,
      chunkTriples decode fuel overlap max_tokens xs = .ok a →
      chunkTriples decode fuel overlap max_tokens ys = .ok b →
      chunkTriples decode fuel overlap max_tokens (xs ++ ys) = .ok (a ++ b)) ∧
    (∀ (a b : List TextChunk) (d : List Int × Str × Str),
      chunkTriples decode fuel overlap max_tokens xs = .ok a →
      chunkTriples decode fuel overlap max_tokens [d] = .ok b →
      chunkTriples decode fuel overlap max_tokens (xs ++ [d]) = .ok (a ++ b) ∧
      b.map (fun c => c.chunk_order_index)
        = (List.range b.length).map (fun (i : Nat) => (i : Int))) := by
  refine ⟨chunkTriples_append decode fuel overlap max_tokens xs ys, ?_, ?_⟩
  · intro a b ha hb
    rw [chunkTriples_append, ha, hb]
  · intro a b d ha hb
    refine ⟨by rw [chunkTriples_append, ha, hb], ?_⟩
    exact chunking_single_order decode fuel d.1 d.2.1 d.2.2 overlap max_tokens b hb

/-! ## Chunking with a stride that is not positive -/

theorem splitWords_fold (l : Str) :
    ∀ (ws : List Str) (cur : Str), (∀ c ∈ cur, ¬ isSeparator c = true) →
      (if (l.foldl splitStep (ws, cur)).2 ≠ [] then
          (l.foldl splitStep (ws, cur)).1 ++ [(l.foldl splitStep (ws, cur)).2]
        else (l.foldl splitStep (ws, cur)).1)
        = ws ++ ((cur ++ l).splitOnP isSeparator).filter (fun w => w ≠ []) := by
  induction l with
  | nil =>
    intro ws cur hcur
    simp only [List.foldl_nil, List.append_nil, List.splitOnP_eq_single isSeparator cur hcur]
    by_cases h : cur = [] <;> simp [h]
  | cons c l ih =>
    intro ws cur hcur
    rw [List.foldl_cons]
    by_cases hc : isSeparator c = true
    · rw [List.splitOnP_first isSeparator cur hcur c hc l]
      by_cases h : cur = []
      · have hstep : splitStep (ws, cur) c = (ws, []) := by simp [splitStep, hc, h]
        rw [hstep, ih ws [] (by simp)]
        simp [h]
      · have hstep : splitStep (ws, cur) c = (ws ++ [cur], []) := by simp [splitStep, hc, h]
        rw [hstep, ih (ws ++ [cur]) [] (by simp)]
        simp [h]
    · have hstep : splitStep (ws, cur) c = (ws, cur ++ [c]) := by simp [splitStep, hc]
      rw [hstep, ih ws (cur ++ [c]) ?_]
      · simp
      · intro x hx
        rcases List.mem_append.mp hx with hx | hx
        · exact hcur x hx
        · simp at hx; subst hx; exact hc

/-- The word vector of `SimpleTokenizer::decode` is the list of the maximal
runs of non-separator characters of the document. -/
theorem splitWords_eq_specWords (doc : Str) : splitWords doc = specWords doc := by
  have h := splitWords_fold doc [] [] (by simp)
  simpa [splitWords, specWords] using h

theorem specWords_ne_nil (doc : Str) : ∀ w ∈ specWords doc, w ≠ [] := by
  intro w hw
  simpa using (List.mem_filter.mp hw).2

theorem encode_fold (l : Str) :
    ∀ (toks : List Int) (inw : Bool) (ws : List Str) (cur : Str),
      toks.length = ws.length → (inw = true ↔ cur ≠ []) →
      (l.foldl encodeStep (toks, inw)).1.length = (l.foldl splitStep (ws, cur)).1.length ∧
      ((l.foldl encodeStep (toks, inw)).2 = true ↔ (l.foldl splitStep (ws, cur)).2 ≠ []) := by
  induction l with
  | nil => intro toks inw ws cur h1 h2; exact ⟨h1, h2⟩
  | cons c l ih =>
    intro toks inw ws cur h1 h2
    rw [List.foldl_cons, List.foldl_cons]
    by_cases hc : isSeparator c = true
    · by_cases h : cur = []
      · have hin : inw = false := by
          cases inw
          · rfl
          · exact absurd h (h2.mp rfl)
        have e1 : encodeStep (toks, inw) c = (toks, false) := by simp [encodeStep, hc, hin]
        have e2 : splitStep (ws, cur) c = (ws, []) := by simp [splitStep, hc, h]
        rw [e1, e2]
        exact ih _ _ _ _ h1 (by simp)
      · have hin : inw = true := h2.mpr h
        have e1 : encodeStep (toks, inw) c = (toks ++ [1], false) := by
          simp [encodeStep, hc, hin]
        have e2 : splitStep (ws, cur) c = (ws ++ [cur], []) := by simp [splitStep, hc, h]
        rw [e1, e2]
        exact ih _ _ _ _ (by simp [h1]) (by simp)
    · have e1 : encodeStep (toks, inw) c = (toks, true) := by simp [encodeStep, hc]
      have e2 : splitStep (ws, cur) c = (ws, cur ++ [c]) := by simp [splitStep, hc]
      rw [e1, e2]
      exact ih _ _ _ _ h1 (by simp)

/-- `SimpleTokenizer::encode` returns one token per word of the document. -/
theorem encode_length (doc : Str) :
    (SimpleTokenizer.encode doc).length = (splitWords doc).length := by
  obtain ⟨h1, h2⟩ := encode_fold doc [] false [] [] rfl (by simp)
  unfold SimpleTokenizer.encode splitWords
  simp only
  by_cases h : (doc.foldl splitStep ([], [])).2 = []
  · have hf : (doc.foldl encodeStep ([], false)).2 = false := by
      cases hb : (doc.foldl encodeStep ([], false)).2
      · rfl
      · exact absurd h (h2.mp hb)
    simp [h, hf, h1]
  · have hf : (doc.foldl encodeStep ([], false)).2 = true := h2.mpr h
    simp [h, hf, h1]

/-! ## The whitespace tokenizer: decoding -/

theorem joinLoop_eq_foldl (words : List Str) :
    ∀ (n : Nat) (w : Int) (text : Str), 0 ≤ w → w + (n : Int) ≤ (words.length : Int) →
      joinLoop words n w text = .ok (((words.drop w.toNat).take n).foldl joinStep text) := by
  intro n
  induction n with
  | zero => intro w text _ _; simp [joinLoop]
  | succ n ih =>
    intro w text h0 hle
    have hlt : w.toNat < words.length := by omega
    have e : (w + 1).toNat = w.toNat + 1 := by omega
    rw [joinLoop, if_pos h0, List.getElem?_eq_getElem hlt]
    simp only
    rw [ih (w + 1) _ (by omega) (by push_cast at hle ⊢; omega), e,
      List.drop_eq_getElem_cons hlt, List.take_succ_cons, List.foldl_cons]
    rfl

theorem foldl_joinStep_of_ne_nil :
    ∀ (ws : List Str) (text : Str), text ≠ [] →
      ws.foldl joinStep text = text ++ (ws.map (fun w => ' ' :: w)).flatten := by
  intro ws
  induction ws with
  | nil => intro text _; simp
  | cons w ws ih =>
    intro text h
    rw [List.foldl_cons, ih _ (by simp [joinStep, h])]
    simp [joinStep, h]

theorem intercalate_space_cons :
    ∀ (ws : List Str) (w : Str),
      [' '].intercalate (w :: ws) = w ++ (ws.map (fun x => ' ' :: x)).flatten := by
  intro ws
  induction ws with
  | nil => intro w; simp [List.intercalate]
  | cons v ws ih =>
    intro w
    have h := ih v
    simp only [List.intercalate, List.intersperse, List.flatten_cons, List.map_cons] at h ⊢
    rw [h]
    simp

theorem foldl_joinStep_eq_intercalate (ws : List Str) (h : ∀ w ∈ ws, w ≠ []) :
    ws.foldl joinStep [] = [' '].intercalate ws := by
  cases ws with
  | nil => simp [List.intercalate]
  | cons w ws =>
    have hw : w ≠ [] := h w (List.mem_cons_self _ _)
    rw [List.foldl_cons, intercalate_space_cons]
    have e : joinStep [] w = w := by simp [joinStep]
    rw [e, foldl_joinStep_of_ne_nil ws w hw]

theorem joinLoop_eq_slice (words : List Str) (hne : ∀ w ∈ words, w ≠ []) (s len : Int)
    (h0 : 0 ≤ s) (hl : 0 ≤ len) (hle : s + len ≤ (words.length : Int)) :
    joinLoop words (min (s + len) (words.length : Int) - s).toNat s []
      = .ok (wordsSlice words s len) := by
  have e : (min (s + len) (words.length : Int) - s).toNat = len.toNat := by omega
  rw [e, joinLoop_eq_foldl words len.toNat s [] h0 (by omega), wordsSlice,
    foldl_joinStep_eq_intercalate]
  intro w hw
  exact hne w (List.mem_of_mem_drop (List.mem_of_mem_take hw))

theorem decodeLoop_eq (words : List Str) (hne : ∀ w ∈ words, w ≠ []) (starts lengths : List Int) :
    ∀ (ct : List (List Int)) (i : Nat) (out : List Str),
      (∀ j, j < ct.length → ∃ s len, starts[i + j]? = some s ∧ lengths[i + j]? = some len ∧
        0 ≤ s ∧ 0 ≤ len ∧ s + len ≤ (words.length : Int)) →
      decodeLoop words starts lengths ct i out
        = .ok (out ++ (List.range ct.length).map
            (fun j => wordsSlice words ((starts[i + j]?).getD 0) ((lengths[i + j]?).getD 0))) := by
  intro ct
  induction ct with
  | nil => intro i out _; simp [decodeLoop]
  | cons c ct ih =>
    intro i out h
    obtain ⟨s, len, hs, hlen, h0, hl, hle⟩ := h 0 (by simp)
    rw [Nat.add_zero] at hs hlen
    simp only [decodeLoop, hs, hlen]
    rw [joinLoop_eq_slice words hne s len h0 hl hle]
    simp only
    rw [ih (i + 1) _ ?_, List.length_cons, range_succ_map_append]
    · simp only [Nat.add_zero, hs, hlen, Option.getD_some]
      have e : ∀ j, i + 1 + j = i + (j + 1) := by intro j; omega
      simp only [e]
    · intro j hj
      have := h (j + 1) (by simp; omega)
      have e : i + 1 + j = i + (j + 1) := by omega
      rwa [e]

theorem windowLoop_bounds (tokens : List Int) (overlap max_tokens : Int) :
    ∀ (fuel : Nat) (start : Int) (acc w : Windows),
      acc.starts.length = acc.lengths.length →
      (∀ p ∈ acc.starts.zip acc.lengths,
        0 ≤ p.1 ∧ 0 ≤ p.2 ∧ p.1 + p.2 ≤ intOfSize tokens.length) →
      windowLoop tokens overlap max_tokens fuel start acc = .ok w →
      w.starts.length = w.lengths.length ∧
      (∀ p ∈ w.starts.zip w.lengths,
        0 ≤ p.1 ∧ 0 ≤ p.2 ∧ p.1 + p.2 ≤ intOfSize tokens.length) := by
  intro fuel
  induction fuel with
  | zero =>
    intro start acc w hl hacc h
    rw [windowLoop] at h
    by_cases hlt : start < intOfSize tokens.length
    · rw [if_pos hlt] at h
      exact absurd h (by simp)
    · rw [if_neg hlt] at h
      cases h; exact ⟨hl, hacc⟩
  | succ fuel ih =>
    intro start acc w hl hacc h
    rw [windowLoop] at h
    by_cases hlt : start < intOfSize tokens.length
    · rw [if_pos hlt] at h
      cases hsub : subvector tokens start
          (min (intAdd start max_tokens) (intOfSize tokens.length)) with
      | error e =>
        rw [hsub] at h
        exact absurd h (by simp)
      | ok sub =>
        rw [hsub] at h
        obtain ⟨hb, hm0, _, hsubt, _, _⟩ :=
          window_step_exact tokens max_tokens start sub hlt hsub
        refine ih _ _ w ?_ ?_ h
        · simp [hl]
        · intro p hp
          simp only at hp
          rw [List.zip_append hl] at hp
          rcases List.mem_append.mp hp with hp | hp
          · exact hacc p hp
          · simp only [List.zip_cons_cons, List.zip_nil_right, List.mem_singleton] at hp
            subst hp
            simp only
            rw [hsubt]
            omega
    · rw [if_neg hlt] at h
      cases h; exact ⟨hl, hacc⟩

theorem windows_entry (tokens : List Int) (overlap max_tokens : Int) (fuel : Nat)
    (w : Windows) (hw : windowLoop tokens overlap max_tokens fuel 0 Windows.empty = .ok w)
    (j : Nat) (hj : j < w.starts.length) :
    ∃ s len, w.starts[j]? = some s ∧ w.lengths[j]? = some len ∧
      0 ≤ s ∧ 0 ≤ len ∧ s + len ≤ (tokens.length : Int) := by
  obtain ⟨hsl, hb⟩ := windowLoop_bounds tokens overlap max_tokens fuel 0 Windows.empty w rfl
    (by simp [Windows.empty]) hw
  have hjl : j < w.lengths.length := by omega
  have hmem : (w.starts[j], w.lengths[j]) ∈ w.starts.zip w.lengths := by
    rw [List.mem_iff_getElem]
    exact ⟨j, by simp [List.length_zip]; omega, by simp [List.getElem_zip]⟩
  obtain ⟨h1, h2, h3⟩ := hb _ hmem
  have hle := intOfSize_le tokens.length
  exact ⟨w.starts[j], w.lengths[j], List.getElem?_eq_getElem hj, List.getElem?_eq_getElem hjl,
    h1, h2, by simp only at h3; omega⟩

theorem simple_chunks_of_windows (doc key : Str) (overlap max_tokens : Int) (fuel : Nat) (w : Windows)
    (hw : windowLoop (SimpleTokenizer.encode doc) overlap max_tokens fuel 0 Windows.empty
      = .ok w) :
    splitWords doc = specWords doc ∧
    ∃ chunks : List TextChunk,
      chunking_by_token_size SimpleTokenizer.decode fuel [SimpleTokenizer.encode doc] [doc]
        [key] overlap max_tokens = .ok chunks ∧
      chunks.length = w.starts.length ∧
      ∀ i : Nat, i < w.starts.length →
        ∃ (c : TextChunk) (start len : Int),
          chunks[i]? = some c ∧ w.starts[i]? = some start ∧ w.lengths[i]? = some len ∧
          0 ≤ start ∧ 0 ≤ len ∧ start + len ≤ ((specWords doc).length : Int) ∧
          c.tokens = len ∧
          c.content
            = [' '].intercalate (((specWords doc).drop start.toNat).take len.toNat) := by
  have hwords := splitWords_eq_specWords doc
  have hN : ((SimpleTokenizer.encode doc).length : Int) = ((specWords doc).length : Int) := by
    rw [encode_length, hwords]
  obtain ⟨_, hll⟩ := windowLoop_lengths_length _ overlap max_tokens fuel w hw
  obtain ⟨hsl, _⟩ := windowLoop_bounds _ overlap max_tokens fuel 0 Windows.empty w rfl
    (by simp [Windows.empty]) hw
  have hentry := windows_entry _ overlap max_tokens fuel w hw
  have hdec : SimpleTokenizer.decode w.chunk_token doc w.starts w.lengths
      = .ok ((List.range w.chunk_token.length).map
          (fun j => wordsSlice (specWords doc) ((w.starts[0 + j]?).getD 0)
            ((w.lengths[0 + j]?).getD 0))) := by
    unfold SimpleTokenizer.decode
    rw [hwords, decodeLoop_eq (specWords doc) (specWords_ne_nil doc) w.starts w.lengths
      w.chunk_token 0 []]
    · simp
    · intro j hj
      obtain ⟨s, len, h1, h2, h3, h4, h5⟩ := hentry j (by omega)
      exact ⟨s, len, by simpa using h1, by simpa using h2, h3, h4, by omega⟩
  refine ⟨hwords, _, chunking_single_ok SimpleTokenizer.decode fuel _ doc key overlap max_tokens
    w _ hw hdec (by simp), by simp; omega, ?_⟩
  intro i hi
  obtain ⟨s, len, h1, h2, h3, h4, h5⟩ := hentry i hi
  have hic : i < w.chunk_token.length := by omega
  refine ⟨chunkAt w.lengths (some key) 0 i (wordsSlice (specWords doc) s len), s, len, ?_, h1,
    h2, h3, h4, by omega, ?_, rfl⟩
  · simp [List.getElem?_mapIdx, List.getElem?_range, hic, h1, h2]
  · simp [chunkAt, h2]

/-- C6.  With the whitespace tokenizer, for every document and every window
`(start, length)` that the window loop produces for the document's tokens, the
call of `chunking_by_token_size` returns one chunk per window and the text of
the chunk of that window is exactly the words with indices
`start .. start + length - 1` of the document joined by single spaces, where
the words are the maximal runs of characters other than space, newline and tab
(all these indices being indices of words).  The window loop and the call do
return when the stride is positive, `max_tokens ≥ 0`, `N + max_tokens` and
`N + stride` are values of `int` for the number `N` of tokens, and there is one
unit of fuel per token. -/
theorem simple_chunk_text (doc key : Str) (overlap max_tokens : Int) (fuel : Nat) :
    (0 < max_tokens - overlap → 0 ≤ max_tokens →
      ((SimpleTokenizer.encode doc).length : Int) + max_tokens ≤ INT_MAX →
      ((SimpleTokenizer.encode doc).length : Int) + (max_tokens - overlap) ≤ INT_MAX →
      (SimpleTokenizer.encode doc).length ≤ fuel →
      ∃ (w : Windows) (chunks : List TextChunk),
        windowLoop (SimpleTokenizer.encode doc) overlap max_tokens fuel 0 Windows.empty
          = .ok w ∧
        chunking_by_token_size SimpleTokenizer.decode fuel [SimpleTokenizer.encode doc] [doc]
          [key] overlap max_tokens = .ok chunks) ∧
    (∀ w : Windows,
      windowLoop (SimpleTokenizer.encode doc) overlap max_tokens fuel 0 Windows.empty = .ok w →
      splitWords doc = specWords doc ∧
      ∃ chunks : List TextChunk,
        chunking_by_token_size SimpleTokenizer.decode fuel [SimpleTokenizer.encode doc] [doc]
          [key] overlap max_tokens = .ok chunks ∧
        chunks.length = w.starts.length ∧
        ∀ i : Nat, i < w.starts.length →
          ∃ (c : TextChunk) (start len : Int),
            chunks[i]? = some c ∧ w.starts[i]? = some start ∧ w.lengths[i]? = some len ∧
            0 ≤ start ∧ 0 ≤ len ∧ start + len ≤ ((specWords doc).length : Int) ∧
            c.tokens = len ∧
            c.content
              = [' '].intercalate (((specWords doc).drop start.toNat).take len.toNat)) := by
  constructor
  · intro hs hmax hN1 hN2 hfuel
    have hw := windowLoop_eq_expected (SimpleTokenizer.encode doc) overlap max_tokens fuel hs hmax
      hN1 hN2 hfuel
    obtain ⟨_, chunks, h, _⟩ :=
      simple_chunks_of_windows doc key overlap max_tokens fuel _ hw
    exact ⟨_, chunks, hw, h⟩
  · intro w hw
    exact simple_chunks_of_windows doc key overlap max_tokens fuel w hw

/-- Witness of `simple_chunk_text`: the document `a bb  ccc d e` with
`max_tokens = 3`, `overlap_tokens = 1`. -/
theorem simple_chunk_text_witness :
    ∃ chunks : List TextChunk,
      chunking_by_token_size SimpleTokenizer.decode 5
        [SimpleTokenizer.encode "a bb  ccc d e".toList] ["a bb  ccc d e".toList] ["k".toList]
        1 3 = .ok chunks ∧
      chunks.length = 3 := by
  obtain ⟨_, chunks, h, hlen, _⟩ :=
    (simple_chunk_text "a bb  ccc d e".toList "k".toList 1 3 5).2
      ⟨[[1, 1, 1], [1, 1, 1], [1]], [3, 3, 1], [0, 2, 4]⟩ (by decide)
  exact ⟨chunks, h, hlen⟩

/-! ## The key-value store -/

theorem foldl_push_eq_map {α β : Type} (f : α → β) :
    ∀ (l : List α) (acc : List β), l.foldl (fun out a => out ++ [f a]) acc = acc ++ l.map f := by
  intro l
  induction l with
  | nil => intro acc; simp
  | cons a l ih => intro acc; simp [ih]

theorem foldl_push_if_eq_filter {α : Type} (p : α → Bool) :
    ∀ (l : List α) (acc : List α),
      l.foldl (fun out a => if p a then out ++ [a] else out) acc = acc ++ l.filter p := by
  intro l
  induction l with
  | nil => intro acc; simp
  | cons a l ih =>
    intro acc
    by_cases h : p a = true
    · simp [ih, h]
    · simp [ih, h]

namespace JsonKVStorage

variable {T : Type}

theorem get_by_ids_eq_map (s : JsonKVStorage T) (ids : List Str) :
    s.get_by_ids ids = ids.map s.get_by_id := by
  simp [get_by_ids, foldl_push_eq_map]

theorem filter_keys_eq_filter (s : JsonKVStorage T) (ids : List Str) :
    s.filter_keys ids = ids.filter (fun id => (s.get_by_id id).isNone) := by
  simp [filter_keys, get_by_id, foldl_push_if_eq_filter]

theorem all_keys_eq_keys (s : JsonKVStorage T) : s.all_keys = s.data_.keys := by
  simp [all_keys, foldl_push_eq_map, AList.keys, List.keys]

theorem lookup_foldl_insert (k : Str) :
    ∀ (l : List (Sigma (fun _ : Str => T))) (d : UnorderedMap T), l.NodupKeys →
      (l.foldl (fun d kv => d.insert kv.1 kv.2) d).lookup k
        = match l.dlookup k with
          | some v => some v
          | none => d.lookup k := by
  intro l
  induction l with
  | nil => intro d _; simp
  | cons kv l ih =>
    intro d hnd
    obtain ⟨a, b⟩ := kv
    rw [List.nodupKeys_cons] at hnd
    rw [List.foldl_cons, ih _ hnd.2]
    by_cases hk : k = a
    · subst hk
      have hnone : l.dlookup k = none := List.dlookup_eq_none.mpr hnd.1
      simp [hnone, AList.lookup_insert]
    · rw [List.dlookup_cons_ne _ _ hk, AList.lookup_insert_ne hk]

theorem get_by_id_upsert (s : JsonKVStorage T) (data : UnorderedMap T) (k : Str) :
    (s.upsert data).get_by_id k
      = match data.lookup k with
        | some v => some v
        | none => s.get_by_id k := by
  simp only [upsert, get_by_id]
  rw [lookup_foldl_insert k data.entries s.data_ data.nodupKeys]
  rfl

end JsonKVStorage

/-- C7.  For every store state and every list `ids`, `get_by_ids(ids)` has the
length of `ids` and its `i`-th entry is `get_by_id(ids[i])`, which is absent
exactly when the id is not a stored key; in particular
`get_by_ids([missing_id, present_id])` is the two-entry list whose first entry
is absent and whose second is the stored value. -/
theorem kv_get_by_ids {T : Type} (s : JsonKVStorage T) (ids : List Str) :
    (s.get_by_ids ids).length = ids.length ∧
    (∀ i : Nat, (s.get_by_ids ids)[i]? = (ids[i]?).map s.get_by_id) ∧
    s.get_by_ids ids = ids.map s.get_by_id ∧
    (∀ id : Str, s.get_by_id id = none ↔ id ∉ s.all_keys) ∧
    (∀ (missing_id present_id : Str) (v : T),
      s.get_by_id missing_id = none → s.get_by_id present_id = some v →
      s.get_by_ids [missing_id, present_id] = [none, some v]) ∧
    (∀ (missing_id present_id : Str) (v : T), missing_id ≠ present_id →
      ((JsonKVStorage.init : JsonKVStorage T).upsert
        (AList.singleton present_id v : UnorderedMap T)).get_by_ids
        [missing_id, present_id] = [none, some v]) := by
  refine ⟨?_, ?_, s.get_by_ids_eq_map ids, ?_, ?_, ?_⟩
  · simp [JsonKVStorage.get_by_ids_eq_map]
  · intro i
    simp [JsonKVStorage.get_by_ids_eq_map]
  · intro id
    rw [JsonKVStorage.all_keys_eq_keys, JsonKVStorage.get_by_id, AList.lookup_eq_none,
      AList.mem_keys]
  · intro a b v ha hb
    simp [JsonKVStorage.get_by_ids_eq_map, ha, hb]
  · intro a b v hab
    have hb : (AList.singleton b v : UnorderedMap T).lookup b = some v := by
      simp [AList.lookup, AList.singleton_entries]
    have ha : (AList.singleton b v : UnorderedMap T).lookup a = none := by
      rw [AList.lookup_eq_none, AList.mem_keys, AList.keys_singleton]
      simpa using hab
    have h1 : ((JsonKVStorage.init : JsonKVStorage T).upsert
        (AList.singleton b v : UnorderedMap T)).get_by_id a
        = none := by
      rw [JsonKVStorage.get_by_id_upsert, ha]
      rfl
    have h2 : ((JsonKVStorage.init : JsonKVStorage T).upsert
        (AList.singleton b v : UnorderedMap T)).get_by_id b
        = some v := by
      rw [JsonKVStorage.get_by_id_upsert, hb]
    rw [JsonKVStorage.get_by_ids_eq_map]
    simp [h1, h2]

/-- C8.  For every store state and every list `ids`, `filter_keys(ids)` is the
subsequence of `ids` (original order, duplicates kept) of the ids for which
`get_by_id` is absent; it is a total function, so a missing id is never a
failure. -/
theorem kv_filter_keys {T : Type} (s : JsonKVStorage T) (ids : List Str) :
    s.filter_keys ids = ids.filter (fun id => (s.get_by_id id).isNone) ∧
    (s.filter_keys ids).Sublist ids ∧
    (∀ id : Str, (s.filter_keys ids).count id
      = if (s.get_by_id id).isNone then ids.count id else 0) ∧
    (∀ id : Str, id ∈ s.filter_keys ids ↔ id ∈ ids ∧ s.get_by_id id = none) := by
  rw [JsonKVStorage.filter_keys_eq_filter]
  refine ⟨rfl, List.filter_sublist _, ?_, ?_⟩
  · intro id
    cases h : s.get_by_id id with
    | none =>
      rw [List.count_filter (by simp [h])]
      simp
    | some v =>
      rw [List.count_eq_zero.mpr (by simp [List.mem_filter, h])]
      simp
  · intro id
    simp [List.mem_filter]

/-- C9.  For every store state and every mapping `m`, after `upsert(m)` the
value of `get_by_id(k)` is exactly `m[k]` for every key `k` of `m` (the new
value stands in place of the old one as a whole) and is unchanged for every `k`
that is not a key of `m`. -/
theorem kv_upsert {T : Type} (s : JsonKVStorage T) (m : UnorderedMap T) :
    (∀ (k : Str) (v : T), m.lookup k = some v → (s.upsert m).get_by_id k = some v) ∧
    (∀ k : Str, k ∈ m → (s.upsert m).get_by_id k = m.lookup k) ∧
    (∀ k : Str, k ∉ m → (s.upsert m).get_by_id k = s.get_by_id k) := by
  refine ⟨?_, ?_, ?_⟩
  · intro k v h
    rw [JsonKVStorage.get_by_id_upsert, h]
  · intro k hk
    obtain ⟨v, hv⟩ := Option.isSome_iff_exists.mp (AList.lookup_isSome.mpr hk)
    rw [JsonKVStorage.get_by_id_upsert, hv]
  · intro k hk
    rw [JsonKVStorage.get_by_id_upsert, AList.lookup_eq_none.mpr hk]

/-- C10.  For every store state, after `drop()` the store is empty:
`all_keys()` is empty, `get_by_id(k)` is absent for every `k`, and
`filter_keys(ids) = ids` for every list `ids`. -/
theorem kv_drop {T : Type} (s : JsonKVStorage T) :
    s.drop.all_keys = [] ∧
    (∀ k : Str, s.drop.get_by_id k = none) ∧
    (∀ ids : List Str, s.drop.filter_keys ids = ids) := by
  refine ⟨rfl, fun k => rfl, ?_⟩
  intro ids
  rw [JsonKVStorage.filter_keys_eq_filter]
  simp [JsonKVStorage.drop, JsonKVStorage.get_by_id]


/-! ## The graph store: edge keys -/

theorem strLt_asymm : ∀ s t : Str, strLt s t = true → strLt t s = false := by
  intro s
  induction s with
  | nil => intro t _; cases t <;> rfl
  | cons a s ih =>
    intro t h
    cases t with
    | nil => simp [strLt] at h
    | cons b t =>
      simp only [strLt] at h ⊢
      by_cases hab : a < b
      · simp [not_lt_of_gt hab, hab]
      · simp only [hab, if_false] at h
        by_cases hba : b < a
        · simp [hba] at h
        · simp only [hba, if_false] at h
          simp [hab, hba, ih t h]

theorem strLt_total : ∀ s t : Str, strLt s t = false → strLt t s = false → s = t := by
  intro s
  induction s with
  | nil =>
    intro t h _
    cases t with
    | nil => rfl
    | cons b t => simp [strLt] at h
  | cons a s ih =>
    intro t h1 h2
    cases t with
    | nil => simp [strLt] at h2
    | cons b t =>
      simp only [strLt] at h1 h2
      by_cases hab : a < b
      · simp [hab] at h1
      · by_cases hba : b < a
        · simp [hba] at h2
        · simp only [hab, hba, if_false] at h1 h2
          have e : a = b := le_antisymm (not_lt.mp hba) (not_lt.mp hab)
          rw [e, ih t h1 h2]

theorem canonical_edge_key_comm (s t : Str) :
    canonical_edge_key s t = canonical_edge_key t s := by
  unfold canonical_edge_key
  cases h1 : strLt s t <;> cases h2 : strLt t s
  · simp [strLt_total s t h1 h2]
  · simp
  · simp
  · rw [strLt_asymm s t h1] at h2
    exact absurd h2 (by simp)

theorem canonical_edge_key_str_comm (s t : Str) :
    canonical_edge_key_str s t = canonical_edge_key_str t s := by
  unfold canonical_edge_key_str
  rw [canonical_edge_key_comm]

theorem get_edge_upsert_edge_of_key (g : InMemoryGraphStorage) (a b c d : Str) (p : PropertyMap)
    (h : canonical_edge_key_str c d = canonical_edge_key_str a b) :
    (g.upsert_edge a b p).get_edge c d = some p := by
  unfold InMemoryGraphStorage.get_edge InMemoryGraphStorage.upsert_edge
  rw [h]
  exact AList.lookup_insert _

theorem get_edge_upsert_edge_of_key_ne (g : InMemoryGraphStorage) (a b c d : Str)
    (p : PropertyMap) (h : canonical_edge_key_str c d ≠ canonical_edge_key_str a b) :
    (g.upsert_edge a b p).get_edge c d = g.get_edge c d := by
  unfold InMemoryGraphStorage.get_edge InMemoryGraphStorage.upsert_edge
  exact AList.lookup_insert_ne h

theorem has_edge_eq_isSome (g : InMemoryGraphStorage) (a b : Str) :
    g.has_edge a b = (g.get_edge a b).isSome := rfl

/-- C11.  For every graph state, all node ids `a`, `b` and every property map
`p`: after `upsert_edge(a, b, p)` both `get_edge(a, b)` and `get_edge(b, a)`
are `p` and both `has_edge(a, b)` and `has_edge(b, a)` are true; and in every
state `get_edge(a, b) = get_edge(b, a)` and `has_edge(a, b) = has_edge(b, a)`. -/
theorem edge_symmetric (g : InMemoryGraphStorage) (a b : Str) (p : PropertyMap) :
    (g.upsert_edge a b p).get_edge a b = some p ∧
    (g.upsert_edge a b p).get_edge b a = some p ∧
    (g.upsert_edge a b p).has_edge a b = true ∧
    (g.upsert_edge a b p).has_edge b a = true ∧
    g.get_edge a b = g.get_edge b a ∧
    g.has_edge a b = g.has_edge b a := by
  have h1 := get_edge_upsert_edge_of_key g a b a b p rfl
  have h2 := get_edge_upsert_edge_of_key g a b b a p (canonical_edge_key_str_comm b a)
  have h3 : g.get_edge a b = g.get_edge b a := by
    unfold InMemoryGraphStorage.get_edge
    rw [canonical_edge_key_str_comm a b]
  refine ⟨h1, h2, ?_, ?_, h3, ?_⟩
  · rw [has_edge_eq_isSome, h1]; rfl
  · rw [has_edge_eq_isSome, h2]; rfl
  · rw [has_edge_eq_isSome, has_edge_eq_isSome, h3]

/-- C12, the failing input.  On the empty graph `upsert_edge("a|b", "c", p)`
changes `has_edge("a", "b|c")` from false to true and `get_edge("a", "b|c")`
from absent to `p`, although `{"a", "b|c"}` and `{"a|b", "c"}` are different
unordered pairs: both have the key string `"a|b|c"`. -/
theorem edge_key_collision :
    ("a".toList, "b|c".toList) ≠ ("a|b".toList, "c".toList) ∧
    ("a".toList, "b|c".toList) ≠ ("c".toList, "a|b".toList) ∧
    canonical_edge_key_str "a|b".toList "c".toList = "a|b|c".toList ∧
    canonical_edge_key_str "a".toList "b|c".toList = "a|b|c".toList ∧
    InMemoryGraphStorage.init.has_edge "a".toList "b|c".toList = false ∧
    (InMemoryGraphStorage.init.upsert_edge "a|b".toList "c".toList
      (AList.singleton "w".toList "1".toList)).has_edge "a".toList "b|c".toList = true ∧
    InMemoryGraphStorage.init.get_edge "a".toList "b|c".toList = none ∧
    (InMemoryGraphStorage.init.upsert_edge "a|b".toList "c".toList
      (AList.singleton "w".toList "1".toList)).get_edge "a".toList "b|c".toList
      = some (AList.singleton "w".toList "1".toList) := by
  have hk : canonical_edge_key_str "a".toList "b|c".toList
      = canonical_edge_key_str "a|b".toList "c".toList := by decide
  refine ⟨by decide, by decide, by decide, by decide, by decide, by decide, rfl, ?_⟩
  exact get_edge_upsert_edge_of_key _ _ _ _ _ _ hk

theorem append_sep_inj : ∀ (a c b d : Str), '|' ∉ a → '|' ∉ c →
    a ++ ['|'] ++ b = c ++ ['|'] ++ d → a = c ∧ b = d := by
  intro a
  induction a with
  | nil =>
    intro c b d _ hc h
    cases c with
    | nil => simpa using h
    | cons y c =>
      simp only [List.nil_append, List.cons_append, List.singleton_append, List.cons.injEq] at h
      exact absurd (List.mem_cons.mpr (Or.inl h.1)) hc
  | cons x a ih =>
    intro c b d ha hc h
    cases c with
    | nil =>
      simp only [List.nil_append, List.cons_append, List.singleton_append, List.cons.injEq] at h
      exact absurd (List.mem_cons.mpr (Or.inl h.1.symm)) ha
    | cons y c =>
      simp only [List.cons_append, List.cons.injEq] at h
      obtain ⟨h1, h2⟩ := ih c b d (fun hm => ha (List.mem_cons_of_mem _ hm))
        (fun hm => hc (List.mem_cons_of_mem _ hm)) h.2
      exact ⟨by rw [h.1, h1], h2⟩

/-- Where no node id contains the separator `|`, an edge is stored and looked
up by its unordered pair alone: an upsert of `{a, b}` leaves the record of
every other pair as it was. -/
theorem upsert_edge_frame (g : InMemoryGraphStorage) (a b c d : Str) (p : PropertyMap)
    (ha : '|' ∉ a) (hb : '|' ∉ b) (hc : '|' ∉ c) (hd : '|' ∉ d)
    (hne : ¬ ((c = a ∧ d = b) ∨ (c = b ∧ d = a))) :
    (g.upsert_edge a b p).get_edge c d = g.get_edge c d ∧
    (g.upsert_edge a b p).has_edge c d = g.has_edge c d := by
  have hk : canonical_edge_key_str c d ≠ canonical_edge_key_str a b := by
    intro h
    unfold canonical_edge_key_str canonical_edge_key at h
    by_cases h1 : strLt c d = true <;> by_cases h2 : strLt a b = true
    · simp only [h1, h2, if_true] at h
      exact hne (Or.inl (append_sep_inj c a d b hc ha h))
    · simp only [h1, h2, if_true, if_false] at h
      exact hne (Or.inr (append_sep_inj c b d a hc hb h))
    · simp only [h1, h2, if_true, if_false] at h
      obtain ⟨e1, e2⟩ := append_sep_inj d a c b hd ha h
      exact hne (Or.inr ⟨e2, e1⟩)
    · simp only [h1, h2, if_false] at h
      obtain ⟨e1, e2⟩ := append_sep_inj d b c a hd hb h
      exact hne (Or.inl ⟨e2, e1⟩)
  have h := get_edge_upsert_edge_of_key_ne g a b c d p hk
  exact ⟨h, by rw [has_edge_eq_isSome, has_edge_eq_isSome, h]⟩

/-! ## The graph store: adjacency -/

theorem mem_setInsert (x y : Str) (set : List Str) : y ∈ setInsert x set ↔ y = x ∨ y ∈ set := by
  unfold setInsert
  by_cases h : x ∈ set
  · rw [if_pos h]
    constructor
    · exact Or.inr
    · rintro (rfl | h1)
      · exact h
      · exact h1
  · rw [if_neg h]
    simp [or_comm]

theorem nodup_setInsert (x : Str) (set : List Str) (h : set.Nodup) : (setInsert x set).Nodup := by
  unfold setInsert
  by_cases hx : x ∈ set
  · rw [if_pos hx]; exact h
  · rw [if_neg hx]
    exact List.Nodup.append h (List.nodup_singleton x) (by simpa using hx)

theorem lookup_adjacencyInsert (adjacency : UnorderedMap (List Str)) (s t x : Str) :
    (adjacencyInsert adjacency s t).lookup x
      = if x = s then some (setInsert t ((adjacency.lookup s).getD []))
        else adjacency.lookup x := by
  unfold adjacencyInsert
  by_cases h : x = s
  · subst h
    rw [if_pos rfl, AList.lookup_insert]
  · rw [if_neg h, AList.lookup_insert_ne h]

theorem neighbours_upsert_node (g : InMemoryGraphStorage) (id : Str) (d : PropertyMap) (x : Str) :
    neighbours (g.upsert_node id d) x = neighbours g x := by
  unfold neighbours InMemoryGraphStorage.upsert_node
  simp only
  cases h : g.adjacency_.lookup id with
  | some l => simp
  | none =>
    simp only [Option.isSome_none, Bool.false_eq_true, if_false]
    by_cases hx : x = id
    · subst hx
      rw [AList.lookup_insert, h]
      rfl
    · rw [AList.lookup_insert_ne hx]

theorem neighbours_upsert_edge (g : InMemoryGraphStorage) (s t : Str) (d : PropertyMap)
    (x : Str) :
    neighbours (g.upsert_edge s t d) x
      = if x = t then setInsert s (if t = s then setInsert t (neighbours g s) else neighbours g t)
        else if x = s then setInsert t (neighbours g s) else neighbours g x := by
  unfold neighbours InMemoryGraphStorage.upsert_edge
  simp only [lookup_adjacencyInsert]
  by_cases h1 : x = t
  · subst h1
    by_cases h2 : x = s
    · subst h2; simp
    · simp [h2]
  · by_cases h2 : x = s
    · subst h2; simp [h1]
    · simp [h1, h2]

theorem mem_neighbours_upsert_edge (g : InMemoryGraphStorage) (s t : Str) (d : PropertyMap)
    (x m : Str) :
    m ∈ neighbours (g.upsert_edge s t d) x
      ↔ m ∈ neighbours g x ∨ (x = s ∧ m = t) ∨ (x = t ∧ m = s) := by
  rw [neighbours_upsert_edge]
  by_cases h1 : x = t
  · subst h1
    by_cases h2 : x = s
    · subst h2
      simp only [if_true, mem_setInsert]
      tauto
    · have h3 : ¬ s = x := fun h => h2 h.symm
      simp only [if_true, mem_setInsert, h2, if_false]
      tauto
  · by_cases h2 : x = s
    · subst h2
      simp only [h1, if_false, if_true, mem_setInsert]
      tauto
    · simp only [h1, h2, if_false]
      tauto

theorem nodup_neighbours_upsert_edge (g : InMemoryGraphStorage) (s t : Str) (d : PropertyMap)
    (h : ∀ x, (neighbours g x).Nodup) (x : Str) :
    (neighbours (g.upsert_edge s t d) x).Nodup := by
  rw [neighbours_upsert_edge]
  split
  · apply nodup_setInsert
    split
    · exact nodup_setInsert _ _ (h s)
    · exact h t
  · split
    · exact nodup_setInsert _ _ (h s)
    · exact h x

theorem runOps_snoc (ops : List GraphOp) (op : GraphOp) :
    runOps (ops ++ [op]) = applyOp (runOps ops) op := by
  simp [runOps, List.foldl_append]

theorem edgeUpserted_snoc (ops : List GraphOp) (op : GraphOp) (n m : Str) :
    edgeUpserted (ops ++ [op]) n m
      ↔ edgeUpserted ops n m ∨
        ∃ s t d, op = GraphOp.edge s t d ∧ ((s = n ∧ t = m) ∨ (s = m ∧ t = n)) := by
  unfold edgeUpserted
  constructor
  · rintro ⟨s, t, d, hmem, h⟩
    rcases List.mem_append.mp hmem with hmem | hmem
    · exact Or.inl ⟨s, t, d, hmem, h⟩
    · exact Or.inr ⟨s, t, d, (List.mem_singleton.mp hmem).symm, h⟩
  · rintro (⟨s, t, d, hmem, h⟩ | ⟨s, t, d, rfl, h⟩)
    · exact ⟨s, t, d, List.mem_append_left _ hmem, h⟩
    · exact ⟨s, t, d, List.mem_append_right _ (List.mem_singleton.mpr rfl), h⟩

/-- In a store reached by upserts the neighbour set of `n` has no repeated
element and holds exactly the ids `m` for which an edge between `n` and `m`
has been upserted. -/
theorem neighbours_runOps (ops : List GraphOp) :
    ∀ n : Str, (neighbours (runOps ops) n).Nodup ∧
      ∀ m : Str, m ∈ neighbours (runOps ops) n ↔ edgeUpserted ops n m := by
  induction ops using List.reverseRecOn with
  | nil =>
    intro n
    simp [runOps, neighbours, InMemoryGraphStorage.init, edgeUpserted]
  | append_singleton ops op ih =>
    intro n
    rw [runOps_snoc]
    cases op with
    | node id d =>
      simp only [applyOp, neighbours_upsert_node]
      refine ⟨(ih n).1, fun m => ?_⟩
      rw [(ih n).2 m, edgeUpserted_snoc]
      simp
    | edge s t d =>
      simp only [applyOp]
      refine ⟨nodup_neighbours_upsert_edge _ s t d (fun x => (ih x).1) n, fun m => ?_⟩
      rw [mem_neighbours_upsert_edge, (ih n).2 m, edgeUpserted_snoc]
      constructor
      · rintro (h | h | h)
        · exact Or.inl h
        · exact Or.inr ⟨s, t, d, rfl, Or.inl ⟨h.1.symm, h.2.symm⟩⟩
        · exact Or.inr ⟨s, t, d, rfl, Or.inr ⟨h.2.symm, h.1.symm⟩⟩
      · rintro (h | ⟨s1, t1, d1, heq, h⟩)
        · exact Or.inl h
        · cases heq
          rcases h with h | h
          · exact Or.inr (Or.inl ⟨h.1.symm, h.2.symm⟩)
          · exact Or.inr (Or.inr ⟨h.2.symm, h.1.symm⟩)

theorem node_degree_eq_length (g : InMemoryGraphStorage) (n : Str) :
    g.node_degree n = ((neighbours g n).length : Int) := by
  unfold InMemoryGraphStorage.node_degree neighbours
  cases g.adjacency_.lookup n <;> simp

theorem get_node_edges_eq_map (g : InMemoryGraphStorage) (n : Str) :
    g.get_node_edges n = (neighbours g n).map (fun t => (n, t)) := by
  unfold InMemoryGraphStorage.get_node_edges neighbours
  cases g.adjacency_.lookup n with
  | none => simp
  | some set => simp [foldl_push_eq_map]


theorem setInsert_of_mem (x : Str) (set : List Str) (h : x ∈ set) : setInsert x set = set := by
  unfold setInsert
  rw [if_pos h]

theorem neighbours_reupsert (ops : List GraphOp) (s t : Str) (d : PropertyMap)
    (h : edgeUpserted ops s t) (x : Str) :
    neighbours (runOps (ops ++ [GraphOp.edge s t d])) x = neighbours (runOps ops) x := by
  have hst : t ∈ neighbours (runOps ops) s := ((neighbours_runOps ops s).2 t).mpr h
  have hts : s ∈ neighbours (runOps ops) t := by
    apply ((neighbours_runOps ops t).2 s).mpr
    obtain ⟨s1, t1, d1, hmem, h1⟩ := h
    exact ⟨s1, t1, d1, hmem, h1.symm⟩
  rw [runOps_snoc]
  simp only [applyOp]
  rw [neighbours_upsert_edge]
  by_cases h1 : x = t
  · subst h1
    by_cases h2 : x = s
    · subst h2
      simp [setInsert_of_mem _ _ hst]
    · simp [h2, setInsert_of_mem _ _ hts]
  · by_cases h2 : x = s
    · subst h2
      simp [h1, setInsert_of_mem _ _ hst]
    · simp [h1, h2]

/-- C13.  In every state reached from the empty graph by upserts,
`node_degree(n)` is the number of distinct ids `m` for which an edge between
`n` and `m` has been upserted: it is the length of a list without repetition
whose members are exactly these ids, that is the cardinality of their set; it
is 0 when there is none; an upsert of an edge that was upserted before leaves
every degree as it was; and `edge_degree(a, b) = node_degree(a) + node_degree(b)`
for all `a`, `b`. -/
theorem node_degree_counts (ops : List GraphOp) (n : Str) :
    (∃ l : List Str, l.Nodup ∧ (∀ m : Str, m ∈ l ↔ edgeUpserted ops n m) ∧
      (runOps ops).node_degree n = (l.length : Int)) ∧
    (runOps ops).node_degree n = ((Set.ncard {m : Str | edgeUpserted ops n m} : Nat) : Int) ∧
    ((∀ m : Str, ¬ edgeUpserted ops n m) → (runOps ops).node_degree n = 0) ∧
    (∀ (s t : Str) (d : PropertyMap), edgeUpserted ops s t → ∀ x : Str,
      (runOps (ops ++ [GraphOp.edge s t d])).node_degree x = (runOps ops).node_degree x) ∧
    (∀ a b : Str,
      (runOps ops).edge_degree a b = (runOps ops).node_degree a + (runOps ops).node_degree b) := by
  obtain ⟨hnd, hmem⟩ := neighbours_runOps ops n
  refine ⟨⟨neighbours (runOps ops) n, hnd, hmem, node_degree_eq_length _ n⟩, ?_, ?_, ?_, ?_⟩
  · have hset : {m : Str | edgeUpserted ops n m} = ↑(neighbours (runOps ops) n).toFinset := by
      ext m
      simp [hmem m]
    rw [hset, Set.ncard_coe_Finset, List.toFinset_card_of_nodup hnd, node_degree_eq_length]
  · intro hnone
    have hnil : neighbours (runOps ops) n = [] := by
      apply List.eq_nil_iff_forall_not_mem.mpr
      intro m hm
      exact hnone m ((hmem m).mp hm)
    rw [node_degree_eq_length, hnil]
    rfl
  · intro s t d h x
    rw [node_degree_eq_length, node_degree_eq_length, neighbours_reupsert ops s t d h x]
  · intro a b
    rfl

/-- C14.  For every state reached by upserts and every id `n`,
`get_node_edges(n)` is a list without duplicates of pairs whose first component
is `n` and whose second components are exactly the ids `m` for which an edge
between `n` and `m` has been upserted; its length is `node_degree(n)`, and it
is empty for an id with no upserted edge. -/
theorem node_edges_list (ops : List GraphOp) (n : Str) :
    ((runOps ops).get_node_edges n).Nodup ∧
    (∀ p ∈ (runOps ops).get_node_edges n, p.1 = n) ∧
    (∀ m : Str, (n, m) ∈ (runOps ops).get_node_edges n ↔ edgeUpserted ops n m) ∧
    (∀ m : Str, m ∈ ((runOps ops).get_node_edges n).map Prod.snd ↔ edgeUpserted ops n m) ∧
    (((runOps ops).get_node_edges n).length : Int) = (runOps ops).node_degree n ∧
    ((∀ m : Str, ¬ edgeUpserted ops n m) → (runOps ops).get_node_edges n = []) := by
  obtain ⟨hnd, hmem⟩ := neighbours_runOps ops n
  rw [get_node_edges_eq_map, node_degree_eq_length]
  refine ⟨?_, ?_, ?_, ?_, ?_, ?_⟩
  · exact List.Nodup.map (fun x y h => (Prod.mk.inj h).2) hnd
  · intro p hp
    obtain ⟨t, _, rfl⟩ := List.mem_map.mp hp
    rfl
  · intro m
    rw [← hmem m]
    simp
  · intro m
    rw [← hmem m]
    simp [List.map_map, Function.comp_def]
  · simp
  · intro hnone
    have hnil : neighbours (runOps ops) n = [] := by
      apply List.eq_nil_iff_forall_not_mem.mpr
      intro m hm
      exact hnone m ((hmem m).mp hm)
    rw [hnil]
    rfl

/-! ## The graph store: batches -/

theorem get_node_upsert_node (g : InMemoryGraphStorage) (id x : Str) (d : PropertyMap) :
    (g.upsert_node id d).get_node x = if x = id then some d else g.get_node x := by
  unfold InMemoryGraphStorage.get_node InMemoryGraphStorage.upsert_node
  by_cases h : x = id
  · subst h
    simp [AList.lookup_insert]
  · simp [h, AList.lookup_insert_ne h]

theorem get_node_batch_of_not_mem :
    ∀ (ys : List (Str × PropertyMap)) (g : InMemoryGraphStorage) (id : Str),
      (∀ y ∈ ys, y.1 ≠ id) → (g.upsert_nodes_batch ys).get_node id = g.get_node id := by
  intro ys
  induction ys with
  | nil => intro g id _; rfl
  | cons y ys ih =>
    intro g id h
    have h1 : (g.upsert_nodes_batch (y :: ys))
        = (g.upsert_node y.1 y.2).upsert_nodes_batch ys := rfl
    rw [h1, ih _ id (fun z hz => h z (List.mem_cons_of_mem _ hz)), get_node_upsert_node,
      if_neg (fun e => h y (List.mem_cons_self _ _) e.symm)]

theorem get_edge_batch_of_not_mem :
    ∀ (ys : List (Str × Str × PropertyMap)) (g : InMemoryGraphStorage) (a b : Str),
      (∀ y ∈ ys, canonical_edge_key_str y.1 y.2.1 ≠ canonical_edge_key_str a b) →
      (g.upsert_edges_batch ys).get_edge a b = g.get_edge a b := by
  intro ys
  induction ys with
  | nil => intro g a b _; rfl
  | cons y ys ih =>
    intro g a b h
    have h1 : (g.upsert_edges_batch (y :: ys))
        = (g.upsert_edge y.1 y.2.1 y.2.2).upsert_edges_batch ys := rfl
    rw [h1, ih _ a b (fun z hz => h z (List.mem_cons_of_mem _ hz)),
      get_edge_upsert_edge_of_key_ne _ _ _ _ _ _
        (fun e => h y (List.mem_cons_self _ _) e.symm)]

/-- C15.  For every graph state and every list of node (resp. edge) upserts,
`upsert_nodes_batch` (resp. `upsert_edges_batch`) yields the state reached by
applying `upsert_node` (resp. `upsert_edge`) to the list elements one by one in
list order: the empty batch changes nothing, a batch is its first upsert
followed by the batch of the rest, and a batch of a concatenation is the first
batch followed by the second.  With a repeated id or pair the last element
wins: after the batch `get_node(id)` is the data of the last element with that
id, and `get_edge(a, b)` the data of the last element with the key string of
`{a, b}`. -/
theorem batch_sequential (g : InMemoryGraphStorage) :
    (∀ nodes_data : List (Str × PropertyMap),
      g.upsert_nodes_batch nodes_data
        = nodes_data.foldl (fun g kv => g.upsert_node kv.1 kv.2) g) ∧
    g.upsert_nodes_batch [] = g ∧
    (∀ (kv : Str × PropertyMap) (rest : List (Str × PropertyMap)),
      g.upsert_nodes_batch (kv :: rest) = (g.upsert_node kv.1 kv.2).upsert_nodes_batch rest) ∧
    (∀ xs ys : List (Str × PropertyMap),
      g.upsert_nodes_batch (xs ++ ys) = (g.upsert_nodes_batch xs).upsert_nodes_batch ys) ∧
    (∀ edges_data : List (Str × Str × PropertyMap),
      g.upsert_edges_batch edges_data
        = edges_data.foldl (fun g e => g.upsert_edge e.1 e.2.1 e.2.2) g) ∧
    g.upsert_edges_batch [] = g ∧
    (∀ (e : Str × Str × PropertyMap) (rest : List (Str × Str × PropertyMap)),
      g.upsert_edges_batch (e :: rest)
        = (g.upsert_edge e.1 e.2.1 e.2.2).upsert_edges_batch rest) ∧
    (∀ xs ys : List (Str × Str × PropertyMap),
      g.upsert_edges_batch (xs ++ ys) = (g.upsert_edges_batch xs).upsert_edges_batch ys) ∧
    (∀ (xs ys : List (Str × PropertyMap)) (id : Str) (d : PropertyMap),
      (∀ y ∈ ys, y.1 ≠ id) →
      (g.upsert_nodes_batch (xs ++ (id, d) :: ys)).get_node id = some d) ∧
    (∀ (xs ys : List (Str × Str × PropertyMap)) (a b : Str) (p : PropertyMap),
      (∀ y ∈ ys, canonical_edge_key_str y.1 y.2.1 ≠ canonical_edge_key_str a b) →
      (g.upsert_edges_batch (xs ++ (a, b, p) :: ys)).get_edge a b = some p ∧
      (g.upsert_edges_batch (xs ++ (a, b, p) :: ys)).get_edge b a = some p) := by
  refine ⟨fun _ => rfl, rfl, fun _ _ => rfl, ?_, fun _ => rfl, rfl, fun _ _ => rfl, ?_, ?_, ?_⟩
  · intro xs ys
    simp [InMemoryGraphStorage.upsert_nodes_batch, List.foldl_append]
  · intro xs ys
    simp [InMemoryGraphStorage.upsert_edges_batch, List.foldl_append]
  · intro xs ys id d h
    have e : g.upsert_nodes_batch (xs ++ (id, d) :: ys)
        = ((g.upsert_nodes_batch xs).upsert_node id d).upsert_nodes_batch ys := by
      simp [InMemoryGraphStorage.upsert_nodes_batch, List.foldl_append]
    rw [e, get_node_batch_of_not_mem ys _ id h, get_node_upsert_node, if_pos rfl]
  · intro xs ys a b p h
    have e : g.upsert_edges_batch (xs ++ (a, b, p) :: ys)
        = ((g.upsert_edges_batch xs).upsert_edge a b p).upsert_edges_batch ys := by
      simp [InMemoryGraphStorage.upsert_edges_batch, List.foldl_append]
    have hab := get_edge_batch_of_not_mem ys ((g.upsert_edges_batch xs).upsert_edge a b p) a b h
    have hba : (((g.upsert_edges_batch xs).upsert_edge a b p).upsert_edges_batch ys).get_edge b a
        = (((g.upsert_edges_batch xs).upsert_edge a b p).upsert_edges_batch ys).get_edge a b := by
      unfold InMemoryGraphStorage.get_edge
      rw [canonical_edge_key_str_comm b a]
    rw [e, hba, hab]
    exact ⟨get_edge_upsert_edge_of_key _ a b a b p rfl,
      get_edge_upsert_edge_of_key _ a b a b p rfl⟩

/-! ## Clustering: one traversal -/

theorem lookup_labelNode (nodes : UnorderedMap PropertyMap) (cur x : Str) (cid : Int) :
    (labelNode nodes cur cid).lookup x
      = if x = cur then
          some (((nodes.lookup cur).getD ∅).insert clustersKey (clusterLabel cid))
        else nodes.lookup x := by
  unfold labelNode
  by_cases h : x = cur
  · subst h
    rw [if_pos rfl, AList.lookup_insert]
  · rw [if_neg h, AList.lookup_insert_ne h]

theorem neighbours_touch (g : InMemoryGraphStorage) (nodes : UnorderedMap PropertyMap)
    (cur x : Str) :
    neighbours { g with nodes_ := nodes, adjacency_ := adjacencyTouch g.adjacency_ cur } x
      = neighbours g x := by
  unfold neighbours adjacencyTouch
  simp only
  cases h : g.adjacency_.lookup cur with
  | some l => simp
  | none =>
    simp only [Option.isSome_none, Bool.false_eq_true, if_false]
    by_cases hx : x = cur
    · subst hx
      rw [AList.lookup_insert, h]
      rfl
    · rw [AList.lookup_insert_ne hx]

/-- The effect of the neighbour loop on `(visited, queue)`: every neighbour
becomes visited, the unvisited ones are pushed, and the measure
`2 * #unvisited + #queue` does not grow. -/
theorem visitNeighbours_spec (U : Finset Str) :
    ∀ (nbs visited queue : List Str), (∀ y ∈ nbs, y ∈ U) →
      (∀ x, x ∈ (visitNeighbours nbs visited queue).1 ↔ x ∈ visited ∨ x ∈ nbs) ∧
      (∀ x, x ∈ (visitNeighbours nbs visited queue).2 ↔ x ∈ queue ∨ (x ∈ nbs ∧ x ∉ visited)) ∧
      2 * (U.filter (fun x => x ∉ (visitNeighbours nbs visited queue).1)).card
          + (visitNeighbours nbs visited queue).2.length
        ≤ 2 * (U.filter (fun x => x ∉ visited)).card + queue.length := by
  intro nbs
  induction nbs with
  | nil => intro visited queue _; simp [visitNeighbours]
  | cons nb nbs ih =>
    intro visited queue hU
    have hUn : ∀ y ∈ nbs, y ∈ U := fun y hy => hU y (List.mem_cons_of_mem _ hy)
    by_cases hnb : nb ∈ visited
    · have e : visitNeighbours (nb :: nbs) visited queue = visitNeighbours nbs visited queue := by
        simp [visitNeighbours, hnb]
      rw [e]
      obtain ⟨h1, h2, h3⟩ := ih visited queue hUn
      refine ⟨fun x => ?_, fun x => ?_, h3⟩
      · rw [h1 x]
        constructor
        · rintro (h | h)
          · exact Or.inl h
          · exact Or.inr (List.mem_cons_of_mem _ h)
        · rintro (h | h)
          · exact Or.inl h
          · rcases List.mem_cons.mp h with rfl | h
            · exact Or.inl hnb
            · exact Or.inr h
      · rw [h2 x]
        constructor
        · rintro (h | ⟨h, h'⟩)
          · exact Or.inl h
          · exact Or.inr ⟨List.mem_cons_of_mem _ h, h'⟩
        · rintro (h | ⟨h, h'⟩)
          · exact Or.inl h
          · rcases List.mem_cons.mp h with rfl | h
            · exact absurd hnb h'
            · exact Or.inr ⟨h, h'⟩
    · have e : visitNeighbours (nb :: nbs) visited queue
          = visitNeighbours nbs (setInsert nb visited) (nb :: queue) := by
        simp [visitNeighbours, hnb]
      rw [e]
      obtain ⟨h1, h2, h3⟩ := ih (setInsert nb visited) (nb :: queue) hUn
      refine ⟨fun x => ?_, fun x => ?_, ?_⟩
      · rw [h1 x, mem_setInsert, List.mem_cons]
        tauto
      · rw [h2 x, mem_setInsert, List.mem_cons, List.mem_cons]
        by_cases hx : x = nb
        · subst hx; tauto
        · tauto
      · have hfilter : U.filter (fun x => x ∉ setInsert nb visited)
            = (U.filter (fun x => x ∉ visited)).erase nb := by
          ext x
          simp only [Finset.mem_filter, Finset.mem_erase, mem_setInsert]
          tauto
        have hmem : nb ∈ U.filter (fun x => x ∉ visited) :=
          Finset.mem_filter.mpr ⟨hU nb (List.mem_cons_self _ _), hnb⟩
        have hcard := Finset.card_erase_of_mem hmem
        have hpos : 0 < (U.filter (fun x => x ∉ visited)).card := Finset.card_pos.mpr ⟨nb, hmem⟩
        rw [hfilter, hcard, List.length_cons] at h3
        omega


theorem connected_congr (g g1 : InMemoryGraphStorage)
    (h : ∀ x, neighbours g1 x = neighbours g x) (x y : Str) :
    connected g1 x y ↔ connected g x y := by
  have e : (fun a b => b ∈ neighbours g1 a) = (fun a b => b ∈ neighbours g a) := by
    funext a b
    rw [h a]
  unfold connected
  rw [e]

theorem nodeLabel_of_lookup (g : InMemoryGraphStorage) (x : Str) (props : PropertyMap)
    (cid : Int)
    (h : g.nodes_.lookup x = some (props.insert clustersKey (clusterLabel cid))) :
    nodeLabel g x = some (clusterLabel cid) ∧ g.has_node x = true := by
  unfold nodeLabel InMemoryGraphStorage.has_node
  rw [h]
  exact ⟨AList.lookup_insert _, rfl⟩

theorem bfsLoop_nil (cid : Int) (fuel : Nat) (g : InMemoryGraphStorage) (visited : List Str) :
    InMemoryGraphStorage.bfsLoop cid fuel g visited [] = .ok (g, visited) := by
  cases fuel <;> rfl

/-- One traversal of `clustering`.  Started with every queued id visited, every
visited id outside the queue having all its neighbours visited, and a step
budget of twice the unvisited ids plus the queue length, the loop returns; the
adjacency sets and the edge records are as before, the visited set has grown to
a set closed under neighbours, every new visited id is connected to a queued
id, exactly the queued and the new visited ids have been labelled with
`cluster_id`, and every other node is untouched. -/
theorem bfsLoop_spec (U : Finset Str) (cid : Int) :
    ∀ (fuel : Nat) (g : InMemoryGraphStorage) (V Q : List Str),
      (∀ x y, y ∈ neighbours g x → y ∈ U) →
      (∀ x ∈ Q, x ∈ V) →
      (∀ x ∈ V, x ∉ Q → ∀ y ∈ neighbours g x, y ∈ V) →
      2 * (U.filter (fun x => x ∉ V)).card + Q.length ≤ fuel →
      ∃ (g1 : InMemoryGraphStorage) (V1 : List Str),
        InMemoryGraphStorage.bfsLoop cid fuel g V Q = .ok (g1, V1) ∧
        (∀ x, neighbours g1 x = neighbours g x) ∧
        g1.edges_ = g.edges_ ∧
        (∀ x ∈ V, x ∈ V1) ∧
        (∀ x ∈ V1, ∀ y ∈ neighbours g x, y ∈ V1) ∧
        (∀ x ∈ V1, x ∈ V ∨ ∃ q ∈ Q, connected g q x) ∧
        (∀ x, (x ∈ Q ∨ (x ∈ V1 ∧ x ∉ V)) →
          nodeLabel g1 x = some (clusterLabel cid) ∧ g1.has_node x = true) ∧
        (∀ x, ¬ (x ∈ Q ∨ (x ∈ V1 ∧ x ∉ V)) → g1.nodes_.lookup x = g.nodes_.lookup x) := by
  intro fuel
  induction fuel with
  | zero =>
    intro g V Q _ _ hclosed hfuel
    have hQ : Q = [] := List.eq_nil_of_length_eq_zero (by omega)
    subst hQ
    refine ⟨g, V, rfl, fun _ => rfl, rfl, fun _ h => h, ?_, fun x h => Or.inl h, ?_, ?_⟩
    · intro x hx y hy
      exact hclosed x hx (by simp) y hy
    · rintro x (h | ⟨h1, h2⟩)
      · simp at h
      · exact absurd h1 h2
    · intro x _
      rfl
  | succ fuel ih =>
    intro g V Q hU hQV hclosed hfuel
    cases Q with
    | nil =>
      refine ⟨g, V, rfl, fun _ => rfl, rfl, fun _ h => h, ?_, fun x h => Or.inl h, ?_, ?_⟩
      · intro x hx y hy
        exact hclosed x hx (by simp) y hy
      · rintro x (h | ⟨h1, h2⟩)
        · simp at h
        · exact absurd h1 h2
      · intro x _
        rfl
    | cons cur rest =>
      obtain ⟨hv1, hv2, hv3⟩ := visitNeighbours_spec U (neighbours g cur) V rest
        (fun y hy => hU cur y hy)
      have hcurV : cur ∈ V := hQV cur (List.mem_cons_self _ _)
      have hstep : InMemoryGraphStorage.bfsLoop cid (fuel + 1) g V (cur :: rest)
          = InMemoryGraphStorage.bfsLoop cid fuel
              { g with
                nodes_ := labelNode g.nodes_ cur cid
                adjacency_ := adjacencyTouch g.adjacency_ cur }
              (visitNeighbours (neighbours g cur) V rest).1
              (visitNeighbours (neighbours g cur) V rest).2 := rfl
      have hnb : ∀ x, neighbours
          { g with
            nodes_ := labelNode g.nodes_ cur cid
            adjacency_ := adjacencyTouch g.adjacency_ cur } x = neighbours g x :=
        fun x => neighbours_touch g _ cur x
      obtain ⟨g1, V1, hrun, hn1, he1, hsub1, hcl1, hreach1, hlab1, hframe1⟩ :=
        ih { g with
              nodes_ := labelNode g.nodes_ cur cid
              adjacency_ := adjacencyTouch g.adjacency_ cur }
          (visitNeighbours (neighbours g cur) V rest).1
          (visitNeighbours (neighbours g cur) V rest).2
          (fun x y hy => hU x y (by rwa [hnb x] at hy))
          (by
            intro x hx
            rcases (hv2 x).mp hx with h | ⟨h, _⟩
            · exact (hv1 x).mpr (Or.inl (hQV x (List.mem_cons_of_mem _ h)))
            · exact (hv1 x).mpr (Or.inr h))
          (by
            intro x hx hxq y hy
            rw [hnb x] at hy
            rcases (hv1 x).mp hx with h | h
            · by_cases hxc : x = cur
              · subst hxc
                exact (hv1 y).mpr (Or.inr hy)
              · have hxQ : x ∉ cur :: rest := by
                  intro hmem
                  rcases List.mem_cons.mp hmem with h' | h'
                  · exact hxc h'
                  · exact hxq ((hv2 x).mpr (Or.inl h'))
                exact (hv1 y).mpr (Or.inl (hclosed x h hxQ y hy))
            · by_cases hxV : x ∈ V
              · by_cases hxc : x = cur
                · subst hxc
                  exact (hv1 y).mpr (Or.inr hy)
                · have hxQ : x ∉ cur :: rest := by
                    intro hmem
                    rcases List.mem_cons.mp hmem with h' | h'
                    · exact hxc h'
                    · exact hxq ((hv2 x).mpr (Or.inl h'))
                  exact (hv1 y).mpr (Or.inl (hclosed x hxV hxQ y hy))
              · exact absurd ((hv2 x).mpr (Or.inr ⟨h, hxV⟩)) hxq)
          (by
            simp only [List.length_cons] at hfuel
            omega)
      refine ⟨g1, V1, by rw [hstep, hrun], fun x => by rw [hn1 x, hnb x], by rw [he1],
        fun x hx => hsub1 x ((hv1 x).mpr (Or.inl hx)), ?_, ?_, ?_, ?_⟩
      · intro x hx y hy
        exact hcl1 x hx y (by rwa [hnb x])
      · intro x hx
        rcases hreach1 x hx with h | ⟨q, hq, hqx⟩
        · rcases (hv1 x).mp h with h | h
          · exact Or.inl h
          · exact Or.inr ⟨cur, List.mem_cons_self _ _,
              Relation.ReflTransGen.single h⟩
        · rw [connected_congr _ _ hnb] at hqx
          rcases (hv2 q).mp hq with h | ⟨h, _⟩
          · exact Or.inr ⟨q, List.mem_cons_of_mem _ h, hqx⟩
          · exact Or.inr ⟨cur, List.mem_cons_self _ _,
              Relation.ReflTransGen.head h hqx⟩
      · intro x hx
        by_cases hL1 : x ∈ (visitNeighbours (neighbours g cur) V rest).2 ∨
            (x ∈ V1 ∧ x ∉ (visitNeighbours (neighbours g cur) V rest).1)
        · exact hlab1 x hL1
        · have hxc : x = cur := by
            by_contra hne
            apply hL1
            rcases hx with h | ⟨h1, h2⟩
            · rcases List.mem_cons.mp h with h | h
              · exact absurd h hne
              · exact Or.inl ((hv2 x).mpr (Or.inl h))
            · by_cases hx1 : x ∈ (visitNeighbours (neighbours g cur) V rest).1
              · rcases (hv1 x).mp hx1 with h | h
                · exact absurd h h2
                · exact Or.inl ((hv2 x).mpr (Or.inr ⟨h, h2⟩))
              · exact Or.inr ⟨h1, hx1⟩
          subst hxc
          have hl := hframe1 x hL1
          simp only [lookup_labelNode, if_true] at hl
          exact nodeLabel_of_lookup g1 x _ cid hl
      · intro x hx
        have hxc : x ≠ cur := fun h => hx (Or.inl (h ▸ List.mem_cons_self _ _))
        have hL1 : ¬ (x ∈ (visitNeighbours (neighbours g cur) V rest).2 ∨
            (x ∈ V1 ∧ x ∉ (visitNeighbours (neighbours g cur) V rest).1)) := by
          rintro (h | ⟨h1, h2⟩)
          · rcases (hv2 x).mp h with h | ⟨h, h'⟩
            · exact hx (Or.inl (List.mem_cons_of_mem _ h))
            · exact hx (Or.inr ⟨hsub1 x ((hv1 x).mpr (Or.inr h)), h'⟩)
          · exact hx (Or.inr ⟨h1, fun hV => h2 ((hv1 x).mpr (Or.inl hV))⟩)
        rw [hframe1 x hL1]
        simp only [lookup_labelNode, if_neg hxc]


/-! ## Clustering: labels -/

theorem digitChar_value (k : Nat) (h : k < 10) :
    isDigit (Nat.digitChar k) = true ∧ (Nat.digitChar k).toNat - 48 = k := by
  interval_cases k <;> exact ⟨by decide, by decide⟩

theorem digitsValue_toDigitsCore :
    ∀ (fuel n : Nat) (ds : List Char), n < fuel →
      digitsValue (Nat.toDigitsCore 10 fuel n ds) 0 = digitsValue ds n := by
  intro fuel
  induction fuel with
  | zero => intro n ds h; omega
  | succ fuel ih =>
    intro n ds h
    obtain ⟨hd, hv⟩ := digitChar_value (n % 10) (Nat.mod_lt n (by decide))
    unfold Nat.toDigitsCore
    simp only
    by_cases h0 : n / 10 = 0
    · rw [if_pos h0]
      have hn : n % 10 = n := by omega
      rw [hn] at hd hv
      simp [digitsValue, hd, hv, hn]
    · rw [if_neg h0, ih (n / 10) _ (by omega)]
      simp only [digitsValue, hd, if_true, hv]
      congr 1
      omega

theorem digitsValue_toDigits (n : Nat) : digitsValue (Nat.toDigits 10 n) 0 = n := by
  unfold Nat.toDigits
  rw [digitsValue_toDigitsCore (n + 1) n [] (by omega)]
  rfl

theorem to_string_injective (a b : Int) (ha : 0 ≤ a) (hb : 0 ≤ b)
    (h : to_string a = to_string b) : a = b := by
  unfold to_string at h
  rw [if_neg (by omega), if_neg (by omega)] at h
  have h1 := congrArg (fun l => digitsValue l 0) h
  simp only [digitsValue_toDigits] at h1
  omega

theorem clusterLabel_injective (a b : Int) (ha : 0 ≤ a) (hb : 0 ≤ b)
    (h : clusterLabel a = clusterLabel b) : a = b := by
  unfold clusterLabel at h
  exact to_string_injective a b ha hb (List.append_cancel_left (List.append_cancel_right h))

/-! ## Clustering: the loop over the nodes -/

theorem connected_symm (g : InMemoryGraphStorage) (hs : SymmetricAdjacency g) (x y : Str)
    (h : connected g x y) : connected g y x := by
  have hsym : Symmetric (fun a b => b ∈ neighbours g a) := fun a b hab => hs a b hab
  exact (Relation.ReflTransGen.symmetric hsym) h

theorem connected_closed (g : InMemoryGraphStorage) (V : List Str)
    (hcl : ∀ x ∈ V, ∀ y ∈ neighbours g x, y ∈ V) (x y : Str) (hx : x ∈ V)
    (h : connected g x y) : y ∈ V := by
  induction h with
  | refl => exact hx
  | tail _ hbc ih => exact hcl _ ih _ hbc

theorem nodeLabel_congr (g g1 : InMemoryGraphStorage) (x : Str)
    (h : g1.nodes_.lookup x = g.nodes_.lookup x) :
    nodeLabel g1 x = nodeLabel g x ∧ g1.has_node x = g.has_node x := by
  unfold nodeLabel InMemoryGraphStorage.has_node
  rw [h]
  exact ⟨rfl, rfl⟩

theorem clusterLoop_spec (U : Finset Str) (fuel : Nat) (hfuel : 2 * U.card + 1 ≤ fuel) :
    ∀ (rest : List Str) (g : InMemoryGraphStorage) (V : List Str) (cid : Int),
      SymmetricAdjacency g →
      (∀ x y, y ∈ neighbours g x → y ∈ U) →
      0 ≤ cid →
      (∀ x ∈ V, ∀ y ∈ neighbours g x, y ∈ V) →
      (∀ x ∈ V, g.has_node x = true ∧
        ∃ c : Int, 0 ≤ c ∧ c < cid ∧ nodeLabel g x = some (clusterLabel c)) →
      (∀ x ∈ V, ∀ y ∈ V, (nodeLabel g x = nodeLabel g y ↔ connected g x y)) →
      (∀ x, g.has_node x = true → x ∈ V ∨ x ∈ rest) →
      ∃ g1 : InMemoryGraphStorage,
        InMemoryGraphStorage.clusterLoop fuel rest g V cid = .ok g1 ∧
        (∀ x, neighbours g1 x = neighbours g x) ∧
        g1.edges_ = g.edges_ ∧
        (∀ x, g.has_node x = true → g1.has_node x = true) ∧
        (∀ x, g1.has_node x = true →
          ∃ c : Int, 0 ≤ c ∧ nodeLabel g1 x = some (clusterLabel c)) ∧
        (∀ x y, g1.has_node x = true → g1.has_node y = true →
          (nodeLabel g1 x = nodeLabel g1 y ↔ connected g x y)) ∧
        (∀ x, g1.has_node x = true → ∀ y ∈ neighbours g x, g1.has_node y = true) ∧
        (∀ x, g1.has_node x = true →
          g.has_node x = true ∨ ∃ n ∈ rest, connected g n x) := by
  intro rest
  induction rest with
  | nil =>
    intro g V cid _ _ _ hJ1 hJ2 hJ3 hJ4
    have hall : ∀ x, g.has_node x = true → x ∈ V := by
      intro x hx
      rcases hJ4 x hx with h | h
      · exact h
      · simp at h
    refine ⟨g, rfl, fun _ => rfl, rfl, fun _ h => h, ?_, ?_, ?_, fun x h => Or.inl h⟩
    · intro x hx
      obtain ⟨_, c, hc0, _, hc⟩ := hJ2 x (hall x hx)
      exact ⟨c, hc0, hc⟩
    · intro x y hx hy
      exact hJ3 x (hall x hx) y (hall y hy)
    · intro x hx y hy
      exact (hJ2 y (hJ1 x (hall x hx) y hy)).1
  | cons n rest ih =>
    intro g V cid hsym hU hcid hJ1 hJ2 hJ3 hJ4
    by_cases hn : n ∈ V
    · have hstep : InMemoryGraphStorage.clusterLoop fuel (n :: rest) g V cid
          = InMemoryGraphStorage.clusterLoop fuel rest g V cid := by
        simp [InMemoryGraphStorage.clusterLoop, hn]
      obtain ⟨g1, hrun, h1, h2, h3, h4, h5, h6, h7⟩ := ih g V cid hsym hU hcid hJ1 hJ2 hJ3
        (by
          intro x hx
          rcases hJ4 x hx with h | h
          · exact Or.inl h
          · rcases List.mem_cons.mp h with h | h
            · exact Or.inl (h ▸ hn)
            · exact Or.inr h)
      refine ⟨g1, by rw [hstep, hrun], h1, h2, h3, h4, h5, h6, ?_⟩
      intro x hx
      rcases h7 x hx with h | ⟨m, hm, hmx⟩
      · exact Or.inl h
      · exact Or.inr ⟨m, List.mem_cons_of_mem _ hm, hmx⟩
    · have hV0 : ∀ x, x ∈ setInsert n V ↔ x = n ∨ x ∈ V := fun x => mem_setInsert n x V
      obtain ⟨g1, V1, hrun, hn1, he1, hsub1, hcl1, hreach1, hlab1, hframe1⟩ :=
        bfsLoop_spec U cid fuel g (setInsert n V) [n] hU
          (by
            intro x hx
            rw [List.mem_singleton] at hx
            exact (hV0 x).mpr (Or.inl hx))
          (by
            intro x hx hxq y hy
            rcases (hV0 x).mp hx with h | h
            · exact absurd (List.mem_singleton.mpr h) hxq
            · exact (hV0 y).mpr (Or.inr (hJ1 x h y hy)))
          (by
            have := Finset.card_filter_le U (fun x => x ∉ setInsert n V)
            simp only [List.length_singleton]
            omega)
      have hnV1 : n ∈ V1 := hsub1 n ((hV0 n).mpr (Or.inl rfl))
      have hVV1 : ∀ x ∈ V, x ∈ V1 := fun x hx => hsub1 x ((hV0 x).mpr (Or.inr hx))
      have hnew : ∀ x, x ∈ V1 → x ∉ V →
          nodeLabel g1 x = some (clusterLabel cid) ∧ g1.has_node x = true ∧ connected g n x := by
        intro x hx hxV
        have hL : x ∈ [n] ∨ (x ∈ V1 ∧ x ∉ setInsert n V) := by
          by_cases hxn : x = n
          · exact Or.inl (List.mem_singleton.mpr hxn)
          · exact Or.inr ⟨hx, fun h => by
              rcases (hV0 x).mp h with h | h
              · exact hxn h
              · exact hxV h⟩
        refine ⟨(hlab1 x hL).1, (hlab1 x hL).2, ?_⟩
        rcases hreach1 x hx with h | ⟨q, hq, hqx⟩
        · rcases (hV0 x).mp h with h | h
          · rw [h]; exact Relation.ReflTransGen.refl
          · exact absurd h hxV
        · rw [List.mem_singleton] at hq
          rw [← hq]; exact hqx
      have hold : ∀ x, ¬ (x ∈ V1 ∧ x ∉ V) →
          nodeLabel g1 x = nodeLabel g x ∧ g1.has_node x = g.has_node x := by
        intro x hx
        apply nodeLabel_congr
        apply hframe1
        rintro (h | ⟨h1, h2⟩)
        · rw [List.mem_singleton] at h
          exact hx ⟨h ▸ hnV1, h ▸ hn⟩
        · exact hx ⟨h1, fun hV => h2 ((hV0 x).mpr (Or.inr hV))⟩
      have holdV : ∀ x ∈ V, nodeLabel g1 x = nodeLabel g x ∧ g1.has_node x = g.has_node x :=
        fun x hx => hold x (fun h => h.2 hx)
      have hstep : InMemoryGraphStorage.clusterLoop fuel (n :: rest) g V cid
          = InMemoryGraphStorage.clusterLoop fuel rest g1 V1 (cid + 1) := by
        simp [InMemoryGraphStorage.clusterLoop, hn, hrun]
      have hsym1 : SymmetricAdjacency g1 := by
        intro x y hy
        rw [hn1 x] at hy
        rw [hn1 y]
        exact hsym x y hy
      obtain ⟨g2, hrun2, h1, h2, h3, h4, h5, h6, h7⟩ := ih g1 V1 (cid + 1) hsym1
        (fun x y hy => hU x y (by rwa [hn1 x] at hy))
        (by omega)
        (fun x hx y hy => hcl1 x hx y (by rwa [hn1 x] at hy))
        (by
          intro x hx
          by_cases hxV : x ∈ V
          · obtain ⟨hnode, c, hc0, hc1, hc⟩ := hJ2 x hxV
            exact ⟨by rw [(holdV x hxV).2]; exact hnode, c, hc0, by omega,
              by rw [(holdV x hxV).1]; exact hc⟩
          · obtain ⟨hl, hnode, _⟩ := hnew x hx hxV
            exact ⟨hnode, cid, hcid, by omega, hl⟩)
        (by
          intro x hx y hy
          rw [connected_congr g g1 hn1]
          by_cases hxV : x ∈ V <;> by_cases hyV : y ∈ V
          · rw [(holdV x hxV).1, (holdV y hyV).1]
            exact hJ3 x hxV y hyV
          · obtain ⟨_, c, hc0, hc1, hc⟩ := hJ2 x hxV
            rw [(holdV x hxV).1, hc, (hnew y hy hyV).1]
            constructor
            · intro h
              have := clusterLabel_injective c cid hc0 hcid (Option.some.inj h)
              omega
            · intro h
              exact absurd (connected_closed g V hJ1 x y hxV h) hyV
          · obtain ⟨_, c, hc0, hc1, hc⟩ := hJ2 y hyV
            rw [(holdV y hyV).1, hc, (hnew x hx hxV).1]
            constructor
            · intro h
              have := clusterLabel_injective cid c hcid hc0 (Option.some.inj h)
              omega
            · intro h
              exact absurd (connected_closed g V hJ1 y x hyV (connected_symm g hsym x y h)) hxV
          · rw [(hnew x hx hxV).1, (hnew y hy hyV).1]
            constructor
            · intro _
              exact Relation.ReflTransGen.trans
                (connected_symm g hsym n x (hnew x hx hxV).2.2) (hnew y hy hyV).2.2
            · intro _
              rfl)
        (by
          intro x hx
          by_cases hxn : x ∈ V1 ∧ x ∉ V
          · exact Or.inl hxn.1
          · rw [(hold x hxn).2] at hx
            rcases hJ4 x hx with h | h
            · exact Or.inl (hVV1 x h)
            · rcases List.mem_cons.mp h with h | h
              · exact Or.inl (h ▸ hnV1)
              · exact Or.inr h)
      have hmono : ∀ x, g.has_node x = true → g1.has_node x = true := by
        intro x hx
        by_cases hxn : x ∈ V1 ∧ x ∉ V
        · exact (hnew x hxn.1 hxn.2).2.1
        · rw [(hold x hxn).2]; exact hx
      refine ⟨g2, by rw [hstep, hrun2], fun x => by rw [h1 x, hn1 x], by rw [h2, he1],
        fun x hx => h3 x (hmono x hx), h4, ?_, ?_, ?_⟩
      · intro x y hx hy
        rw [h5 x y hx hy, connected_congr g g1 hn1]
      · intro x hx y hy
        exact h6 x hx y (by rwa [hn1 x])
      · intro x hx
        rcases h7 x hx with h | ⟨m, hm, hmx⟩
        · by_cases hxn : x ∈ V1 ∧ x ∉ V
          · exact Or.inr ⟨n, List.mem_cons_self _ _, (hnew x hxn.1 hxn.2).2.2⟩
          · rw [(hold x hxn).2] at h
            exact Or.inl h
        · rw [connected_congr g g1 hn1] at hmx
          exact Or.inr ⟨m, List.mem_cons_of_mem _ hm, hmx⟩


/-- The method `clustering` on a store with symmetric adjacency sets, with the
step budget `clusteringFuel`: it returns; adjacency sets and edge records are
as before and no node is lost; every node carries a label `clusterLabel c`;
two nodes carry the same label exactly when they are connected; the neighbours
of a node are nodes; and a node that was not there before is connected to one
that was. -/
theorem clustering_spec (g : InMemoryGraphStorage) (algorithm : Str) (fuel : Nat)
    (hsym : SymmetricAdjacency g) (hfuel : clusteringFuel g ≤ fuel) :
    ∃ g1 : InMemoryGraphStorage,
      g.clustering fuel algorithm = .ok g1 ∧
      (∀ x, neighbours g1 x = neighbours g x) ∧
      g1.edges_ = g.edges_ ∧
      (∀ x, g.has_node x = true → g1.has_node x = true) ∧
      (∀ x, g1.has_node x = true →
        ∃ c : Int, 0 ≤ c ∧ nodeLabel g1 x = some (clusterLabel c)) ∧
      (∀ x y, g1.has_node x = true → g1.has_node y = true →
        (nodeLabel g1 x = nodeLabel g1 y ↔ connected g x y)) ∧
      (∀ x, g1.has_node x = true → ∀ y ∈ neighbours g x, g1.has_node y = true) ∧
      (∀ x, g1.has_node x = true →
        g.has_node x = true ∨ ∃ n, g.has_node n = true ∧ connected g n x) := by
  have hU : ∀ x y, y ∈ neighbours g x → y ∈ g.adjacency_.keys.toFinset := by
    intro x y hy
    have hx : x ∈ neighbours g y := hsym x y hy
    rw [List.mem_toFinset, ← AList.mem_keys, ← AList.lookup_isSome]
    unfold neighbours at hx
    cases h : g.adjacency_.lookup y with
    | none => rw [h] at hx; simp at hx
    | some l => rfl
  have hcard : 2 * g.adjacency_.keys.toFinset.card + 1 ≤ fuel := by
    have := List.toFinset_card_le g.adjacency_.keys
    unfold clusteringFuel at hfuel
    omega
  have hkeys : ∀ x, g.has_node x = true ↔ x ∈ g.nodes_.keys := by
    intro x
    unfold InMemoryGraphStorage.has_node
    rw [AList.lookup_isSome, AList.mem_keys]
  obtain ⟨g1, hrun, h1, h2, h3, h4, h5, h6, h7⟩ :=
    clusterLoop_spec g.adjacency_.keys.toFinset fuel hcard g.nodes_.keys g [] 0 hsym hU le_rfl
      (by simp) (by simp) (by simp) (fun x hx => Or.inr ((hkeys x).mp hx))
  refine ⟨g1, hrun, h1, h2, h3, h4, h5, h6, ?_⟩
  intro x hx
  rcases h7 x hx with h | ⟨n, hn, hnx⟩
  · exact Or.inl h
  · exact Or.inr ⟨n, (hkeys n).mpr hn, hnx⟩

/-- When every neighbour of a node is a node, `clustering` creates no node. -/
theorem clustering_no_new_node (g : InMemoryGraphStorage) (algorithm : Str) (fuel : Nat)
    (hsym : SymmetricAdjacency g) (hfuel : clusteringFuel g ≤ fuel)
    (hclosed : NeighboursAreNodes g) :
    ∃ g1 : InMemoryGraphStorage,
      g.clustering fuel algorithm = .ok g1 ∧ ∀ x, g1.has_node x = g.has_node x := by
  obtain ⟨g1, hrun, _, _, h3, _, _, _, h7⟩ := clustering_spec g algorithm fuel hsym hfuel
  refine ⟨g1, hrun, ?_⟩
  intro x
  cases h1 : g1.has_node x with
  | false =>
    cases h0 : g.has_node x with
    | false => rfl
    | true => rw [h3 x h0] at h1; exact absurd h1 (by simp)
  | true =>
    have hcl : ∀ n y : Str, g.has_node n = true → connected g n y → g.has_node y = true := by
      intro n y hn hny
      induction hny with
      | refl => exact hn
      | tail _ hbc ih => exact hclosed _ ih _ hbc
    rcases h7 x h1 with h | ⟨n, hn, hnx⟩
    · exact h.symm
    · exact (hcl n x hn hnx).symm

/-- When every neighbour of a node is a node, the state that `clustering`
returns has the nodes of the state it started from, and every neighbour of a
node is a node in it too. -/
theorem clustering_same_nodes (g : InMemoryGraphStorage) (algorithm : Str) (fuel : Nat)
    (hsym : SymmetricAdjacency g) (hfuel : clusteringFuel g ≤ fuel)
    (hclosed : NeighboursAreNodes g) (g1 : InMemoryGraphStorage)
    (hrun : g.clustering fuel algorithm = .ok g1) :
    (∀ x, g1.has_node x = g.has_node x) ∧ NeighboursAreNodes g1 := by
  obtain ⟨g2, hrun2, hsame⟩ := clustering_no_new_node g algorithm fuel hsym hfuel hclosed
  obtain ⟨g3, hrun3, hn, _⟩ := clustering_spec g algorithm fuel hsym hfuel
  rw [hrun] at hrun2 hrun3
  cases hrun2
  cases hrun3
  refine ⟨hsame, ?_⟩
  intro x hx y hy
  rw [hsame] at hx
  rw [hn] at hy
  rw [hsame]
  exact hclosed x hx y hy

/-- Every neighbour of a node is a node when this holds for the keys of
`nodes_`, which can be checked by evaluation. -/
theorem neighboursAreNodes_of_keys (g : InMemoryGraphStorage)
    (h : ∀ x ∈ g.nodes_.keys, ∀ y ∈ neighbours g x, y ∈ g.nodes_.keys) :
    NeighboursAreNodes g := by
  intro x hx y hy
  unfold InMemoryGraphStorage.has_node at hx ⊢
  rw [AList.lookup_isSome, AList.mem_keys] at hx ⊢
  exact h x hx y hy

/-- In the example graph every neighbour of a node is a node. -/
theorem neighboursAreNodes_chainOps : NeighboursAreNodes (runOps chainOps) :=
  neighboursAreNodes_of_keys _ (by decide)

theorem symmetric_runOps (ops : List GraphOp) : SymmetricAdjacency (runOps ops) := by
  intro x y hy
  rw [(neighbours_runOps ops y).2 x]
  obtain ⟨s, t, d, hmem, h⟩ := ((neighbours_runOps ops x).2 y).mp hy
  exact ⟨s, t, d, hmem, h.symm⟩

theorem connected_runOps (ops : List GraphOp) (x y : Str) :
    connected (runOps ops) x y ↔ Relation.ReflTransGen (edgeUpserted ops) x y := by
  have e : (fun a b => b ∈ neighbours (runOps ops) a) = edgeUpserted ops := by
    funext a b
    exact propext ((neighbours_runOps ops a).2 b)
  unfold connected
  rw [e]

theorem get_node_runOps (ops : List GraphOp) :
    ∀ (x : Str) (d : PropertyMap), (runOps ops).get_node x = some d → GraphOp.node x d ∈ ops := by
  induction ops using List.reverseRecOn with
  | nil =>
    intro x d h
    simp [runOps, InMemoryGraphStorage.get_node, InMemoryGraphStorage.init] at h
  | append_singleton ops op ih =>
    intro x d h
    rw [runOps_snoc] at h
    cases op with
    | node id d1 =>
      simp only [applyOp, get_node_upsert_node] at h
      by_cases hx : x = id
      · rw [if_pos hx] at h
        cases h
        rw [hx]
        exact List.mem_append_right _ (List.mem_singleton.mpr rfl)
      · rw [if_neg hx] at h
        exact List.mem_append_left _ (ih x d h)
    | edge s t d1 =>
      exact List.mem_append_left _ (ih x d h)

/-- C16 (amended).  In every graph state reached by upsert operations in which
every neighbour of a node is a node (both ends of every edge at a node have
been upserted as nodes), `clustering()` (with the step budget
`clusteringFuel`) returns, the nodes after the call are the nodes before it,
and every node, that is every id with `has_node`, carries exactly one cluster
label in its property map, of the form `clusterLabel c` with `c ≥ 0`.  In a
state reached by upsert operations before any `clustering()` call the label
that a node carries is the `clusters` entry of a property map given to
`upsert_node` for that node; so no node carries a cluster label when no
`upsert_node` was given a `clusters` entry. -/
theorem clustering_labels_every_node (ops : List GraphOp) (algorithm : Str) (fuel : Nat)
    (hfuel : clusteringFuel (runOps ops) ≤ fuel) :
    (NeighboursAreNodes (runOps ops) →
      ∃ g1 : InMemoryGraphStorage,
        (runOps ops).clustering fuel algorithm = .ok g1 ∧
        (∀ x, g1.has_node x = (runOps ops).has_node x) ∧
        ∀ x, g1.has_node x = true →
          ∃ c : Int, 0 ≤ c ∧ nodeLabel g1 x = some (clusterLabel c)) ∧
    (∀ (x : Str) (label : Str), nodeLabel (runOps ops) x = some label →
      ∃ d : PropertyMap, GraphOp.node x d ∈ ops ∧ d.lookup clustersKey = some label) ∧
    ((∀ (id : Str) (d : PropertyMap), GraphOp.node id d ∈ ops → d.lookup clustersKey = none) →
      ∀ x : Str, nodeLabel (runOps ops) x = none) := by
  have hlabel : ∀ (x : Str) (label : Str), nodeLabel (runOps ops) x = some label →
      ∃ d : PropertyMap, GraphOp.node x d ∈ ops ∧ d.lookup clustersKey = some label := by
    intro x label h
    unfold nodeLabel at h
    cases hd : (runOps ops).nodes_.lookup x with
    | none => rw [hd] at h; simp at h
    | some d =>
      rw [hd] at h
      exact ⟨d, get_node_runOps ops x d hd, h⟩
  refine ⟨?_, hlabel, ?_⟩
  · intro hnodes
    obtain ⟨g1, hrun, _, _, _, h4, _⟩ :=
      clustering_spec (runOps ops) algorithm fuel (symmetric_runOps ops) hfuel
    exact ⟨g1, hrun,
      (clustering_same_nodes (runOps ops) algorithm fuel (symmetric_runOps ops) hfuel hnodes
        g1 hrun).1, h4⟩
  · intro hnone x
    cases h : nodeLabel (runOps ops) x with
    | none => rfl
    | some label =>
      obtain ⟨d, hmem, hd⟩ := hlabel x label h
      rw [hnone x d hmem] at hd
      exact absurd hd (by simp)

/-- C18, where `clustering()` creates no node.  `clustering()` computes
undirected connected components: for every graph state reached by upserts in
which every neighbour of a node is a node (both ends of every edge at a node
have been upserted as nodes), `clustering()` (with the step budget
`clusteringFuel`) returns, the nodes after the call are the nodes before it,
every node carries a cluster label, and for all nodes `u`, `v` the nodes `u`
and `v` carry the same cluster label if and only if `v` is reachable from `u`
along upserted edges. -/
theorem clustering_connected_components (ops : List GraphOp) (algorithm : Str) (fuel : Nat)
    (hfuel : clusteringFuel (runOps ops) ≤ fuel) (hnodes : NeighboursAreNodes (runOps ops)) :
    ∃ g1 : InMemoryGraphStorage,
      (runOps ops).clustering fuel algorithm = .ok g1 ∧
      (∀ x, g1.has_node x = (runOps ops).has_node x) ∧
      (∀ x, g1.has_node x = true → ∃ label : Str, nodeLabel g1 x = some label) ∧
      ∀ u v : Str, g1.has_node u = true → g1.has_node v = true →
        (nodeLabel g1 u = nodeLabel g1 v ↔ Relation.ReflTransGen (edgeUpserted ops) u v) := by
  obtain ⟨g1, hrun, _, _, _, h4, h5, _⟩ :=
    clustering_spec (runOps ops) algorithm fuel (symmetric_runOps ops) hfuel
  refine ⟨g1, hrun,
    (clustering_same_nodes (runOps ops) algorithm fuel (symmetric_runOps ops) hfuel hnodes
      g1 hrun).1, ?_, ?_⟩
  · intro x hx
    obtain ⟨c, _, hc⟩ := h4 x hx
    exact ⟨_, hc⟩
  intro u v hu hv
  rw [h5 u v hu hv, connected_runOps]


/-! ## The community schema: member nodes -/

theorem schemaStep_of_none (g : InMemoryGraphStorage) (out : UnorderedMap SingleCommunity)
    (n : Sigma (fun _ : Str => PropertyMap)) (h : entryKey n = none) :
    InMemoryGraphStorage.schemaStep g out n = out := by
  unfold entryKey at h
  unfold InMemoryGraphStorage.schemaStep
  cases hv : n.2.lookup clustersKey with
  | none => rfl
  | some v => rw [hv] at h; simp at h

theorem schemaStep_lookup (g : InMemoryGraphStorage) (out : UnorderedMap SingleCommunity)
    (n : Sigma (fun _ : Str => PropertyMap)) (k0 : Str) (h : entryKey n = some k0) (k : Str) :
    ((InMemoryGraphStorage.schemaStep g out n).lookup k).map (fun c => c.nodes)
      = if k = k0 then some ((((out.lookup k0).map (fun c => c.nodes)).getD []) ++ [n.1])
        else (out.lookup k).map (fun c => c.nodes) := by
  unfold entryKey at h
  unfold InMemoryGraphStorage.schemaStep
  cases hv : n.2.lookup clustersKey with
  | none => rw [hv] at h; simp at h
  | some v =>
    rw [hv] at h
    simp only [Option.map_some', Option.some.injEq] at h
    subst h
    simp only
    by_cases hk : k = to_string (parseCluster v)
    · rw [if_pos hk, hk, AList.lookup_insert]
      cases hl : out.lookup (to_string (parseCluster v)) <;> simp [SingleCommunity.default]
    · rw [if_neg hk, AList.lookup_insert_ne hk]

theorem schemaFold_nodes (g : InMemoryGraphStorage) :
    ∀ (l : List (Sigma (fun _ : Str => PropertyMap))) (out : UnorderedMap SingleCommunity)
      (k : Str),
      ((l.foldl (InMemoryGraphStorage.schemaStep g) out).lookup k).map (fun c => c.nodes)
        = match (out.lookup k).map (fun c => c.nodes) with
          | some nodes =>
            some (nodes ++ (l.filter (fun n => entryKey n = some k)).map (fun n => n.1))
          | none =>
            if (l.filter (fun n => entryKey n = some k)).map (fun n => n.1) = [] then none
            else some ((l.filter (fun n => entryKey n = some k)).map (fun n => n.1)) := by
  intro l
  induction l with
  | nil =>
    intro out k
    cases h : out.lookup k <;> simp [h]
  | cons n l ih =>
    intro out k
    rw [List.foldl_cons, ih]
    cases hk0 : entryKey n with
    | none =>
      rw [schemaStep_of_none g out n hk0]
      have hf : (n :: l).filter (fun n => entryKey n = some k)
          = l.filter (fun n => entryKey n = some k) := by
        simp [List.filter_cons, hk0]
      rw [hf]
    | some k0 =>
      rw [schemaStep_lookup g out n k0 hk0 k]
      by_cases hk : k = k0
      · subst hk
        have hf : (n :: l).filter (fun n => entryKey n = some k)
            = n :: l.filter (fun n => entryKey n = some k) := by
          simp [List.filter_cons, hk0]
        rw [if_pos rfl, hf]
        cases h : out.lookup k <;> simp [h]
      · have hf : (n :: l).filter (fun n => entryKey n = some k)
            = l.filter (fun n => entryKey n = some k) := by
          have : ¬ k0 = k := fun h => hk h.symm
          simp [List.filter_cons, hk0, this]
        rw [if_neg hk, hf]

theorem lookup_foldl_insert_map {T : Type} (f : T → T) (k : Str) :
    ∀ (l : List (Sigma (fun _ : Str => T))) (d : UnorderedMap T), l.NodupKeys →
      (l.foldl (fun m kv => m.insert kv.1 (f kv.2)) d).lookup k
        = match l.dlookup k with
          | some v => some (f v)
          | none => d.lookup k := by
  intro l
  induction l with
  | nil => intro d _; simp
  | cons kv l ih =>
    intro d hnd
    obtain ⟨a, b⟩ := kv
    rw [List.nodupKeys_cons] at hnd
    rw [List.foldl_cons, ih _ hnd.2]
    by_cases hk : k = a
    · subst hk
      have hnone : l.dlookup k = none := List.dlookup_eq_none.mpr hnd.1
      simp [hnone, AList.lookup_insert]
    · rw [List.dlookup_cons_ne _ _ hk, AList.lookup_insert_ne hk]

theorem community_schema_lookup (g : InMemoryGraphStorage) (k : Str) :
    g.community_schema.lookup k
      = ((g.nodes_.entries.foldl (InMemoryGraphStorage.schemaStep g) ∅).lookup k).map
          finishCommunity := by
  unfold InMemoryGraphStorage.community_schema
  simp only
  generalize g.nodes_.entries.foldl (InMemoryGraphStorage.schemaStep g) ∅ = out
  rw [lookup_foldl_insert_map finishCommunity k out.entries out out.nodupKeys]
  have hl : out.lookup k = out.entries.dlookup k := rfl
  rw [hl]
  cases List.dlookup k out.entries <;> rfl

/-- The member list of the community with key `k` is the list, without
repetition, of the nodes whose label is filed under `k`; and every such key has
a community. -/
theorem community_schema_nodes (g : InMemoryGraphStorage) (k : Str) :
    (∀ c : SingleCommunity, g.community_schema.lookup k = some c →
      c.nodes.Nodup ∧ ∀ x : Str, x ∈ c.nodes ↔ communityKey g x = some k) ∧
    (∀ x : Str, communityKey g x = some k → ∃ c, g.community_schema.lookup k = some c) := by
  have hfold := schemaFold_nodes g g.nodes_.entries ∅ k
  rw [AList.lookup_empty] at hfold
  simp only [Option.map_none'] at hfold
  have hmem : ∀ x : Str,
      x ∈ (g.nodes_.entries.filter (fun n => entryKey n = some k)).map (fun n => n.1)
        ↔ communityKey g x = some k := by
    intro x
    simp only [List.mem_map, List.mem_filter, decide_eq_true_eq]
    constructor
    · rintro ⟨n, ⟨hn, hkey⟩, rfl⟩
      obtain ⟨a, props⟩ := n
      have hl : g.nodes_.lookup a = some props := AList.mem_lookup_iff.mpr hn
      unfold communityKey nodeLabel
      rw [hl]
      exact hkey
    · intro h
      unfold communityKey nodeLabel at h
      cases hl : g.nodes_.lookup x with
      | none => rw [hl] at h; simp at h
      | some props =>
        rw [hl] at h
        exact ⟨⟨x, props⟩, ⟨AList.mem_lookup_iff.mp hl, h⟩, rfl⟩
  have hnodup : ((g.nodes_.entries.filter (fun n => entryKey n = some k)).map
      (fun n => n.1)).Nodup := by
    have hsub : ((g.nodes_.entries.filter (fun n => entryKey n = some k)).map (fun n => n.1)).Sublist
        (g.nodes_.entries.map (fun n => n.1)) :=
      List.Sublist.map _ (List.filter_sublist _)
    exact List.Nodup.sublist hsub g.nodes_.nodupKeys
  constructor
  · intro c hc
    rw [community_schema_lookup] at hc
    cases hout : (g.nodes_.entries.foldl (InMemoryGraphStorage.schemaStep g) ∅).lookup k with
    | none => rw [hout] at hc; simp at hc
    | some c0 =>
      rw [hout] at hc hfold
      simp only [Option.map_some', Option.some.injEq] at hc hfold
      have hnodes : c.nodes = c0.nodes := by rw [← hc]; rfl
      by_cases hnil : (g.nodes_.entries.filter (fun n => entryKey n = some k)).map
          (fun n => n.1) = []
      · rw [if_pos hnil] at hfold
        exact absurd hfold (by simp)
      · rw [if_neg hnil] at hfold
        rw [hnodes, Option.some.inj hfold]
        exact ⟨hnodup, hmem⟩
  · intro x hx
    have hne : (g.nodes_.entries.filter (fun n => entryKey n = some k)).map (fun n => n.1) ≠ [] :=
      List.ne_nil_of_mem ((hmem x).mpr hx)
    rw [if_neg hne] at hfold
    rw [community_schema_lookup]
    cases hout : (g.nodes_.entries.foldl (InMemoryGraphStorage.schemaStep g) ∅).lookup k with
    | none => rw [hout] at hfold; simp at hfold
    | some c0 => exact ⟨finishCommunity c0, rfl⟩

/-! ## Clustering: reachable states -/

theorem bfsLoop_neighbours (cid : Int) :
    ∀ (fuel : Nat) (g : InMemoryGraphStorage) (V Q : List Str)
      (r : InMemoryGraphStorage × List Str),
      InMemoryGraphStorage.bfsLoop cid fuel g V Q = .ok r →
      ∀ x, neighbours r.1 x = neighbours g x := by
  intro fuel
  induction fuel with
  | zero =>
    intro g V Q r h x
    cases Q with
    | nil =>
      rw [bfsLoop_nil] at h
      cases h
      rfl
    | cons cur rest =>
      simp [InMemoryGraphStorage.bfsLoop] at h
  | succ fuel ih =>
    intro g V Q r h x
    cases Q with
    | nil =>
      rw [bfsLoop_nil] at h
      cases h
      rfl
    | cons cur rest =>
      have hstep : InMemoryGraphStorage.bfsLoop cid (fuel + 1) g V (cur :: rest)
          = InMemoryGraphStorage.bfsLoop cid fuel
              { g with
                nodes_ := labelNode g.nodes_ cur cid
                adjacency_ := adjacencyTouch g.adjacency_ cur }
              (visitNeighbours (neighbours g cur) V rest).1
              (visitNeighbours (neighbours g cur) V rest).2 := rfl
      rw [hstep] at h
      rw [ih _ _ _ r h x, neighbours_touch]

theorem clusterLoop_neighbours (fuel : Nat) :
    ∀ (rest : List Str) (g : InMemoryGraphStorage) (V : List Str) (cid : Int)
      (g1 : InMemoryGraphStorage),
      InMemoryGraphStorage.clusterLoop fuel rest g V cid = .ok g1 →
      ∀ x, neighbours g1 x = neighbours g x := by
  intro rest
  induction rest with
  | nil =>
    intro g V cid g1 h x
    simp only [InMemoryGraphStorage.clusterLoop] at h
    cases h
    rfl
  | cons n rest ih =>
    intro g V cid g1 h x
    by_cases hn : n ∈ V
    · simp only [InMemoryGraphStorage.clusterLoop, hn, if_true] at h
      exact ih g V cid g1 h x
    · simp only [InMemoryGraphStorage.clusterLoop, hn, if_false] at h
      cases hb : InMemoryGraphStorage.bfsLoop cid fuel g (setInsert n V) [n] with
      | error e =>
        rw [hb] at h
        exact absurd h (by simp)
      | ok r =>
        rw [hb] at h
        rw [ih r.1 r.2 (cid + 1) g1 h x, bfsLoop_neighbours cid fuel g _ _ r hb x]

theorem symmetric_of_reachable (g : InMemoryGraphStorage) (h : Reachable g) :
    SymmetricAdjacency g := by
  induction h with
  | init =>
    intro x y hy
    simp [neighbours, InMemoryGraphStorage.init] at hy
  | node g id d _ ih =>
    intro x y hy
    rw [neighbours_upsert_node] at hy ⊢
    exact ih x y hy
  | edge g s t d _ ih =>
    intro x y hy
    rw [mem_neighbours_upsert_edge] at hy ⊢
    rcases hy with h | h | h
    · exact Or.inl (ih x y h)
    · exact Or.inr (Or.inr ⟨h.2, h.1⟩)
    · exact Or.inr (Or.inl ⟨h.2, h.1⟩)
  | clustering g g1 fuel alg _ hrun ih =>
    intro x y hy
    have hn := clusterLoop_neighbours fuel g.nodes_.keys g [] 0 g1 hrun
    rw [hn x] at hy
    rw [hn y]
    exact ih x y hy

theorem reachable_runOps (ops : List GraphOp) : Reachable (runOps ops) := by
  induction ops using List.reverseRecOn with
  | nil => exact Reachable.init
  | append_singleton ops op ih =>
    rw [runOps_snoc]
    cases op with
    | node id d => exact Reachable.node _ id d ih
    | edge s t d => exact Reachable.edge _ s t d ih

/-- Witness of `clustering_labels_every_node`: the example graph with step
budget 9. -/
theorem clustering_labels_every_node_witness :
    ∃ g1 : InMemoryGraphStorage,
      (runOps chainOps).clustering 9 [] = .ok g1 ∧
      ∀ x, g1.has_node x = true →
        ∃ c : Int, 0 ≤ c ∧ nodeLabel g1 x = some (clusterLabel c) := by
  obtain ⟨g1, hrun, _, h⟩ :=
    (clustering_labels_every_node chainOps [] 9 (by decide)).1 neighboursAreNodes_chainOps
  exact ⟨g1, hrun, h⟩

/-- C16 as stated fails: after the single upsert
`upsert_node("A", {"clusters": clusterLabel 5})`, with no `clustering()` call,
the node `A` carries a cluster label, and `community_schema()` files it under
the community `5`. -/
theorem label_before_clustering :
    (runOps [GraphOp.node "A".toList (AList.singleton clustersKey (clusterLabel 5))]).has_node
      "A".toList = true ∧
    nodeLabel (runOps [GraphOp.node "A".toList (AList.singleton clustersKey (clusterLabel 5))])
      "A".toList = some (clusterLabel 5) ∧
    schemaView (runOps [GraphOp.node "A".toList (AList.singleton clustersKey (clusterLabel 5))])
      = [("5".toList, ["A".toList], [])] := by
  refine ⟨by decide, by decide, by decide⟩

/-- Witness of `clustering_connected_components`: the example graph with step
budget 9. -/
theorem clustering_connected_components_witness :
    ∃ g1 : InMemoryGraphStorage,
      (runOps chainOps).clustering 9 [] = .ok g1 ∧
      ∀ u v : Str, g1.has_node u = true → g1.has_node v = true →
        (nodeLabel g1 u = nodeLabel g1 v ↔ Relation.ReflTransGen (edgeUpserted chainOps) u v) := by
  obtain ⟨g1, hrun, _, _, h⟩ :=
    clustering_connected_components chainOps [] 9 (by decide) neighboursAreNodes_chainOps
  exact ⟨g1, hrun, h⟩

/-- C17, where `clustering()` creates no node.  For every graph state reached by
upserts in which every neighbour of a node is a node (both ends of every edge
at a node have been upserted as nodes), `clustering()` (with the step budget
`clusteringFuel`) returns, the nodes after the call are the nodes before it,
and the member-node lists of the communities returned by `community_schema()`
partition the node set: every node id is a member of a community, whose member
list has no repetition, and of no community with another key, and every listed
member is a node of the graph. -/
theorem community_members_partition (ops : List GraphOp) (algorithm : Str) (fuel : Nat)
    (hfuel : clusteringFuel (runOps ops) ≤ fuel) (hnodes : NeighboursAreNodes (runOps ops)) :
    ∃ g1 : InMemoryGraphStorage,
      (runOps ops).clustering fuel algorithm = .ok g1 ∧
      (∀ x : Str, g1.has_node x = (runOps ops).has_node x) ∧
      (∀ x : Str, g1.has_node x = true →
        ∃ (k : Str) (c : SingleCommunity),
          g1.community_schema.lookup k = some c ∧ x ∈ c.nodes ∧ c.nodes.Nodup ∧
          ∀ (k1 : Str) (c1 : SingleCommunity),
            g1.community_schema.lookup k1 = some c1 → x ∈ c1.nodes → k1 = k) ∧
      (∀ (k : Str) (c : SingleCommunity), g1.community_schema.lookup k = some c →
        c.nodes.Nodup ∧ ∀ x ∈ c.nodes, g1.has_node x = true) := by
  obtain ⟨g1, hrun, _, _, _, h4, _⟩ :=
    clustering_spec (runOps ops) algorithm fuel (symmetric_runOps ops) hfuel
  refine ⟨g1, hrun,
    (clustering_same_nodes (runOps ops) algorithm fuel (symmetric_runOps ops) hfuel hnodes
      g1 hrun).1, ?_, ?_⟩
  · intro x hx
    obtain ⟨cid, _, hlabel⟩ := h4 x hx
    have hkey : communityKey g1 x = some (to_string (parseCluster (clusterLabel cid))) := by
      unfold communityKey
      rw [hlabel]
      rfl
    obtain ⟨c, hc⟩ := (community_schema_nodes g1 _).2 x hkey
    obtain ⟨hnd, hmem⟩ := (community_schema_nodes g1 _).1 c hc
    refine ⟨_, c, hc, (hmem x).mpr hkey, hnd, ?_⟩
    intro k1 c1 hc1 hx1
    have h1 := ((community_schema_nodes g1 k1).1 c1 hc1).2 x |>.mp hx1
    rw [hkey] at h1
    exact (Option.some.inj h1).symm
  · intro k c hc
    obtain ⟨hnd, hmem⟩ := (community_schema_nodes g1 k).1 c hc
    refine ⟨hnd, ?_⟩
    intro x hx
    have hkey := (hmem x).mp hx
    unfold communityKey nodeLabel at hkey
    unfold InMemoryGraphStorage.has_node
    cases hl : g1.nodes_.lookup x with
    | none => rw [hl] at hkey; simp at hkey
    | some props => rfl

/-- Witness of `community_members_partition`: the example graph with step
budget 9. -/
theorem community_members_partition_witness :
    ∃ g1 : InMemoryGraphStorage,
      (runOps chainOps).clustering 9 [] = .ok g1 ∧
      ∀ (k : Str) (c : SingleCommunity), g1.community_schema.lookup k = some c →
        c.nodes.Nodup ∧ ∀ x ∈ c.nodes, g1.has_node x = true := by
  obtain ⟨g1, hrun, _, _, h⟩ :=
    community_members_partition chainOps [] 9 (by decide) neighboursAreNodes_chainOps
  exact ⟨g1, hrun, h⟩

/-- C19, where `clustering()` creates no node.  For every graph state in which
every neighbour of a node is a node (both ends of every edge at a node have
been upserted as nodes), running `clustering()` twice in a row with no upsert
in between yields the same partition of the nodes as running it once: both
calls return (each with its step budget `clusteringFuel`), the node set after
the first call is the node set before it and the node set after the second call
is the same again, every node carries a label after each call, and two nodes
carry the same label after the first call exactly when they carry the same
label after the second. -/
theorem clustering_twice_same_partition (g : InMemoryGraphStorage) (hg : Reachable g)
    (algorithm1 algorithm2 : Str) (fuel1 fuel2 : Nat) (hfuel1 : clusteringFuel g ≤ fuel1)
    (hnodes : NeighboursAreNodes g) :
    ∃ g1 : InMemoryGraphStorage,
      g.clustering fuel1 algorithm1 = .ok g1 ∧
      (∀ x : Str, g1.has_node x = g.has_node x) ∧
      (∀ x : Str, g1.has_node x = true → ∃ label : Str, nodeLabel g1 x = some label) ∧
      (clusteringFuel g1 ≤ fuel2 →
        ∃ g2 : InMemoryGraphStorage,
          g1.clustering fuel2 algorithm2 = .ok g2 ∧
          (∀ x : Str, g2.has_node x = g1.has_node x) ∧
          (∀ x : Str, g2.has_node x = true → ∃ label : Str, nodeLabel g2 x = some label) ∧
          ∀ u v : Str, g1.has_node u = true → g1.has_node v = true →
            (nodeLabel g1 u = nodeLabel g1 v ↔ nodeLabel g2 u = nodeLabel g2 v)) := by
  have hsym := symmetric_of_reachable g hg
  obtain ⟨g1, hrun1, hn1, _, _, h4, h5, h6, _⟩ :=
    clustering_spec g algorithm1 fuel1 hsym hfuel1
  refine ⟨g1, hrun1,
    (clustering_same_nodes g algorithm1 fuel1 hsym hfuel1 hnodes g1 hrun1).1,
    fun x hx => (h4 x hx).elim (fun c h => ⟨_, h.2⟩), ?_⟩
  intro hfuel2
  have hsym1 : SymmetricAdjacency g1 :=
    symmetric_of_reachable g1 (Reachable.clustering g g1 fuel1 algorithm1 hg hrun1)
  obtain ⟨g2, hrun2, _, _, k3, k4, k5, _, k7⟩ :=
    clustering_spec g1 algorithm2 fuel2 hsym1 hfuel2
  have hclosed : ∀ x y : Str, g1.has_node x = true → connected g1 x y → g1.has_node y = true := by
    intro x y hx hxy
    induction hxy with
    | refl => exact hx
    | tail _ hbc ih => exact h6 _ ih _ (by rwa [hn1] at hbc)
  have hsame : ∀ x : Str, g2.has_node x = true → g1.has_node x = true := by
    intro x hx
    rcases k7 x hx with h | ⟨n, hn, hnx⟩
    · exact h
    · exact hclosed n x hn hnx
  refine ⟨g2, hrun2, ?_, fun x hx => (k4 x hx).elim (fun c h => ⟨_, h.2⟩), ?_⟩
  · intro x
    cases h2 : g2.has_node x with
    | true => exact (hsame x h2).symm
    | false =>
      cases h1 : g1.has_node x with
      | false => rfl
      | true => rw [k3 x h1] at h2; exact absurd h2 (by simp)
  · intro u v hu hv
    rw [h5 u v hu hv, k5 u v (k3 u hu) (k3 v hv), connected_congr g g1 hn1]

/-- Witness of `clustering_twice_same_partition`: the example graph with step
budget 9. -/
theorem clustering_twice_same_partition_witness :
    ∃ g1 : InMemoryGraphStorage, (runOps chainOps).clustering 9 [] = .ok g1 := by
  obtain ⟨g1, hrun, _⟩ :=
    clustering_twice_same_partition (runOps chainOps) (reachable_runOps chainOps) [] [] 9 9
      (by decide) neighboursAreNodes_chainOps
  exact ⟨g1, hrun⟩

/-- The schema of the example is found for every order in which the loop of
`clustering` may take the nodes. -/
theorem exampleCheck_of_perm (ops : List GraphOp) (order : List Str)
    (hall : ∀ o ∈ List.permutations' (runOps ops).nodes_.keys, exampleCheck ops o)
    (horder : order.Perm (runOps ops).nodes_.keys) :
    ∃ g1 : InMemoryGraphStorage,
      InMemoryGraphStorage.clusterLoop 9 order (runOps ops) [] 0 = .ok g1 ∧
      ∃ v1 v2 : Str × List Str × List (Str × Str), IsExampleSchema (schemaView g1) v1 v2 := by
  have h := hall order (List.mem_permutations'.mpr horder)
  unfold exampleCheck at h
  cases hr : InMemoryGraphStorage.clusterLoop 9 order (runOps ops) [] 0 with
  | error e => rw [hr] at h; exact absurd h (by simp)
  | ok g1 =>
    rw [hr] at h
    obtain ⟨v1, _, v2, _, hv⟩ := h
    exact ⟨g1, rfl, v1, v2, hv⟩

/-- C20.  For the graph built by upserting the nodes `A`, `B`, `C`, `D` and
the edges `A - B` and `B - C`, in whatever order the loop of `clustering()`
takes the nodes, `clustering()` returns and `community_schema()` then returns
exactly two communities, with different keys: one whose nodes are `A`, `B`,
`C`, in some order, with exactly the two edges `(A, B)` and `(B, C)`, and one
whose only node is `D` with no edge.  The same holds when the edges are
upserted first and the nodes in the opposite order. -/
theorem community_schema_example (order1 order2 : List Str)
    (h1 : order1.Perm (runOps chainOps).nodes_.keys)
    (h2 : order2.Perm (runOps chainOpsEdgesFirst).nodes_.keys) :
    (∃ g1 : InMemoryGraphStorage,
      InMemoryGraphStorage.clusterLoop 9 order1 (runOps chainOps) [] 0 = .ok g1 ∧
      ∃ v1 v2 : Str × List Str × List (Str × Str), IsExampleSchema (schemaView g1) v1 v2) ∧
    (∃ g1 : InMemoryGraphStorage,
      InMemoryGraphStorage.clusterLoop 9 order2 (runOps chainOpsEdgesFirst) [] 0 = .ok g1 ∧
      ∃ v1 v2 : Str × List Str × List (Str × Str), IsExampleSchema (schemaView g1) v1 v2) :=
  ⟨exampleCheck_of_perm chainOps order1 (by decide) h1,
    exampleCheck_of_perm chainOpsEdgesFirst order2 (by decide) h2⟩

/-- Witness of `community_schema_example`: the loop takes the nodes in the
order of the keys of `nodes_`, which is the call `clustering()` with step
budget 9. -/
theorem community_schema_example_witness :
    (∃ g1 : InMemoryGraphStorage,
      (runOps chainOps).clustering 9 [] = .ok g1 ∧
      ∃ v1 v2 : Str × List Str × List (Str × Str), IsExampleSchema (schemaView g1) v1 v2) ∧
    (∃ g1 : InMemoryGraphStorage,
      (runOps chainOpsEdgesFirst).clustering 9 [] = .ok g1 ∧
      ∃ v1 v2 : Str × List Str × List (Str × Str), IsExampleSchema (schemaView g1) v1 v2) :=
  community_schema_example (runOps chainOps).nodes_.keys (runOps chainOpsEdgesFirst).nodes_.keys
    (List.Perm.refl _) (List.Perm.refl _)

/-! ## The community schema: edges -/

theorem strLt_irrefl : ∀ s : Str, strLt s s = false := by
  intro s
  induction s with
  | nil => rfl
  | cons a s ih => simp [strLt, ih]

theorem strLt_trans : ∀ s t u : Str, strLt s t = true → strLt t u = true → strLt s u = true := by
  intro s
  induction s with
  | nil =>
    intro t u h1 h2
    cases t with
    | nil => simp [strLt] at h1
    | cons b t =>
      cases u with
      | nil => simp [strLt] at h2
      | cons c u => rfl
  | cons a s ih =>
    intro t u h1 h2
    cases t with
    | nil => simp [strLt] at h1
    | cons b t =>
      cases u with
      | nil => simp [strLt] at h2
      | cons c u =>
        simp only [strLt] at h1 h2 ⊢
        by_cases hab : a < b
        · by_cases hbc : b < c
          · simp [lt_trans hab hbc]
          · rw [if_neg hbc] at h2
            by_cases hcb : c < b
            · rw [if_pos hcb] at h2
              exact absurd h2 (by simp)
            · have hbc2 : b = c := le_antisymm (not_lt.mp hcb) (not_lt.mp hbc)
              subst hbc2
              simp [hab]
        · rw [if_neg hab] at h1
          by_cases hba : b < a
          · rw [if_pos hba] at h1
            exact absurd h1 (by simp)
          · rw [if_neg hba] at h1
            have hab2 : a = b := le_antisymm (not_lt.mp hba) (not_lt.mp hab)
            subst hab2
            by_cases hac : a < c
            · simp [hac]
            · rw [if_neg hac] at h2 ⊢
              by_cases hca : c < a
              · rw [if_pos hca] at h2
                exact absurd h2 (by simp)
              · rw [if_neg hca] at h2 ⊢
                exact ih t u h1 h2

theorem pairLt_irrefl (a : Str × Str) : pairLt a a = false := by
  simp [pairLt, strLt_irrefl]

theorem pairLt_trans (a b c : Str × Str) (h1 : pairLt a b = true) (h2 : pairLt b c = true) :
    pairLt a c = true := by
  unfold pairLt at h1 h2 ⊢
  simp only [Bool.or_eq_true, Bool.and_eq_true, Bool.not_eq_true'] at h1 h2 ⊢
  rcases h1 with h1 | ⟨h1a, h1b⟩
  · rcases h2 with h2 | ⟨h2a, _⟩
    · exact Or.inl (strLt_trans _ _ _ h1 h2)
    · cases hbc : strLt b.1 c.1 with
      | true => exact Or.inl (strLt_trans _ _ _ h1 hbc)
      | false =>
        have e : b.1 = c.1 := strLt_total _ _ hbc h2a
        rw [← e]
        exact Or.inl h1
  · cases hab : strLt a.1 b.1 with
    | true =>
      rw [strLt_asymm _ _ hab] at h1a
      rcases h2 with h2 | ⟨h2a, _⟩
      · exact Or.inl (strLt_trans _ _ _ hab h2)
      · cases hbc : strLt b.1 c.1 with
        | true => exact Or.inl (strLt_trans _ _ _ hab hbc)
        | false =>
          have e : b.1 = c.1 := strLt_total _ _ hbc h2a
          rw [← e]
          exact Or.inl hab
    | false =>
      have e : a.1 = b.1 := strLt_total _ _ hab h1a
      rw [e]
      rcases h2 with h2 | ⟨h2a, h2b⟩
      · exact Or.inl h2
      · exact Or.inr ⟨h2a, strLt_trans _ _ _ h1b h2b⟩

theorem pairLt_total (a b : Str × Str) (h1 : pairLt a b = false) (h2 : pairLt b a = false) :
    a = b := by
  unfold pairLt at h1 h2
  simp only [Bool.or_eq_false_iff, Bool.and_eq_false_iff, Bool.not_eq_false'] at h1 h2
  obtain ⟨h1a, h1b⟩ := h1
  obtain ⟨h2a, h2b⟩ := h2
  have e1 : a.1 = b.1 := strLt_total _ _ h1a h2a
  have h1c : strLt a.2 b.2 = false := by
    rcases h1b with h | h
    · rw [h2a] at h; exact absurd h (by simp)
    · exact h
  have h2c : strLt b.2 a.2 = false := by
    rcases h2b with h | h
    · rw [h1a] at h; exact absurd h (by simp)
    · exact h
  exact Prod.ext e1 (strLt_total _ _ h1c h2c)

theorem pairLt_asymm (a b : Str × Str) (h : pairLt a b = true) : pairLt b a = false := by
  cases hba : pairLt b a with
  | false => rfl
  | true =>
    have := pairLt_trans a b a h hba
    rw [pairLt_irrefl] at this
    exact absurd this (by simp)

/-- The order `a ≤ b` that `std::sort` arranges the edges in is total and
transitive, so the sorted vector is ascending. -/
theorem sortEdges_sorted (edges : List (Str × Str)) :
    (sortEdges edges).Sorted (fun a b => pairLt b a = false) := by
  have htotal : IsTotal (Str × Str) (fun a b => pairLt b a = false) := by
    refine ⟨fun a b => ?_⟩
    cases hba : pairLt b a with
    | false => exact Or.inl rfl
    | true => exact Or.inr (pairLt_asymm b a hba)
  have htrans : IsTrans (Str × Str) (fun a b => pairLt b a = false) := by
    refine ⟨fun a b c hab hbc => ?_⟩
    show pairLt c a = false
    cases hca : pairLt c a with
    | false => rfl
    | true =>
      -- c < a, a ≤ b, b ≤ c
      cases hab2 : pairLt a b with
      | true =>
        have hcb := pairLt_trans c a b hca hab2
        rw [hcb] at hbc
        exact absurd hbc (by simp)
      | false =>
        have e : a = b := pairLt_total a b hab2 hab
        rw [e] at hca
        rw [hca] at hbc
        exact absurd hbc (by simp)
  exact List.sorted_insertionSort (fun a b => pairLt b a = false) edges

theorem mem_uniqueEdges : ∀ (l : List (Str × Str)) (x : Str × Str), x ∈ uniqueEdges l ↔ x ∈ l
  | [], x => by simp [uniqueEdges]
  | [a], x => by simp [uniqueEdges]
  | a :: b :: rest, x => by
    have ih := mem_uniqueEdges (b :: rest) x
    by_cases hab : a = b
    · simp only [uniqueEdges, hab, if_true]
      rw [ih]
      simp
    · simp only [uniqueEdges, hab, if_false, List.mem_cons]
      rw [ih]
      simp

theorem uniqueEdges_sorted : ∀ l : List (Str × Str),
    l.Sorted (fun a b => pairLt b a = false) →
      (uniqueEdges l).Sorted (fun a b => pairLt a b = true)
  | [], _ => by simp [uniqueEdges]
  | [a], _ => by simp [uniqueEdges]
  | a :: b :: rest, h => by
    have hrest : (b :: rest).Sorted (fun a b => pairLt b a = false) := List.Sorted.of_cons h
    have ih := uniqueEdges_sorted (b :: rest) hrest
    by_cases hab : a = b
    · simp only [uniqueEdges, hab, if_true]
      exact ih
    · simp only [uniqueEdges, hab, if_false]
      rw [List.sorted_cons] at h ⊢
      refine ⟨?_, ih⟩
      intro x hx
      rw [mem_uniqueEdges] at hx
      have hle : pairLt x a = false := h.1 x hx
      cases hax : pairLt a x with
      | true => rfl
      | false =>
        have e : a = x := pairLt_total a x hax hle
        subst e
        -- a occurs in b :: rest, so b ≤ a, and a ≤ b: a = b
        rcases List.mem_cons.mp hx with hb | hr
        · exact absurd hb hab
        · have h1 : pairLt a b = false := (List.sorted_cons.mp hrest).1 a hr
          have h2 : pairLt b a = false := h.1 b (List.mem_cons_self _ _)
          exact absurd (pairLt_total a b h1 h2) hab

/-- The canonical pair that `community_schema` pushes for an incident edge is
the pair of `canonical_edge_key`. -/
theorem schema_canonical (s t : Str) :
    (if strLt t s then (t, s) else (s, t)) = canonical_edge_key s t := by
  unfold canonical_edge_key
  cases h1 : strLt t s <;> cases h2 : strLt s t
  · simp [strLt_total s t h2 h1]
  · simp
  · simp
  · rw [strLt_asymm s t h2] at h1
    exact absurd h1 (by simp)

theorem canonical_edge_key_le (s t : Str) :
    strLt (canonical_edge_key s t).2 (canonical_edge_key s t).1 = false := by
  unfold canonical_edge_key
  cases h : strLt s t with
  | true => simpa using strLt_asymm s t h
  | false => simpa using h

/-- The edges that one node contributes to its community. -/
theorem schemaStep_edges (g : InMemoryGraphStorage) (out : UnorderedMap SingleCommunity)
    (n : Sigma (fun _ : Str => PropertyMap)) (k0 : Str) (h : entryKey n = some k0) (k : Str) :
    ((InMemoryGraphStorage.schemaStep g out n).lookup k).map (fun c => c.edges)
      = if k = k0 then
          some ((((out.lookup k0).map (fun c => c.edges)).getD []) ++
            (neighbours g n.1).map (fun t => canonical_edge_key n.1 t))
        else (out.lookup k).map (fun c => c.edges) := by
  unfold entryKey at h
  unfold InMemoryGraphStorage.schemaStep
  cases hv : n.2.lookup clustersKey with
  | none => rw [hv] at h; simp at h
  | some v =>
    rw [hv] at h
    simp only [Option.map_some', Option.some.injEq] at h
    subst h
    simp only
    by_cases hk : k = to_string (parseCluster v)
    · rw [if_pos hk, hk, AList.lookup_insert]
      rw [foldl_push_eq_map, get_node_edges_eq_map, List.map_map]
      have hf : ((fun e : Str × Str => if strLt e.2 e.1 then (e.2, e.1) else (e.1, e.2)) ∘
          fun t => (n.1, t)) = fun t => canonical_edge_key n.1 t := by
        funext t
        exact schema_canonical n.1 t
      rw [hf]
      cases hl : out.lookup (to_string (parseCluster v)) <;> simp [SingleCommunity.default]
    · rw [if_neg hk, AList.lookup_insert_ne hk]

theorem schemaFold_edges (g : InMemoryGraphStorage) :
    ∀ (l : List (Sigma (fun _ : Str => PropertyMap))) (out : UnorderedMap SingleCommunity)
      (k : Str) (e : Str × Str),
      e ∈ (((l.foldl (InMemoryGraphStorage.schemaStep g) out).lookup k).map
          (fun c => c.edges)).getD []
        ↔ e ∈ ((out.lookup k).map (fun c => c.edges)).getD [] ∨
          ∃ n ∈ l, entryKey n = some k ∧ ∃ t ∈ neighbours g n.1, e = canonical_edge_key n.1 t := by
  intro l
  induction l with
  | nil => intro out k e; simp
  | cons n l ih =>
    intro out k e
    rw [List.foldl_cons, ih]
    cases hk0 : entryKey n with
    | none =>
      rw [schemaStep_of_none g out n hk0]
      simp [hk0]
    | some k0 =>
      rw [schemaStep_edges g out n k0 hk0 k]
      by_cases hk : k = k0
      · subst hk
        rw [if_pos rfl]
        simp only [Option.getD_some, List.mem_append, List.mem_map, List.mem_cons,
          exists_eq_or_imp, hk0, true_and]
        constructor
        · rintro ((h | ⟨t, ht, rfl⟩) | h)
          · exact Or.inl h
          · exact Or.inr (Or.inl ⟨t, ht, rfl⟩)
          · exact Or.inr (Or.inr h)
        · rintro (h | ⟨t, ht, rfl⟩ | h)
          · exact Or.inl (Or.inl h)
          · exact Or.inl (Or.inr ⟨t, ht, rfl⟩)
          · exact Or.inr h
      · rw [if_neg hk]
        have hne : ¬ some k0 = some k := fun h => hk (Option.some.inj h).symm
        simp [hk0, hne]

/-- The edge list of the community with key `k`: in strictly ascending order,
and holding exactly the canonical pairs of the adjacency entries of the nodes
filed under `k`. -/
theorem community_schema_edges (g : InMemoryGraphStorage) (k : Str) (c : SingleCommunity)
    (hc : g.community_schema.lookup k = some c) :
    c.edges.Sorted (fun a b => pairLt a b = true) ∧
    ∀ e : Str × Str, e ∈ c.edges ↔
      ∃ x t : Str, communityKey g x = some k ∧ t ∈ neighbours g x ∧
        e = canonical_edge_key x t := by
  rw [community_schema_lookup] at hc
  have hfold := schemaFold_edges g g.nodes_.entries ∅ k
  cases hout : (g.nodes_.entries.foldl (InMemoryGraphStorage.schemaStep g) ∅).lookup k with
  | none => rw [hout] at hc; simp at hc
  | some c0 =>
    rw [hout] at hc hfold
    simp only [Option.map_some', Option.some.injEq] at hc
    have hedges : c.edges = uniqueEdges (sortEdges c0.edges) := by rw [← hc]; rfl
    rw [hedges]
    refine ⟨uniqueEdges_sorted _ (sortEdges_sorted _), ?_⟩
    intro e
    rw [mem_uniqueEdges]
    unfold sortEdges
    rw [List.mem_insertionSort]
    have h := hfold e
    simp only [Option.map_some', Option.getD_some, AList.lookup_empty, Option.map_none',
      Option.getD_none, List.not_mem_nil, false_or] at h
    rw [h]
    constructor
    · rintro ⟨n, hn, hkey, t, ht, rfl⟩
      obtain ⟨a, props⟩ := n
      have hl : g.nodes_.lookup a = some props := AList.mem_lookup_iff.mpr hn
      refine ⟨a, t, ?_, ht, rfl⟩
      unfold communityKey nodeLabel
      rw [hl]
      exact hkey
    · rintro ⟨x, t, hkey, ht, rfl⟩
      unfold communityKey nodeLabel at hkey
      cases hl : g.nodes_.lookup x with
      | none => rw [hl] at hkey; simp at hkey
      | some props =>
        rw [hl] at hkey
        exact ⟨⟨x, props⟩, AList.mem_lookup_iff.mp hl, hkey, t, ht, rfl⟩

theorem reachable_of_reachedBy (ops : List GraphOp) (g : InMemoryGraphStorage)
    (h : ReachedBy ops g) : Reachable g := by
  induction h with
  | init => exact Reachable.init
  | upsert ops g op _ ih =>
    cases op with
    | node id d => exact Reachable.node g id d ih
    | edge s t d => exact Reachable.edge g s t d ih
  | clustering ops g g1 fuel alg _ hrun ih => exact Reachable.clustering g g1 fuel alg ih hrun

theorem reachedBy_runOps (ops : List GraphOp) : ReachedBy ops (runOps ops) := by
  induction ops using List.reverseRecOn with
  | nil => exact ReachedBy.init
  | append_singleton ops op ih =>
    rw [runOps_snoc]
    exact ReachedBy.upsert ops _ op ih

/-- The adjacency sets hold exactly the upserted edges, whatever calls of
`clustering` happened in between. -/
theorem neighbours_reachedBy (ops : List GraphOp) (g : InMemoryGraphStorage)
    (h : ReachedBy ops g) (n m : Str) : m ∈ neighbours g n ↔ edgeUpserted ops n m := by
  induction h with
  | init => simp [neighbours, InMemoryGraphStorage.init, edgeUpserted]
  | upsert ops g op _ ih =>
    rw [edgeUpserted_snoc, ← ih]
    cases op with
    | node id d =>
      simp only [applyOp]
      rw [neighbours_upsert_node]
      simp
    | edge s t d =>
      simp only [applyOp]
      rw [mem_neighbours_upsert_edge]
      constructor
      · rintro (h | ⟨h1, h2⟩ | ⟨h1, h2⟩)
        · exact Or.inl h
        · exact Or.inr ⟨s, t, d, rfl, Or.inl ⟨h1.symm, h2.symm⟩⟩
        · exact Or.inr ⟨s, t, d, rfl, Or.inr ⟨h2.symm, h1.symm⟩⟩
      · rintro (h | ⟨s1, t1, d1, he, h⟩)
        · exact Or.inl h
        · cases he
          rcases h with ⟨h1, h2⟩ | ⟨h1, h2⟩
          · exact Or.inr (Or.inl ⟨h1.symm, h2.symm⟩)
          · exact Or.inr (Or.inr ⟨h2.symm, h1.symm⟩)
  | clustering ops g g1 fuel alg _ hrun ih =>
    rw [clusterLoop_neighbours fuel g.nodes_.keys g [] 0 g1 hrun n]
    exact ih

/-- The fields of a community that the first loop of `community_schema` never
writes keep their default value, and `level` and `title` are as assigned. -/
theorem schemaFold_fields (g : InMemoryGraphStorage) :
    ∀ (l : List (Sigma (fun _ : Str => PropertyMap))) (out : UnorderedMap SingleCommunity),
      (∀ (k : Str) (c : SingleCommunity), out.lookup k = some c →
        c.chunk_ids = [] ∧ c.occurrence = 0 ∧ c.sub_communities = [] ∧ c.level = 0 ∧
          c.title = "Cluster ".toList ++ k) →
      ∀ (k : Str) (c : SingleCommunity),
        (l.foldl (InMemoryGraphStorage.schemaStep g) out).lookup k = some c →
        c.chunk_ids = [] ∧ c.occurrence = 0 ∧ c.sub_communities = [] ∧ c.level = 0 ∧
          c.title = "Cluster ".toList ++ k := by
  intro l
  induction l with
  | nil => intro out h k c hc; exact h k c hc
  | cons n l ih =>
    intro out h
    rw [List.foldl_cons]
    apply ih
    intro k c hc
    unfold InMemoryGraphStorage.schemaStep at hc
    cases hv : n.2.lookup clustersKey with
    | none =>
      rw [hv] at hc
      exact h k c hc
    | some v =>
      rw [hv] at hc
      simp only at hc
      by_cases hk : k = to_string (parseCluster v)
      · rw [hk, AList.lookup_insert] at hc
        cases hl : out.lookup (to_string (parseCluster v)) with
        | none =>
          rw [hl] at hc
          simp only [Option.getD_none, Option.some.injEq] at hc
          rw [← hc, hk]
          simp [SingleCommunity.default]
        | some c0 =>
          rw [hl] at hc
          simp only [Option.getD_some, Option.some.injEq] at hc
          obtain ⟨h1, h2, h3, _, _⟩ := h _ c0 hl
          rw [← hc, hk]
          exact ⟨h1, h2, h3, rfl, rfl⟩
      · rw [AList.lookup_insert_ne hk] at hc
        exact h k c hc

theorem community_schema_fields (g : InMemoryGraphStorage) (k : Str) (c : SingleCommunity)
    (hc : g.community_schema.lookup k = some c) :
    c.chunk_ids = [] ∧ c.occurrence = 0 ∧ c.sub_communities = [] ∧ c.level = 0 ∧
      c.title = "Cluster ".toList ++ k := by
  rw [community_schema_lookup] at hc
  cases hout : (g.nodes_.entries.foldl (InMemoryGraphStorage.schemaStep g) ∅).lookup k with
  | none => rw [hout] at hc; simp at hc
  | some c0 =>
    rw [hout] at hc
    simp only [Option.map_some', Option.some.injEq] at hc
    obtain ⟨h1, h2, h3, h4, h5⟩ :=
      schemaFold_fields g g.nodes_.entries ∅ (by simp) k c0 hout
    rw [← hc]
    unfold finishCommunity
    simp [h1, h3, h4, h5]

/-- C21, where `clustering()` creates no node.  For every graph state reached by
the upserts `ops` (with calls of `clustering` in between or not) in which every
neighbour of a node is a node (both ends of every edge at a node have been
upserted as nodes), `clustering()` (with the step budget `clusteringFuel`)
returns, the nodes after the call are the nodes before it, and every community
returned by `community_schema()` has an edge list that is strictly increasing
in the order of pairs of strings, hence without duplicates; every listed pair
`(a, b)` has `a ≤ b`; both endpoints of every listed pair are members of the
community; and every upserted edge between two members is listed, as its
canonical pair. -/
theorem community_edges_sorted_induced (ops : List GraphOp) (g : InMemoryGraphStorage)
    (hg : ReachedBy ops g) (algorithm : Str) (fuel : Nat) (hfuel : clusteringFuel g ≤ fuel)
    (hclosed : NeighboursAreNodes g) :
    ∃ g1 : InMemoryGraphStorage,
      g.clustering fuel algorithm = .ok g1 ∧
      (∀ x : Str, g1.has_node x = g.has_node x) ∧
      ∀ (k : Str) (c : SingleCommunity), g1.community_schema.lookup k = some c →
        c.edges.Sorted (fun a b => pairLt a b = true) ∧
        c.edges.Nodup ∧
        (∀ e ∈ c.edges, strLt e.2 e.1 = false) ∧
        (∀ e ∈ c.edges, e.1 ∈ c.nodes ∧ e.2 ∈ c.nodes) ∧
        (∀ a b : Str, a ∈ c.nodes → b ∈ c.nodes → edgeUpserted ops a b →
          canonical_edge_key a b ∈ c.edges) := by
  have hsym := symmetric_of_reachable g (reachable_of_reachedBy ops g hg)
  obtain ⟨g1, hrun, hn, _, _, _, h5, h6, _⟩ := clustering_spec g algorithm fuel hsym hfuel
  refine ⟨g1, hrun, (clustering_same_nodes g algorithm fuel hsym hfuel hclosed g1 hrun).1, ?_⟩
  intro k c hc
  obtain ⟨hsorted, hedges⟩ := community_schema_edges g1 k c hc
  obtain ⟨_, hnodes⟩ := (community_schema_nodes g1 k).1 c hc
  have hhas : ∀ x : Str, communityKey g1 x = some k → g1.has_node x = true := by
    intro x hkey
    unfold communityKey nodeLabel at hkey
    unfold InMemoryGraphStorage.has_node
    cases hl : g1.nodes_.lookup x with
    | none => rw [hl] at hkey; simp at hkey
    | some props => rfl
  have hnb : ∀ x t : Str, communityKey g1 x = some k → t ∈ neighbours g1 x →
      communityKey g1 t = some k := by
    intro x t hkey ht
    rw [hn] at ht
    have hx := hhas x hkey
    have ht1 : g1.has_node t = true := h6 x hx t ht
    have hlab : nodeLabel g1 x = nodeLabel g1 t :=
      (h5 x t hx ht1).mpr (Relation.ReflTransGen.single ht)
    unfold communityKey at hkey ⊢
    rw [← hlab]
    exact hkey
  refine ⟨hsorted, ?_, ?_, ?_, ?_⟩
  · refine List.Pairwise.imp_of_mem ?_ hsorted
    intro a b _ _ hab e
    rw [e, pairLt_irrefl] at hab
    exact absurd hab (by simp)
  · intro e he
    obtain ⟨x, t, _, _, rfl⟩ := (hedges e).mp he
    exact canonical_edge_key_le x t
  · intro e he
    obtain ⟨x, t, hkey, ht, rfl⟩ := (hedges e).mp he
    have hx : x ∈ c.nodes := (hnodes x).mpr hkey
    have htm : t ∈ c.nodes := (hnodes t).mpr (hnb x t hkey ht)
    unfold canonical_edge_key
    cases strLt x t
    · exact ⟨htm, hx⟩
    · exact ⟨hx, htm⟩
  · intro a b ha _ hab
    have hkey := (hnodes a).mp ha
    have hb : b ∈ neighbours g1 a := by
      rw [hn]
      exact (neighbours_reachedBy ops g hg a b).mpr hab
    exact (hedges _).mpr ⟨a, b, hkey, hb, rfl⟩

/-- Witness of `community_edges_sorted_induced`: the example graph with step
budget 9. -/
theorem community_edges_sorted_induced_witness :
    ∃ g1 : InMemoryGraphStorage,
      (runOps chainOps).clustering 9 [] = .ok g1 ∧
      ∀ (k : Str) (c : SingleCommunity), g1.community_schema.lookup k = some c →
        c.edges.Sorted (fun a b => pairLt a b = true) := by
  obtain ⟨g1, hrun, _, h⟩ :=
    community_edges_sorted_induced chainOps (runOps chainOps) (reachedBy_runOps chainOps) [] 9
      (by decide) neighboursAreNodes_chainOps
  exact ⟨g1, hrun, fun k c hc => (h k c hc).1⟩

/-- C22.  For every graph state, every community returned by
`community_schema()` has `occurrence` equal to 0 and an empty `chunk_ids`
list. -/
theorem community_occurrence_zero (g : InMemoryGraphStorage) (k : Str) (c : SingleCommunity) :
    g.community_schema.lookup k = some c → c.occurrence = 0 ∧ c.chunk_ids = [] := by
  intro hc
  obtain ⟨h1, h2, _⟩ := community_schema_fields g k c hc
  exact ⟨h2, h1⟩

/-- Witness of `community_occurrence_zero`: the graph with the single node `A`
carrying the label of cluster 5. -/
theorem community_occurrence_zero_witness :
    ∃ c : SingleCommunity,
      (runOps [GraphOp.node "A".toList (AList.singleton clustersKey (clusterLabel 5))]).community_schema.lookup
          "5".toList = some c ∧
      c.occurrence = 0 ∧ c.chunk_ids = [] := by
  have h : ((runOps [GraphOp.node "A".toList
      (AList.singleton clustersKey (clusterLabel 5))]).community_schema.lookup "5".toList).isSome
        = true := by decide
  obtain ⟨c, hc⟩ := Option.isSome_iff_exists.mp h
  exact ⟨c, hc, community_occurrence_zero _ _ c hc⟩

/-! ## The naive query: the context -/

theorem tokenCount_take_succ (c : TextChunk) (rest : List TextChunk) (m : Nat) :
    tokenCount ((c :: rest).take (m + 1)) = c.tokens + tokenCount (rest.take m) := by
  simp [tokenCount]

theorem sectionLoop_eq (max_tokens : Int) :
    ∀ (chunks : List (Option TextChunk)) (sect : Str) (tokens : Int),
      sectionLoop max_tokens chunks sect tokens
        = sect ++ (((chunks.filterMap id).take
            (appendedCount max_tokens (chunks.filterMap id) tokens)).map
              (fun c => c.content ++ chunkSeparator)).flatten := by
  intro chunks
  induction chunks with
  | nil => intro sect tokens; simp [sectionLoop, appendedCount]
  | cons oc rest ih =>
    intro sect tokens
    cases oc with
    | none =>
      simp only [sectionLoop, List.filterMap_cons_none, id]
      exact ih sect tokens
    | some c =>
      have hf : (some c :: rest).filterMap id = c :: rest.filterMap id := by simp
      rw [hf]
      by_cases h : intAdd tokens c.tokens > max_tokens
      · simp [sectionLoop, appendedCount, h]
      · simp only [sectionLoop, appendedCount, h, if_false]
        rw [ih]
        simp

/-- As long as no running count leaves the range of `int`, the loop appends
the chunks that the prefix sums of the token counts admit. -/
theorem appendedCount_eq_keptCount (max_tokens : Int) :
    ∀ (found : List TextChunk) (tokens : Int),
      (∀ m : Nat, m ≤ found.length → isInt (tokens + tokenCount (found.take m))) →
      appendedCount max_tokens found tokens = keptCount max_tokens found tokens := by
  intro found
  induction found with
  | nil => intro tokens _; rfl
  | cons c rest ih =>
    intro tokens h
    have h1 : isInt (tokens + c.tokens) := by
      have := h 1 (by simp)
      simpa [tokenCount] using this
    have hadd : intAdd tokens c.tokens = tokens + c.tokens := intAdd_eq _ _ h1
    have hrest : ∀ m : Nat, m ≤ rest.length →
        isInt (tokens + c.tokens + tokenCount (rest.take m)) := by
      intro m hm
      have := h (m + 1) (by simp; omega)
      rw [tokenCount_take_succ] at this
      rwa [add_assoc]
    simp only [appendedCount, keptCount, hadd]
    rw [ih (tokens + c.tokens) hrest]

theorem assembledContext_eq_budgetedContext (max_tokens : Int) (found : List TextChunk)
    (h : ∀ m : Nat, m ≤ found.length → isInt (tokenCount (found.take m))) :
    assembledContext max_tokens found = budgetedContext max_tokens found := by
  unfold assembledContext budgetedContext
  rw [appendedCount_eq_keptCount max_tokens found 0 (by simpa using h)]

theorem flatten_map_append_sep (sep : Str) :
    ∀ (l : List Str) (a : Str),
      ((a :: l).map (fun c => c ++ sep)).flatten = sep.intercalate (a :: l) ++ sep := by
  intro l
  induction l with
  | nil => intro a; simp [List.intercalate]
  | cons b l ih =>
    intro a
    have h := ih b
    simp only [List.intercalate, List.intersperse, List.flatten_cons, List.map_cons] at h ⊢
    rw [h]
    simp

theorem eraseSeparator_flatten (l : List Str) :
    eraseSeparator ((l.map (fun c => c ++ chunkSeparator)).flatten)
      = chunkSeparator.intercalate l := by
  cases l with
  | nil => simp [eraseSeparator, List.intercalate]
  | cons a l =>
    rw [flatten_map_append_sep]
    unfold eraseSeparator
    have hne : (chunkSeparator.intercalate (a :: l) ++ chunkSeparator).isEmpty = false := by
      cases h : chunkSeparator.intercalate (a :: l) <;> simp [chunkSeparator]
    rw [hne]
    simp

theorem keptCount_le (max_tokens : Int) :
    ∀ (found : List TextChunk) (tokens : Int), keptCount max_tokens found tokens ≤ found.length := by
  intro found
  induction found with
  | nil => intro tokens; simp [keptCount]
  | cons c rest ih =>
    intro tokens
    by_cases h : tokens + c.tokens > max_tokens
    · simp [keptCount, h]
    · simp only [keptCount, h, if_false, List.length_cons]
      exact Nat.succ_le_succ (ih _)

/-- Every non-empty prefix of the kept chunks is within the budget. -/
theorem keptCount_within (max_tokens : Int) :
    ∀ (found : List TextChunk) (tokens : Int) (m : Nat),
      1 ≤ m → m ≤ keptCount max_tokens found tokens →
        tokens + tokenCount (found.take m) ≤ max_tokens := by
  intro found
  induction found with
  | nil => intro tokens m h1 h2; simp [keptCount] at h2; omega
  | cons c rest ih =>
    intro tokens m h1 h2
    by_cases h : tokens + c.tokens > max_tokens
    · simp [keptCount, h] at h2; omega
    · simp only [keptCount, h, if_false] at h2
      obtain ⟨m, rfl⟩ : ∃ j, m = j + 1 := ⟨m - 1, by omega⟩
      rw [tokenCount_take_succ]
      by_cases hm : m = 0
      · subst hm
        simp [tokenCount]
        omega
      · have := ih (tokens + c.tokens) m (by omega) (by omega)
        omega

/-- The chunk after the kept ones, if there is one, pushes the running count
over the budget. -/
theorem keptCount_exceeds (max_tokens : Int) :
    ∀ (found : List TextChunk) (tokens : Int),
      keptCount max_tokens found tokens < found.length →
        max_tokens < tokens + tokenCount (found.take (keptCount max_tokens found tokens + 1)) := by
  intro found
  induction found with
  | nil => intro tokens h; simp at h
  | cons c rest ih =>
    intro tokens h
    by_cases hc : tokens + c.tokens > max_tokens
    · simp only [keptCount, hc, if_true]
      simp [tokenCount]
      omega
    · simp only [keptCount, hc, if_false, List.length_cons] at h ⊢
      rw [tokenCount_take_succ]
      have := ih (tokens + c.tokens) (by omega)
      omega

theorem tokenCount_take_mono (found : List TextChunk) (hpos : ∀ c ∈ found, 0 ≤ c.tokens) :
    ∀ (m n : Nat), m ≤ n → tokenCount (found.take m) ≤ tokenCount (found.take n) := by
  induction found with
  | nil => intro m n _; simp
  | cons c rest ih =>
    intro m n hmn
    have hrest : ∀ c ∈ rest, 0 ≤ c.tokens := fun x hx => hpos x (List.mem_cons_of_mem _ hx)
    have hc : 0 ≤ c.tokens := hpos c (List.mem_cons_self _ _)
    cases m with
    | zero =>
      cases n with
      | zero => simp
      | succ n =>
        rw [tokenCount_take_succ]
        have h0 := ih hrest 0 n (Nat.zero_le _)
        simp only [List.take_zero] at h0 ⊢
        simp only [tokenCount, List.map_nil, List.sum_nil] at h0 ⊢
        omega
    | succ m =>
      cases n with
      | zero => omega
      | succ n =>
        rw [tokenCount_take_succ, tokenCount_take_succ]
        have := ih hrest m n (by omega)
        omega

/-- With non-negative token counts the kept chunks are the longest prefix
within the budget. -/
theorem keptCount_longest (max_tokens : Int) (found : List TextChunk)
    (hpos : ∀ c ∈ found, 0 ≤ c.tokens) (m : Nat) (hm : m ≤ found.length)
    (hsum : tokenCount (found.take m) ≤ max_tokens) : m ≤ keptCount max_tokens found 0 := by
  by_contra hlt
  have hlt : keptCount max_tokens found 0 < m := Nat.lt_of_not_le hlt
  have h1 := keptCount_exceeds max_tokens found 0 (by omega)
  have h2 := tokenCount_take_mono found hpos (keptCount max_tokens found 0 + 1) m (by omega)
  omega

theorem retrievedIds_fold (results : List PropertyMap) :
    results.foldl (fun ids r => ids ++ [(r.lookup "id".toList).getD []]) []
      = retrievedIds results := by
  rw [foldl_push_eq_map]
  rfl

/-- The string `section` that `naive_query` holds after erasing the trailing
separator. -/
theorem naive_section (store : JsonKVStorage TextChunk) (ids : List Str) (max_tokens : Int) :
    eraseSeparator (sectionLoop max_tokens (store.get_by_ids ids) [] 0)
      = assembledContext max_tokens (foundChunks store ids) := by
  rw [sectionLoop_eq, JsonKVStorage.get_by_ids_eq_map]
  have hf : (ids.map store.get_by_id).filterMap id = foundChunks store ids := by
    unfold foundChunks
    rw [List.filterMap_map]
    rfl
  rw [hf, List.nil_append]
  have hm : ((foundChunks store ids).take (appendedCount max_tokens (foundChunks store ids) 0)).map
      (fun c => c.content ++ chunkSeparator)
      = (((foundChunks store ids).take (appendedCount max_tokens (foundChunks store ids) 0)).map
          (fun c => c.content)).map (fun s => s ++ chunkSeparator) := by
    rw [List.map_map]
    rfl
  rw [hm, eraseSeparator_flatten]
  rfl

theorem query_of_naive {V : Type} (vdb : BaseVectorStorage V) (self : GraphRAG V) (q : Str)
    (param : QueryParam) (hmode : param.mode = "naive".toList) :
    GraphRAG.query vdb self q param = GraphRAG.naive_query vdb self q param := by
  unfold GraphRAG.query
  rw [if_pos hmode]

theorem query_of_not_naive {V : Type} (vdb : BaseVectorStorage V) (self : GraphRAG V) (q : Str)
    (param : QueryParam) (hmode : param.mode ≠ "naive".toList) :
    GraphRAG.query vdb self q param
      = ⟨"Sorry, I'm not able to provide an answer to that question.".toList, [], self⟩ := by
  unfold GraphRAG.query
  rw [if_neg hmode]

theorem fail_response_eq :
    Prompts.fail_response = "Sorry, I'm not able to provide an answer to that question.".toList := by
  decide

/-- The response of a naive query that got at least one row from the vector
index. -/
theorem naive_query_response {V : Type} (vdb : BaseVectorStorage V) (self : GraphRAG V) (q : Str)
    (param : QueryParam) (v : V) (hvdb : self.chunks_vdb = some v)
    (hres : (vdb.query v q param.top_k).1 ≠ []) :
    (GraphRAG.naive_query vdb self q param).response
      = if param.only_need_context then
          assembledContext param.naive_max_token_for_text_unit (retrievedChunks vdb self v q param)
        else
          match self.llm_strategy with
          | none =>
            assembledContext param.naive_max_token_for_text_unit (retrievedChunks vdb self v q param)
          | some llm =>
            if (llm.prompt q (Prompts.naive_rag_response
                (assembledContext param.naive_max_token_for_text_unit
                  (retrievedChunks vdb self v q param)) param.response_type)).isEmpty
            then assembledContext param.naive_max_token_for_text_unit
              (retrievedChunks vdb self v q param)
            else llm.prompt q (Prompts.naive_rag_response
                (assembledContext param.naive_max_token_for_text_unit
                  (retrievedChunks vdb self v q param)) param.response_type) := by
  have hne : (vdb.query v q param.top_k).1.isEmpty = false := by
    cases h : (vdb.query v q param.top_k).1 with
    | nil => exact absurd h hres
    | cons a l => rfl
  unfold GraphRAG.naive_query
  rw [hvdb]
  simp only [hne, Bool.false_eq_true, if_false]
  rw [retrievedIds_fold, naive_section]
  cases honly : param.only_need_context with
  | true => rfl
  | false =>
    simp only [Bool.false_eq_true, if_false]
    cases hllm : self.llm_strategy with
    | none => rfl
    | some llm =>
      simp only
      cases hresp : (llm.prompt q (Prompts.naive_rag_response
          (assembledContext param.naive_max_token_for_text_unit
            (foundChunks self.text_chunks (retrievedIds (vdb.query v q param.top_k).1)))
          param.response_type)).isEmpty <;> simp [retrievedChunks, hresp]

/-- Where no cumulative token count of the found chunks leaves the range of
`int`: for a naive query with `only_need_context` that got at least one row
from the vector index, the returned context is the contents of the first `n`
found chunks, in retrieval order, joined by the separator `"\n--New Chunk--\n"`
with no trailing separator and no content shortened, where every non-empty
prefix of these `n` chunks has a cumulative token count within
`naive_max_token_for_text_unit` and the chunk after them, if there is one,
pushes the count over the maximum; with non-negative token counts these are
the longest prefix of the found chunks whose cumulative token count does not
exceed the maximum. -/
theorem naive_context_budget {V : Type} (vdb : BaseVectorStorage V) (self : GraphRAG V)
    (q : Str) (param : QueryParam) (v : V)
    (hmode : param.mode = "naive".toList) (honly : param.only_need_context = true)
    (hvdb : self.chunks_vdb = some v) (hres : (vdb.query v q param.top_k).1 ≠ [])
    (hint : ∀ m : Nat, m ≤ (retrievedChunks vdb self v q param).length →
      isInt (tokenCount ((retrievedChunks vdb self v q param).take m))) :
    ∃ n : Nat,
      n ≤ (retrievedChunks vdb self v q param).length ∧
      (GraphRAG.query vdb self q param).response
        = chunkSeparator.intercalate
            (((retrievedChunks vdb self v q param).take n).map (fun c => c.content)) ∧
      (∀ m : Nat, 1 ≤ m → m ≤ n →
        tokenCount ((retrievedChunks vdb self v q param).take m)
          ≤ param.naive_max_token_for_text_unit) ∧
      (n < (retrievedChunks vdb self v q param).length →
        param.naive_max_token_for_text_unit
          < tokenCount ((retrievedChunks vdb self v q param).take (n + 1))) ∧
      ((∀ c ∈ retrievedChunks vdb self v q param, 0 ≤ c.tokens) →
        ∀ m : Nat, m ≤ (retrievedChunks vdb self v q param).length →
          tokenCount ((retrievedChunks vdb self v q param).take m)
            ≤ param.naive_max_token_for_text_unit → m ≤ n) := by
  refine ⟨keptCount param.naive_max_token_for_text_unit (retrievedChunks vdb self v q param) 0,
    keptCount_le _ _ _, ?_, ?_, ?_, ?_⟩
  · rw [query_of_naive vdb self q param hmode, naive_query_response vdb self q param v hvdb hres,
      honly, if_pos rfl, assembledContext_eq_budgetedContext _ _ hint]
    rfl
  · intro m h1 h2
    have := keptCount_within param.naive_max_token_for_text_unit
      (retrievedChunks vdb self v q param) 0 m h1 h2
    omega
  · intro h
    have := keptCount_exceeds param.naive_max_token_for_text_unit
      (retrievedChunks vdb self v q param) 0 h
    omega
  · intro hpos m hm hsum
    exact keptCount_longest _ _ hpos m hm hsum

/-- The example orchestrator with a budget of 4 tokens returns the first
chunk. -/
theorem naive_context_budget_example :
    (GraphRAG.query exampleIndex exampleRAG "q".toList (contextParam 4)).response = "a b".toList ∧
    ∃ n : Nat,
      n ≤ (retrievedChunks exampleIndex exampleRAG () "q".toList (contextParam 4)).length ∧
      (GraphRAG.query exampleIndex exampleRAG "q".toList (contextParam 4)).response
        = chunkSeparator.intercalate
            (((retrievedChunks exampleIndex exampleRAG () "q".toList (contextParam 4)).take n).map
              (fun c => c.content)) := by
  refine ⟨by decide, ?_⟩
  obtain ⟨n, h1, h2, _⟩ :=
    naive_context_budget exampleIndex exampleRAG "q".toList (contextParam 4) () (by decide) rfl rfl
      (by simp [exampleIndex])
      (by
        intro m hm
        have hm2 : m ≤ 2 := hm
        interval_cases m <;> decide)
  exact ⟨n, h1, h2⟩

/-- C23 fails on the code.  The chunk store holds a first chunk of 2147483647
tokens and a second chunk of 1 token, and the budget is 2147483647: the
cumulative count of both chunks, 2147483648, exceeds the budget, so that the
longest prefix within the budget is the first chunk alone; but the running
count of the loop overflows to a negative value, and `query` returns the
contents of both chunks. -/
theorem naive_context_overflow :
    (retrievedChunks exampleIndex overflowRAG () "q".toList (contextParam 2147483647)).map
        (fun c => (c.tokens, c.content))
      = [(2147483647, "a".toList), (1, "b".toList)] ∧
    tokenCount (retrievedChunks exampleIndex overflowRAG () "q".toList (contextParam 2147483647))
      = 2147483648 ∧
    (contextParam 2147483647).naive_max_token_for_text_unit < 2147483648 ∧
    intAdd 2147483647 1 = -2147483648 ∧
    (GraphRAG.query exampleIndex overflowRAG "q".toList (contextParam 2147483647)).response
      = "a\n--New Chunk--\nb".toList ∧
    budgetedContext 2147483647
        (retrievedChunks exampleIndex overflowRAG () "q".toList (contextParam 2147483647))
      = "a".toList := by
  refine ⟨by decide, by decide, by decide, by decide, by decide, by decide⟩

/-- C24.  For every naive query with `only_need_context` whose first found
chunk has a token count greater than `naive_max_token_for_text_unit`, `query`
returns the empty string, which is not the sentinel. -/
theorem naive_first_chunk_over_budget {V : Type} (vdb : BaseVectorStorage V) (self : GraphRAG V)
    (q : Str) (param : QueryParam) (v : V) (c : TextChunk) (rest : List TextChunk)
    (hmode : param.mode = "naive".toList) (honly : param.only_need_context = true)
    (hvdb : self.chunks_vdb = some v)
    (hfound : retrievedChunks vdb self v q param = c :: rest)
    (hover : param.naive_max_token_for_text_unit < c.tokens) :
    (GraphRAG.query vdb self q param).response = [] ∧
    (GraphRAG.query vdb self q param).response ≠ Prompts.fail_response := by
  have hres : (vdb.query v q param.top_k).1 ≠ [] := by
    intro h
    unfold retrievedChunks at hfound
    rw [h] at hfound
    simp [retrievedIds, foundChunks] at hfound
  have hresp : (GraphRAG.query vdb self q param).response = [] := by
    rw [query_of_naive vdb self q param hmode, naive_query_response vdb self q param v hvdb hres,
      honly, if_pos rfl, hfound]
    have hk : appendedCount param.naive_max_token_for_text_unit (c :: rest) 0 = 0 := by
      have : intAdd 0 c.tokens > param.naive_max_token_for_text_unit := by
        rw [intAdd_zero_left]
        omega
      rw [appendedCount, if_pos this]
    simp [assembledContext, hk, List.intercalate]
  refine ⟨hresp, ?_⟩
  rw [hresp]
  decide

/-- Witness of `naive_first_chunk_over_budget`: the example orchestrator with
a budget of 1 token, below the 2 tokens of the first chunk. -/
theorem naive_first_chunk_over_budget_witness :
    (GraphRAG.query exampleIndex exampleRAG "q".toList (contextParam 1)).response = [] ∧
    (GraphRAG.query exampleIndex exampleRAG "q".toList (contextParam 1)).response
      ≠ Prompts.fail_response :=
  naive_first_chunk_over_budget exampleIndex exampleRAG "q".toList (contextParam 1) ()
    ⟨2, "a b".toList, "doc-1".toList, 0⟩ [⟨3, "c d e".toList, "doc-1".toList, 1⟩]
    (by decide) rfl rfl (by decide) (by decide)

/-- C25.  For every query text, every orchestrator state and every `param`
whose mode is not `"naive"`, `query` returns the fixed sentinel, makes no call
on the vector index, the stores or the generation strategy, and leaves the
state as it is; the default-constructed `QueryParam`, whose mode is
`"global"`, is such a `param`. -/
theorem unsupported_mode_sentinel {V : Type} (vdb : BaseVectorStorage V) (self : GraphRAG V)
    (q : Str) (param : QueryParam) (hmode : param.mode ≠ "naive".toList) :
    (GraphRAG.query vdb self q param).response
      = "Sorry, I'm not able to provide an answer to that question.".toList ∧
    (GraphRAG.query vdb self q param).calls = [] ∧
    (GraphRAG.query vdb self q param).state = self ∧
    ({ } : QueryParam).mode = "global".toList ∧
    (GraphRAG.query vdb self q { }).response
      = "Sorry, I'm not able to provide an answer to that question.".toList ∧
    (GraphRAG.query vdb self q { }).calls = [] := by
  rw [query_of_not_naive vdb self q param hmode,
    query_of_not_naive vdb self q { } (by decide)]
  exact ⟨rfl, rfl, rfl, rfl, rfl, rfl⟩

/-- Witness of `unsupported_mode_sentinel`: the mode `"local"` on the example
orchestrator. -/
theorem unsupported_mode_sentinel_witness :
    (GraphRAG.query exampleIndex exampleRAG "q".toList { mode := "local".toList }).response
      = "Sorry, I'm not able to provide an answer to that question.".toList ∧
    (GraphRAG.query exampleIndex exampleRAG "q".toList { mode := "local".toList }).calls = [] :=
  have h := unsupported_mode_sentinel exampleIndex exampleRAG "q".toList
    { mode := "local".toList } (by decide)
  ⟨h.1, h.2.1⟩

/-- C26.  For every naive query without `only_need_context` that got at least
one row from the vector index: when a generation strategy is set and returns a
non-empty string, that string is the result; when it returns the empty string,
or when no generation strategy is set, the result is the assembled context.
The strategy is prompted with the query text and the system prompt built from
the context.  The assembled context is the string that the loop of
`naive_query` builds, which is also what the same query returns with
`only_need_context` set. -/
theorem naive_generation_fallback {V : Type} (vdb : BaseVectorStorage V) (self : GraphRAG V)
    (q : Str) (param : QueryParam) (v : V)
    (hmode : param.mode = "naive".toList) (honly : param.only_need_context = false)
    (hvdb : self.chunks_vdb = some v) (hres : (vdb.query v q param.top_k).1 ≠ []) :
    (∀ llm : ILLMStrategy, self.llm_strategy = some llm →
      (llm.prompt q (Prompts.naive_rag_response
          (assembledContext param.naive_max_token_for_text_unit
            (retrievedChunks vdb self v q param)) param.response_type) ≠ [] →
        (GraphRAG.query vdb self q param).response
          = llm.prompt q (Prompts.naive_rag_response
              (assembledContext param.naive_max_token_for_text_unit
                (retrievedChunks vdb self v q param)) param.response_type)) ∧
      (llm.prompt q (Prompts.naive_rag_response
          (assembledContext param.naive_max_token_for_text_unit
            (retrievedChunks vdb self v q param)) param.response_type) = [] →
        (GraphRAG.query vdb self q param).response
          = assembledContext param.naive_max_token_for_text_unit
              (retrievedChunks vdb self v q param))) ∧
    (self.llm_strategy = none →
      (GraphRAG.query vdb self q param).response
        = assembledContext param.naive_max_token_for_text_unit
            (retrievedChunks vdb self v q param)) ∧
    assembledContext param.naive_max_token_for_text_unit (retrievedChunks vdb self v q param)
      = eraseSeparator (sectionLoop param.naive_max_token_for_text_unit
          (self.text_chunks.get_by_ids (retrievedIds (vdb.query v q param.top_k).1)) [] 0) ∧
    (GraphRAG.query vdb self q { param with only_need_context := true }).response
      = assembledContext param.naive_max_token_for_text_unit
          (retrievedChunks vdb self v q param) := by
  refine ⟨?_, ?_, ?_, ?_⟩
  · intro llm hllm
    rw [query_of_naive vdb self q param hmode,
      naive_query_response vdb self q param v hvdb hres, honly]
    simp only [Bool.false_eq_true, if_false]
    rw [hllm]
    simp only
    constructor
    · intro hne
      have : (llm.prompt q (Prompts.naive_rag_response
          (assembledContext param.naive_max_token_for_text_unit
            (retrievedChunks vdb self v q param)) param.response_type)).isEmpty = false := by
        cases h : llm.prompt q (Prompts.naive_rag_response
          (assembledContext param.naive_max_token_for_text_unit
            (retrievedChunks vdb self v q param)) param.response_type) with
        | nil => exact absurd h hne
        | cons a l => rfl
      rw [this]
      rfl
    · intro he
      rw [he]
      rfl
  · intro hllm
    rw [query_of_naive vdb self q param hmode,
      naive_query_response vdb self q param v hvdb hres, honly]
    simp only [Bool.false_eq_true, if_false]
    rw [hllm]
  · unfold retrievedChunks
    rw [naive_section]
  · rw [query_of_naive vdb self q { param with only_need_context := true } hmode,
      naive_query_response vdb self q { param with only_need_context := true } v hvdb hres]
    rfl

/-- Witness of `naive_generation_fallback`: the example orchestrator, without
and with a generation strategy, and a budget of 4 tokens. -/
theorem naive_generation_fallback_witness :
    (GraphRAG.query exampleIndex exampleRAG "q".toList
        { mode := "naive".toList, naive_max_token_for_text_unit := 4 }).response
      = assembledContext 4 (retrievedChunks exampleIndex exampleRAG () "q".toList
          { mode := "naive".toList, naive_max_token_for_text_unit := 4 }) ∧
    (GraphRAG.query exampleIndex { exampleRAG with llm_strategy := some exampleLLM } "q".toList
        { mode := "naive".toList, naive_max_token_for_text_unit := 4 }).response
      = "ok".toList :=
  ⟨(naive_generation_fallback exampleIndex exampleRAG "q".toList
      { mode := "naive".toList, naive_max_token_for_text_unit := 4 } () (by decide) rfl rfl
      (by simp [exampleIndex])).2.1 rfl,
    ((naive_generation_fallback exampleIndex { exampleRAG with llm_strategy := some exampleLLM }
      "q".toList { mode := "naive".toList, naive_max_token_for_text_unit := 4 } () (by decide)
      rfl rfl (by simp [exampleIndex])).1 exampleLLM rfl).1 (by decide)⟩

/-- C27.  A naive query returns the fixed sentinel string when the chunk
vector index has not been created and when the vector index returns no row;
no generation strategy is called then.  The string is `Prompts::fail_response`
and is the one returned for every mode other than `"naive"`. -/
theorem naive_sentinel {V : Type} (vdb : BaseVectorStorage V) (self : GraphRAG V)
    (q : Str) (param : QueryParam) (hmode : param.mode = "naive".toList)
    (hnone : self.chunks_vdb = none ∨
      ∃ v : V, self.chunks_vdb = some v ∧ (vdb.query v q param.top_k).1 = []) :
    (GraphRAG.query vdb self q param).response
      = "Sorry, I'm not able to provide an answer to that question.".toList ∧
    (GraphRAG.query vdb self q param).response = Prompts.fail_response ∧
    (∀ user_prompt system_prompt : Str,
      Call.llm_prompt user_prompt system_prompt ∉ (GraphRAG.query vdb self q param).calls) ∧
    ∀ param2 : QueryParam, param2.mode ≠ "naive".toList →
      (GraphRAG.query vdb self q param2).response = (GraphRAG.query vdb self q param).response := by
  have hresp : (GraphRAG.query vdb self q param).response
      = "Sorry, I'm not able to provide an answer to that question.".toList ∧
      (∀ user_prompt system_prompt : Str,
        Call.llm_prompt user_prompt system_prompt ∉ (GraphRAG.query vdb self q param).calls) := by
    rw [query_of_naive vdb self q param hmode]
    unfold GraphRAG.naive_query
    rcases hnone with h | ⟨v, hv, hres⟩
    · rw [h]
      exact ⟨rfl, by simp⟩
    · rw [hv]
      simp [hres]
  refine ⟨hresp.1, ?_, hresp.2, ?_⟩
  · rw [hresp.1, fail_response_eq]
  · intro param2 h2
    rw [hresp.1, query_of_not_naive vdb self q param2 h2]

/-- Witness of `naive_sentinel`: an orchestrator without vector index, and one
whose vector index returns no row. -/
theorem naive_sentinel_witness :
    (GraphRAG.query exampleIndex { exampleRAG with chunks_vdb := none } "q".toList
        (contextParam 4)).response = Prompts.fail_response ∧
    (GraphRAG.query emptyIndex exampleRAG "q".toList (contextParam 4)).response
      = Prompts.fail_response :=
  ⟨(naive_sentinel exampleIndex { exampleRAG with chunks_vdb := none } "q".toList
      (contextParam 4) (by decide) (Or.inl rfl)).2.1,
    (naive_sentinel emptyIndex exampleRAG "q".toList (contextParam 4) (by decide)
      (Or.inr ⟨(), rfl, rfl⟩)).2.1⟩

/-! ## The orchestrator: insert -/

theorem insert_eq {V : Type} (vdb : BaseVectorStorage V) (h : Str → Nat) (fuel : Nat)
    (self : GraphRAG V) (docs : List Str) :
    GraphRAG.insert vdb h fuel self docs
      = match insertingChunks self h fuel docs with
        | .error e => .error e
        | .ok inserting_chunks =>
          .ok { self with
                chunks_vdb :=
                  if self.enable_naive_rag then
                    self.chunks_vdb.map
                      (fun v => vdb.upsert v (GraphRAG.vdbData inserting_chunks))
                  else self.chunks_vdb
                full_docs := self.full_docs.upsert (GraphRAG.newDocs h docs)
                text_chunks := self.text_chunks.upsert inserting_chunks } := rfl

/-- What `insert` leaves in the two stores when it returns. -/
theorem insert_ok {V : Type} (vdb : BaseVectorStorage V) (h : Str → Nat) (fuel : Nat)
    (self g1 : GraphRAG V) (docs : List Str)
    (h1 : GraphRAG.insert vdb h fuel self docs = .ok g1) :
    ∃ inserting_chunks : UnorderedMap TextChunk,
      insertingChunks self h fuel docs = .ok inserting_chunks ∧
      g1.full_docs = self.full_docs.upsert (GraphRAG.newDocs h docs) ∧
      g1.text_chunks = self.text_chunks.upsert inserting_chunks ∧
      g1.chunker = self.chunker ∧
      g1.chunk_token_size = self.chunk_token_size ∧
      g1.chunk_overlap_token_size = self.chunk_overlap_token_size := by
  rw [insert_eq] at h1
  cases hc : insertingChunks self h fuel docs with
  | error e => rw [hc] at h1; cases h1
  | ok ic =>
    rw [hc] at h1
    simp only [Except.ok.injEq] at h1
    refine ⟨ic, rfl, ?_⟩
    rw [← h1]
    exact ⟨rfl, rfl, rfl, rfl, rfl⟩

theorem upsert_upsert_get_by_id {T : Type} (s : JsonKVStorage T) (data : UnorderedMap T)
    (k : Str) : ((s.upsert data).upsert data).get_by_id k = (s.upsert data).get_by_id k := by
  rw [JsonKVStorage.get_by_id_upsert (s.upsert data) data k]
  cases hd : data.lookup k with
  | none => rfl
  | some v =>
    rw [JsonKVStorage.get_by_id_upsert s data k, hd]

/-- Two stores with the same answers to `get_by_id` hold the same keys. -/
theorem all_keys_perm_of_get_by_id {T : Type} (s t : JsonKVStorage T)
    (hst : ∀ k, s.get_by_id k = t.get_by_id k) : s.all_keys.Perm t.all_keys := by
  rw [JsonKVStorage.all_keys_eq_keys, JsonKVStorage.all_keys_eq_keys]
  have hperm : s.data_.entries.Perm t.data_.entries := by
    apply List.lookup_ext s.data_.nodupKeys t.data_.nodupKeys
    intro x y
    have := hst x
    unfold JsonKVStorage.get_by_id AList.lookup at this
    rw [this]
  exact hperm.map _

theorem newDocs_snoc (h : Str → Nat) (docs : List Str) (c : Str) :
    GraphRAG.newDocs h (docs ++ [c])
      = (GraphRAG.newDocs h docs).insert (docId h c) (AList.singleton "content".toList c) := by
  simp [GraphRAG.newDocs, List.foldl_append]

/-- The record that `new_docs` holds for a document whose id no other
document of the call shares. -/
theorem newDocs_lookup (h : Str → Nat) :
    ∀ (docs : List Str) (c : Str), c ∈ docs →
      (∀ c1 ∈ docs, docId h c1 = docId h c → c1 = c) →
      (GraphRAG.newDocs h docs).lookup (docId h c)
        = some (AList.singleton "content".toList c) := by
  intro docs
  induction docs using List.reverseRecOn with
  | nil => intro c hc; simp at hc
  | append_singleton docs d ih =>
    intro c hc huniq
    rw [newDocs_snoc]
    by_cases hd : docId h d = docId h c
    · have e : d = c := huniq d (by simp) hd
      subst e
      rw [AList.lookup_insert]
    · rw [AList.lookup_insert_ne (fun e => hd e.symm)]
      have hc1 : c ∈ docs := by
        rcases List.mem_append.mp hc with h1 | h1
        · exact h1
        · simp only [List.mem_singleton] at h1
          subst h1
          exact absurd rfl hd
      exact ih c hc1 (fun c1 h1 he => huniq c1 (List.mem_append_left _ h1) he)

theorem newDocs_twice (h : Str → Nat) (c : Str) :
    GraphRAG.newDocs h [c, c] = GraphRAG.newDocs h [c] := by
  simp [GraphRAG.newDocs, AList.insert_insert]

/-- C28.  Treating the content hash as a fixed function `h`: whenever
`insert(docs)` returns, a second `insert(docs)` returns too and leaves the
document store and the chunk store as they were after the first, record by
record and with the same keys.  The record under the id of a document, when no
other document of the call has that id, is that document, and it is the only
record under that id; inserting the same text twice in one call is the same as
inserting it once; and on a document store that was empty, inserting one text
once and again leaves exactly the key of its id. -/
theorem insert_idempotent {V : Type} (vdb : BaseVectorStorage V) (h : Str → Nat) (fuel : Nat)
    (self g1 : GraphRAG V) (docs : List Str)
    (h1 : GraphRAG.insert vdb h fuel self docs = .ok g1) :
    ∃ g2 : GraphRAG V,
      GraphRAG.insert vdb h fuel g1 docs = .ok g2 ∧
      (∀ id : Str, g2.full_docs.get_by_id id = g1.full_docs.get_by_id id) ∧
      (∀ id : Str, g2.text_chunks.get_by_id id = g1.text_chunks.get_by_id id) ∧
      g2.full_docs.all_keys.Perm g1.full_docs.all_keys ∧
      g2.text_chunks.all_keys.Perm g1.text_chunks.all_keys ∧
      (∀ c ∈ docs, (∀ c1 ∈ docs, docId h c1 = docId h c → c1 = c) →
        g2.full_docs.get_by_id (docId h c) = some (AList.singleton "content".toList c) ∧
        docId h c ∈ g2.full_docs.all_keys ∧ g2.full_docs.all_keys.Nodup) ∧
      (∀ c : Str, GraphRAG.insert vdb h fuel self [c, c] = GraphRAG.insert vdb h fuel self [c]) ∧
      (self.full_docs.all_keys = [] → ∀ c : Str, docs = [c] →
        g2.full_docs.all_keys = [docId h c]) := by
  obtain ⟨ic, hic, hfd, htc, hch, hts, hos⟩ := insert_ok vdb h fuel self g1 docs h1
  have hic1 : insertingChunks g1 h fuel docs = .ok ic := by
    unfold insertingChunks at hic ⊢
    rw [hch, hts, hos]
    exact hic
  have h2 := insert_eq vdb h fuel g1 docs
  rw [hic1] at h2
  simp only at h2
  refine ⟨_, h2, ?_, ?_, ?_, ?_, ?_, ?_, ?_⟩
  · intro id
    simp only [hfd]
    exact upsert_upsert_get_by_id _ _ id
  · intro id
    simp only [htc]
    exact upsert_upsert_get_by_id _ _ id
  · apply all_keys_perm_of_get_by_id
    intro id
    simp only [hfd]
    exact upsert_upsert_get_by_id _ _ id
  · apply all_keys_perm_of_get_by_id
    intro id
    simp only [htc]
    exact upsert_upsert_get_by_id _ _ id
  · intro c hc huniq
    have hrec : ((g1.full_docs.upsert (GraphRAG.newDocs h docs)).get_by_id (docId h c))
        = some (AList.singleton "content".toList c) := by
      rw [JsonKVStorage.get_by_id_upsert, newDocs_lookup h docs c hc huniq]
    refine ⟨hrec, ?_, ?_⟩
    · rw [JsonKVStorage.all_keys_eq_keys, ← AList.mem_keys, ← AList.lookup_isSome]
      unfold JsonKVStorage.get_by_id at hrec
      simp only at hrec ⊢
      rw [hrec]
      rfl
    · rw [JsonKVStorage.all_keys_eq_keys]
      exact AList.keys_nodup _
  · intro c
    rw [insert_eq, insert_eq]
    unfold insertingChunks
    rw [newDocs_twice]
  · intro hempty c hdocs
    subst hdocs
    simp only [hfd]
    rw [JsonKVStorage.all_keys_eq_keys] at hempty ⊢
    have he : self.full_docs.data_.entries = [] := by
      have : self.full_docs.data_.entries.map (fun e => e.1) = [] := hempty
      exact List.map_eq_nil_iff.mp this
    simp [JsonKVStorage.upsert, GraphRAG.newDocs, AList.keys, AList.insert, he, AList.singleton,
      List.keys, List.kerase]

theorem ok_of_isSome {α : Type} (x : Except Fault α) (h : x.toOption.isSome = true) :
    ∃ a, x = .ok a := by
  cases x with
  | error e => simp [Except.toOption] at h
  | ok a => exact ⟨a, rfl⟩

/-- Witness of `insert_idempotent`: the document `a b` inserted twice into the
orchestrator `wordRAG`. -/
theorem insert_idempotent_witness :
    ∃ g1 g2 : GraphRAG Unit,
      GraphRAG.insert exampleIndex lengthHash 5 wordRAG ["a b".toList] = .ok g1 ∧
      GraphRAG.insert exampleIndex lengthHash 5 g1 ["a b".toList] = .ok g2 ∧
      g2.full_docs.all_keys = [docId lengthHash "a b".toList] ∧
      ∀ id : Str, g2.text_chunks.get_by_id id = g1.text_chunks.get_by_id id := by
  obtain ⟨g1, h1⟩ := ok_of_isSome
    (GraphRAG.insert exampleIndex lengthHash 5 wordRAG ["a b".toList]) (by decide)
  obtain ⟨g2, h2, _, h3, _, _, _, _, h4⟩ :=
    insert_idempotent exampleIndex lengthHash 5 wordRAG g1 ["a b".toList] h1
  exact ⟨g1, g2, h1, h2, h4 (by decide) _ rfl, h3⟩

/-! ## The orchestrator: chunk records -/

/-- The record that the `emplace` loop of `get_chunks` leaves under an id: the
one already there, else the first chunk with this id. -/
theorem emplaceFold_lookup (h : Str → Nat) (id : Str) :
    ∀ (chunks : List TextChunk) (m : UnorderedMap TextChunk),
      (chunks.foldl (fun inserting_chunks chunk =>
          emplace inserting_chunks (chunkId h chunk.content) chunk) m).lookup id
        = match m.lookup id with
          | some v => some v
          | none => chunks.find? (fun ch => decide (chunkId h ch.content = id)) := by
  intro chunks
  induction chunks with
  | nil => intro m; cases hm : m.lookup id <;> simp [hm]
  | cons ch rest ih =>
    intro m
    rw [List.foldl_cons, ih]
    unfold emplace
    by_cases hid : chunkId h ch.content = id
    · subst hid
      cases hm : m.lookup (chunkId h ch.content) with
      | some v => simp [hm]
      | none => simp [hm, AList.lookup_insert]
    · cases hm1 : (m.lookup (chunkId h ch.content)).isSome with
      | true => simp [hid]
      | false =>
        simp only [Bool.false_eq_true, if_false]
        rw [AList.lookup_insert_ne (fun e => hid e.symm)]
        simp [hid]

theorem get_chunks_of_produced (chunker : DefaultChunkingStrategy) (h : Str → Nat) (fuel : Nat)
    (new_docs : UnorderedMap PropertyMap) (overlap_token_size max_token_size : Int)
    (chunks : List TextChunk)
    (hchunks : chunker.producedChunks fuel new_docs overlap_token_size max_token_size
      = .ok chunks) :
    chunker.get_chunks h fuel new_docs overlap_token_size max_token_size
      = .ok (chunks.foldl (fun inserting_chunks chunk =>
          emplace inserting_chunks (chunkId h chunk.content) chunk) ∅) := by
  unfold DefaultChunkingStrategy.get_chunks
  rw [hchunks]

/-- C29, as the code has it.  A chunk is filed under an id that depends on its
content only.  When `insert` produces the chunks `chunks`, in processing
order, it returns and the chunk store then holds one record per id; the record
under the id of a produced chunk is the first chunk of `chunks` with this id
(`emplace` keeps the entry that is there), with its `full_doc_id` and
`chunk_order_index`, whatever an earlier call had stored; and the records
under all other ids are as before. -/
theorem chunk_record_first_wins {V : Type} (vdb : BaseVectorStorage V) (h : Str → Nat)
    (fuel : Nat) (self : GraphRAG V) (docs : List Str) (chunker : DefaultChunkingStrategy)
    (chunks : List TextChunk) (hch : self.chunker = some chunker)
    (hchunks : chunker.producedChunks fuel (GraphRAG.newDocs h docs)
      self.chunk_overlap_token_size self.chunk_token_size = .ok chunks) :
    ∃ g1 : GraphRAG V,
      GraphRAG.insert vdb h fuel self docs = .ok g1 ∧
      g1.text_chunks.all_keys.Nodup ∧
      (∀ ch ∈ chunks, ∃ (before : List TextChunk) (first : TextChunk) (after : List TextChunk),
        chunks = before ++ first :: after ∧
        chunkId h first.content = chunkId h ch.content ∧
        (∀ x ∈ before, chunkId h x.content ≠ chunkId h ch.content) ∧
        g1.text_chunks.get_by_id (chunkId h ch.content) = some first) ∧
      (∀ id : Str, (∀ ch ∈ chunks, chunkId h ch.content ≠ id) →
        g1.text_chunks.get_by_id id = self.text_chunks.get_by_id id) := by
  have hic : insertingChunks self h fuel docs
      = .ok (chunks.foldl (fun inserting_chunks chunk =>
          emplace inserting_chunks (chunkId h chunk.content) chunk) ∅) := by
    unfold insertingChunks
    rw [hch]
    exact get_chunks_of_produced chunker h fuel _ _ _ chunks hchunks
  have h1 := insert_eq vdb h fuel self docs
  rw [hic] at h1
  simp only at h1
  refine ⟨_, h1, ?_, ?_, ?_⟩
  · rw [JsonKVStorage.all_keys_eq_keys]
    exact AList.keys_nodup _
  · intro ch hmem
    simp only
    rw [JsonKVStorage.get_by_id_upsert, emplaceFold_lookup]
    simp only [AList.lookup_empty]
    cases hf : chunks.find? (fun x => decide (chunkId h x.content = chunkId h ch.content)) with
    | none =>
      have := List.find?_eq_none.mp hf ch hmem
      simp at this
    | some first =>
      obtain ⟨hp, before, after, hsplit, hbefore⟩ := List.find?_eq_some.mp hf
      refine ⟨before, first, after, hsplit, by simpa using hp, ?_, rfl⟩
      intro x hx
      have := hbefore x hx
      simpa using this
  · intro id hid
    simp only
    rw [JsonKVStorage.get_by_id_upsert, emplaceFold_lookup]
    simp only [AList.lookup_empty]
    have hf : chunks.find? (fun x => decide (chunkId h x.content = id)) = none := by
      rw [List.find?_eq_none]
      intro x hx
      simpa using hid x hx
    rw [hf]

/-- Witness of `chunk_record_first_wins`: the document `a a` in the
orchestrator `wordRAG`, whose two windows have the same text. -/
theorem chunk_record_first_wins_witness :
    ∃ g1 : GraphRAG Unit,
      GraphRAG.insert exampleIndex lengthHash 5 wordRAG ["a a".toList] = .ok g1 ∧
      g1.text_chunks.all_keys.Nodup := by
  obtain ⟨g1, h1, h2, _⟩ :=
    chunk_record_first_wins exampleIndex lengthHash 5 wordRAG ["a a".toList]
      ⟨1, 0, some SimpleTokenizer.strategy⟩
      [⟨1, "a".toList, "doc-3".toList, 0⟩, ⟨1, "a".toList, "doc-3".toList, 1⟩] rfl (by decide)
  exact ⟨g1, h1, h2⟩

/-- C29 as stated fails: the document `a a`, chunked into windows of one token
without overlap, produces two chunks with the content `a`, the last of them
with `chunk_order_index` 1, and the record stored under their id has
`chunk_order_index` 0, that of the first window. -/
theorem chunk_record_not_last :
    wordRAG.chunker.map
        (fun chunker => chunker.producedChunks 5 (GraphRAG.newDocs lengthHash ["a a".toList])
          wordRAG.chunk_overlap_token_size wordRAG.chunk_token_size)
      = some (.ok [⟨1, "a".toList, "doc-3".toList, 0⟩, ⟨1, "a".toList, "doc-3".toList, 1⟩]) ∧
    (GraphRAG.insert exampleIndex lengthHash 5 wordRAG ["a a".toList]).toOption.map
        (fun g => g.text_chunks.get_by_id (chunkId lengthHash "a".toList))
      = some (some ⟨1, "a".toList, "doc-3".toList, 0⟩) := by
  constructor <;> decide

/-! ## The orchestrator: token counts of stored chunks -/

theorem docBody_tokens_nonneg (decode : Decoder) (fuel : Nat) (docs doc_keys : List Str)
    (overlap max_tokens : Int) (tokens : List Int) (index : Nat) (cs : List TextChunk)
    (h : docBody decode fuel docs doc_keys overlap max_tokens tokens index = .ok cs) :
    ∀ ch ∈ cs, 0 ≤ ch.tokens := by
  unfold docBody at h
  simp only [docLoop] at h
  cases hw : windowLoop tokens overlap max_tokens fuel 0 Windows.empty with
  | error e => rw [hw] at h; simp at h
  | ok w =>
    rw [hw] at h
    simp only at h
    have hlen := windowLoop_lengths tokens overlap max_tokens fuel 0 Windows.empty w rfl hw
    cases hd : docs[index]? with
    | none => rw [hd] at h; simp at h
    | some doc =>
      rw [hd] at h
      simp only at h
      cases hdec : decode w.chunk_token doc w.starts w.lengths with
      | error e => rw [hdec] at h; simp at h
      | ok texts =>
        rw [hdec] at h
        simp only at h
        rw [emitLoop_eq] at h
        by_cases hcond : texts = [] ∨
            (0 + texts.length ≤ w.lengths.length ∧ (doc_keys[index]?).isSome)
        · rw [if_pos hcond] at h
          simp only [List.nil_append, Except.ok.injEq] at h
          subst h
          intro ch hch
          simp only [List.mem_mapIdx] at hch
          obtain ⟨j, _, rfl⟩ := hch
          unfold chunkAt
          simp only
          cases hl : w.lengths[0 + j]? with
          | none => simp
          | some len =>
            simp only [Option.getD_some]
            have hmem : len ∈ w.lengths := List.getElem?_mem hl
            rw [hlen] at hmem
            obtain ⟨x, _, rfl⟩ := List.mem_map.mp hmem
            exact Int.natCast_nonneg _
        · rw [if_neg hcond] at h
          simp at h

theorem docLoop_tokens_nonneg (decode : Decoder) (fuel : Nat) (docs doc_keys : List Str)
    (overlap max_tokens : Int) :
    ∀ (tl : List (List Int)) (index : Nat) (results r : List TextChunk),
      (∀ ch ∈ results, 0 ≤ ch.tokens) →
      docLoop decode fuel docs doc_keys overlap max_tokens tl index results = .ok r →
      ∀ ch ∈ r, 0 ≤ ch.tokens := by
  intro tl
  induction tl with
  | nil =>
    intro index results r hres h
    simp only [docLoop] at h
    cases h
    exact hres
  | cons t tl ih =>
    intro index results r hres h
    rw [docLoop_cons] at h
    cases hb : docBody decode fuel docs doc_keys overlap max_tokens t index with
    | error e => rw [hb] at h; simp at h
    | ok cs =>
      rw [hb] at h
      simp only at h
      refine ih (index + 1) (results ++ cs) r ?_ h
      intro ch hch
      rcases List.mem_append.mp hch with h1 | h1
      · exact hres ch h1
      · exact docBody_tokens_nonneg decode fuel docs doc_keys overlap max_tokens t index cs hb ch h1

/-- Every chunk that `get_chunks` produces has a non-negative token count. -/
theorem producedChunks_tokens_nonneg (chunker : DefaultChunkingStrategy) (fuel : Nat)
    (new_docs : UnorderedMap PropertyMap) (overlap max_tokens : Int) (chunks : List TextChunk)
    (h : chunker.producedChunks fuel new_docs overlap max_tokens = .ok chunks) :
    ∀ ch ∈ chunks, 0 ≤ ch.tokens := by
  unfold DefaultChunkingStrategy.producedChunks at h
  cases hk : keysDocsLoop new_docs.entries [] [] with
  | error e => rw [hk] at h; simp at h
  | ok kd =>
    obtain ⟨keys, docs⟩ := kd
    rw [hk] at h
    simp only at h
    cases ht : chunker.tokenizer_ with
    | none =>
      rw [ht] at h
      simp only at h
      split at h
      · cases h
        intro ch hch
        simp at hch
      · simp at h
    | some tokenizer =>
      rw [ht] at h
      simp only at h
      unfold chunking_by_token_size at h
      exact docLoop_tokens_nonneg _ _ _ _ _ _ _ 0 [] chunks (by simp) h

/-- The chunk store keeps non-negative token counts through `insert`. -/
theorem insert_tokens_nonneg {V : Type} (vdb : BaseVectorStorage V) (h : Str → Nat) (fuel : Nat)
    (self g1 : GraphRAG V) (docs : List Str)
    (h1 : GraphRAG.insert vdb h fuel self docs = .ok g1)
    (hself : ∀ (id : Str) (c : TextChunk), self.text_chunks.get_by_id id = some c → 0 ≤ c.tokens) :
    ∀ (id : Str) (c : TextChunk), g1.text_chunks.get_by_id id = some c → 0 ≤ c.tokens := by
  obtain ⟨ic, hic, _, htc, _⟩ := insert_ok vdb h fuel self g1 docs h1
  intro id c hc
  rw [htc, JsonKVStorage.get_by_id_upsert] at hc
  cases hl : ic.lookup id with
  | none =>
    rw [hl] at hc
    exact hself id c hc
  | some v =>
    rw [hl] at hc
    simp only [Option.some.injEq] at hc
    subst hc
    unfold insertingChunks at hic
    cases hch : self.chunker with
    | none =>
      rw [hch] at hic
      simp only [Except.ok.injEq] at hic
      rw [← hic] at hl
      simp at hl
    | some chunker =>
      rw [hch] at hic
      simp only at hic
      unfold DefaultChunkingStrategy.get_chunks at hic
      cases hp : chunker.producedChunks fuel (GraphRAG.newDocs h docs)
          self.chunk_overlap_token_size self.chunk_token_size with
      | error e => rw [hp] at hic; simp at hic
      | ok chunks =>
        rw [hp] at hic
        simp only [Except.ok.injEq] at hic
        rw [← hic, emplaceFold_lookup] at hl
        simp only [AList.lookup_empty] at hl
        exact producedChunks_tokens_nonneg chunker fuel _ _ _ chunks hp v
          (List.mem_of_find?_eq_some hl)

/-! ## The vector index: upsert -/

theorem range_map_getD_eq_zip {α β : Type} (a : α) (b : β) :
    ∀ (l1 : List α) (l2 : List β), l1.length = l2.length →
      (List.range l1.length).map (fun (i : Nat) => (l1.getD i a, l2.getD i b)) = l1.zip l2 := by
  intro l1 l2 hlen
  apply List.ext_getElem
  · simp [hlen]
  · intro i h1 h2
    simp only [List.length_map, List.length_range] at h1
    have h3 : i < l2.length := by omega
    simp [List.getD_eq_getElem, h1, h3]

theorem zip_replicate_eq_map {α β : Type} (b : β) :
    ∀ l : List α, l.zip (List.replicate l.length b) = l.map (fun x => (x, b)) := by
  intro l
  induction l with
  | nil => rfl
  | cons x l ih => simp [List.replicate_succ, ih]

theorem upsertEmbeddings_length {DB F : Type} (zero : F) (self : NanoVectorDBStorage DB F)
    (data : UnorderedMap PropertyMap) :
    (NanoVectorDBStorage.upsertEmbeddings zero self data).length
      = (NanoVectorDBStorage.upsertIds data).length := by
  unfold NanoVectorDBStorage.upsertEmbeddings
  simp only
  split
  · simp
  · rename_i h
    simpa using h

/-- The vector `datas` pairs the ids with the embeddings, index by index. -/
theorem upsertDatas_eq_zip {DB F : Type} (zero : F) (self : NanoVectorDBStorage DB F)
    (data : UnorderedMap PropertyMap) :
    NanoVectorDBStorage.upsertDatas zero self data
      = (NanoVectorDBStorage.upsertIds data).zip
          (NanoVectorDBStorage.upsertEmbeddings zero self data) := by
  unfold NanoVectorDBStorage.upsertDatas
  exact range_map_getD_eq_zip [] [] _ _ (upsertEmbeddings_length zero self data).symm

/-- C30.  For every non-empty upsert batch on a vector index whose embedding
strategy `e` has dimension `d > 0`: the strategy is called once, on the
contents of the records in the order of their ids; if it returns a number of
vectors different from the number of ids, every id of the batch is handed to
the library index with the all-zero vector of length `d`; if the numbers
match, the `i`-th id is handed over with the `i`-th returned vector.  The
library index exists by then (created by the late initialisation if need be)
and receives this one `upsert`. -/
theorem vector_upsert_embeddings {DB F : Type} (lib : NanoVectorDB DB F) (zero : F)
    (self : NanoVectorDBStorage DB F) (data : UnorderedMap PropertyMap)
    (e : IEmbeddingStrategy F) (hne : data.entries ≠ [])
    (he : self.embedding_strategy = some e) (hd : 0 < e.embedding_dim) :
    NanoVectorDBStorage.upsertIds data = data.keys ∧
    NanoVectorDBStorage.upsertContents data
      = data.entries.map (fun kv => (kv.2.lookup "content".toList).getD []) ∧
    ((e.embed (NanoVectorDBStorage.upsertContents data)).length
        ≠ (NanoVectorDBStorage.upsertIds data).length →
      NanoVectorDBStorage.upsertDatas zero self data
        = (NanoVectorDBStorage.upsertIds data).map
            (fun id => (id, List.replicate e.embedding_dim zero))) ∧
    ((e.embed (NanoVectorDBStorage.upsertContents data)).length
        = (NanoVectorDBStorage.upsertIds data).length →
      NanoVectorDBStorage.upsertDatas zero self data
        = (NanoVectorDBStorage.upsertIds data).zip
            (e.embed (NanoVectorDBStorage.upsertContents data))) ∧
    ∃ db : DB,
      NanoVectorDBStorage.lateInit lib self = some db ∧
      (self.db_ = some db ∨ self.db_ = none) ∧
      (NanoVectorDBStorage.upsert lib zero self data).db_
        = some (if self.auto_save_
            then lib.save (lib.upsert db (NanoVectorDBStorage.upsertDatas zero self data))
            else lib.upsert db (NanoVectorDBStorage.upsertDatas zero self data)) := by
  refine ⟨?_, ?_, ?_, ?_, ?_⟩
  · unfold NanoVectorDBStorage.upsertIds
    rw [foldl_push_eq_map]
    rfl
  · unfold NanoVectorDBStorage.upsertContents
    rw [foldl_push_eq_map]
    rfl
  · intro hlen
    rw [upsertDatas_eq_zip]
    have hemb : NanoVectorDBStorage.upsertEmbeddings zero self data
        = List.replicate (NanoVectorDBStorage.upsertIds data).length
            (List.replicate e.embedding_dim zero) := by
      unfold NanoVectorDBStorage.upsertEmbeddings
      simp only [he]
      rw [if_pos hlen]
    rw [hemb, zip_replicate_eq_map]
  · intro hlen
    rw [upsertDatas_eq_zip]
    have hemb : NanoVectorDBStorage.upsertEmbeddings zero self data
        = e.embed (NanoVectorDBStorage.upsertContents data) := by
      unfold NanoVectorDBStorage.upsertEmbeddings
      simp only [he]
      rw [if_neg (by simpa using hlen)]
    rw [hemb]
  · have hempty : data.entries.isEmpty = false := by
      cases h : data.entries with
      | nil => exact absurd h hne
      | cons a l => rfl
    cases hdb : self.db_ with
    | some db =>
      have hl : NanoVectorDBStorage.lateInit lib self = some db := by
        unfold NanoVectorDBStorage.lateInit
        rw [hdb]
      refine ⟨db, hl, Or.inl rfl, ?_⟩
      unfold NanoVectorDBStorage.upsert
      rw [hempty, hl]
      rfl
    | none =>
      have hl : NanoVectorDBStorage.lateInit lib self
          = some (lib.make (e.embedding_dim : Int)
              (configOr self.global_config "metric".toList "cosine".toList)
              (configOr self.global_config "storage_file".toList
                "nano-vectordb.json".toList)) := by
        unfold NanoVectorDBStorage.lateInit
        rw [hdb, he]
        simp only [hd, if_true]
      refine ⟨_, hl, Or.inr rfl, ?_⟩
      unfold NanoVectorDBStorage.upsert
      rw [hempty, hl]
      rfl

/-- Witness of `vector_upsert_embeddings`: one record upserted with a strategy
that returns no vector is stored with the zero vector of length 2, and with a
strategy that returns one vector it is stored with that vector. -/
theorem vector_upsert_embeddings_witness :
    NanoVectorDBStorage.upsertDatas 0 (freshStorage silentEmbedding) oneRecord
      = [("id1".toList, [0, 0])] ∧
    NanoVectorDBStorage.upsertDatas 0 (freshStorage lengthEmbedding) oneRecord
      = [("id1".toList, [3, 1])] ∧
    (NanoVectorDBStorage.upsert listIndex 0 (freshStorage silentEmbedding) oneRecord).db_
      = some [("id1".toList, [0, 0])] := by
  have h1 := vector_upsert_embeddings listIndex 0 (freshStorage silentEmbedding) oneRecord
    silentEmbedding (by simp [oneRecord, AList.singleton]) rfl (by decide)
  have h2 := vector_upsert_embeddings listIndex 0 (freshStorage lengthEmbedding) oneRecord
    lengthEmbedding (by simp [oneRecord, AList.singleton]) rfl (by decide)
  refine ⟨?_, ?_, ?_⟩
  · rw [h1.2.2.1 (by decide)]
    decide
  · rw [h2.2.2.2.1 (by decide)]
    decide
  · decide

/-! ## The windows cover the tokens -/

theorem getElem?_range_map {α : Type} (f : Nat → α) (k i : Nat) (x : α) :
    ((List.range k).map f)[i]? = some x ↔ i < k ∧ f i = x := by
  rw [List.getElem?_map]
  by_cases h : i < k
  · rw [List.getElem?_range h]
    simp [h]
  · rw [List.getElem?_eq_none (by simpa using h)]
    simp [h]

/-- The start and the length of the window with index `i`. -/
theorem expectedWindows_entry (tokens : List Int) (overlap max_tokens : Int) (i : Nat)
    (s len : Int)
    (hs : (expectedWindows tokens overlap max_tokens).starts[i]? = some s)
    (hl : (expectedWindows tokens overlap max_tokens).lengths[i]? = some len) :
    i < windowCount (tokens.length : Int) (max_tokens - overlap) ∧
    s = (i : Int) * (max_tokens - overlap) ∧
    len = min max_tokens ((tokens.length : Int) - s) := by
  unfold expectedWindows at hs hl
  simp only at hs hl
  rw [getElem?_range_map] at hs hl
  refine ⟨hs.1, hs.2.symm, ?_⟩
  rw [← hl.2, ← hs.2]

/-- Where `N + max_tokens` is a value of `int`: for every token sequence of
length `N` and every `0 ≤ overlap_tokens < max_tokens` the window loop returns,
and its windows cover the sequence: every index below `N` lies in a window;
every window is the slice of the tokens at its start, is non-empty and has at
most `max_tokens` tokens; and the indices that a window shares with the window
after it are the first `min(overlap_tokens, N - next_start)` indices of that
next window, which is also the distance from the next start to the end of the
window. -/
theorem windows_cover (tokens : List Int) (overlap max_tokens : Int) (fuel : Nat)
    (h0 : 0 ≤ overlap) (hlt : overlap < max_tokens)
    (hN1 : (tokens.length : Int) + max_tokens ≤ INT_MAX) (hfuel : tokens.length ≤ fuel) :
    ∃ w : Windows,
      windowLoop tokens overlap max_tokens fuel 0 Windows.empty = .ok w ∧
      w.lengths.length = w.starts.length ∧ w.chunk_token.length = w.starts.length ∧
      (∀ p : Nat, p < tokens.length →
        ∃ (i : Nat) (s len : Int), w.starts[i]? = some s ∧ w.lengths[i]? = some len ∧
          s ≤ (p : Int) ∧ (p : Int) < s + len) ∧
      (∀ (i : Nat) (s len : Int) (win : List Int),
        w.starts[i]? = some s → w.lengths[i]? = some len → w.chunk_token[i]? = some win →
          win = (tokens.drop s.toNat).take len.toNat ∧ (win.length : Int) = len ∧
          1 ≤ len ∧ len ≤ max_tokens ∧ 0 ≤ s ∧ s + len ≤ (tokens.length : Int)) ∧
      (∀ (i : Nat) (s len s1 len1 : Int),
        w.starts[i]? = some s → w.lengths[i]? = some len →
        w.starts[i + 1]? = some s1 → w.lengths[i + 1]? = some len1 →
          s + len - s1 = min overlap ((tokens.length : Int) - s1) ∧
          ∀ p : Int, (s ≤ p ∧ p < s + len ∧ s1 ≤ p ∧ p < s1 + len1)
            ↔ (s1 ≤ p ∧ p < s1 + min overlap ((tokens.length : Int) - s1))) := by
  have hs : 0 < max_tokens - overlap := by omega
  have hmax : 0 ≤ max_tokens := by omega
  have hN : (0 : Int) ≤ (tokens.length : Int) := Int.natCast_nonneg _
  refine ⟨expectedWindows tokens overlap max_tokens,
    windowLoop_eq_expected tokens overlap max_tokens fuel hs hmax hN1 (by omega) hfuel,
    ?_, ?_, ?_, ?_, ?_⟩
  · simp [expectedWindows]
  · simp [expectedWindows]
  · intro p hp
    -- the window with index p / stride
    have hq0 : 0 ≤ (p : Int) / (max_tokens - overlap) :=
      Int.ediv_nonneg (Int.natCast_nonneg _) (le_of_lt hs)
    obtain ⟨i, hi⟩ := Int.eq_ofNat_of_zero_le hq0
    have hmul : (i : Int) * (max_tokens - overlap) ≤ (p : Int) := by
      rw [← hi]
      exact Int.ediv_mul_le _ (ne_of_gt hs)
    have hmul2 : (p : Int) < (i : Int) * (max_tokens - overlap) + (max_tokens - overlap) := by
      rw [← hi]
      have := Int.lt_ediv_add_one_mul_self (p : Int) hs
      linarith
    have hik : i < windowCount (tokens.length : Int) (max_tokens - overlap) := by
      by_contra hge
      have hge : windowCount (tokens.length : Int) (max_tokens - overlap) ≤ i := Nat.le_of_not_lt hge
      have h1 := windowCount_mul_ge (tokens.length : Int) (max_tokens - overlap) hN hs
      have h2 : (windowCount (tokens.length : Int) (max_tokens - overlap) : Int) ≤ (i : Int) := by
        exact_mod_cast hge
      have h3 : (windowCount (tokens.length : Int) (max_tokens - overlap) : Int)
          * (max_tokens - overlap) ≤ (i : Int) * (max_tokens - overlap) :=
        Int.mul_le_mul_of_nonneg_right h2 (le_of_lt hs)
      have hp' : (p : Int) < (tokens.length : Int) := by exact_mod_cast hp
      omega
    refine ⟨i, (i : Int) * (max_tokens - overlap),
      min max_tokens ((tokens.length : Int) - (i : Int) * (max_tokens - overlap)), ?_, ?_, hmul, ?_⟩
    · unfold expectedWindows
      simp only
      rw [getElem?_range_map]
      exact ⟨hik, rfl⟩
    · unfold expectedWindows
      simp only
      rw [getElem?_range_map]
      exact ⟨hik, rfl⟩
    · have hp' : (p : Int) < (tokens.length : Int) := by exact_mod_cast hp
      rcases min_choice max_tokens ((tokens.length : Int) - (i : Int) * (max_tokens - overlap))
        with h | h <;> rw [h] <;> omega
  · intro i s len win hst hle hwin
    obtain ⟨hik, hs_eq, hlen_eq⟩ := expectedWindows_entry tokens overlap max_tokens i s len hst hle
    have hsN : s < (tokens.length : Int) := by
      rw [hs_eq]
      exact windowCount_mul_lt (tokens.length : Int) (max_tokens - overlap) hN hs i hik
    have hs0 : 0 ≤ s := by
      rw [hs_eq]
      exact Int.mul_nonneg (Int.natCast_nonneg _) (le_of_lt hs)
    have hwin_eq : win = window tokens max_tokens s := by
      unfold expectedWindows at hwin
      simp only at hwin
      rw [getElem?_range_map] at hwin
      rw [← hwin.2, hs_eq]
    have hwl := window_length tokens max_tokens s hs0 hsN hmax
    have hlen1 : 1 ≤ len := by
      rw [hlen_eq]
      rcases min_choice max_tokens ((tokens.length : Int) - s) with h | h <;> rw [h] <;> omega
    have hlenmax : len ≤ max_tokens := by
      rw [hlen_eq]
      exact min_le_left _ _
    have hend : s + len ≤ (tokens.length : Int) := by
      rw [hlen_eq]
      have := min_le_right max_tokens ((tokens.length : Int) - s)
      omega
    refine ⟨?_, ?_, hlen1, hlenmax, hs0, hend⟩
    · rw [hwin_eq]
      unfold window
      have e : min (s + max_tokens) (tokens.length : Int) - s = len := by
        rw [hlen_eq]
        rcases min_choice max_tokens ((tokens.length : Int) - s) with h | h <;>
          rcases min_choice (s + max_tokens) (tokens.length : Int) with h' | h' <;>
          rw [h, h'] <;> omega
      rw [e]
    · rw [hwin_eq, hwl, hlen_eq]
  · intro i s len s1 len1 hst hle hst1 hle1
    obtain ⟨_, hs_eq, hlen_eq⟩ := expectedWindows_entry tokens overlap max_tokens i s len hst hle
    obtain ⟨hik1, hs1_eq, hlen1_eq⟩ :=
      expectedWindows_entry tokens overlap max_tokens (i + 1) s1 len1 hst1 hle1
    have hs1N : s1 < (tokens.length : Int) := by
      rw [hs1_eq]
      exact windowCount_mul_lt (tokens.length : Int) (max_tokens - overlap) hN hs (i + 1) hik1
    have hstep : s1 = s + (max_tokens - overlap) := by
      rw [hs1_eq, hs_eq]
      push_cast
      ring
    have hshare : s + len - s1 = min overlap ((tokens.length : Int) - s1) := by
      rw [hlen_eq]
      rcases min_choice max_tokens ((tokens.length : Int) - s) with h | h <;>
        rcases min_choice overlap ((tokens.length : Int) - s1) with h' | h' <;>
        rw [h, h'] <;> omega
    refine ⟨hshare, ?_⟩
    intro p
    have hlen1 : s + len ≤ s1 + len1 := by
      rw [hlen_eq, hlen1_eq]
      rcases min_choice max_tokens ((tokens.length : Int) - s) with h | h <;>
        rcases min_choice max_tokens ((tokens.length : Int) - s1) with h' | h' <;>
        rw [h, h'] <;> omega
    constructor
    · rintro ⟨_, h2, h3, _⟩
      exact ⟨h3, by omega⟩
    · rintro ⟨h1, h2⟩
      exact ⟨by omega, by omega, h1, by omega⟩

/-- Ten tokens with windows of four tokens that overlap in one are covered. -/
theorem windows_cover_example :
    ∃ w : Windows,
      windowLoop [1, 2, 3, 4, 5, 6, 7, 8, 9, 10] 1 4 10 0 Windows.empty = .ok w ∧
      w.lengths.length = w.starts.length := by
  obtain ⟨w, hw, h, _⟩ := windows_cover [1, 2, 3, 4, 5, 6, 7, 8, 9, 10] 1 4 10
    (by decide) (by decide) (by decide) (by decide)
  exact ⟨w, hw, h⟩

/-- C33 fails on the code.  With ten tokens, `max_tokens = 2147483647` and
`overlap_tokens = 2147483644` (so that `0 ≤ overlap_tokens < max_tokens`, with
stride 3) the chunker produces no windows: after the window `[0, 10)` the sum
`start + max_tokens` overflows at `start = 3`, the end of the second range lies
before its begin, and neither the window loop nor the call returns, whatever the
step budget and the decoder. -/
theorem windows_cover_overflow :
    (0 : Int) ≤ 2147483644 ∧ (2147483644 : Int) < 2147483647 ∧
    intAdd 3 2147483647 = -2147483646 ∧
    (∀ (fuel : Nat) (w : Windows),
      windowLoop [0, 1, 2, 3, 4, 5, 6, 7, 8, 9] 2147483644 2147483647 fuel 0 Windows.empty
        ≠ .ok w) ∧
    (∀ (decode : Decoder) (fuel : Nat) (doc key : Str) (chunks : List TextChunk),
      chunking_by_token_size decode fuel [[0, 1, 2, 3, 4, 5, 6, 7, 8, 9]] [doc] [key]
        2147483644 2147483647 ≠ .ok chunks) := by
  refine ⟨by decide, by decide, by decide,
    windowLoop_overflow [0, 1, 2, 3, 4, 5, 6, 7, 8, 9] rfl, ?_⟩
  intro decode fuel doc key chunks h
  cases hw : windowLoop [0, 1, 2, 3, 4, 5, 6, 7, 8, 9] 2147483644 2147483647 fuel 0
      Windows.empty with
  | error e =>
    rw [chunking_single_error decode fuel _ doc key _ _ e hw] at h
    exact absurd h (by simp)
  | ok w => exact windowLoop_overflow [0, 1, 2, 3, 4, 5, 6, 7, 8, 9] rfl fuel w hw

/-! ## The whitespace tokenizer: token counts of chunks -/

theorem splitOnP_sepfree (p : Char → Bool) :
    ∀ (l : Str), ∀ w ∈ l.splitOnP p, ∀ c ∈ w, ¬ p c = true := by
  intro l
  induction l with
  | nil =>
    intro w hw c hc
    rw [List.splitOnP_nil] at hw
    simp only [List.mem_singleton] at hw
    subst hw
    simp at hc
  | cons x xs ih =>
    intro w hw c hc
    rw [List.splitOnP_cons] at hw
    by_cases hx : p x = true
    · rw [if_pos hx] at hw
      rcases List.mem_cons.mp hw with h | h
      · subst h
        simp at hc
      · exact ih w h c hc
    · rw [if_neg hx] at hw
      cases hsp : xs.splitOnP p with
      | nil =>
        rw [hsp] at hw
        simp [List.modifyHead] at hw
      | cons v vs =>
        rw [hsp] at hw ih
        simp only [List.modifyHead] at hw
        rcases List.mem_cons.mp hw with h | h
        · subst h
          rcases List.mem_cons.mp hc with h1 | h1
          · subst h1
            exact hx
          · exact ih v (List.mem_cons_self _ _) c h1
        · exact ih w (List.mem_cons_of_mem _ h) c hc

theorem specWords_sepfree (doc : Str) :
    ∀ w ∈ specWords doc, ∀ c ∈ w, ¬ isSeparator c = true := by
  intro w hw
  unfold specWords at hw
  exact splitOnP_sepfree isSeparator doc w (List.mem_of_mem_filter hw)

theorem splitOnP_spaced :
    ∀ (vs : List Str) (w : Str), (∀ c ∈ w, ¬ isSeparator c = true) →
      (∀ v ∈ vs, ∀ c ∈ v, ¬ isSeparator c = true) →
      (w ++ (vs.map (fun x => ' ' :: x)).flatten).splitOnP isSeparator = w :: vs := by
  intro vs
  induction vs with
  | nil =>
    intro w hw _
    simp only [List.map_nil, List.flatten_nil, List.append_nil]
    exact List.splitOnP_eq_single isSeparator w hw
  | cons v vs ih =>
    intro w hw hvs
    simp only [List.map_cons, List.flatten_cons, List.cons_append]
    rw [List.splitOnP_first isSeparator w hw ' ' (by decide)]
    rw [ih v (hvs v (List.mem_cons_self _ _)) (fun x hx => hvs x (List.mem_cons_of_mem _ hx))]

/-- Splitting the single-space join of separator-free, non-empty words gives
the words back. -/
theorem specWords_intercalate (ws : List Str) (hne : ∀ w ∈ ws, w ≠ [])
    (hsep : ∀ w ∈ ws, ∀ c ∈ w, ¬ isSeparator c = true) :
    specWords ([' '].intercalate ws) = ws := by
  cases ws with
  | nil => simp [specWords, List.intercalate, List.splitOnP_nil]
  | cons w vs =>
    unfold specWords
    rw [intercalate_space_cons,
      splitOnP_spaced vs w (hsep w (List.mem_cons_self _ _))
        (fun v hv => hsep v (List.mem_cons_of_mem _ hv))]
    rw [List.filter_eq_self]
    intro x hx
    simpa using hne x hx

/-- Re-encoding the single-space join of words of a document gives one token
per word. -/
theorem encode_intercalate_length (ws : List Str) (hne : ∀ w ∈ ws, w ≠ [])
    (hsep : ∀ w ∈ ws, ∀ c ∈ w, ¬ isSeparator c = true) :
    (SimpleTokenizer.encode ([' '].intercalate ws)).length = ws.length := by
  rw [encode_length, splitWords_eq_specWords, specWords_intercalate ws hne hsep]

/-- C34.  With the whitespace tokenizer, for every document and every
`max_tokens`, `overlap_tokens` with a positive stride: `encode` returns as many
tokens as `decode` splits the document into words; whenever the chunker
returns, re-encoding the content of each chunk gives exactly `chunk.tokens`
tokens, and `chunk.tokens` is the number of words of the content; and with
`max_tokens ≥ 0`, with `N + max_tokens` and `N + stride` values of `int` for
the number `N` of words, and with a step budget of at least `N`, the chunker
does return. -/
theorem simple_chunk_token_count (doc key : Str) (overlap max_tokens : Int) (fuel : Nat)
    (hs : 0 < max_tokens - overlap) :
    (SimpleTokenizer.encode doc).length = (splitWords doc).length ∧
    (∀ chunks : List TextChunk,
      chunking_by_token_size SimpleTokenizer.decode fuel [SimpleTokenizer.encode doc] [doc]
        [key] overlap max_tokens = .ok chunks →
      ∀ ch ∈ chunks,
        ((SimpleTokenizer.encode ch.content).length : Int) = ch.tokens ∧
        ((splitWords ch.content).length : Int) = ch.tokens) ∧
    (0 ≤ max_tokens →
      ((splitWords doc).length : Int) + max_tokens ≤ INT_MAX →
      ((splitWords doc).length : Int) + (max_tokens - overlap) ≤ INT_MAX →
      (splitWords doc).length ≤ fuel →
      ∃ chunks : List TextChunk,
        chunking_by_token_size SimpleTokenizer.decode fuel [SimpleTokenizer.encode doc] [doc]
          [key] overlap max_tokens = .ok chunks) := by
  refine ⟨encode_length doc, ?_, ?_⟩
  · intro chunks hch ch hmem
    cases hw : windowLoop (SimpleTokenizer.encode doc) overlap max_tokens fuel 0 Windows.empty with
    | error e =>
      rw [chunking_single_error _ _ _ _ _ _ _ e hw] at hch
      exact absurd hch (by simp)
    | ok w =>
      obtain ⟨_, chunks1, hch1, hlen, hall⟩ :=
        simple_chunks_of_windows doc key overlap max_tokens fuel w hw
      rw [hch] at hch1
      simp only [Except.ok.injEq] at hch1
      subst hch1
      obtain ⟨i, hi, hget⟩ := List.mem_iff_getElem.mp hmem
      obtain ⟨c, start, len, hc, _, _, h0, hl0, hle, htok, hcont⟩ := hall i (by omega)
      rw [List.getElem?_eq_getElem hi, hget] at hc
      simp only [Option.some.injEq] at hc
      subst hc
      have hne : ∀ x ∈ ((specWords doc).drop start.toNat).take len.toNat, x ≠ [] :=
        fun x hx => specWords_ne_nil doc x (List.mem_of_mem_drop (List.mem_of_mem_take hx))
      have hsep : ∀ x ∈ ((specWords doc).drop start.toNat).take len.toNat,
          ∀ c ∈ x, ¬ isSeparator c = true :=
        fun x hx => specWords_sepfree doc x (List.mem_of_mem_drop (List.mem_of_mem_take hx))
      have hcount : (((specWords doc).drop start.toNat).take len.toNat).length = len.toNat := by
        rw [List.length_take, List.length_drop]
        omega
      have henc : (SimpleTokenizer.encode ch.content).length = len.toNat := by
        rw [hcont, encode_intercalate_length _ hne hsep, hcount]
      refine ⟨?_, ?_⟩
      · rw [henc, htok]
        omega
      · rw [← encode_length, henc, htok]
        omega
  · intro hmax hN1 hN2 hfuel
    have hw := windowLoop_eq_expected (SimpleTokenizer.encode doc) overlap max_tokens fuel hs hmax
      (by rw [encode_length]; exact hN1) (by rw [encode_length]; exact hN2)
      (by rw [encode_length]; exact hfuel)
    obtain ⟨_, chunks, hch, _⟩ := simple_chunks_of_windows doc key overlap max_tokens fuel _ hw
    exact ⟨chunks, hch⟩

/-- Witness of `simple_chunk_token_count`: the document `a b c` in windows of
two words that overlap in one. -/
theorem simple_chunk_token_count_witness :
    ∃ chunks : List TextChunk,
      chunking_by_token_size SimpleTokenizer.decode 3
        [SimpleTokenizer.encode "a b c".toList] ["a b c".toList] ["doc".toList] 1 2
        = .ok chunks ∧
      ∀ ch ∈ chunks, ((SimpleTokenizer.encode ch.content).length : Int) = ch.tokens := by
  obtain ⟨_, h2, h3⟩ := simple_chunk_token_count "a b c".toList "doc".toList 1 2 3 (by decide)
  obtain ⟨chunks, hch⟩ := h3 (by decide) (by decide) (by decide) (by decide)
  exact ⟨chunks, hch, fun ch hmem => (h2 chunks hch ch hmem).1⟩

/-! ## The graph store: what the operations leave alone -/

/-- One traversal of `clustering` leaves the edge records alone, loses no node
and changes no node property other than `clusters`. -/
theorem bfsLoop_frame (cid : Int) :
    ∀ (fuel : Nat) (g : InMemoryGraphStorage) (V Q : List Str)
      (r : InMemoryGraphStorage × List Str),
      InMemoryGraphStorage.bfsLoop cid fuel g V Q = .ok r →
      r.1.edges_ = g.edges_ ∧
      (∀ x, g.has_node x = true → r.1.has_node x = true) ∧
      (∀ x k, k ≠ clustersKey →
        (r.1.nodes_.lookup x).bind (fun props => props.lookup k)
          = (g.nodes_.lookup x).bind (fun props => props.lookup k)) := by
  intro fuel
  induction fuel with
  | zero =>
    intro g V Q r h
    cases Q with
    | nil =>
      rw [bfsLoop_nil] at h
      cases h
      exact ⟨rfl, fun _ hx => hx, fun _ _ _ => rfl⟩
    | cons cur rest =>
      simp [InMemoryGraphStorage.bfsLoop] at h
  | succ fuel ih =>
    intro g V Q r h
    cases Q with
    | nil =>
      rw [bfsLoop_nil] at h
      cases h
      exact ⟨rfl, fun _ hx => hx, fun _ _ _ => rfl⟩
    | cons cur rest =>
      have hstep : InMemoryGraphStorage.bfsLoop cid (fuel + 1) g V (cur :: rest)
          = InMemoryGraphStorage.bfsLoop cid fuel
              { g with
                nodes_ := labelNode g.nodes_ cur cid
                adjacency_ := adjacencyTouch g.adjacency_ cur }
              (visitNeighbours (neighbours g cur) V rest).1
              (visitNeighbours (neighbours g cur) V rest).2 := rfl
      rw [hstep] at h
      obtain ⟨h1, h2, h3⟩ := ih _ _ _ r h
      refine ⟨h1, ?_, ?_⟩
      · intro x hx
        apply h2
        unfold InMemoryGraphStorage.has_node at hx ⊢
        simp only
        rw [lookup_labelNode]
        by_cases hxc : x = cur
        · rw [if_pos hxc]; rfl
        · rw [if_neg hxc]; exact hx
      · intro x k hk
        rw [h3 x k hk]
        simp only
        rw [lookup_labelNode]
        by_cases hxc : x = cur
        · rw [if_pos hxc, hxc]
          cases hl : g.nodes_.lookup cur with
          | none =>
            simp only [Option.getD_none, Option.some_bind, Option.none_bind]
            rw [AList.lookup_insert_ne hk]
            rfl
          | some props =>
            simp only [Option.getD_some, Option.some_bind]
            rw [AList.lookup_insert_ne hk]
        · rw [if_neg hxc]

theorem clusterLoop_frame (fuel : Nat) :
    ∀ (rest : List Str) (g : InMemoryGraphStorage) (V : List Str) (cid : Int)
      (g1 : InMemoryGraphStorage),
      InMemoryGraphStorage.clusterLoop fuel rest g V cid = .ok g1 →
      g1.edges_ = g.edges_ ∧
      (∀ x, g.has_node x = true → g1.has_node x = true) ∧
      (∀ x k, k ≠ clustersKey →
        (g1.nodes_.lookup x).bind (fun props => props.lookup k)
          = (g.nodes_.lookup x).bind (fun props => props.lookup k)) := by
  intro rest
  induction rest with
  | nil =>
    intro g V cid g1 h
    simp only [InMemoryGraphStorage.clusterLoop] at h
    cases h
    exact ⟨rfl, fun _ hx => hx, fun _ _ _ => rfl⟩
  | cons n rest ih =>
    intro g V cid g1 h
    by_cases hn : n ∈ V
    · simp only [InMemoryGraphStorage.clusterLoop, hn, if_true] at h
      exact ih g V cid g1 h
    · simp only [InMemoryGraphStorage.clusterLoop, hn, if_false] at h
      cases hb : InMemoryGraphStorage.bfsLoop cid fuel g (setInsert n V) [n] with
      | error e =>
        rw [hb] at h
        exact absurd h (by simp)
      | ok r =>
        rw [hb] at h
        obtain ⟨h1, h2, h3⟩ := ih r.1 r.2 (cid + 1) g1 h
        obtain ⟨k1, k2, k3⟩ := bfsLoop_frame cid fuel g _ _ r hb
        exact ⟨by rw [h1, k1], fun x hx => h2 x (k2 x hx),
          fun x k hk => by rw [h3 x k hk, k3 x k hk]⟩

/-- Whenever `clustering` returns: edge records, adjacency sets (so degrees
and incident edges) and all node properties other than `clusters` are as
before, and no node is lost. -/
theorem clustering_frame (g g1 : InMemoryGraphStorage) (fuel : Nat) (algorithm : Str)
    (h : g.clustering fuel algorithm = .ok g1) :
    (∀ s t, g1.has_edge s t = g.has_edge s t) ∧
    (∀ s t, g1.get_edge s t = g.get_edge s t) ∧
    (∀ x, g1.node_degree x = g.node_degree x) ∧
    (∀ x, g1.get_node_edges x = g.get_node_edges x) ∧
    (∀ x, g.has_node x = true → g1.has_node x = true) ∧
    (∀ x k, k ≠ clustersKey →
      (g1.get_node x).bind (fun props => props.lookup k)
        = (g.get_node x).bind (fun props => props.lookup k)) := by
  obtain ⟨h1, h2, h3⟩ := clusterLoop_frame fuel g.nodes_.keys g [] 0 g1 h
  have hn := clusterLoop_neighbours fuel g.nodes_.keys g [] 0 g1 h
  refine ⟨?_, ?_, ?_, ?_, h2, h3⟩
  · intro s t
    unfold InMemoryGraphStorage.has_edge
    rw [h1]
  · intro s t
    unfold InMemoryGraphStorage.get_edge
    rw [h1]
  · intro x
    rw [node_degree_eq_length, node_degree_eq_length, hn x]
  · intro x
    rw [get_node_edges_eq_map, get_node_edges_eq_map, hn x]

theorem reachable_upsert_nodes_batch (nodes_data : List (Str × PropertyMap)) :
    ∀ g : InMemoryGraphStorage, Reachable g → Reachable (g.upsert_nodes_batch nodes_data) := by
  induction nodes_data with
  | nil => intro g hg; exact hg
  | cons kv rest ih =>
    intro g hg
    exact ih _ (Reachable.node g kv.1 kv.2 hg)

theorem reachable_upsert_edges_batch (edges_data : List (Str × Str × PropertyMap)) :
    ∀ g : InMemoryGraphStorage, Reachable g → Reachable (g.upsert_edges_batch edges_data) := by
  induction edges_data with
  | nil => intro g hg; exact hg
  | cons e rest ih =>
    intro g hg
    exact ih _ (Reachable.edge g e.1 e.2.1 e.2.2 hg)

/-- In every reachable state an entry of an adjacency set has an edge
record. -/
theorem has_edge_of_neighbour (g : InMemoryGraphStorage) (hg : Reachable g) :
    ∀ n m : Str, m ∈ neighbours g n → g.has_edge n m = true := by
  induction hg with
  | init =>
    intro n m hm
    simp [neighbours, InMemoryGraphStorage.init] at hm
  | node g id d _ ih =>
    intro n m hm
    rw [neighbours_upsert_node] at hm
    exact ih n m hm
  | edge g s t d _ ih =>
    intro n m hm
    rw [mem_neighbours_upsert_edge] at hm
    rw [has_edge_eq_isSome]
    by_cases hk : canonical_edge_key_str n m = canonical_edge_key_str s t
    · rw [get_edge_upsert_edge_of_key g s t n m d hk]
      rfl
    · rw [get_edge_upsert_edge_of_key_ne g s t n m d hk, ← has_edge_eq_isSome]
      rcases hm with h | ⟨h1, h2⟩ | ⟨h1, h2⟩
      · exact ih n m h
      · exact absurd (by rw [h1, h2]) hk
      · exact absurd (by rw [h1, h2, canonical_edge_key_str_comm]) hk
  | clustering g g1 fuel alg _ hrun ih =>
    intro n m hm
    rw [clusterLoop_neighbours fuel g.nodes_.keys g [] 0 g1 hrun n] at hm
    rw [(clustering_frame g g1 fuel alg hrun).1]
    exact ih n m hm

/-- C35.  In every graph state reachable from the empty graph by
`upsert_node`, `upsert_edge` and `clustering` (the batch variants stay within
these states), adjacency is symmetric: `m` is a neighbour of `n` exactly when
`n` is a neighbour of `m`, and `(n, m)` is returned by `get_node_edges(n)`
exactly when `(m, n)` is returned by `get_node_edges(m)`; and every pair
returned by `get_node_edges(n)` has the form `(n, m)` and satisfies
`has_edge(n, m)`. -/
theorem reachable_adjacency_symmetric (g : InMemoryGraphStorage) (hg : Reachable g) :
    (∀ n m : Str, m ∈ neighbours g n ↔ n ∈ neighbours g m) ∧
    (∀ n m : Str, (n, m) ∈ g.get_node_edges n ↔ (m, n) ∈ g.get_node_edges m) ∧
    (∀ (n : Str) (p : Str × Str), p ∈ g.get_node_edges n →
      p.1 = n ∧ g.has_edge p.1 p.2 = true) ∧
    (∀ nodes_data : List (Str × PropertyMap), Reachable (g.upsert_nodes_batch nodes_data)) ∧
    (∀ edges_data : List (Str × Str × PropertyMap),
      Reachable (g.upsert_edges_batch edges_data)) := by
  have hsym := symmetric_of_reachable g hg
  have hiff : ∀ n m : Str, m ∈ neighbours g n ↔ n ∈ neighbours g m :=
    fun n m => ⟨fun h => hsym n m h, fun h => hsym m n h⟩
  have hmem : ∀ n m : Str, (n, m) ∈ g.get_node_edges n ↔ m ∈ neighbours g n := by
    intro n m
    rw [get_node_edges_eq_map]
    simp
  refine ⟨hiff, ?_, ?_, fun nd => reachable_upsert_nodes_batch nd g hg,
    fun ed => reachable_upsert_edges_batch ed g hg⟩
  · intro n m
    rw [hmem, hmem]
    exact hiff n m
  · intro n p hp
    rw [get_node_edges_eq_map] at hp
    obtain ⟨m, hm, rfl⟩ := List.mem_map.mp hp
    exact ⟨rfl, has_edge_of_neighbour g hg n m hm⟩

/-- Witness of `reachable_adjacency_symmetric`: the example graph. -/
theorem reachable_adjacency_symmetric_witness :
    Reachable (runOps chainOps) ∧
    ∀ (n : Str) (p : Str × Str), p ∈ (runOps chainOps).get_node_edges n →
      p.1 = n ∧ (runOps chainOps).has_edge p.1 p.2 = true :=
  ⟨reachable_runOps chainOps,
    (reachable_adjacency_symmetric (runOps chainOps) (reachable_runOps chainOps)).2.2.1⟩

/-- On the graph with the nodes `n0` and `n1` and twelve edges from `n1` to ids
that are no nodes, the traversal that `clustering` starts at `n1` creates a
node record for each of the twelve ids: the map `nodes_`, with 2 keys when the
loop over it is entered, has 14 keys when the traversal is over. -/
theorem traversal_inserts_nodes :
    ¬ NeighboursAreNodes (runOps starOps) ∧
    (runOps starOps).nodes_.keys.length = 2 ∧
    ∃ r : InMemoryGraphStorage × List Str,
      InMemoryGraphStorage.bfsLoop 0 27 (runOps starOps) ["n1".toList] ["n1".toList] = .ok r ∧
      r.1.nodes_.keys.length = 14 := by
  refine ⟨?_, by decide, ?_⟩
  · intro h
    exact absurd (h "n1".toList (by decide) "d0".toList (by decide)) (by decide)
  · have h : ((InMemoryGraphStorage.bfsLoop 0 27 (runOps starOps) ["n1".toList]
        ["n1".toList]).toOption.map (fun r => r.1.nodes_.keys.length)).getD 0 = 14 := by decide
    cases hr : InMemoryGraphStorage.bfsLoop 0 27 (runOps starOps) ["n1".toList]
        ["n1".toList] with
    | error e => rw [hr] at h; simp [Except.toOption] at h
    | ok r =>
      rw [hr] at h
      exact ⟨r, rfl, h⟩

/-- C36 fails on the code: after `upsert_node("A", {})` and
`upsert_edge("A", "B", {})` the id `B` is not a node; `clustering()` returns
and then `has_node("B")` holds, the new node carrying the label of `A`. -/
theorem clustering_creates_node :
    (runOps danglingOps).has_node "B".toList = false ∧
    ((runOps danglingOps).clustering 5 []).toOption.map (fun g1 => g1.has_node "B".toList)
      = some true ∧
    ((runOps danglingOps).clustering 5 []).toOption.map (fun g1 => nodeLabel g1 "B".toList)
      = some (some (clusterLabel 0)) ∧
    ((runOps danglingOps).clustering 5 []).toOption.map (fun g1 => nodeLabel g1 "A".toList)
      = some (some (clusterLabel 0)) := by
  refine ⟨by decide, by decide, by decide, by decide⟩

/-- C37.  For every graph state, id `n` and property map `d`:
`upsert_node(n, d)` sets `get_node(n)` to `d` and leaves unchanged
`get_node(m)` for every other `m`, and `node_degree`, `edge_degree`,
`get_node_edges`, `has_edge` and `get_edge` for every argument; the neighbours
of every id, `n` included, are as before. -/
theorem upsert_node_frame (g : InMemoryGraphStorage) (n : Str) (d : PropertyMap) :
    (g.upsert_node n d).get_node n = some d ∧
    (g.upsert_node n d).has_node n = true ∧
    (∀ m : Str, m ≠ n → (g.upsert_node n d).get_node m = g.get_node m) ∧
    (∀ m : Str, (g.upsert_node n d).node_degree m = g.node_degree m) ∧
    (∀ s t : Str, (g.upsert_node n d).edge_degree s t = g.edge_degree s t) ∧
    (∀ m : Str, (g.upsert_node n d).get_node_edges m = g.get_node_edges m) ∧
    (∀ s t : Str, (g.upsert_node n d).has_edge s t = g.has_edge s t) ∧
    (∀ s t : Str, (g.upsert_node n d).get_edge s t = g.get_edge s t) ∧
    (∀ m : Str, neighbours (g.upsert_node n d) m = neighbours g m) := by
  have hdeg : ∀ m : Str, (g.upsert_node n d).node_degree m = g.node_degree m := by
    intro m
    rw [node_degree_eq_length, node_degree_eq_length, neighbours_upsert_node]
  refine ⟨?_, ?_, ?_, hdeg, ?_, ?_, fun _ _ => rfl, fun _ _ => rfl,
    fun m => neighbours_upsert_node g n d m⟩
  · rw [get_node_upsert_node, if_pos rfl]
  · have h := get_node_upsert_node g n n d
    rw [if_pos rfl] at h
    unfold InMemoryGraphStorage.has_node
    unfold InMemoryGraphStorage.get_node at h
    rw [h]
    rfl
  · intro m hm
    rw [get_node_upsert_node, if_neg hm]
  · intro s t
    unfold InMemoryGraphStorage.edge_degree
    rw [hdeg s, hdeg t]
  · intro m
    rw [get_node_edges_eq_map, get_node_edges_eq_map, neighbours_upsert_node]

/-! ## The cluster label is parsed back -/

theorem clusterLabel_chars (k : Int) :
    clusterLabel k
      = '[' :: '\x7b' :: '"' :: 'l' :: 'e' :: 'v' :: 'e' :: 'l' :: '"' :: ':' :: '0' :: ',' :: '"' ::
          'c' :: 'l' :: 'u' :: 's' :: 't' :: 'e' :: 'r' :: '"' :: ':' ::
            (to_string k ++ ['\x7d', ']']) := rfl

theorem findFrom_clusterLabel (k : Int) :
    findFrom "cluster\":".toList (clusterLabel k) 0 = some 13 := by
  rw [clusterLabel_chars]
  have hn : "cluster\":".toList = ['c', 'l', 'u', 's', 't', 'e', 'r', '"', ':'] := rfl
  rw [hn]
  simp [findFrom, List.isPrefixOf]

theorem drop_clusterLabel (k : Int) :
    (clusterLabel k).drop (13 + 9) = to_string k ++ ['\x7d', ']'] := by
  rw [clusterLabel_chars]
  rfl

theorem toDigitsCore_digits :
    ∀ (fuel n : Nat) (ds : List Char), (∀ c ∈ ds, isDigit c = true) →
      ∀ c ∈ Nat.toDigitsCore 10 fuel n ds, isDigit c = true := by
  intro fuel
  induction fuel with
  | zero => intro n ds h; simpa [Nat.toDigitsCore] using h
  | succ fuel ih =>
    intro n ds h
    obtain ⟨hd, _⟩ := digitChar_value (n % 10) (Nat.mod_lt n (by decide))
    have hds : ∀ c ∈ Nat.digitChar (n % 10) :: ds, isDigit c = true := by
      intro c hc
      rcases List.mem_cons.mp hc with h1 | h1
      · rw [h1]; exact hd
      · exact h c h1
    unfold Nat.toDigitsCore
    simp only
    by_cases h0 : n / 10 = 0
    · rw [if_pos h0]; exact hds
    · rw [if_neg h0]; exact ih (n / 10) _ hds

theorem toDigitsCore_ne_nil :
    ∀ (fuel n : Nat) (ds : List Char), (ds ≠ [] ∨ 0 < fuel) →
      Nat.toDigitsCore 10 fuel n ds ≠ [] := by
  intro fuel
  induction fuel with
  | zero =>
    intro n ds h
    rcases h with h | h
    · simpa [Nat.toDigitsCore] using h
    · omega
  | succ fuel ih =>
    intro n ds _
    unfold Nat.toDigitsCore
    simp only
    by_cases h0 : n / 10 = 0
    · rw [if_pos h0]; simp
    · rw [if_neg h0]; exact ih (n / 10) _ (Or.inl (by simp))

theorem toDigitsCore_append :
    ∀ (fuel n : Nat) (ds : List Char),
      Nat.toDigitsCore 10 fuel n ds = Nat.toDigitsCore 10 fuel n [] ++ ds := by
  intro fuel
  induction fuel with
  | zero => intro n ds; simp [Nat.toDigitsCore]
  | succ fuel ih =>
    intro n ds
    unfold Nat.toDigitsCore
    simp only
    by_cases h0 : n / 10 = 0
    · rw [if_pos h0, if_pos h0]; rfl
    · rw [if_neg h0, if_neg h0, ih (n / 10) (Nat.digitChar (n % 10) :: ds),
        ih (n / 10) [Nat.digitChar (n % 10)]]
      simp

/-- The decimal digits of `n`, followed by a text that does not start with a
digit, are read back as `n`. -/
theorem stoi_toDigits (n : Nat) (tail : Str) (hn : (n : Int) ≤ 2147483647)
    (htail : digitsValue tail n = n) :
    stoi (Nat.toDigits 10 n ++ tail) = some (n : Int) := by
  have hdig : ∀ c ∈ Nat.toDigits 10 n, isDigit c = true :=
    toDigitsCore_digits (n + 1) n [] (by simp)
  have hne : Nat.toDigits 10 n ≠ [] := toDigitsCore_ne_nil (n + 1) n [] (Or.inr (by omega))
  have hval : digitsValue (Nat.toDigits 10 n ++ tail) 0 = n := by
    unfold Nat.toDigits
    rw [← toDigitsCore_append, digitsValue_toDigitsCore (n + 1) n tail (by omega)]
    exact htail
  cases hd : Nat.toDigits 10 n with
  | nil => exact absurd hd hne
  | cons c r =>
    have hc : isDigit c = true := hdig c (by rw [hd]; exact List.mem_cons_self _ _)
    rw [hd] at hval
    have hsp : isSpace c = false := by
      cases hs : isSpace c with
      | false => rfl
      | true =>
        simp only [isSpace, Bool.or_eq_true, beq_iff_eq] at hs
        rcases hs with ((((h | h) | h) | h) | h) | h <;> rw [h] at hc <;> exact absurd hc (by decide)
    have hminus : c ≠ '-' := by
      intro h; rw [h] at hc; exact absurd hc (by decide)
    have hplus : c ≠ '+' := by
      intro h; rw [h] at hc; exact absurd hc (by decide)
    have hdw : (c :: r ++ tail).dropWhile isSpace = c :: (r ++ tail) := by
      simp [List.dropWhile, hsp]
    simp only [List.cons_append] at hval hdw ⊢
    unfold stoi
    simp only [hdw]
    split
    · rename_i heq
      split at heq
      · rename_i h1
        simp only [List.cons.injEq] at h1
        exact absurd h1.1 hminus
      · rename_i h1
        simp only [List.cons.injEq] at h1
        exact absurd h1.1 hplus
      · simp at heq
    · rename_i c1 r1 heq
      split at heq
      · rename_i h1
        simp only [List.cons.injEq] at h1
        exact absurd h1.1 hminus
      · rename_i h1
        simp only [List.cons.injEq] at h1
        exact absurd h1.1 hplus
      · simp only [List.cons.injEq] at heq
        obtain ⟨h1, h2⟩ := heq
        subst h1
        subst h2
        simp only [hc, if_true, Bool.false_eq_true, if_false, hval]
        rw [if_pos ⟨by omega, hn⟩]

/-- The label written for the cluster number `k` is parsed back as `k`. -/
theorem parseCluster_clusterLabel (k : Int) (h0 : 0 ≤ k) (hmax : k ≤ 2147483647) :
    parseCluster (clusterLabel k) = k := by
  unfold parseCluster
  rw [findFrom_clusterLabel]
  simp only
  rw [drop_clusterLabel]
  obtain ⟨n, rfl⟩ := Int.eq_ofNat_of_zero_le h0
  have hts : to_string (n : Int) = Nat.toDigits 10 n := by
    unfold to_string
    simp
  rw [hts, stoi_toDigits n _ hmax (by simp [digitsValue, isDigit])]
  rfl

/-! ## Clustering: the labels are the numbers below the number of traversals -/

theorem mem_visitNeighbours (nbs visited queue : List Str) :
    (∀ x, x ∈ (visitNeighbours nbs visited queue).1 ↔ x ∈ visited ∨ x ∈ nbs) ∧
    (∀ x, x ∈ (visitNeighbours nbs visited queue).2 ↔ x ∈ queue ∨ (x ∈ nbs ∧ x ∉ visited)) := by
  obtain ⟨h1, h2, _⟩ := visitNeighbours_spec nbs.toFinset nbs visited queue
    (fun y hy => List.mem_toFinset.mpr hy)
  exact ⟨h1, h2⟩

/-- One traversal labels exactly the ids it visits anew, the start included,
with its cluster number, and leaves the records of all other ids alone. -/
theorem bfsLoop_labels (cid : Int) :
    ∀ (fuel : Nat) (g : InMemoryGraphStorage) (V Q : List Str)
      (r : InMemoryGraphStorage × List Str),
      (∀ x ∈ Q, x ∈ V) →
      InMemoryGraphStorage.bfsLoop cid fuel g V Q = .ok r →
      (∀ x ∈ V, x ∈ r.2) ∧
      (∀ x, ((x ∈ V ∧ x ∉ Q) ∨ x ∉ r.2) → r.1.nodes_.lookup x = g.nodes_.lookup x) ∧
      (∀ x, x ∈ r.2 → (x ∉ V ∨ x ∈ Q) →
        nodeLabel r.1 x = some (clusterLabel cid) ∧ r.1.has_node x = true) := by
  intro fuel
  induction fuel with
  | zero =>
    intro g V Q r hQ h
    cases Q with
    | nil =>
      rw [bfsLoop_nil] at h
      cases h
      refine ⟨fun _ hx => hx, fun _ _ => rfl, ?_⟩
      intro x hx hor
      rcases hor with h1 | h1
      · exact absurd hx h1
      · simp at h1
    | cons cur rest =>
      simp [InMemoryGraphStorage.bfsLoop] at h
  | succ fuel ih =>
    intro g V Q r hQ h
    cases Q with
    | nil =>
      rw [bfsLoop_nil] at h
      cases h
      refine ⟨fun _ hx => hx, fun _ _ => rfl, ?_⟩
      intro x hx hor
      rcases hor with h1 | h1
      · exact absurd hx h1
      · simp at h1
    | cons cur rest =>
      have hstep : InMemoryGraphStorage.bfsLoop cid (fuel + 1) g V (cur :: rest)
          = InMemoryGraphStorage.bfsLoop cid fuel
              { g with
                nodes_ := labelNode g.nodes_ cur cid
                adjacency_ := adjacencyTouch g.adjacency_ cur }
              (visitNeighbours (neighbours g cur) V rest).1
              (visitNeighbours (neighbours g cur) V rest).2 := rfl
      rw [hstep] at h
      obtain ⟨hV1, hQ1⟩ := mem_visitNeighbours (neighbours g cur) V rest
      have hcurV : cur ∈ V := hQ cur (List.mem_cons_self _ _)
      have hQ' : ∀ x ∈ (visitNeighbours (neighbours g cur) V rest).2,
          x ∈ (visitNeighbours (neighbours g cur) V rest).1 := by
        intro x hx
        rcases (hQ1 x).mp hx with h1 | ⟨h1, _⟩
        · exact (hV1 x).mpr (Or.inl (hQ x (List.mem_cons_of_mem _ h1)))
        · exact (hV1 x).mpr (Or.inr h1)
      obtain ⟨ha, hb, hc⟩ := ih _ _ _ r hQ' h
      have hlook : ∀ x, x ≠ cur →
          (labelNode g.nodes_ cur cid).lookup x = g.nodes_.lookup x := by
        intro x hx
        rw [lookup_labelNode, if_neg hx]
      refine ⟨fun x hx => ha x ((hV1 x).mpr (Or.inl hx)), ?_, ?_⟩
      · intro x hor
        rcases hor with ⟨hxV, hxQ⟩ | hxr
        · have hne : x ≠ cur := fun e => hxQ (e ▸ List.mem_cons_self _ _)
          have hxrest : x ∉ rest := fun e => hxQ (List.mem_cons_of_mem _ e)
          have hxQ' : x ∉ (visitNeighbours (neighbours g cur) V rest).2 := by
            intro e
            rcases (hQ1 x).mp e with h1 | ⟨_, h1⟩
            · exact hxrest h1
            · exact h1 hxV
          rw [hb x (Or.inl ⟨(hV1 x).mpr (Or.inl hxV), hxQ'⟩)]
          exact hlook x hne
        · have hne : x ≠ cur := fun e => hxr (e ▸ ha cur ((hV1 cur).mpr (Or.inl hcurV)))
          rw [hb x (Or.inr hxr)]
          exact hlook x hne
      · intro x hxr hor
        by_cases hxQ' : x ∈ (visitNeighbours (neighbours g cur) V rest).2
        · exact hc x hxr (Or.inr hxQ')
        · by_cases hxV' : x ∈ (visitNeighbours (neighbours g cur) V rest).1
          · have hxcur : x = cur := by
              rcases hor with h1 | h1
              · rcases (hV1 x).mp hxV' with h2 | h2
                · exact absurd h2 h1
                · exact absurd ((hQ1 x).mpr (Or.inr ⟨h2, h1⟩)) hxQ'
              · rcases List.mem_cons.mp h1 with h2 | h2
                · exact h2
                · exact absurd ((hQ1 x).mpr (Or.inl h2)) hxQ'
            have hl : r.1.nodes_.lookup x
                = some (((g.nodes_.lookup cur).getD ∅).insert clustersKey (clusterLabel cid)) := by
              rw [hb x (Or.inl ⟨hxV', hxQ'⟩)]
              simp only
              rw [lookup_labelNode, if_pos hxcur]
            exact nodeLabel_of_lookup r.1 x _ cid hl
          · exact hc x hxr (Or.inl hxV')

/-- The loop of `clustering` over the node keys: when it was entered with the
cluster numbers from `0` up to `cid`, each carried by a visited node, it ends
with the cluster numbers from `0` up to some `cfin`, each carried by a visited
node; every key of the loop is visited and the records of all other ids are
as before. -/
theorem clusterLoop_labels (fuel : Nat) :
    ∀ (rest : List Str) (g : InMemoryGraphStorage) (V : List Str) (cid : Int)
      (g1 : InMemoryGraphStorage),
      InMemoryGraphStorage.clusterLoop fuel rest g V cid = .ok g1 → 0 ≤ cid →
      (∀ x ∈ V, g.has_node x = true ∧
        ∃ c : Int, 0 ≤ c ∧ c < cid ∧ nodeLabel g x = some (clusterLabel c)) →
      (∀ c : Int, 0 ≤ c → c < cid → ∃ x ∈ V, nodeLabel g x = some (clusterLabel c)) →
      ∃ (cfin : Int) (V1 : List Str),
        cid ≤ cfin ∧ cfin ≤ cid + (rest.length : Int) ∧
        (∀ x ∈ V, x ∈ V1) ∧ (∀ x ∈ rest, x ∈ V1) ∧
        (∀ x ∈ V1, g1.has_node x = true ∧
          ∃ c : Int, 0 ≤ c ∧ c < cfin ∧ nodeLabel g1 x = some (clusterLabel c)) ∧
        (∀ c : Int, 0 ≤ c → c < cfin → ∃ x ∈ V1, nodeLabel g1 x = some (clusterLabel c)) ∧
        (∀ x, x ∉ V1 → g1.nodes_.lookup x = g.nodes_.lookup x) := by
  intro rest
  induction rest with
  | nil =>
    intro g V cid g1 h hcid hA hB
    simp only [InMemoryGraphStorage.clusterLoop] at h
    cases h
    exact ⟨cid, V, le_refl _, by simp, fun _ hx => hx, by simp, hA, hB, fun _ _ => rfl⟩
  | cons n rest ih =>
    intro g V cid g1 h hcid hA hB
    by_cases hn : n ∈ V
    · simp only [InMemoryGraphStorage.clusterLoop, hn, if_true] at h
      obtain ⟨cfin, V1, h1, h2, h3, h4, h5, h6, h7⟩ := ih g V cid g1 h hcid hA hB
      refine ⟨cfin, V1, h1, ?_, h3, ?_, h5, h6, h7⟩
      · simp only [List.length_cons]
        push_cast
        omega
      · intro x hx
        rcases List.mem_cons.mp hx with e | e
        · exact e ▸ h3 n hn
        · exact h4 x e
    · simp only [InMemoryGraphStorage.clusterLoop, hn, if_false] at h
      cases hb : InMemoryGraphStorage.bfsLoop cid fuel g (setInsert n V) [n] with
      | error e =>
        rw [hb] at h
        exact absurd h (by simp)
      | ok r =>
        rw [hb] at h
        have hV0 : ∀ x, x ∈ setInsert n V ↔ x = n ∨ x ∈ V := fun x => mem_setInsert n x V
        obtain ⟨ka, kb, kc⟩ := bfsLoop_labels cid fuel g (setInsert n V) [n] r
          (by
            intro x hx
            rw [List.mem_singleton] at hx
            exact (hV0 x).mpr (Or.inl hx)) hb
        have hVr : ∀ x ∈ V, x ∈ r.2 := fun x hx => ka x ((hV0 x).mpr (Or.inr hx))
        have hnr : n ∈ r.2 := ka n ((hV0 n).mpr (Or.inl rfl))
        have hkeep : ∀ x ∈ V, r.1.nodes_.lookup x = g.nodes_.lookup x := by
          intro x hx
          apply kb x
          refine Or.inl ⟨(hV0 x).mpr (Or.inr hx), ?_⟩
          intro e
          rw [List.mem_singleton] at e
          exact hn (e ▸ hx)
        have hnew : ∀ x ∈ r.2, x ∉ V →
            nodeLabel r.1 x = some (clusterLabel cid) ∧ r.1.has_node x = true := by
          intro x hx hxV
          apply kc x hx
          by_cases hxn : x = n
          · exact Or.inr (List.mem_singleton.mpr hxn)
          · exact Or.inl (fun e => by
              rcases (hV0 x).mp e with e1 | e1
              · exact hxn e1
              · exact hxV e1)
        obtain ⟨cfin, V1, h1, h2, h3, h4, h5, h6, h7⟩ := ih r.1 r.2 (cid + 1) g1 h (by omega)
          (by
            intro x hx
            by_cases hxV : x ∈ V
            · obtain ⟨hnode, c, hc0, hc1, hc⟩ := hA x hxV
              obtain ⟨e1, e2⟩ := nodeLabel_congr g r.1 x (hkeep x hxV)
              exact ⟨by rw [e2]; exact hnode, c, hc0, by omega, by rw [e1]; exact hc⟩
            · obtain ⟨hl, hnode⟩ := hnew x hx hxV
              exact ⟨hnode, cid, hcid, by omega, hl⟩)
          (by
            intro c hc0 hc1
            by_cases hc : c < cid
            · obtain ⟨x, hxV, hx⟩ := hB c hc0 hc
              refine ⟨x, hVr x hxV, ?_⟩
              rw [(nodeLabel_congr g r.1 x (hkeep x hxV)).1]
              exact hx
            · have e : c = cid := by omega
              rw [e]
              exact ⟨n, hnr, (hnew n hnr hn).1⟩)
        refine ⟨cfin, V1, by omega, ?_, fun x hx => h3 x (hVr x hx), ?_, h5, h6, ?_⟩
        · simp only [List.length_cons]
          push_cast
          omega
        · intro x hx
          rcases List.mem_cons.mp hx with e | e
          · exact e ▸ h3 n hnr
          · exact h4 x e
        · intro x hx
          rw [h7 x hx]
          exact kb x (Or.inr (fun e => hx (h3 x e)))

/-- A community of the schema has a member. -/
theorem community_schema_nonempty (g : InMemoryGraphStorage) (k : Str) (c : SingleCommunity)
    (hc : g.community_schema.lookup k = some c) : ∃ x : Str, communityKey g x = some k := by
  obtain ⟨_, hmem⟩ := (community_schema_nodes g k).1 c hc
  have hfold := schemaFold_nodes g g.nodes_.entries ∅ k
  rw [AList.lookup_empty] at hfold
  simp only [Option.map_none'] at hfold
  rw [community_schema_lookup] at hc
  cases hout : (g.nodes_.entries.foldl (InMemoryGraphStorage.schemaStep g) ∅).lookup k with
  | none => rw [hout] at hc; simp at hc
  | some c0 =>
    rw [hout] at hc hfold
    simp only [Option.map_some', Option.some.injEq] at hc hfold
    have hnodes : c.nodes = c0.nodes := by rw [← hc]; rfl
    by_cases hnil : (g.nodes_.entries.filter (fun n => entryKey n = some k)).map
        (fun n => n.1) = []
    · rw [if_pos hnil] at hfold
      exact absurd hfold (by simp)
    · rw [if_neg hnil] at hfold
      have hne : c.nodes ≠ [] := by
        rw [hnodes, Option.some.inj hfold]
        exact hnil
      obtain ⟨x, hx⟩ := List.exists_mem_of_ne_nil _ hne
      exact ⟨x, (hmem x).mp hx⟩

/-- C38, where `clustering()` creates no node.  The label written for a cluster
number `k` with `0 ≤ k` (within the range of `int`) is parsed back as `k`.  So
for every reachable graph state whose number of nodes fits an `int` and in
which every neighbour of a node is a node (both ends of every edge at a node
have been upserted as nodes), `clustering()` (with the step budget
`clusteringFuel`) returns, the nodes after the call are the nodes before it,
and there is a number `c` of connected components: `c` nodes `rep 0`, ..., `rep
(c - 1)`, no two of them connected, such that every node is connected to one of
them, the node `rep i` carrying the label of the cluster number `i`; the keys
of `community_schema()` are exactly the decimal strings of `0`, ..., `c - 1`;
and every community has level 0 and the title `"Cluster "` followed by its key.
-/
theorem label_round_trip (g : InMemoryGraphStorage) (hg : Reachable g) (algorithm : Str)
    (fuel : Nat) (hfuel : clusteringFuel g ≤ fuel)
    (hsize : (g.nodes_.keys.length : Int) ≤ 2147483648) (hclosed : NeighboursAreNodes g) :
    (∀ k : Int, 0 ≤ k → k ≤ 2147483647 → parseCluster (clusterLabel k) = k) ∧
    ∃ (g1 : InMemoryGraphStorage) (c : Nat) (rep : Nat → Str),
      g.clustering fuel algorithm = .ok g1 ∧
      (∀ x : Str, g1.has_node x = g.has_node x) ∧
      (∀ i : Nat, i < c →
        g1.has_node (rep i) = true ∧ nodeLabel g1 (rep i) = some (clusterLabel (i : Int))) ∧
      (∀ i j : Nat, i < c → j < c → connected g (rep i) (rep j) → i = j) ∧
      (∀ x : Str, g1.has_node x = true → ∃ i : Nat, i < c ∧ connected g (rep i) x) ∧
      (∀ k : Str, (∃ comm : SingleCommunity, g1.community_schema.lookup k = some comm)
        ↔ ∃ i : Nat, i < c ∧ k = to_string (i : Int)) ∧
      (∀ (k : Str) (comm : SingleCommunity), g1.community_schema.lookup k = some comm →
        comm.level = 0 ∧ comm.title = "Cluster ".toList ++ k) := by
  refine ⟨parseCluster_clusterLabel, ?_⟩
  have hsym := symmetric_of_reachable g hg
  obtain ⟨g1, hrun, _, _, _, _, h5, _, _⟩ := clustering_spec g algorithm fuel hsym hfuel
  have hrun' : InMemoryGraphStorage.clusterLoop fuel g.nodes_.keys g [] 0 = .ok g1 := hrun
  obtain ⟨cfin, V1, hc0, hc1, _, hkeys, hA, hB, hframe⟩ :=
    clusterLoop_labels fuel g.nodes_.keys g [] 0 g1 hrun' (le_refl _) (by simp)
      (by intro c h0 h1; omega)
  have hall : ∀ x : Str, g1.has_node x = true → x ∈ V1 := by
    intro x hx
    by_contra hxV
    have hl := hframe x hxV
    have hgx : g.has_node x = true := by
      rw [← (nodeLabel_congr g g1 x hl).2]
      exact hx
    unfold InMemoryGraphStorage.has_node at hgx
    rw [AList.lookup_isSome, AList.mem_keys] at hgx
    exact hxV (hkeys x hgx)
  have hrange : ∀ x : Str, g1.has_node x = true →
      ∃ i : Nat, i < cfin.toNat ∧ nodeLabel g1 x = some (clusterLabel (i : Int)) := by
    intro x hx
    obtain ⟨_, c, h0, h1, hl⟩ := hA x (hall x hx)
    refine ⟨c.toNat, by omega, ?_⟩
    rw [Int.toNat_of_nonneg h0]
    exact hl
  have hrep : ∀ i : Nat, ∃ x : Str, i < cfin.toNat →
      g1.has_node x = true ∧ nodeLabel g1 x = some (clusterLabel (i : Int)) := by
    intro i
    by_cases hi : i < cfin.toNat
    · obtain ⟨x, hxV, hx⟩ := hB (i : Int) (Int.natCast_nonneg _) (by omega)
      exact ⟨x, fun _ => ⟨(hA x hxV).1, hx⟩⟩
    · exact ⟨[], fun h => absurd h hi⟩
  obtain ⟨rep, hrep⟩ := Classical.skolem.mp hrep
  have hkey : ∀ (x : Str) (i : Nat), i < cfin.toNat →
      nodeLabel g1 x = some (clusterLabel (i : Int)) →
      communityKey g1 x = some (to_string (i : Int)) := by
    intro x i hi hl
    unfold communityKey
    rw [hl]
    simp only [Option.map_some']
    rw [parseCluster_clusterLabel (i : Int) (Int.natCast_nonneg _) (by omega)]
  refine ⟨g1, cfin.toNat, rep, hrun,
    (clustering_same_nodes g algorithm fuel hsym hfuel hclosed g1 hrun).1, hrep, ?_, ?_, ?_, ?_⟩
  · intro i j hi hj hconn
    obtain ⟨hni, hli⟩ := hrep i hi
    obtain ⟨hnj, hlj⟩ := hrep j hj
    have heq := (h5 (rep i) (rep j) hni hnj).mpr hconn
    rw [hli, hlj] at heq
    have := clusterLabel_injective (i : Int) (j : Int) (Int.natCast_nonneg _)
      (Int.natCast_nonneg _) (Option.some.inj heq)
    exact_mod_cast this
  · intro x hx
    obtain ⟨i, hi, hl⟩ := hrange x hx
    obtain ⟨hni, hli⟩ := hrep i hi
    exact ⟨i, hi, (h5 (rep i) x hni hx).mp (by rw [hli, hl])⟩
  · intro k
    constructor
    · rintro ⟨comm, hcomm⟩
      obtain ⟨x, hx⟩ := community_schema_nonempty g1 k comm hcomm
      have hnode : g1.has_node x = true := by
        unfold communityKey nodeLabel at hx
        unfold InMemoryGraphStorage.has_node
        cases hl : g1.nodes_.lookup x with
        | none => rw [hl] at hx; simp at hx
        | some props => rfl
      obtain ⟨i, hi, hl⟩ := hrange x hnode
      rw [hkey x i hi hl] at hx
      exact ⟨i, hi, (Option.some.inj hx).symm⟩
    · rintro ⟨i, hi, rfl⟩
      obtain ⟨_, hli⟩ := hrep i hi
      exact (community_schema_nodes g1 _).2 (rep i) (hkey (rep i) i hi hli)
  · intro k comm hcomm
    obtain ⟨_, _, _, h4, h5'⟩ := community_schema_fields g1 k comm hcomm
    exact ⟨h4, h5'⟩

/-- Witness of `label_round_trip`: the example graph with step budget 9. -/
theorem label_round_trip_witness :
    parseCluster (clusterLabel 7) = 7 ∧
    ∃ (g1 : InMemoryGraphStorage) (c : Nat),
      (runOps chainOps).clustering 9 [] = .ok g1 ∧
      ∀ k : Str, (∃ comm : SingleCommunity, g1.community_schema.lookup k = some comm)
        ↔ ∃ i : Nat, i < c ∧ k = to_string (i : Int) := by
  obtain ⟨h1, g1, c, _, hrun, _, _, _, _, hkeys, _⟩ :=
    label_round_trip (runOps chainOps) (reachable_runOps chainOps) [] 9 (by decide) (by decide)
      neighboursAreNodes_chainOps
  exact ⟨h1 7 (by decide) (by decide), g1, c, hrun, hkeys⟩

/-! ## Clustering: the work list -/

/-- Creating the missing entries of `metas_` does not change what a lookup
with the default of the empty map gives, so that every row is built from the
metadata held before the call. -/
theorem queryFold_rows {F : Type} (score_string : F → Str) (m0 : UnorderedMap PropertyMap) :
    ∀ (results : List (Str × F)) (acc : List PropertyMap) (metas : UnorderedMap PropertyMap),
      (∀ id, (metas.lookup id).getD ∅ = (m0.lookup id).getD ∅) →
      (results.foldl
        (fun (acc : List PropertyMap × UnorderedMap PropertyMap) r =>
          let metas : UnorderedMap PropertyMap :=
            match acc.2.lookup r.1 with
            | some _ => acc.2
            | none => acc.2.insert r.1 ∅
          (acc.1 ++ [NanoVectorDBStorage.queryRow score_string metas r], metas))
        (acc, metas)).1 = acc ++ results.map (NanoVectorDBStorage.queryRow score_string m0) ∧
      ∀ id, ((results.foldl
        (fun (acc : List PropertyMap × UnorderedMap PropertyMap) r =>
          let metas : UnorderedMap PropertyMap :=
            match acc.2.lookup r.1 with
            | some _ => acc.2
            | none => acc.2.insert r.1 ∅
          (acc.1 ++ [NanoVectorDBStorage.queryRow score_string metas r], metas))
        (acc, metas)).2.lookup id).getD ∅ = (m0.lookup id).getD ∅ := by
  intro results
  induction results with
  | nil => intro acc metas h; exact ⟨by simp, h⟩
  | cons r rest ih =>
    intro acc metas h
    rw [List.foldl_cons]
    have hm : ∀ key, (((match metas.lookup r.1 with
        | some _ => metas
        | none => metas.insert r.1 ∅ : UnorderedMap PropertyMap).lookup key).getD ∅)
        = (m0.lookup key).getD ∅ := by
      intro key
      cases hl : metas.lookup r.1 with
      | some v => exact h key
      | none =>
        simp only
        by_cases hid : key = r.1
        · rw [hid, AList.lookup_insert, ← h r.1, hl]
          rfl
        · rw [AList.lookup_insert_ne hid]
          exact h key
    obtain ⟨k1, k2⟩ := ih
      (acc ++ [NanoVectorDBStorage.queryRow score_string
        (match metas.lookup r.1 with
          | some _ => metas
          | none => metas.insert r.1 ∅) r])
      (match metas.lookup r.1 with
        | some _ => metas
        | none => metas.insert r.1 ∅) hm
    refine ⟨?_, k2⟩
    rw [k1, List.map_cons, List.append_assoc, List.singleton_append]
    congr 2
    unfold NanoVectorDBStorage.queryRow
    rw [hm r.1]

/-- The rows of `query` are the results of the library, each turned into a
row with the metadata held before the call. -/
theorem query_rows {DB F : Type} [LinearOrder F] (lib : NanoVectorDB DB F) (zero : F)
    (to_float : F → F) (score_string : F → Str) (self : NanoVectorDBStorage DB F)
    (text : Str) (top_k : Int) :
    (NanoVectorDBStorage.query lib zero to_float score_string self text top_k).1
      = (NanoVectorDBStorage.queryResults lib zero to_float self text top_k).map
          (NanoVectorDBStorage.queryRow score_string self.metas_) := by
  cases hdb : self.db_ with
  | none => simp [NanoVectorDBStorage.query, NanoVectorDBStorage.queryResults, hdb]
  | some db =>
    have h := (queryFold_rows score_string self.metas_
      (NanoVectorDBStorage.queryResults lib zero to_float self text top_k) [] self.metas_
      (fun _ => rfl)).1
    simp only [NanoVectorDBStorage.query, hdb]
    rw [List.nil_append] at h
    exact h

/-- A query changes no metadata: it only creates empty entries. -/
theorem query_metas {DB F : Type} [LinearOrder F] (lib : NanoVectorDB DB F) (zero : F)
    (to_float : F → F) (score_string : F → Str) (self : NanoVectorDBStorage DB F)
    (text : Str) (top_k : Int) :
    (NanoVectorDBStorage.query lib zero to_float score_string self text top_k).2.meta_fields
        = self.meta_fields ∧
    ∀ id, (((NanoVectorDBStorage.query lib zero to_float score_string self text top_k).2.metas_.lookup
        id).getD ∅) = (self.metas_.lookup id).getD ∅ := by
  cases hdb : self.db_ with
  | none => simp [NanoVectorDBStorage.query, hdb]
  | some db =>
    have h := (queryFold_rows score_string self.metas_
      (NanoVectorDBStorage.queryResults lib zero to_float self text top_k) [] self.metas_
      (fun _ => rfl)).2
    simp only [NanoVectorDBStorage.query, hdb]
    exact ⟨trivial, h⟩

/-- The fields of the captured metadata: a field is captured when it is
enabled in `meta_fields` and the record has it, with the value of the record. -/
theorem captureFold_lookup (record : PropertyMap) (f : Str) :
    ∀ (es : List (Sigma (fun _ : Str => Bool))) (acc : PropertyMap),
      (es.foldl
        (fun captured mf =>
          if mf.2 then
            match record.lookup mf.1 with
            | some v => captured.insert mf.1 v
            | none => captured
          else captured)
        acc).lookup f
        = if (⟨f, true⟩ : Sigma (fun _ : Str => Bool)) ∈ es ∧ (record.lookup f).isSome
          then record.lookup f else acc.lookup f := by
  intro es
  induction es with
  | nil => intro acc; simp
  | cons e es ih =>
    intro acc
    rw [List.foldl_cons, ih]
    obtain ⟨k, b⟩ := e
    by_cases hin : (⟨f, true⟩ : Sigma (fun _ : Str => Bool)) ∈ es ∧ (record.lookup f).isSome
    · rw [if_pos hin, if_pos ⟨List.mem_cons_of_mem _ hin.1, hin.2⟩]
    · rw [if_neg hin]
      cases b with
      | false =>
        have hne : ¬ ((⟨f, true⟩ : Sigma (fun _ : Str => Bool)) ∈ (⟨k, false⟩ :: es) ∧
            (record.lookup f).isSome) := by
          rintro ⟨h1, h2⟩
          rcases List.mem_cons.mp h1 with h | h
          · simp at h
          · exact hin ⟨h, h2⟩
        rw [if_neg hne]
        simp
      | true =>
        simp only [if_true]
        by_cases hk : f = k
        · subst hk
          cases hr : record.lookup f with
          | none => simp
          | some v => simp [AList.lookup_insert]
        · have hne : ¬ ((⟨f, true⟩ : Sigma (fun _ : Str => Bool)) ∈ (⟨k, true⟩ :: es) ∧
              (record.lookup f).isSome) := by
            rintro ⟨h1, h2⟩
            rcases List.mem_cons.mp h1 with h | h
            · simp only [Sigma.mk.inj_iff, heq_eq_eq, and_true] at h
              exact hk h
            · exact hin ⟨h, h2⟩
          rw [if_neg hne]
          cases hr : record.lookup k with
          | none => rfl
          | some v => exact AList.lookup_insert_ne hk

theorem captureMeta_lookup (meta_fields : UnorderedMap Bool) (record : PropertyMap) (f : Str) :
    (captureMeta meta_fields record).lookup f
      = if meta_fields.lookup f = some true then record.lookup f else none := by
  unfold captureMeta
  refine Eq.trans (captureFold_lookup record f meta_fields.entries ∅) ?_
  have hiff : (⟨f, true⟩ : Sigma (fun _ : Str => Bool)) ∈ meta_fields.entries
      ↔ meta_fields.lookup f = some true := AList.mem_lookup_iff.symm
  by_cases hm : meta_fields.lookup f = some true
  · rw [if_pos hm]
    cases hr : record.lookup f with
    | none => simp
    | some v => simp [hiff.mpr hm]
  · rw [if_neg hm, if_neg (fun h => hm (hiff.mp h.1))]
    rfl

/-- The map `metas_` after the loop of `upsert` over the batch. -/
theorem metasFold_lookup (g : PropertyMap → PropertyMap) (key : Str) :
    ∀ (es : List (Sigma (fun _ : Str => PropertyMap))) (m : UnorderedMap PropertyMap),
      es.NodupKeys →
      (es.foldl (fun metas kv => metas.insert kv.1 (g kv.2)) m).lookup key
        = match List.dlookup key es with
          | some record => some (g record)
          | none => m.lookup key := by
  intro es
  induction es with
  | nil => intro m _; rfl
  | cons e es ih =>
    intro m hnd
    obtain ⟨k, v⟩ := e
    rw [List.foldl_cons, ih _ (List.nodupKeys_cons.mp hnd).2]
    by_cases hk : key = k
    · subst hk
      have hnone : List.dlookup key es = none :=
        List.dlookup_eq_none.mpr (List.nodupKeys_cons.mp hnd).1
      rw [hnone, List.dlookup_cons_eq]
      simp [AList.lookup_insert]
    · rw [List.dlookup_cons_ne _ _ hk]
      cases hl : List.dlookup key es with
      | some record => rfl
      | none => exact AList.lookup_insert_ne hk

/-- An upsert captures the metadata of every record of the batch, keeps the
metadata of the other ids, and leaves `meta_fields` alone. -/
theorem upsert_metas {DB F : Type} (lib : NanoVectorDB DB F) (zero : F)
    (self : NanoVectorDBStorage DB F) (data : UnorderedMap PropertyMap) :
    (NanoVectorDBStorage.upsert lib zero self data).meta_fields = self.meta_fields ∧
    ∀ key, (NanoVectorDBStorage.upsert lib zero self data).metas_.lookup key
      = match data.lookup key with
        | some record => some (captureMeta self.meta_fields record)
        | none => self.metas_.lookup key := by
  have hfold := fun key => metasFold_lookup (captureMeta self.meta_fields) key data.entries
    self.metas_ data.nodupKeys
  unfold NanoVectorDBStorage.upsert
  cases hempty : data.entries.isEmpty with
  | true =>
    simp only [if_true]
    refine ⟨trivial, fun key => ?_⟩
    have hnil : data.entries = [] := List.isEmpty_iff.mp hempty
    have hl : data.lookup key = none := by
      unfold AList.lookup
      rw [hnil]
      rfl
    rw [hl]
  | false =>
    simp only [Bool.false_eq_true, if_false]
    cases hinit : NanoVectorDBStorage.lateInit lib self with
    | none => exact ⟨rfl, fun key => hfold key⟩
    | some db => exact ⟨rfl, fun key => hfold key⟩

theorem runVectorOps_append {DB F : Type} [LinearOrder F] (lib : NanoVectorDB DB F) (zero : F)
    (to_float : F → F) (score_string : F → Str) (self : NanoVectorDBStorage DB F)
    (ops : List VectorOp)
    (op : VectorOp) :
    runVectorOps lib zero to_float score_string self (ops ++ [op])
      = match op with
        | .upsert data =>
          NanoVectorDBStorage.upsert lib zero (runVectorOps lib zero to_float score_string self ops) data
        | .query text top_k =>
          (NanoVectorDBStorage.query lib zero to_float score_string
            (runVectorOps lib zero to_float score_string self ops) text top_k).2 := by
  unfold runVectorOps
  rw [List.foldl_append]
  rfl

theorem lastRecord_append (ops : List VectorOp) (op : VectorOp) (key : Str) :
    lastRecord (ops ++ [op]) key
      = match op with
        | .upsert data =>
          match data.lookup key with
          | some record => some record
          | none => lastRecord ops key
        | .query _ _ => lastRecord ops key := by
  unfold lastRecord
  rw [List.foldl_append]
  rfl

/-- After any sequence of calls on an index that starts without metadata, the
entry of `metas_` for an id, read with the default of the empty map, is the
metadata captured at the last upsert of the id. -/
theorem runVectorOps_metas {DB F : Type} [LinearOrder F] (lib : NanoVectorDB DB F) (zero : F)
    (to_float : F → F) (score_string : F → Str) (self : NanoVectorDBStorage DB F)
    (h0 : self.metas_ = ∅) :
    ∀ ops : List VectorOp,
      (runVectorOps lib zero to_float score_string self ops).meta_fields = self.meta_fields ∧
      ∀ key, (((runVectorOps lib zero to_float score_string self ops).metas_.lookup key).getD ∅)
        = capturedAtLastUpsert self.meta_fields ops key := by
  intro ops
  induction ops using List.reverseRecOn with
  | nil =>
    refine ⟨rfl, fun key => ?_⟩
    have : runVectorOps lib zero to_float score_string self [] = self := rfl
    rw [this, h0]
    rfl
  | append_singleton ops op ih =>
    obtain ⟨ih1, ih2⟩ := ih
    rw [runVectorOps_append]
    cases op with
    | upsert data =>
      obtain ⟨k1, k2⟩ := upsert_metas lib zero (runVectorOps lib zero to_float score_string self ops) data
      refine ⟨k1.trans ih1, fun key => ?_⟩
      simp only
      rw [k2 key]
      unfold capturedAtLastUpsert
      rw [lastRecord_append]
      simp only
      cases hl : data.lookup key with
      | some record => simp only [Option.getD_some, ih1]
      | none =>
        simp only
        have := ih2 key
        unfold capturedAtLastUpsert at this
        exact this
    | query text top_k =>
      obtain ⟨k1, k2⟩ := query_metas lib zero to_float score_string
        (runVectorOps lib zero to_float score_string self ops) text top_k
      refine ⟨k1.trans ih1, fun key => ?_⟩
      simp only
      rw [k2 key, ih2 key]
      unfold capturedAtLastUpsert
      rw [lastRecord_append]

/-- C32.  On a vector index that starts without metadata, after any sequence
of upserts and queries, every row returned by `query` is the metadata captured
for its id at the last upsert of that id (empty if it was never upserted),
with the id set under the key `id` and then the rendered score under the key
`similarity`; the captured metadata of a record holds exactly the fields
enabled in `meta_fields` that the record had, with the values of the
record. -/
theorem query_row_contents {DB F : Type} [LinearOrder F] (lib : NanoVectorDB DB F) (zero : F)
    (to_float : F → F) (score_string : F → Str) (self : NanoVectorDBStorage DB F)
    (h0 : self.metas_ = ∅)
    (ops : List VectorOp) (text : Str) (top_k : Int) :
    (NanoVectorDBStorage.query lib zero to_float score_string
        (runVectorOps lib zero to_float score_string self ops) text top_k).1
      = (NanoVectorDBStorage.queryResults lib zero to_float
          (runVectorOps lib zero to_float score_string self ops) text top_k).map
          (fun r => ((capturedAtLastUpsert self.meta_fields ops r.1).insert "id".toList
            r.1).insert "similarity".toList (score_string r.2)) ∧
    ∀ (record : PropertyMap) (f : Str),
      (captureMeta self.meta_fields record).lookup f
        = if self.meta_fields.lookup f = some true then record.lookup f else none := by
  refine ⟨?_, fun record f => captureMeta_lookup self.meta_fields record f⟩
  rw [query_rows]
  apply List.map_congr_left
  intro r _
  unfold NanoVectorDBStorage.queryRow
  rw [(runVectorOps_metas lib zero to_float score_string self h0 ops).2 r.1]

/-- Witness of `query_row_contents`: the example index after the upsert of
the two example records. -/
theorem query_row_contents_witness :
    (signStorage 0).metas_ = ∅ ∧
    (NanoVectorDBStorage.query echoIndex 0 id tallyString
        (runVectorOps echoIndex 0 id tallyString (signStorage 0) [.upsert twoRecords])
        "q".toList 2).1
      = (NanoVectorDBStorage.queryResults echoIndex 0 id
          (runVectorOps echoIndex 0 id tallyString (signStorage 0) [.upsert twoRecords])
          "q".toList 2).map
          (fun r => ((capturedAtLastUpsert (signStorage 0).meta_fields [.upsert twoRecords]
            r.1).insert "id".toList r.1).insert "similarity".toList (tallyString r.2)) :=
  ⟨rfl, (query_row_contents echoIndex 0 id tallyString (signStorage 0) rfl
    [.upsert twoRecords] "q".toList 2).1⟩

/-- The rows of the example index after the upsert of the two example records
have no key `score`: the score is under the key `similarity`. -/
theorem query_row_no_score_key :
    ((NanoVectorDBStorage.query echoIndex 0 id tallyString
        (NanoVectorDBStorage.upsert echoIndex 0 (signStorage 0) twoRecords)
        "q".toList 2).1.map
      (fun row => (row.lookup "id".toList, row.lookup "score".toList,
        row.lookup "similarity".toList, row.lookup "source".toList)))
      = [(some "id1".toList, none, some "piii".toList, some "book".toList),
         (some "id2".toList, none, some "mi".toList, none)] := by
  decide

/-- Records with pairwise different ids, none of them stored yet, are stored
one after the other. -/
theorem storeRecord_fold {F : Type} :
    ∀ (datas db : List (Str × List F)), ((db ++ datas).map (fun r => r.1)).Nodup →
      datas.foldl storeRecord db = db ++ datas := by
  intro datas
  induction datas with
  | nil => intro db _; simp
  | cons d datas ih =>
    intro db hnd
    rw [List.foldl_cons]
    have hnot : db.any (fun r => r.1 == d.1) = false := by
      rw [List.any_eq_false]
      intro r hr heq
      have hrd : r.1 = d.1 := by simpa using heq
      rw [List.map_append, List.map_cons, List.nodup_append] at hnd
      exact hnd.2.2 (List.mem_map.mpr ⟨r, hr, rfl⟩) (hrd ▸ List.mem_cons_self _ _)
    have hstep : storeRecord db d = db ++ [d] := by
      unfold storeRecord
      rw [hnot]
      rfl
    rw [hstep, ih (db ++ [d]) (by simpa using hnd)]
    simp

/-- What a query of the modelled library returns: at most `top_k` results, in
descending order of score, none below the threshold when one is given. -/
theorem specIndex_query {F : Type} [LinearOrder F] (score : List F → List F → F)
    (db : List (Str × List F)) (v : List F) (top_k : Int) (th : Option F) :
    ((specIndex score).query db v top_k th).length ≤ top_k.toNat ∧
    (((specIndex score).query db v top_k th).map (fun r => r.2)).Sorted (fun a b => b ≤ a) ∧
    ∀ t, th = some t → ∀ r ∈ (specIndex score).query db v top_k th, t ≤ r.2 := by
  haveI : IsTotal (Str × F) (fun a b => b.2 ≤ a.2) := ⟨fun a b => le_total b.2 a.2⟩
  haveI : IsTrans (Str × F) (fun a b => b.2 ≤ a.2) := ⟨fun a b c hab hbc => le_trans hbc hab⟩
  refine ⟨?_, ?_, ?_⟩
  · simp only [specIndex, List.length_take]
    exact min_le_left _ _
  · simp only [specIndex]
    unfold List.Sorted
    rw [List.pairwise_map]
    exact List.Pairwise.sublist (List.take_sublist _ _)
      (List.sorted_insertionSort (fun (a b : Str × F) => b.2 ≤ a.2) _)
  · intro t ht r hr
    subst ht
    simp only [specIndex] at hr
    have h1 := (List.mem_insertionSort (fun (a b : Str × F) => b.2 ≤ a.2)).mp
      (List.mem_of_mem_take hr)
    have h2 := (List.mem_filter.mp h1).2
    simpa using h2

/-- C31 (amended).  With the library index as modelled from the spec, for
every metric and every cast to `float`: `query` returns one row per result of
the library; for `top_k ≥ 0` these are at most `top_k`; they are in
non-increasing order of score; and when the configured threshold is greater
than zero none has a score below the threshold as cast to `float`.  After
upserting two records into a vector index whose library index holds no record
and whose strategy has a dimension above zero, `query(text, 2)` returns
results for exactly the two ids, provided that the configured threshold is
greater than zero and that no score of the two records is below the threshold
as cast to `float`. -/
theorem vector_query_order {F : Type} [LinearOrder F] (score : List F → List F → F) (zero : F)
    (to_float : F → F) (score_string : F → Str)
    (self : NanoVectorDBStorage (List (Str × List F)) F) (text : Str) (top_k : Int) :
    ((NanoVectorDBStorage.query (specIndex score) zero to_float score_string self text top_k).1
      = (NanoVectorDBStorage.queryResults (specIndex score) zero to_float self text top_k).map
          (NanoVectorDBStorage.queryRow score_string self.metas_)) ∧
    (0 ≤ top_k →
      ((NanoVectorDBStorage.queryResults (specIndex score) zero to_float self text
        top_k).length : Int) ≤ top_k) ∧
    ((NanoVectorDBStorage.queryResults (specIndex score) zero to_float self text top_k).map
      (fun r => r.2)).Sorted (fun a b => b ≤ a) ∧
    (zero < self.cosine_better_than_threshold_ →
      ∀ r ∈ NanoVectorDBStorage.queryResults (specIndex score) zero to_float self text top_k,
        to_float self.cosine_better_than_threshold_ ≤ r.2) ∧
    ∀ (data : UnorderedMap PropertyMap) (e : IEmbeddingStrategy F),
      self.embedding_strategy = some e → 0 < e.embedding_dim →
      (self.db_ = none ∨ self.db_ = some []) → data.entries.length = 2 →
      zero < self.cosine_better_than_threshold_ →
      (∀ d ∈ NanoVectorDBStorage.upsertDatas zero self data,
        to_float self.cosine_better_than_threshold_
          ≤ score (NanoVectorDBStorage.queryVector zero self text) d.2) →
      ((NanoVectorDBStorage.queryResults (specIndex score) zero to_float
          (NanoVectorDBStorage.upsert (specIndex score) zero self data) text 2).map
        (fun r => r.1)).Perm data.keys := by
  refine ⟨query_rows _ _ _ _ _ _ _, ?_, ?_, ?_, ?_⟩
  · intro hk
    have hlen : (NanoVectorDBStorage.queryResults (specIndex score) zero to_float self text
        top_k).length ≤ top_k.toNat := by
      unfold NanoVectorDBStorage.queryResults
      cases self.db_ with
      | none => simp
      | some db => exact (specIndex_query score db _ top_k _).1
    omega
  · unfold NanoVectorDBStorage.queryResults
    cases self.db_ with
    | none => simp
    | some db => exact (specIndex_query score db _ top_k _).2.1
  · intro hpos r hr
    unfold NanoVectorDBStorage.queryResults at hr
    cases hdb : self.db_ with
    | none => rw [hdb] at hr; simp at hr
    | some db =>
      rw [hdb] at hr
      refine (specIndex_query score db _ top_k _).2.2 _ ?_ r hr
      unfold NanoVectorDBStorage.queryThreshold
      rw [if_pos hpos]
  · intro data e he hd hdb hlen hpos hth
    have hempty : data.entries.isEmpty = false := by
      cases h : data.entries with
      | nil => rw [h] at hlen; simp at hlen
      | cons a l => rfl
    have hinit : NanoVectorDBStorage.lateInit (specIndex score) self = some [] := by
      unfold NanoVectorDBStorage.lateInit
      rcases hdb with h | h
      · rw [h, he]
        simp only [hd, if_true]
        rfl
      · rw [h]
    have hids : NanoVectorDBStorage.upsertIds data = data.keys := by
      unfold NanoVectorDBStorage.upsertIds
      rw [foldl_push_eq_map]
      rfl
    have hdatas_ids : (NanoVectorDBStorage.upsertDatas zero self data).map (fun r => r.1)
        = data.keys := by
      rw [upsertDatas_eq_zip, ← hids]
      exact List.map_fst_zip _ _ (le_of_eq (upsertEmbeddings_length zero self data).symm)
    have hstore : (NanoVectorDBStorage.upsertDatas zero self data).foldl storeRecord []
        = NanoVectorDBStorage.upsertDatas zero self data := by
      rw [storeRecord_fold _ [] (by rw [List.nil_append, hdatas_ids]; exact data.keys_nodup)]
      rfl
    have hstate : NanoVectorDBStorage.upsert (specIndex score) zero self data
        = { self with
            metas_ := data.entries.foldl
              (fun metas kv => metas.insert kv.1 (captureMeta self.meta_fields kv.2))
              self.metas_
            db_ := some (NanoVectorDBStorage.upsertDatas zero self data) } := by
      unfold NanoVectorDBStorage.upsert
      rw [hempty, hinit]
      have hup : (specIndex score).upsert [] (NanoVectorDBStorage.upsertDatas zero self data)
          = NanoVectorDBStorage.upsertDatas zero self data := hstore
      have hsave : ∀ db, (specIndex score).save db = db := fun _ => rfl
      simp only [Bool.false_eq_true, if_false, hup, hsave, ite_self]
    rw [hstate]
    have hres : NanoVectorDBStorage.queryResults (specIndex score) zero to_float
        { self with
          metas_ := data.entries.foldl
            (fun metas kv => metas.insert kv.1 (captureMeta self.meta_fields kv.2))
            self.metas_
          db_ := some (NanoVectorDBStorage.upsertDatas zero self data) } text 2
        = (specIndex score).query (NanoVectorDBStorage.upsertDatas zero self data)
            (NanoVectorDBStorage.queryVector zero self text) 2
            (NanoVectorDBStorage.queryThreshold zero to_float self) := rfl
    rw [hres]
    have hfilter : ((NanoVectorDBStorage.upsertDatas zero self data).map
          (fun r => (r.1, score (NanoVectorDBStorage.queryVector zero self text) r.2))).filter
          (fun r =>
            match NanoVectorDBStorage.queryThreshold zero to_float self with
            | some t => decide (¬ r.2 < t)
            | none => true)
        = (NanoVectorDBStorage.upsertDatas zero self data).map
          (fun r => (r.1, score (NanoVectorDBStorage.queryVector zero self text) r.2)) := by
      rw [List.filter_eq_self]
      intro r hr
      obtain ⟨d, hd1, hd2⟩ := List.mem_map.mp hr
      unfold NanoVectorDBStorage.queryThreshold
      rw [if_pos hpos]
      have := hth d hd1
      rw [← hd2]
      simpa using this
    have hlen2 : (NanoVectorDBStorage.upsertDatas zero self data).length = 2 := by
      have := congrArg List.length hdatas_ids
      rw [List.length_map] at this
      rw [this]
      unfold AList.keys List.keys
      rw [List.length_map, hlen]
    have hquery : (specIndex score).query (NanoVectorDBStorage.upsertDatas zero self data)
          (NanoVectorDBStorage.queryVector zero self text) 2
          (NanoVectorDBStorage.queryThreshold zero to_float self)
        = ((NanoVectorDBStorage.upsertDatas zero self data).map
            (fun r => (r.1, score (NanoVectorDBStorage.queryVector zero self text)
              r.2))).insertionSort (fun a b => b.2 ≤ a.2) := by
      simp only [specIndex]
      rw [hfilter]
      apply List.take_of_length_le
      rw [List.length_insertionSort, List.length_map, hlen2]
      decide
    rw [hquery]
    refine ((List.perm_insertionSort _ _).map _).trans ?_
    rw [List.map_map]
    exact List.Perm.of_eq hdatas_ids

/-- Witness of `vector_query_order`: the example index with the threshold `2`
and the two example records, of which one has a score below the threshold for
the query `q`; and the example index with the threshold `1`, which the cast of
the example takes to `0`, and the empty query, for which both records have the
score `0`. -/
theorem vector_query_order_witness :
    (∀ r ∈ NanoVectorDBStorage.queryResults (specIndex dotScore) 0 castExample
        (NanoVectorDBStorage.upsert (specIndex dotScore) 0 (signStorage 2) twoRecords)
        "q".toList 2, castExample 2 ≤ r.2) ∧
    ((NanoVectorDBStorage.queryResults (specIndex dotScore) 0 castExample
        (NanoVectorDBStorage.upsert (specIndex dotScore) 0 (signStorage 1) twoRecords)
        [] 2).map (fun r => r.1)).Perm twoRecords.keys :=
  ⟨(vector_query_order dotScore 0 castExample tallyString
      (NanoVectorDBStorage.upsert (specIndex dotScore) 0 (signStorage 2) twoRecords)
      "q".toList 2).2.2.2.1 (by decide),
   (vector_query_order dotScore 0 castExample tallyString (signStorage 1) [] 2).2.2.2.2
      twoRecords signEmbedding rfl (by decide) (Or.inr rfl) (by decide) (by decide)
      (by decide)⟩

/-- With the threshold `5`, above the scores, the query `q` after the upsert
of the two records of the example returns no row at all, so not both ids.
With the threshold `1`, which the cast of the example takes to `0`, the empty
query returns both records with the score `0`, which is below the configured
threshold. -/
theorem vector_query_not_both :
    (NanoVectorDBStorage.query (specIndex dotScore) 0 castExample tallyString
        (NanoVectorDBStorage.upsert (specIndex dotScore) 0 (signStorage 5) twoRecords)
        "q".toList 2).1.length = 0 ∧
    NanoVectorDBStorage.queryResults (specIndex dotScore) 0 castExample
        (NanoVectorDBStorage.upsert (specIndex dotScore) 0 (signStorage 1) twoRecords)
        [] 2 = [("id1".toList, 0), ("id2".toList, 0)] ∧
    (NanoVectorDBStorage.upsert (specIndex dotScore) 0 (signStorage 1)
        twoRecords).cosine_better_than_threshold_ = 1 := by
  decide

end NanoGraphRAG
